import Mathlib

/-!
# The `umalloc` allocator (`src/ci/umalloc.c`): embedding and verified properties

Pointers and `size_t` values are natural numbers below `2 ^ 64`; arithmetic that the C code
does on `size_t` / `uintptr_t` / pointers is reduced modulo `2 ^ 64` explicitly.  Memory is a map
from the byte address of a 64-bit word to the word stored there.  A block header at address `b`
keeps `block_metadata` in the word at `b` and `next` in the word at `b + 8`.  `NULL` is `0`;
a load or store through `NULL` stops the run with `Outcome.fault`.  Loops that follow `next`
links take a fuel argument and give `Outcome.timeout` when it runs out.

The file also models `put_label` and `get_label` of `src/ci/label_map.c` and the `switch` of
`interpret` in `src/ci/interpreter.c`, the two callers of the allocator: bucket chains and the
call stack are lists, and an `int64_t` is the natural number below `2 ^ 64` with the same bits.
-/

namespace Umalloc

/-! ## Definitions: the code, then the ghost structures used to state the invariant -/

/-- Number of values of a `size_t` / pointer (64-bit platform). -/
def WORD : Nat := 2 ^ 64

/-- Modelled from the spec: `umalloc.h` is not part of the sources; `mem_block_header_t` holds the
metadata word and the `next` link, so `sizeof(mem_block_header_t)` is 16 (see the comment in
`get_payload`). -/
def HEADER_SIZE : Nat := 16

/-- Modelled from the spec: `umalloc.h` is not part of the sources; the platform alignment
(`ALIGNMENT`) of block sizes is 16 bytes. -/
def ALIGNMENT : Nat := 16

/-- Modelled from the spec: `umalloc.h` is not part of the sources; `ALIGN(size)` rounds up to the
next multiple of the alignment, `((size) + (ALIGNMENT-1)) & ~(ALIGNMENT-1)` on `size_t`. -/
def ALIGN (size : Nat) : Nat := (size + (ALIGNMENT - 1)) % WORD / ALIGNMENT * ALIGNMENT

/-- Modelled from the spec: `umalloc.h` is not part of the sources; there are four bins. -/
def BIN_COUNT : Nat := 4

/-- Allocator state: the global `free_heads` array, the memory, and a log of the calls made to
the arena provider `csbrk` (requested byte count, returned address), newest first. -/
structure Heap where
  free_heads : Nat → Nat
  mem : Nat → Nat
  brk : List (Nat × Nat)

/-- Result of running a piece of allocator code. -/
inductive Outcome (α : Type) where
  | ok : α → Heap → Outcome α
  | fault : Heap → Outcome α
  | timeout : Outcome α

/-- Sequencing: continue with `f` after a normal return. -/
def Outcome.bind {α β : Type} (x : Outcome α) (f : α → Heap → Outcome β) : Outcome β :=
  match x with
  | .ok a s => f a s
  | .fault s => .fault s
  | .timeout => .timeout

/-- The `select_bin_index` function. -/
def select_bin_index (size : Nat) : Nat :=
  if size < 128 then 0
  else if size < 512 then 1
  else if size < 1024 then 2
  else 3

/-- The `select_bin` function: the head of the bin for `size`. -/
def select_bin (s : Heap) (size : Nat) : Nat :=
  if size < 128 then s.free_heads 0
  else if size < 512 then s.free_heads 1
  else if size < 1024 then s.free_heads 2
  else s.free_heads 3

/-- The `is_allocated` function: `(block->block_metadata & 1) == 1`, false for `NULL`. -/
def is_allocated (s : Heap) (block : Nat) : Bool :=
  if block ≠ 0 then s.mem block % 2 == 1 else false

/-- The `get_size` function: `block->block_metadata >> 4`, zero for `NULL`. -/
def get_size (s : Heap) (block : Nat) : Nat :=
  if block ≠ 0 then s.mem block / 16 else 0

/-- Store a word into memory. -/
def store (s : Heap) (addr val : Nat) : Heap :=
  { s with mem := Function.update s.mem addr val }

/-- The `allocate` function: `block->block_metadata += 1` unless already allocated. -/
def allocate (s : Heap) (block : Nat) : Outcome Unit :=
  if !is_allocated s block then
    if block = 0 then .fault s
    else .ok () (store s block ((s.mem block + 1) % WORD))
  else .ok () s

/-- The `deallocate` function: `block->block_metadata -= 1` when allocated. -/
def deallocate (s : Heap) (block : Nat) : Outcome Unit :=
  if is_allocated s block then
    if block = 0 then .fault s
    else .ok () (store s block ((s.mem block + WORD - 1) % WORD))
  else .ok () s

/-- The `get_next` function: `block->next`. -/
def get_next (s : Heap) (block : Nat) : Outcome Nat :=
  if block = 0 then .fault s else .ok (s.mem (block + 8)) s

/-- The `set_block_metadata` function: the word becomes `size << 4` plus the flag. -/
def set_block_metadata (s : Heap) (block size : Nat) (alloc : Bool) : Outcome Unit :=
  if block = 0 then .fault s
  else .ok () (store s block ((size * 16 % WORD + alloc.toNat) % WORD))

/-- The `get_payload` function: `(void *)(block + 1)`. -/
def get_payload (block : Nat) : Nat := (block + HEADER_SIZE) % WORD

/-- The `get_header` function: `(mem_block_header_t *)payload - 1`. -/
def get_header (payload : Nat) : Nat := (payload + WORD - HEADER_SIZE) % WORD

/-- Unlinking in `find` and `coalesce`: `free_heads[index] = bin->next` when `prev` is `NULL`,
`prev->next = bin->next` otherwise (`bin` is not `NULL` where this is used). -/
def unlink (s : Heap) (index prev bin : Nat) : Heap :=
  if prev = 0 then { s with free_heads := Function.update s.free_heads index (s.mem (bin + 8)) }
  else store s (prev + 8) (s.mem (bin + 8))

/-- Inner `while (bin != NULL)` loop of `find` over one bin: `some b` when the function returns
`b` from inside the loop, `none` when the loop runs off the end of the list. -/
def find_scan (payload_size index : Nat) : Nat → Heap → Nat → Nat → Outcome (Option Nat)
  | 0, _, _, _ => .timeout
  | fuel + 1, s, prev, bin =>
    if bin = 0 then .ok none s
    else if get_size s bin ≥ payload_size then .ok (some bin) (unlink s index prev bin)
    else find_scan payload_size index fuel s bin (s.mem (bin + 8))

/-- Outer `while (index < BIN_COUNT)` loop of `find`. -/
def find_bins (payload_size : Nat) : Nat → Heap → Nat → Outcome Nat
  | 0, _, _ => .timeout
  | fuel + 1, s, index =>
    if index < BIN_COUNT then
      match find_scan payload_size index fuel s 0 (s.free_heads index) with
      | .ok (some b) s1 => .ok b s1
      | .ok none s1 => find_bins payload_size fuel s1 (index + 1)
      | .fault s1 => .fault s1
      | .timeout => .timeout
    else .ok 0 s

/-- The `find` function. -/
def find (fuel : Nat) (s : Heap) (payload_size : Nat) : Outcome Nat :=
  find_bins payload_size fuel s (select_bin_index payload_size)

/-- The `extend` function; `csbrk` is the arena provider's answer to a request
(`0` for failure). -/
def extend (csbrk : Nat → Nat) (s : Heap) (size : Nat) : Outcome Nat :=
  let request := ALIGN ((size + HEADER_SIZE) % WORD)
  let extended := csbrk request
  let s1 : Heap := { s with brk := (request, extended) :: s.brk }
  if extended = 0 then .ok 0 s1
  else (set_block_metadata s1 extended size false).bind fun _ s2 => .ok extended s2

/-- The `while` loop of `freelist_add`: returns the final `prev`. -/
def freelist_walk (s : Heap) (block : Nat) : Nat → Nat → Nat → Option Nat
  | 0, _, _ => none
  | fuel + 1, prev, bin =>
    if bin ≠ 0 ∧ get_size s block > get_size s bin then
      freelist_walk s block fuel bin (s.mem (bin + 8))
    else some prev

/-- The `freelist_add` function. -/
def freelist_add (fuel : Nat) (s : Heap) (block size : Nat) : Outcome Unit :=
  let index := select_bin_index size
  match freelist_walk s block fuel 0 (s.free_heads index) with
  | none => .timeout
  | some prev =>
    if block = 0 then .fault s
    else if prev = 0 then
      let s1 := store s (block + 8) (s.free_heads index)
      .ok () { s1 with free_heads := Function.update s1.free_heads index block }
    else
      let s1 := store s (block + 8) (s.mem (prev + 8))
      .ok () (store s1 (prev + 8) block)

/-- The `split` function. -/
def split (fuel : Nat) (s : Heap) (block new_block_size : Nat) : Outcome Nat :=
  if get_size s block ≥ (ALIGN new_block_size + HEADER_SIZE + 32) % WORD then
    let remaining_size :=
      (get_size s block + WORD - ALIGN new_block_size + WORD - HEADER_SIZE) % WORD
    (set_block_metadata s block (ALIGN new_block_size) true).bind fun _ s1 =>
    let freeBlock := (block + HEADER_SIZE + ALIGN new_block_size) % WORD
    (set_block_metadata s1 freeBlock remaining_size false).bind fun _ s2 =>
    (freelist_add fuel s2 freeBlock remaining_size).bind fun _ s3 =>
    .ok block s3
  else .ok block s

/-- Inner `while (next != NULL)` loop of `coalesce` for the block `current`: `some c` when a
merge took place (`coalesced = true`, new `current` is `c`), `none` when the scan ends. -/
def coalesce_scan (index current : Nat) : Nat → Heap → Nat → Nat → Outcome (Option Nat)
  | 0, _, _, _ => .timeout
  | fuel + 1, s, prev, next =>
    if next = 0 then .ok none s
    else if next ≠ current then
      if (next + get_size s next + HEADER_SIZE) % WORD = current then
        (set_block_metadata s next
          ((get_size s next + get_size s current + HEADER_SIZE) % WORD) false).bind fun _ s1 =>
        .ok (some next) (unlink s1 index prev next)
      else if (current + get_size s current + HEADER_SIZE) % WORD = next then
        (set_block_metadata s current
          ((get_size s current + get_size s next + HEADER_SIZE) % WORD) false).bind fun _ s1 =>
        .ok (some current) (unlink s1 index prev next)
      else coalesce_scan index current fuel s next (s.mem (next + 8))
    else coalesce_scan index current fuel s next (s.mem (next + 8))

/-- The `do ... while (coalesced)` loop of `coalesce`. -/
def coalesce_loop : Nat → Heap → Nat → Outcome Nat
  | 0, _, _ => .timeout
  | fuel + 1, s, current =>
    let index := select_bin_index (get_size s current)
    match coalesce_scan index current fuel s 0 (s.free_heads index) with
    | .ok (some c) s1 => coalesce_loop fuel s1 c
    | .ok none s1 => .ok current s1
    | .fault s1 => .fault s1
    | .timeout => .timeout

/-- The `coalesce` function. -/
def coalesce (fuel : Nat) (s : Heap) (block : Nat) : Outcome Nat :=
  coalesce_loop fuel s block

/-- The `umalloc` function. -/
def umalloc (csbrk : Nat → Nat) (fuel : Nat) (s : Heap) (size : Nat) : Outcome Nat :=
  (find fuel s size).bind fun mem s1 =>
  (if mem = 0 then extend csbrk s1 size else .ok mem s1).bind fun mem s2 =>
  (split fuel s2 mem size).bind fun mem s3 =>
  (allocate s3 mem).bind fun _ s4 =>
  .ok (get_payload mem) s4

/-- The `ufree` function. -/
def ufree (fuel : Nat) (s : Heap) (ptr : Nat) : Outcome Unit :=
  if ptr = 0 then .ok () s
  else
    let pointer := get_header ptr
    (deallocate s pointer).bind fun _ s1 =>
    (coalesce fuel s1 pointer).bind fun pointer s2 =>
    freelist_add fuel s2 pointer (get_size s2 pointer)

/-- List segment `Seg mem p L q`: following `next` links from `p` visits exactly the non-null blocks `L`
and then arrives at `q`. -/
def Seg (mem : Nat → Nat) : Nat → List Nat → Nat → Prop
  | p, [], q => p = q
  | p, b :: L, q => p = b ∧ b ≠ 0 ∧ Seg mem (mem (b + 8)) L q

/-- Free list `Chain mem p L`: the `NULL`-terminated list that starts at `p` consists of the blocks `L`. -/
def Chain (mem : Nat → Nat) (p : Nat) (L : List Nat) : Prop := Seg mem p L 0

/-- Pointer held in `prev` after walking over the blocks `pre` (`prev0` before the walk). -/
def lastOr (prev0 : Nat) (pre : List Nat) : Nat := pre.getLastD prev0

/-- The header word written by `set_block_metadata`. -/
def encode (size : Nat) (alloc : Bool) : Nat := (size * 16 % WORD + alloc.toNat) % WORD

/-- The two address-adjacency tests of `coalesce` between the list block `x` and `current`. -/
def adjBefore (s : Heap) (x current : Nat) : Prop :=
  (x + get_size s x + HEADER_SIZE) % WORD = current

/-- Second adjacency test of `coalesce`: `current` ends where `x` begins. -/
def adjAfter (s : Heap) (x current : Nat) : Prop :=
  (current + get_size s current + HEADER_SIZE) % WORD = x

/-- Address one past the last payload byte of the block at `b`. -/
def blockEnd (s : Heap) (b : Nat) : Nat := b + HEADER_SIZE + get_size s b

/-- The byte `x` lies in a region that the arena provider has handed out. -/
def Covered (brk : List (Nat × Nat)) (x : Nat) : Prop :=
  ∃ q ∈ brk, q.2 ≠ 0 ∧ q.2 ≤ x ∧ x < q.2 + q.1

/-- The block `a` is in one of the four ghost bin lists. -/
def IsFree (bins : Nat → List Nat) (a : Nat) : Prop := ∃ i, i < 4 ∧ a ∈ bins i

/-- The block `a` is known to the allocator: free, or one of `others` (live or in hand). -/
def Blk (bins : Nat → List Nat) (others : List Nat) (a : Nat) : Prop :=
  IsFree bins a ∨ a ∈ others

/-- Every known block occurs once: no repetition inside a bin, across bins, or among the
blocks that are in no bin. -/
structure Distinct (bins : Nat → List Nat) (others : List Nat) : Prop where
  nodup : ∀ i, i < 4 → (bins i).Nodup
  bin_disj : ∀ i j, i < 4 → j < 4 → i ≠ j → ∀ b, b ∈ bins i → b ∉ bins j
  other_disj : ∀ i, i < 4 → ∀ b, b ∈ bins i → b ∉ others
  onodup : others.Nodup

/-- Each `free_heads[i]` starts a `NULL`-terminated list holding exactly `bins i`. -/
def Chains (s : Heap) (bins : Nat → List Nat) : Prop :=
  ∀ i, i < 4 → Chain s.mem (s.free_heads i) (bins i)

/-- Blocks in the bins have their allocated flag clear. -/
def Flags (s : Heap) (bins : Nat → List Nat) : Prop :=
  ∀ i, i < 4 → ∀ b, b ∈ bins i → s.mem b % 2 = 0

/-- Geometry of the known blocks `P`: they occupy pairwise disjoint byte ranges inside the
address space, inside memory obtained from the arena provider, and their metadata words are
64-bit values. -/
structure Geo (s : Heap) (P : Nat → Prop) : Prop where
  apart : ∀ a b, P a → P b → a ≠ b → blockEnd s a ≤ b ∨ blockEnd s b ≤ a
  bound : ∀ a, P a → a ≠ 0 ∧ blockEnd s a ≤ WORD
  cover : ∀ a, P a → ∀ x, a ≤ x → x < blockEnd s a → Covered s.brk x
  word : ∀ a, P a → s.mem a < WORD

/-- The allocator invariant, for ghost bin contents `bins` and non-free blocks `others`. -/
structure Inv (s : Heap) (bins : Nat → List Nat) (others : List Nat) : Prop where
  dist : Distinct bins others
  chains : Chains s bins
  flags : Flags s bins
  geo : Geo s (Blk bins others)

/-- Total number of blocks in the four bins. -/
def total (bins : Nat → List Nat) : Nat :=
  (bins 0).length + (bins 1).length + (bins 2).length + (bins 3).length

/-- The blocks of the list `L` are in non-decreasing order of recorded size. -/
def SortedBySize (s : Heap) (L : List Nat) : Prop :=
  L.Pairwise (fun x y => get_size s x ≤ get_size s y)

/-- Every bin holds a list in non-decreasing order of recorded size. -/
def SortedBins (s : Heap) (bins : Nat → List Nat) : Prop :=
  ∀ i, i < 4 → SortedBySize s (bins i)

/-- Every free block is in the bin that `select_bin_index` gives for its recorded size. -/
def BinsMatch (s : Heap) (bins : Nat → List Nat) : Prop :=
  ∀ i, i < 4 → ∀ a ∈ bins i, select_bin_index (get_size s a) = i

/-- Every known block records a size that is a multiple of the alignment. -/
def AlignedSizes (s : Heap) (bins : Nat → List Nat) (others : List Nat) : Prop :=
  ∀ a, Blk bins others a → get_size s a % ALIGNMENT = 0

/-- A region `[r, r + n)` that is disjoint from every region handed out before. -/
def Fresh (brk : List (Nat × Nat)) (n r : Nat) : Prop :=
  r ≠ 0 ∧ r + n ≤ WORD ∧ ∀ q ∈ brk, q.2 ≠ 0 → r + n ≤ q.2 ∨ q.2 + q.1 ≤ r

/-- Bytes taken up by the blocks of the list `L`, each counted with its header and `g` bytes
of padding behind its payload. -/
def weight (s : Heap) (g : Nat) (L : List Nat) : Nat :=
  (L.map fun a => get_size s a + 16 + g).sum

/-- Bytes taken up by the free blocks of the four bins. -/
def Weight (s : Heap) (g : Nat) (bins : Nat → List Nat) : Nat :=
  weight s g (bins 0) + weight s g (bins 1) + weight s g (bins 2) + weight s g (bins 3)

/-- Every region that the arena provider has handed out lies below the address `2 ^ 60`. -/
def SmallArena (brk : List (Nat × Nat)) : Prop :=
  ∀ q ∈ brk, q.2 ≠ 0 → q.2 + q.1 ≤ 2 ^ 60

/-- The part of `umalloc` after a block `b` has been obtained from `find` or `extend`. -/
def umalloc_tail (fuel : Nat) (s : Heap) (b size : Nat) : Outcome Nat :=
  (split fuel s b size).bind fun mem s3 =>
  (allocate s3 mem).bind fun _ s4 =>
  .ok (get_payload mem) s4

/-- State component of an outcome (`d` when the run timed out). -/
def Outcome.heapD {α : Type} (d : Heap) : Outcome α → Heap
  | .ok _ s => s
  | .fault s => s
  | .timeout => d

/-- Start-up state: empty bins, zeroed memory, no arena request made yet. -/
def heap0 : Heap := ⟨fun _ => 0, fun _ => 0, []⟩

/-- Reachability `Reach maxSize s live`: the state `s` is reached from a start-up state with empty bins by
calls `umalloc(size)` with `0 < size ≤ maxSize` that returned, where the arena provider always
offers a fresh region, and calls `ufree(p)` that returned, where `p` is a pointer returned by an
earlier `umalloc` and not released since; `live` lists the pointers not yet released. -/
inductive Reach (maxSize : Nat) : Heap → List Nat → Prop where
  | init (s : Heap) (h0 : ∀ i, i < BIN_COUNT → s.free_heads i = 0) (hb : s.brk = []) :
      Reach maxSize s []
  | malloc (s s1 : Heap) (live : List Nat) (csbrk : Nat → Nat) (fuel size p : Nat)
      (hr : Reach maxSize s live) (h0 : 0 < size) (hmax : size ≤ maxSize)
      (hfresh : Fresh s.brk (ALIGN ((size + HEADER_SIZE) % WORD))
        (csbrk (ALIGN ((size + HEADER_SIZE) % WORD))))
      (hcall : umalloc csbrk fuel s size = .ok p s1) : Reach maxSize s1 (p :: live)
  | free (s s1 : Heap) (live : List Nat) (fuel p : Nat)
      (hr : Reach maxSize s live) (hp : p ∈ live)
      (hcall : ufree fuel s p = .ok () s1) : Reach maxSize s1 (live.erase p)

/-- The invariant seen from outside: the headers `hs` of the live pointers are the non-free
blocks, each 16 bytes before its payload pointer and marked allocated. -/
def Good (s : Heap) (live : List Nat) : Prop :=
  ∃ bins hs, Inv s bins hs ∧ live = hs.map (fun h => h + 16) ∧
    ∀ h ∈ hs, h + 16 < WORD ∧ s.mem h % 2 = 1

/-- The block `x` is on the free list of bin `i`. -/
def InBin (s : Heap) (i x : Nat) : Prop :=
  ∃ L, Chain s.mem (s.free_heads i) L ∧ x ∈ L

/-- Run 1 (two requests served by arena growth): state after `umalloc(100)`. -/
def runTwo1 : Heap := (umalloc (fun _ => 4096) 10 heap0 100).heapD heap0

/-- Run 1: state after the following `umalloc(50)`. -/
def runTwo2 : Heap := (umalloc (fun _ => 8192) 10 runTwo1 50).heapD heap0

/-- Run 2 (requests close to `2 ^ 64`): state after `umalloc(2 ^ 64 - 1)`. -/
def runHuge1 : Heap := (umalloc (fun _ => 4096) 10 heap0 (2 ^ 64 - 1)).heapD heap0

/-- Run 2: state after the following `umalloc(64)`. -/
def runHuge2 : Heap := (umalloc (fun _ => 8192) 10 runHuge1 64).heapD heap0

/-- Run 2: state after the following `umalloc(2 ^ 64 - 1)`. -/
def runHuge3 : Heap := (umalloc (fun _ => 4128) 10 runHuge2 (2 ^ 64 - 1)).heapD heap0

/-- Run 2: state after the following `umalloc(2 ^ 60 - 17)`. -/
def runHuge4 : Heap := (umalloc (fun _ => 2 ^ 62) 10 runHuge3 (2 ^ 60 - 17)).heapD heap0

/-- Run 3 (release, split, release): state after `umalloc(2000)`. -/
def runSplit1 : Heap := (umalloc (fun _ => 4096) 10 heap0 2000).heapD heap0

/-- Run 3: state after the following `ufree(4112)`. -/
def runSplit2 : Heap := (ufree 10 runSplit1 4112).heapD heap0

/-- Run 3: state after the following `umalloc(16)`. -/
def runSplit3 : Heap := (umalloc (fun _ => 8192) 10 runSplit2 16).heapD heap0

/-- Run 3: state after the following `ufree(4112)`. -/
def runSplit4 : Heap := (ufree 10 runSplit3 4112).heapD heap0

/-- Run 4 (release, split, release with a merge): state after `umalloc(2000)`, `ufree(4112)`
and `umalloc(1000)`, which splits the released block. -/
def runMerge3 : Heap := (umalloc (fun _ => 8192) 10 runSplit2 1000).heapD heap0

/-- Ghost lists of run 3 after the first release: the released block 4096 is the only free
block and sits in bin 3. -/
def binsSplit2 : Nat → List Nat := fun i => if i = 3 then [4096] else []

/-- Run 3, inside the `umalloc(16)` that follows the first release: the state in which `find`
hands the released block 4096 to `split`. -/
def runFound : Heap := (find 10 runSplit2 16).heapD heap0

/-- Run 3: the state in which `split(4096, 16)` hands its block to `allocate`. -/
def runCut : Heap := (split 10 runFound 4096 16).heapD heap0

/-- States reached from empty bins by a sequence of calls `freelist_add(b, get_size(b))` that
returned, each for a block `b` of the pairwise disjoint blocks `pool` that has not been
inserted yet; the list gives the blocks not inserted yet. -/
inductive Inserts (pool : List Nat) : Heap → List Nat → Prop
  | init (s : Heap) (h0 : ∀ i, i < BIN_COUNT → s.free_heads i = 0) (hnd : pool.Nodup)
      (hg : Geo s (fun a => a ∈ pool)) : Inserts pool s pool
  | add (s s1 : Heap) (rest : List Nat) (fuel b : Nat) (h : Inserts pool s rest)
      (hb : b ∈ rest) (hcall : freelist_add fuel s b (get_size s b) = .ok () s1) :
      Inserts pool s1 (rest.erase b)

/-- Run 5 (two inserts): the blocks 4096 (size 100) and 8192 (size 50) of run 1 are handed to
`freelist_add`; state after the first insert. -/
def runIns1 : Heap := (freelist_add 10 runTwo2 4096 (get_size runTwo2 4096)).heapD heap0

/-- Run 5: state after the second insert. -/
def runIns2 : Heap := (freelist_add 10 runIns1 8192 (get_size runIns1 8192)).heapD heap0

/-- Run 6 (a request that wraps around): state after `umalloc(2 ^ 64 - 16)` from the initial
state, the arena provider answering 4096. -/
def runWrap1 : Heap := (umalloc (fun _ => 4096) 10 heap0 (2 ^ 64 - 16)).heapD heap0

/-- Run 7 (a request of `2 ^ 60` bytes): state after `umalloc(2 ^ 60)` from the initial
state, the arena provider answering 4096. -/
def runBig1 : Heap := (umalloc (fun _ => 4096) 10 heap0 (2 ^ 60)).heapD heap0

/-- Run 7: state after the following `ufree(4112)`. -/
def runBig2 : Heap := (ufree 10 runBig1 4112).heapD heap0

/-- Answer of an arena provider that hands out consecutive regions from the address `r0` on:
the end of the regions handed out so far. -/
def arenaTop (r0 : Nat) (brk : List (Nat × Nat)) : Nat := r0 + (brk.map Prod.fst).sum

/-- A round of calls `umalloc(size)`, the arena provider handing out consecutive regions from
`r0` on; the pointers are collected with the most recent one in front. -/
def mallocRound (r0 fuel size : Nat) : Nat → Heap → List Nat → Outcome (List Nat)
  | 0, h, acc => .ok acc h
  | k + 1, h, acc =>
    (umalloc (fun _ => arenaTop r0 h.brk) fuel h size).bind fun p h1 =>
    mallocRound r0 fuel size k h1 (p :: acc)

/-- Release of the pointers of a list, front to back. -/
def freeAll (fuel : Nat) : List Nat → Heap → Outcome Unit
  | [], h => .ok () h
  | p :: ps, h => (ufree fuel h p).bind fun _ h1 => freeAll fuel ps h1

/-- Invariant of a run in which every request has the size `sz` and the arena provider hands
out consecutive regions from `r0` on: every free block is made of `k ≥ 1` slots of
`ALIGN(sz) + 16` bytes (counting its header and, for a size that is not a multiple of 16, the
padding behind its payload), the free blocks hold `m` slots together, every free block is in a
bin that `find(sz)` scans, and every live block has recorded size `sz`. -/
structure Steady (sz r0 : Nat) (s : Heap) (bins : Nat → List Nat) (others : List Nat)
    (m : Nat) : Prop where
  inv : Inv s bins others
  small : SmallArena s.brk
  regs : ∀ q ∈ s.brk, q.1 = ALIGN sz + 16
  top : ∀ q ∈ s.brk, q.2 + q.1 ≤ arenaTop r0 s.brk
  bin : ∀ i, i < 4 → ∀ a ∈ bins i, select_bin_index sz ≤ i
  div : ∀ a, IsFree bins a → ∃ k, get_size s a + 16 + (ALIGN sz - sz) = k * (ALIGN sz + 16)
  wt : Weight s (ALIGN sz - sz) bins = m * (ALIGN sz + 16)
  live : ∀ a ∈ others, get_size s a = sz
  gap : sz < ALIGN sz → ∀ a, Blk bins others a →
    get_size s a = sz ∧ a % (ALIGN sz + 16) = r0 % (ALIGN sz + 16)

/-- Run 8 (two rounds of two requests of 16 bytes): state after the first round. -/
def runLifoA : Heap := (mallocRound 4096 10 16 2 heap0 []).heapD heap0

/-- Run 8: state after the release of the two pointers, the most recent one first. -/
def runLifoB : Heap := (freeAll 10 [4144, 4112] runLifoA).heapD heap0

/-- Run 8: state after the second round. -/
def runLifoC : Heap := (mallocRound 4096 10 16 2 runLifoB []).heapD heap0

/-- Ghost lists of run 5 after the two inserts: bin 0 holds the block 8192 (size 50) and then
the block 4096 (size 100). -/
def binsIns2 : Nat → List Nat := fun i => if i = 0 then [8192, 4096] else []

/-- Run 3 with a request that wraps around: state after `split(4096, 2 ^ 64 - 32)` on the block
of size 2000 that `find` returned. -/
def runWrapCut : Heap := (split 10 runFound 4096 (2 ^ 64 - 32)).heapD heap0

/-- Run 7: the state in which `extend(2 ^ 60)` returns its block. -/
def runBigExt : Heap := (extend (fun _ => 4096) heap0 (2 ^ 60)).heapD heap0

/-- Run 1: the state in which `extend(100)` returns its block. -/
def runExt100 : Heap := (extend (fun _ => 4096) heap0 100).heapD heap0

/-- Run 4, inside the `ufree(4112)` that follows: the state in which `deallocate` hands the
block 4096 to `coalesce`. -/
def runMergeD : Heap := (deallocate runMerge3 4096).heapD heap0

/-- Run 4: the state in which `coalesce` returns the merged block 4096. -/
def runMergeC : Heap := (coalesce 10 runMergeD 4096).heapD heap0

/-- Run 9 (a merge with a block left by a request that wraps around): state after
`umalloc(2000)`, served by the region at 4096, and `umalloc(2 ^ 64 - 16)`, whose arena request
of 0 bytes is answered with 6112, the end of that region. -/
def runCat1 : Heap := (umalloc (fun _ => 6112) 10 runSplit1 (2 ^ 64 - 16)).heapD heap0

/-- Run 9, inside the release of the first pointer: the state in which `deallocate` hands the
block 4096 to `coalesce`. -/
def runCat2 : Heap := (deallocate runCat1 4096).heapD heap0

/-- Run 9: the state in which `coalesce` returns. -/
def runCat3 : Heap := (coalesce 10 runCat2 4096).heapD heap0

/-- State after `umalloc(2 ^ 64 - 1)` from the initial state, the arena provider answering
with the region at 8192. -/
def runOver1 : Heap := (umalloc (fun _ => 8192) 10 heap0 (2 ^ 64 - 1)).heapD heap0

/-- State after a following `umalloc(2 ^ 60 + 100)`, the arena provider answering with the
region at 8208. -/
def runOver2 : Heap := (umalloc (fun _ => 8208) 10 runOver1 (2 ^ 60 + 100)).heapD heap0

/-- State after `umalloc(2000)`, its release, and `umalloc(2 ^ 64 - 1)`, the arena provider
answering the last request with the region at 8192. -/
def runUns1 : Heap := (umalloc (fun _ => 8192) 10 runSplit2 (2 ^ 64 - 1)).heapD heap0

/-- State after a following `umalloc(2 ^ 60 + 100)`, the arena provider answering with the
region at 8208. -/
def runUns2 : Heap := (umalloc (fun _ => 8208) 10 runUns1 (2 ^ 60 + 100)).heapD heap0

/-- State after `ufree(4112)` in the state reached by `umalloc(2 ^ 64 - 16)`. -/
def runWrapFree : Heap := (ufree 10 runWrap1 4112).heapD heap0

/-- Run 6 after the release of 4112, inside `umalloc(2000)`: the state in which `find` returns
the block 4096. -/
def runHang1 : Heap := (find 10 runWrapFree 2000).heapD heap0

/-- Run 6 after the release of 4112, inside `split(4096, 2000)`: the state in which the two
headers have been written and `freelist_add` is called for the remainder at 6112. -/
def runHang2 : Heap :=
  ((set_block_metadata runHang1 4096 (ALIGN 2000) true).bind fun _ s1 =>
    set_block_metadata s1 6112 (2 ^ 60 - 16 - 2000 - 16) false).heapD heap0

/-! ### Model of `uinit`, and the merge counter of `coalesce` -/

/-- The `do ... while (coalesced)` loop of `coalesce` with a counter that is not in the C code:
the second component of the result is the number of iterations that set `coalesced`. -/
def coalesce_merges : Nat → Heap → Nat → Outcome (Nat × Nat)
  | 0, _, _ => .timeout
  | fuel + 1, s, current =>
    let index := select_bin_index (get_size s current)
    match coalesce_scan index current fuel s 0 (s.free_heads index) with
    | .ok (some c) s1 => (coalesce_merges fuel s1 c).bind fun r s2 => .ok (r.1, r.2 + 1) s2
    | .ok none s1 => .ok (current, 0) s1
    | .fault s1 => .fault s1
    | .timeout => .timeout

/-- The `uinit` loop body, once for each entry of `arr`: `bin = extend(arr[i]);
set_block_metadata(bin, arr[i], false);` (the value read from `free_heads[i]` is overwritten
at once and nothing is stored back). -/
def uinit_loop (csbrk : Nat → Nat) : List Nat → Heap → Outcome Unit
  | [], s => .ok () s
  | size :: rest, s =>
    (extend csbrk s size).bind fun bin s1 =>
    (set_block_metadata s1 bin size false).bind fun _ s2 =>
    uinit_loop csbrk rest s2

/-- The `uinit` function, with `arr = {64, 256, 512, 2048}`. -/
def uinit (csbrk : Nat → Nat) (s : Heap) : Outcome Nat :=
  (uinit_loop csbrk [64, 256, 512, 2048] s).bind fun _ s1 => .ok 0 s1

/-! ### Model of the label map (`src/ci/label_map.c`) -/

/-- Modelled from the spec: `label_map.h` is not part of the sources; an `Entry` holds the label
`id` (a NUL-terminated string, here the list of its `char` values before the NUL), the `command`
pointer and the `next` link.  A bucket chain is modelled by the list of its entries, head first:
the `next` link of an entry is the rest of the list and `NULL` is the empty list. -/
structure Entry where
  id : List Int
  command : Nat
deriving DecidableEq

/-- Modelled from the spec: `label_map.h` is not part of the sources; a `LabelMap` holds
`capacity` (an `int` in C, here a natural number) and the array `entries` of bucket heads. -/
structure LabelMap where
  capacity : Nat
  entries : Nat → List Entry

/-- The `hash_function` function: the sum of the characters in `unsigned long` arithmetic; a
negative `char` is converted to `unsigned long` before it is added. -/
def hash_function (s : List Int) : Nat :=
  s.foldl (fun i c => (i + (c % (WORD : Int)).toNat) % WORD) 0

/-- The `entry_init` function; `alloc` says whether both calls of `malloc` returned memory
(`none` is `NULL`). -/
def entry_init (alloc : Bool) (id : List Int) (command : Nat) : Option Entry :=
  if alloc then some ⟨id, command⟩ else none

/-- The loop `while (currentEnt->next != NULL)` of `put_label` on the chain `currentEnt :: rest`
followed by `currentEnt->next = ent`: `none` when the loop body returns false, otherwise the
chain after the assignment. -/
def put_walk (id : List Int) (ent : Entry) : Entry → List Entry → Option (List Entry)
  | currentEnt, [] => some [currentEnt, ent]
  | currentEnt, next :: rest =>
    if currentEnt.id = id then none
    else (put_walk id ent next rest).map fun chain => currentEnt :: chain

/-- The `put_label` function for non-null `map` and `id`: the returned flag and the map
afterwards; `none` when `capacity` is 0 and the remainder `hash_function(id) % map->capacity` is
undefined. -/
def put_label (alloc : Bool) (map : LabelMap) (id : List Int) (command : Nat) :
    Option (Bool × LabelMap) :=
  match entry_init alloc id command with
  | none => some (false, map)
  | some ent =>
    if map.capacity = 0 then none
    else
      match map.entries (hash_function id % map.capacity) with
      | [] =>
        some (true, { map with
          entries := Function.update map.entries (hash_function id % map.capacity) [ent] })
      | currentEnt :: rest =>
        match put_walk id ent currentEnt rest with
        | none => some (false, map)
        | some chain =>
          some (true, { map with
            entries := Function.update map.entries (hash_function id % map.capacity) chain })

/-- The `while (ent != NULL)` loop of `get_label`. -/
def get_walk (id : List Int) : List Entry → Option Entry
  | [] => none
  | ent :: rest => if ent.id = id then some ent else get_walk id rest

/-- The `get_label` function: `some none` is the result `NULL`; `none` when `capacity` is 0 and
the remainder is undefined. -/
def get_label (map : LabelMap) (id : List Int) : Option (Option Entry) :=
  if map.capacity = 0 then none
  else some (get_walk id (map.entries (hash_function id % map.capacity)))

/-- Label map with four buckets whose only entry is the label `a` with command 1. -/
def mapOne : LabelMap := ⟨4, fun i => if i = 1 then [⟨[97], 1⟩] else []⟩

/-- Label map with four buckets whose bucket 1 holds the label `e` (command 1) and then the
label `a` (command 2). -/
def mapTwo : LabelMap := ⟨4, fun i => if i = 1 then [⟨[101], 1⟩, ⟨[97], 2⟩] else []⟩

/-! ### Model of the interpreter loop (`src/ci/interpreter.c`) -/

/-- Modelled from the spec: `command_type.h` is not part of the sources; the command types that
`interpret` handles and that are modelled here.  `CMD_OTHER` stands for the types that are not
modelled (`CMD_PRINT`, `CMD_AND`, `CMD_ORR`, `CMD_EOR`, `CMD_LSL`, `CMD_LSR`, `CMD_ASR`,
`CMD_LOAD`, `CMD_STORE`, `CMD_PUT`). -/
inductive CommandType where
  | CMD_MOV | CMD_ADD | CMD_SUB | CMD_CMP | CMD_CMP_U | CMD_BRANCH | CMD_CALL | CMD_RET
  | CMD_OTHER
deriving DecidableEq

/-- Modelled from the spec: `command_type.h` is not part of the sources; the conditions that
`cond_holds` tests, and `BRANCH_NONE` for every other value. -/
inductive BranchCondition where
  | BRANCH_ALWAYS | BRANCH_EQUAL | BRANCH_GREATER | BRANCH_GREATER_EQUAL | BRANCH_LESS
  | BRANCH_LESS_EQUAL | BRANCH_NOT_EQUAL | BRANCH_NONE
deriving DecidableEq

/-- Modelled from the spec: `command_type.h` is not part of the sources; the fields of a
`Command` that `interpret` reads.  An `int64_t` is the natural number below `2 ^ 64` with the
same bits; `destination_num` / `destination_str` are the members `num_val` / `str_val` of the
union `destination`; `val_a` and `val_b` are the members `num_val` of the operands; `next` is
the address of the next command, `0` for `NULL`. -/
structure Command where
  type : CommandType
  destination_num : Nat
  destination_str : List Int
  val_a : Nat
  val_b : Nat
  is_a_immediate : Bool
  is_b_immediate : Bool
  branch_condition : BranchCondition
  next : Nat

/-- Modelled from the spec: `interpreter.h` is not part of the sources; a `StackEntry` holds the
address of the `CALL` command and the saved variables (`variables` in C, a reserved word
here); the `next` link is the rest of the list
that models the stack. -/
structure StackEntry where
  command : Nat
  vars : Nat → Nat

/-- Modelled from the spec: `interpreter.h` is not part of the sources; the fields of the
`Interpreter` that `interpret` uses.  `vars` is the array `variables` (a reserved word here)
with `NUM_VARIABLES = 32` entries, `the_stack`
is the list of stack entries, newest first (`NULL` is the empty list). -/
structure Interpreter where
  had_error : Bool
  label_map : LabelMap
  is_greater : Bool
  is_equal : Bool
  is_less : Bool
  the_stack : List StackEntry
  vars : Nat → Nat

/-- Value of the 64-bit pattern `v` as a signed `int64_t`. -/
def toSigned (v : Nat) : Int := if v < 2 ^ 63 then (v : Int) else (v : Int) - 2 ^ 64

/-- The `fetch_number_value` function on the member `num_val` of an operand; `none` when the
index of the variable is outside the array. -/
def fetch_number_value (intr : Interpreter) (op : Nat) (is_im : Bool) : Option Nat :=
  if is_im then some op
  else if op < 32 then some (intr.vars op) else none

/-- The `cond_holds` function. -/
def cond_holds (intr : Interpreter) (cond : BranchCondition) : Bool :=
  if cond = .BRANCH_ALWAYS then true
  else if cond = .BRANCH_EQUAL then intr.is_equal
  else if cond = .BRANCH_GREATER then intr.is_greater
  else if cond = .BRANCH_GREATER_EQUAL then intr.is_greater || intr.is_equal
  else if cond = .BRANCH_LESS then intr.is_less
  else if cond = .BRANCH_LESS_EQUAL then intr.is_less || intr.is_equal
  else if cond = .BRANCH_NOT_EQUAL then !intr.is_equal
  else false

/-- Result of one pass through the `switch` of `interpret`: `next` when the `switch` is left by
`break`, with the new state and the new value of `current`; `stop` when `interpret` returns from
inside the `switch`; `undefined` when the command reads outside an array, divides by a zero
capacity, follows `NULL`, or is of a type not modelled here. -/
inductive Step where
  | next : Interpreter → Nat → Step
  | stop : Interpreter → Step
  | undefined : Step

/-- Assignment `intr->variables[destination.num_val] = value; current = current->next`. -/
def assign (intr : Interpreter) (cmd : Command) (value : Option Nat) : Step :=
  match value with
  | none => .undefined
  | some v =>
    if cmd.destination_num < 32 then
      .next { intr with vars := Function.update intr.vars cmd.destination_num v }
        cmd.next
    else .undefined

/-- The three flags after a comparison: all cleared, then the one that matches is set. -/
def set_flags (intr : Interpreter) (greater less : Bool) : Interpreter :=
  if greater then { intr with is_greater := true, is_equal := false, is_less := false }
  else if less then { intr with is_greater := false, is_equal := false, is_less := true }
  else { intr with is_greater := false, is_equal := true, is_less := false }

/-- One pass through the `switch` of `interpret` for the command at the non-null address
`current`; `cmds` gives the command stored at an address, and `se_ok` says whether
`umalloc(sizeof(StackEntry))` returns memory. -/
def step (se_ok : Bool) (cmds : Nat → Command) (intr : Interpreter) (current : Nat) : Step :=
  let cmd := cmds current
  match cmd.type with
  | .CMD_MOV => assign intr cmd (fetch_number_value intr cmd.val_a true)
  | .CMD_ADD =>
    assign intr cmd
      ((fetch_number_value intr cmd.val_a false).bind fun a =>
        (fetch_number_value intr cmd.val_b cmd.is_b_immediate).map fun b => (a + b) % WORD)
  | .CMD_SUB =>
    assign intr cmd
      ((fetch_number_value intr cmd.val_a false).bind fun a =>
        (fetch_number_value intr cmd.val_b cmd.is_b_immediate).map fun b =>
          (a + WORD - b % WORD) % WORD)
  | .CMD_CMP =>
    match fetch_number_value intr cmd.val_a false,
      fetch_number_value intr cmd.val_b cmd.is_b_immediate with
    | some a, some b =>
      .next (set_flags intr (decide (toSigned a > toSigned b))
        (decide (toSigned a < toSigned b))) cmd.next
    | _, _ => .undefined
  | .CMD_CMP_U =>
    match fetch_number_value intr cmd.val_a false,
      fetch_number_value intr cmd.val_b cmd.is_b_immediate with
    | some a, some b => .next (set_flags intr (decide (a > b)) (decide (a < b))) cmd.next
    | _, _ => .undefined
  | .CMD_BRANCH =>
    if cond_holds intr cmd.branch_condition then
      match get_label intr.label_map cmd.destination_str with
      | none => .undefined
      | some none => .stop { intr with had_error := true }
      | some (some ent) => .next intr ent.command
    else .next intr cmd.next
  | .CMD_CALL =>
    if se_ok then
      match get_label intr.label_map cmd.destination_str with
      | none => .undefined
      | some none => .stop { intr with had_error := true }
      | some (some ent) =>
        if ent.command ≠ 0 then
          .next { intr with
            the_stack :=
              ⟨current, fun i => if i < 32 then intr.vars i else 0⟩ :: intr.the_stack }
            ent.command
        else .stop { intr with had_error := true }
    else .stop { intr with had_error := true }
  | .CMD_RET =>
    match intr.the_stack with
    | [] => .next intr 0
    | se :: rest =>
      if se.command = 0 then .undefined
      else
        .next { intr with
          vars := fun i => if 1 ≤ i ∧ i < 32 then se.vars i else intr.vars i,
          the_stack := rest }
          (cmds se.command).next
  | .CMD_OTHER => .undefined

/-- Result of a run of `interpret`. -/
inductive Run where
  | done : Interpreter → Run
  | undefined : Run
  | timeout : Run

/-- The loop `while (current && !intr->had_error)` of `interpret` and the loop that frees the
stack after it; `alloc k` says whether `umalloc` returns memory for a stack entry when `k`
entries are on the stack. -/
def interpret_loop (alloc : Nat → Bool) (cmds : Nat → Command) :
    Nat → Interpreter → Nat → Run
  | 0, _, _ => .timeout
  | fuel + 1, intr, current =>
    if current ≠ 0 ∧ intr.had_error = false then
      match step (alloc intr.the_stack.length) cmds intr current with
      | .next intr1 current1 => interpret_loop alloc cmds fuel intr1 current1
      | .stop intr1 => .done intr1
      | .undefined => .undefined
    else .done { intr with the_stack := [] }

/-- The `interpret` function for a non-null `intr`. -/
def interpret (alloc : Nat → Bool) (cmds : Nat → Command) (fuel : Nat) (intr : Interpreter)
    (commands : Nat) : Run :=
  if commands = 0 then .done intr else interpret_loop alloc cmds fuel intr commands

/-- Program of the example run: `1: CALL f`, `2: RET`, `3 (f): MOV x1, 5`, `4: MOV x0, 7`,
`5: RET`; every other address holds a `RET` with no successor. -/
def progCall : Nat → Command := fun p =>
  if p = 1 then ⟨.CMD_CALL, 0, [102], 0, 0, false, false, .BRANCH_NONE, 2⟩
  else if p = 3 then ⟨.CMD_MOV, 1, [], 5, 0, true, false, .BRANCH_NONE, 4⟩
  else if p = 4 then ⟨.CMD_MOV, 0, [], 7, 0, true, false, .BRANCH_NONE, 5⟩
  else ⟨.CMD_RET, 0, [], 0, 0, false, false, .BRANCH_NONE, 0⟩

/-- Interpreter state as `interpreter_init` leaves it, with a label map that sends the label
`f` to the command at address 3. -/
def intrInit : Interpreter :=
  ⟨false, ⟨4, fun i => if i = 2 then [⟨[102], 3⟩] else []⟩, false, false, false, [],
    fun _ => 0⟩

/-- Program of the comparison example: `1: CMP x1, -1` (the immediate is the pattern
`2 ^ 64 - 1`), `2: CMP_U x1, -1`. -/
def progCmp : Nat → Command := fun p =>
  if p = 1 then ⟨.CMD_CMP, 0, [], 1, 2 ^ 64 - 1, false, true, .BRANCH_NONE, 2⟩
  else ⟨.CMD_CMP_U, 0, [], 1, 2 ^ 64 - 1, false, true, .BRANCH_NONE, 0⟩

/-- State of the example run after `CALL f`: one stack entry, made by the `CALL` at address 1
when all variables were 0. -/
def intrCall : Interpreter :=
  { intrInit with the_stack := [⟨1, fun i => if i < 32 then intrInit.vars i else 0⟩] }

/-- State of the example run after `CALL f` and `MOV x1, 5`. -/
def intrMov : Interpreter :=
  { intrCall with vars := Function.update intrInit.vars 1 5 }

/-- State of the example run after `CALL f`, `MOV x1, 5` and `MOV x0, 7`: one stack entry, made
by the `CALL` at address 1 when all variables were 0. -/
def intrBody : Interpreter :=
  { intrInit with
    the_stack := [⟨1, fun i => if i < 32 then intrInit.vars i else 0⟩],
    vars := Function.update (Function.update intrInit.vars 1 5) 0 7 }

/-- State of the example run after the `RET` at address 5. -/
def intrBack : Interpreter :=
  { intrInit with
    vars := fun i => if 1 ≤ i ∧ i < 32 then (if i < 32 then intrInit.vars i else 0)
      else Function.update (Function.update intrInit.vars 1 5) 0 7 i }

/-- State of the interpreter of a run (the start state when the run gave none). -/
def Run.intrD (d : Interpreter) : Run → Interpreter
  | .done i => i
  | _ => d

/-- State after one pass through the `switch` (the given state when there is none). -/
def Step.intrD (d : Interpreter) : Step → Interpreter
  | .next i _ => i
  | .stop i => i
  | .undefined => d

/-- Reachability `ReachAligned s live`: the state `s` is reached from a start-up state with
empty bins by calls `umalloc(size)` that returned, where `0 < size ≤ 2 ^ 64 - 64`, `size` is a
multiple of the alignment and the arena provider always offers a fresh region, and by calls
`ufree(p)` that returned, where `p` is a pointer returned by an earlier `umalloc` and not
released since; `live` lists the pointers not yet released. -/
inductive ReachAligned : Heap → List Nat → Prop where
  | init (s : Heap) : (∀ i, i < BIN_COUNT → s.free_heads i = 0) → s.brk = [] →
      ReachAligned s []
  | malloc (s s1 : Heap) (live : List Nat) (csbrk : Nat → Nat) (fuel size p : Nat) :
      ReachAligned s live → 0 < size → size ≤ WORD - 64 → size % ALIGNMENT = 0 →
      Fresh s.brk (ALIGN ((size + HEADER_SIZE) % WORD))
        (csbrk (ALIGN ((size + HEADER_SIZE) % WORD))) →
      umalloc csbrk fuel s size = .ok p s1 → ReachAligned s1 (p :: live)
  | free (s s1 : Heap) (live : List Nat) (fuel p : Nat) :
      ReachAligned s live → p ∈ live → ufree fuel s p = .ok () s1 →
      ReachAligned s1 (live.erase p)

/-! ## Theorems -/

/-! ## Basic facts about the header codec and the bin index -/

theorem ALIGN_le (n : Nat) (h : n + 15 < WORD) : n ≤ ALIGN n := by
  unfold ALIGN ALIGNMENT WORD at *
  omega

theorem ALIGN_lt (n : Nat) (h : n + 15 < WORD) : ALIGN n < n + 16 := by
  unfold ALIGN ALIGNMENT WORD at *
  omega

theorem ALIGN_lt_word (n : Nat) : ALIGN n < WORD := by
  unfold ALIGN ALIGNMENT WORD
  omega

theorem get_size_store_same (s : Heap) (b v : Nat) (hb : b ≠ 0) :
    get_size (store s b v) b = v / 16 := by
  simp [get_size, store, hb]

theorem get_size_store_other (s : Heap) (a b v : Nat) (h : a ≠ b) :
    get_size (store s a v) b = get_size s b := by
  unfold get_size store
  by_cases hb : b = 0
  · simp [hb]
  · simp [hb, Function.update_noteq (Ne.symm h)]

theorem get_header_get_payload (h : Nat) (hh : h < WORD) : get_header (get_payload h) = h := by
  unfold get_payload get_header HEADER_SIZE WORD at *
  omega

/-- C2: `select_bin_index` maps sizes below 128 to bin 0, sizes in `[128, 512)` to bin 1, sizes
in `[512, 1024)` to bin 2 and all larger sizes to bin 3; the result is always below 4 and the
boundary values 128, 512 and 1024 map to 1, 2 and 3. -/
theorem select_bin_index_spec (size : Nat) :
    (size < 128 → select_bin_index size = 0) ∧
    (128 ≤ size ∧ size < 512 → select_bin_index size = 1) ∧
    (512 ≤ size ∧ size < 1024 → select_bin_index size = 2) ∧
    (1024 ≤ size → select_bin_index size = 3) ∧
    select_bin_index size < 4 ∧
    select_bin_index 128 = 1 ∧ select_bin_index 512 = 2 ∧ select_bin_index 1024 = 3 := by
  refine ⟨?_, ?_, ?_, ?_, ?_, by decide, by decide, by decide⟩
  · intro h
    simp [select_bin_index, h]
  · rintro ⟨h1, h2⟩
    have : ¬ size < 128 := by omega
    simp [select_bin_index, this, h2]
  · rintro ⟨h1, h2⟩
    have a : ¬ size < 128 := by omega
    have b : ¬ size < 512 := by omega
    simp [select_bin_index, a, b, h2]
  · intro h
    have a : ¬ size < 128 := by omega
    have b : ¬ size < 512 := by omega
    have c : ¬ size < 1024 := by omega
    simp [select_bin_index, a, b, c]
  · unfold select_bin_index
    split_ifs <;> omega

/-- C3: header codec round trip.  For a non-null block, a size below `2 ^ 60` and either flag,
`set_block_metadata` returns normally, stores the word `size * 16 + flag`, and afterwards
`get_size` gives the size back and `is_allocated` gives the flag back. -/
theorem set_block_metadata_roundtrip (s : Heap) (block size : Nat) (alloc : Bool)
    (hb : block ≠ 0) (hs : size < 2 ^ 60) :
    ∃ s1, set_block_metadata s block size alloc = .ok () s1 ∧
      s1.mem block = size * 16 + alloc.toNat ∧
      get_size s1 block = size ∧ is_allocated s1 block = alloc := by
  have hw : (size * 16 % WORD + alloc.toNat) % WORD = size * 16 + alloc.toNat := by
    unfold WORD
    cases alloc <;> simp <;> omega
  refine ⟨store s block (size * 16 + alloc.toNat), ?_, ?_, ?_, ?_⟩
  · simp [set_block_metadata, hb, hw]
  · simp [store]
  · rw [get_size_store_same s block _ hb]
    cases alloc
    · simp
    · simp
      omega
  · cases alloc <;> simp [is_allocated, store, hb] <;> omega

/-- Witness for C3: size 100 with the flag set, on a block at address 4096. -/
theorem set_block_metadata_roundtrip_witness :
    ∃ s1, set_block_metadata ⟨fun _ => 0, fun _ => 0, []⟩ 4096 100 true = .ok () s1 ∧
      s1.mem 4096 = 100 * 16 + true.toNat ∧
      get_size s1 4096 = 100 ∧ is_allocated s1 4096 = true :=
  set_block_metadata_roundtrip ⟨fun _ => 0, fun _ => 0, []⟩ 4096 100 true (by decide) (by decide)

/-- C4: `get_payload h` is the address one header size after `h` (in 64-bit pointer arithmetic,
and literally `h + HEADER_SIZE` when that address exists), `get_header (get_payload h) = h` for
every 64-bit address `h`, and `get_payload (get_header p) = p` for every 64-bit payload address
`p` that is at least one header size, where `get_header p = p - HEADER_SIZE`. -/
theorem payload_header_inverse :
    (∀ h, h < WORD → get_payload h = (h + HEADER_SIZE) % WORD ∧ get_header (get_payload h) = h) ∧
    (∀ h, h + HEADER_SIZE < WORD → get_payload h = h + HEADER_SIZE) ∧
    (∀ p, HEADER_SIZE ≤ p → p < WORD →
      get_header p = p - HEADER_SIZE ∧ get_payload (get_header p) = p) := by
  unfold get_payload get_header HEADER_SIZE WORD
  refine ⟨?_, ?_, ?_⟩
  · intro h hh
    omega
  · intro h hh
    omega
  · intro p h1 h2
    omega

/-- Witness for C4: header address 4096 and payload address 4112. -/
theorem payload_header_inverse_witness :
    (get_payload 4096 = (4096 + HEADER_SIZE) % WORD ∧ get_header (get_payload 4096) = 4096) ∧
    get_payload 4096 = 4096 + HEADER_SIZE ∧
    (get_header 4112 = 4112 - HEADER_SIZE ∧ get_payload (get_header 4112) = 4112) :=
  ⟨payload_header_inverse.1 4096 (by decide), payload_header_inverse.2.1 4096 (by decide),
    payload_header_inverse.2.2 4112 (by decide) (by decide)⟩

/-- C9: `ufree(NULL)` returns at once and leaves the whole allocator state (bin heads, free-list
links, block headers) as it was, whatever the state and the fuel. -/
theorem ufree_null (fuel : Nat) (s : Heap) : ufree fuel s 0 = .ok () s := by
  simp [ufree]

/-! ## Linked lists in memory -/

theorem seg_append (mem : Nat → Nat) (L1 L2 : List Nat) (p q : Nat) :
    Seg mem p (L1 ++ L2) q ↔ ∃ m, Seg mem p L1 m ∧ Seg mem m L2 q := by
  induction L1 generalizing p with
  | nil => simp [Seg]
  | cons b L ih =>
    rw [List.cons_append]
    constructor
    · rintro ⟨h1, h2, h3⟩
      obtain ⟨m, h4, h5⟩ := (ih _).1 h3
      exact ⟨m, ⟨h1, h2, h4⟩, h5⟩
    · rintro ⟨m, ⟨h1, h2, h3⟩, h4⟩
      exact ⟨h1, h2, (ih _).2 ⟨m, h3, h4⟩⟩

theorem seg_frame (mem : Nat → Nat) (a v : Nat) (L : List Nat) (p q : Nat)
    (h : Seg mem p L q) (hne : ∀ c ∈ L, c + 8 ≠ a) : Seg (Function.update mem a v) p L q := by
  induction L generalizing p with
  | nil => simpa [Seg] using h
  | cons b L ih =>
    obtain ⟨h1, h2, h3⟩ := h
    refine ⟨h1, h2, ?_⟩
    have hb : b + 8 ≠ a := hne b (List.mem_cons_self _ _)
    rw [Function.update_noteq hb]
    exact ih _ h3 (fun c hc => hne c (List.mem_cons_of_mem _ hc))

theorem seg_nonzero (mem : Nat → Nat) (L : List Nat) (p q : Nat) (h : Seg mem p L q) :
    ∀ c ∈ L, c ≠ 0 := by
  induction L generalizing p with
  | nil => simp
  | cons b L ih =>
    obtain ⟨_, h2, h3⟩ := h
    intro c hc
    rcases List.mem_cons.1 hc with rfl | hc
    · exact h2
    · exact ih _ h3 c hc

theorem chain_unique (mem : Nat → Nat) (L1 L2 : List Nat) (p : Nat)
    (h1 : Chain mem p L1) (h2 : Chain mem p L2) : L1 = L2 := by
  induction L1 generalizing p L2 with
  | nil =>
    cases L2 with
    | nil => rfl
    | cons b L =>
      obtain ⟨e, hb, _⟩ := h2
      have : p = 0 := h1
      omega
  | cons b L ih =>
    cases L2 with
    | nil =>
      obtain ⟨e, hb, _⟩ := h1
      have : p = 0 := h2
      omega
    | cons c M =>
      obtain ⟨e1, _, t1⟩ := h1
      obtain ⟨e2, _, t2⟩ := h2
      have : b = c := by omega
      subst this
      rw [ih M _ t1 t2]

theorem lastOr_nil (p : Nat) : lastOr p [] = p := rfl

theorem lastOr_cons (p b : Nat) (L : List Nat) : lastOr p (b :: L) = lastOr b L := by
  cases L <;> simp [lastOr, List.getLastD]

theorem lastOr_mem (p : Nat) (L : List Nat) (h : L ≠ []) : lastOr p L ∈ L := by
  induction L generalizing p with
  | nil => exact absurd rfl h
  | cons b L ih =>
    rw [lastOr_cons]
    cases L with
    | nil => simp [lastOr_nil]
    | cons c M => exact List.mem_cons_of_mem _ (ih b (by simp))

theorem lastOr_append_singleton (p b : Nat) (L : List Nat) : lastOr p (L ++ [b]) = b := by
  simp [lastOr]

/-- Unlinking the block `b` that follows the blocks `pre` in a list. -/
theorem seg_unlink (mem : Nat → Nat) (pre post : List Nat) (b h q : Nat)
    (hs : Seg mem h (pre ++ b :: post) q) (hnd : (pre ++ b :: post).Nodup) (hpre : pre ≠ []) :
    Seg (Function.update mem (lastOr 0 pre + 8) (mem (b + 8))) h (pre ++ post) q := by
  induction pre generalizing h with
  | nil => exact absurd rfl hpre
  | cons c pre ih =>
    obtain ⟨h1, h2, h3⟩ := hs
    rw [lastOr_cons]
    have hnd' : (pre ++ b :: post).Nodup := (List.nodup_cons.1 hnd).2
    have hc : c ∉ pre ++ b :: post := (List.nodup_cons.1 hnd).1
    cases pre with
    | nil =>
      simp only [lastOr_nil, List.nil_append] at *
      obtain ⟨e, hb, h4⟩ := h3
      refine ⟨h1, h2, ?_⟩
      rw [Function.update_same]
      apply seg_frame _ _ _ _ _ _ h4
      intro x hx
      have : c ≠ x := fun e => hc (e ▸ List.mem_cons_of_mem _ hx)
      omega
    | cons d pre =>
      refine ⟨h1, h2, ?_⟩
      have hl : lastOr c (d :: pre) ∈ d :: pre := by
        rw [lastOr_cons]
        have := lastOr_mem d (d :: pre) (by simp)
        rwa [lastOr_cons] at this
      have hne : c + 8 ≠ lastOr c (d :: pre) + 8 := by
        intro e
        have : c = lastOr c (d :: pre) := by omega
        exact hc (this ▸ List.mem_append_left _ hl)
      rw [Function.update_noteq hne]
      have := ih _ h3 hnd' (by simp)
      rwa [lastOr_cons] at this ⊢

/-- Linking the block `f` in after the blocks `pre` of a list (`pre` not empty). -/
theorem seg_insert (mem : Nat → Nat) (pre post : List Nat) (f h q : Nat)
    (hs : Seg mem h (pre ++ post) q) (hnd : (pre ++ post).Nodup) (hf : f ∉ pre ++ post)
    (hf0 : f ≠ 0) (hpre : pre ≠ []) :
    Seg (Function.update (Function.update mem (f + 8) (mem (lastOr 0 pre + 8)))
      (lastOr 0 pre + 8) f) h (pre ++ f :: post) q := by
  induction pre generalizing h with
  | nil => exact absurd rfl hpre
  | cons c pre ih =>
    obtain ⟨h1, h2, h3⟩ := hs
    rw [lastOr_cons]
    have hnd' : (pre ++ post).Nodup := (List.nodup_cons.1 hnd).2
    have hc : c ∉ pre ++ post := (List.nodup_cons.1 hnd).1
    have hfc : f ≠ c := fun e => hf (e ▸ List.mem_cons_self _ _)
    have hf' : f ∉ pre ++ post := fun e => hf (List.mem_cons_of_mem _ e)
    cases pre with
    | nil =>
      simp only [lastOr_nil, List.nil_append] at *
      refine ⟨h1, h2, ?_⟩
      rw [Function.update_same]
      refine ⟨rfl, hf0, ?_⟩
      have e1 : f + 8 ≠ c + 8 := by omega
      rw [Function.update_noteq e1, Function.update_same]
      apply seg_frame
      · apply seg_frame _ _ _ _ _ _ h3
        intro x hx
        have : f ≠ x := fun e => hf' (e ▸ hx)
        omega
      · intro x hx
        have : c ≠ x := fun e => hc (e ▸ hx)
        omega
    | cons d pre =>
      refine ⟨h1, h2, ?_⟩
      have hl : lastOr c (d :: pre) ∈ d :: pre := by
        rw [lastOr_cons]
        have := lastOr_mem d (d :: pre) (by simp)
        rwa [lastOr_cons] at this
      have hne : c + 8 ≠ lastOr c (d :: pre) + 8 := by
        intro e
        have : c = lastOr c (d :: pre) := by omega
        exact hc (this ▸ List.mem_append_left _ hl)
      have hne2 : c + 8 ≠ f + 8 := by omega
      rw [Function.update_noteq hne, Function.update_noteq hne2]
      have := ih _ h3 hnd' hf' (by simp)
      rwa [lastOr_cons] at this ⊢

/-! ## What the loops compute on a well-formed list -/

theorem find_scan_spec (n idx : Nat) (s : Heap) (L : List Nat) :
    ∀ fuel prev bin, Seg s.mem bin L 0 → L.length < fuel →
    ((∀ x ∈ L, get_size s x < n) ∧ find_scan n idx fuel s prev bin = .ok none s) ∨
    (∃ pre b post, L = pre ++ b :: post ∧ (∀ x ∈ pre, get_size s x < n) ∧ n ≤ get_size s b ∧
      find_scan n idx fuel s prev bin = .ok (some b) (unlink s idx (lastOr prev pre) b)) := by
  induction L with
  | nil =>
    intro fuel prev bin h hf
    left
    have hb : bin = 0 := h
    cases fuel with
    | zero => simp at hf
    | succ fuel => simp [find_scan, hb]
  | cons c L ih =>
    intro fuel prev bin h hf
    obtain ⟨h1, h2, h3⟩ := h
    subst h1
    cases fuel with
    | zero => simp at hf
    | succ fuel =>
      have hf' : L.length < fuel := by simpa using hf
      by_cases hsz : n ≤ get_size s bin
      · right
        refine ⟨[], bin, L, rfl, by simp, hsz, ?_⟩
        simp [find_scan, h2, hsz, lastOr_nil]
      · rcases ih fuel bin (s.mem (bin + 8)) h3 hf' with ⟨ha, hr⟩ | ⟨pre, b, post, e, ha, hb, hr⟩
        · left
          refine ⟨?_, ?_⟩
          · intro x hx
            rcases List.mem_cons.1 hx with rfl | hx
            · omega
            · exact ha x hx
          · simp [find_scan, h2, hsz, hr]
        · right
          refine ⟨bin :: pre, b, post, by simp [e], ?_, hb, ?_⟩
          · intro x hx
            rcases List.mem_cons.1 hx with rfl | hx
            · omega
            · exact ha x hx
          · simp [find_scan, h2, hsz, hr, lastOr_cons]

theorem freelist_walk_spec (s : Heap) (block : Nat) (L : List Nat) :
    ∀ fuel prev bin, Seg s.mem bin L 0 → L.length < fuel →
    ∃ pre post, L = pre ++ post ∧ (∀ x ∈ pre, get_size s x < get_size s block) ∧
      (∀ x, post.head? = some x → get_size s block ≤ get_size s x) ∧
      freelist_walk s block fuel prev bin = some (lastOr prev pre) := by
  induction L with
  | nil =>
    intro fuel prev bin h hf
    have hb : bin = 0 := h
    cases fuel with
    | zero => simp at hf
    | succ fuel =>
      exact ⟨[], [], rfl, by simp, by simp, by simp [freelist_walk, hb, lastOr_nil]⟩
  | cons c L ih =>
    intro fuel prev bin h hf
    obtain ⟨h1, h2, h3⟩ := h
    subst h1
    cases fuel with
    | zero => simp at hf
    | succ fuel =>
      have hf' : L.length < fuel := by simpa using hf
      by_cases hsz : get_size s block > get_size s bin
      · obtain ⟨pre, post, e, ha, hp, hr⟩ := ih fuel bin (s.mem (bin + 8)) h3 hf'
        refine ⟨bin :: pre, post, by simp [e], ?_, hp, ?_⟩
        · intro x hx
          rcases List.mem_cons.1 hx with rfl | hx
          · omega
          · exact ha x hx
        · simp [freelist_walk, h2, hsz, hr, lastOr_cons]
      · refine ⟨[], bin :: L, rfl, by simp, ?_, ?_⟩
        · intro x hx
          simp at hx
          subst hx
          omega
        · simp [freelist_walk, hsz, lastOr_nil]

theorem coalesce_scan_spec (idx current : Nat) (s : Heap) (hc0 : current ≠ 0) (L : List Nat) :
    ∀ fuel prev next, Seg s.mem next L 0 → L.length < fuel → current ∉ L →
    ((∀ x ∈ L, ¬ adjBefore s x current ∧ ¬ adjAfter s x current) ∧
      coalesce_scan idx current fuel s prev next = .ok none s) ∨
    (∃ pre x post, L = pre ++ x :: post ∧
      (∀ y ∈ pre, ¬ adjBefore s y current ∧ ¬ adjAfter s y current) ∧
      ((adjBefore s x current ∧
        coalesce_scan idx current fuel s prev next = .ok (some x)
          (unlink (store s x (encode ((get_size s x + get_size s current + HEADER_SIZE) % WORD)
            false)) idx (lastOr prev pre) x)) ∨
       (¬ adjBefore s x current ∧ adjAfter s x current ∧
        coalesce_scan idx current fuel s prev next = .ok (some current)
          (unlink (store s current
            (encode ((get_size s current + get_size s x + HEADER_SIZE) % WORD) false))
            idx (lastOr prev pre) x)))) := by
  induction L with
  | nil =>
    intro fuel prev next h hf _
    left
    have hb : next = 0 := h
    cases fuel with
    | zero => simp at hf
    | succ fuel => simp [coalesce_scan, hb]
  | cons c L ih =>
    intro fuel prev next h hf hcur
    obtain ⟨h1, h2, h3⟩ := h
    subst h1
    have hne : next ≠ current := fun e => hcur (e ▸ List.mem_cons_self _ _)
    have hcur' : current ∉ L := fun e => hcur (List.mem_cons_of_mem _ e)
    cases fuel with
    | zero => simp at hf
    | succ fuel =>
      have hf' : L.length < fuel := by simpa using hf
      by_cases hA : adjBefore s next current
      · right
        refine ⟨[], next, L, rfl, by simp, Or.inl ⟨hA, ?_⟩⟩
        have hA' := hA
        unfold adjBefore at hA'
        simp [coalesce_scan, h2, hne, hA', set_block_metadata, Outcome.bind, encode, lastOr_nil]
      · by_cases hB : adjAfter s next current
        · right
          refine ⟨[], next, L, rfl, by simp, Or.inr ⟨hA, hB, ?_⟩⟩
          have hA' := hA
          have hB' := hB
          unfold adjBefore at hA'
          unfold adjAfter at hB'
          simp [coalesce_scan, h2, hne, hA', hB', set_block_metadata, Outcome.bind, encode,
            lastOr_nil, hc0]
        · have hA' := hA
          have hB' := hB
          unfold adjBefore at hA'
          unfold adjAfter at hB'
          have hstep : coalesce_scan idx current (fuel + 1) s prev next =
              coalesce_scan idx current fuel s next (s.mem (next + 8)) := by
            simp [coalesce_scan, h2, hne, hA', hB']
          rcases ih fuel next (s.mem (next + 8)) h3 hf' hcur' with
            ⟨ha, hr⟩ | ⟨pre, x, post, e, ha, hr⟩
          · left
            refine ⟨?_, by rw [hstep, hr]⟩
            intro y hy
            rcases List.mem_cons.1 hy with rfl | hy
            · exact ⟨hA, hB⟩
            · exact ha y hy
          · right
            refine ⟨next :: pre, x, post, by simp [e], ?_, ?_⟩
            · intro y hy
              rcases List.mem_cons.1 hy with rfl | hy
              · exact ⟨hA, hB⟩
              · exact ha y hy
            · rw [hstep, lastOr_cons]
              exact hr

/-! ## The allocator invariant -/

theorem mem_update_bins (bins : Nat → List Nat) (i j : Nat) (X : List Nat) (a : Nat) :
    a ∈ Function.update bins i X j ↔ (j = i ∧ a ∈ X) ∨ (j ≠ i ∧ a ∈ bins j) := by
  by_cases h : j = i
  · subst h
    simp
  · simp [Function.update_noteq h, h]

theorem length_le_total (bins : Nat → List Nat) (i : Nat) (hi : i < 4) :
    (bins i).length ≤ total bins := by
  unfold total
  interval_cases i <;> omega

theorem total_update (bins : Nat → List Nat) (i : Nat) (hi : i < 4) (X : List Nat) :
    total (Function.update bins i X) + (bins i).length = total bins + X.length := by
  unfold total
  interval_cases i <;> simp [Function.update] <;> omega

/-- Taking the block `b` out of bin `i` into the non-free blocks. -/
theorem distinct_move_out {bins : Nat → List Nat} {others : List Nat} (h : Distinct bins others)
    (i : Nat) (hi : i < 4) (pre post : List Nat) (b : Nat) (hb : bins i = pre ++ b :: post) :
    Distinct (Function.update bins i (pre ++ post)) (b :: others) := by
  have hnd := h.nodup i hi
  rw [hb] at hnd
  have hbi : b ∈ bins i := by rw [hb]; simp
  have hsub : ∀ x, x ∈ pre ++ post → x ∈ bins i ∧ x ≠ b := by
    intro x hx
    have hx1 : x ∈ bins i := by
      rw [hb]
      rcases List.mem_append.1 hx with hx | hx
      · exact List.mem_append_left _ hx
      · exact List.mem_append_right _ (List.mem_cons_of_mem _ hx)
    refine ⟨hx1, ?_⟩
    rintro rfl
    have h1 : x ∉ pre := fun hp => by
      have := (List.nodup_append.1 hnd).2.2
      exact this hp (List.mem_cons_self _ _)
    have h2 : x ∉ post := (List.nodup_cons.1 (List.nodup_append.1 hnd).2.1).1
    rcases List.mem_append.1 hx with hx | hx
    · exact h1 hx
    · exact h2 hx
  have hmem : ∀ j x, x ∈ Function.update bins i (pre ++ post) j → x ∈ bins j ∧ x ≠ b ∨
      (x ∈ bins j ∧ j ≠ i) := by
    intro j x hx
    rcases (mem_update_bins _ _ _ _ _).1 hx with ⟨e, hy⟩ | ⟨hj, hy⟩
    · subst e
      exact Or.inl (hsub x hy)
    · exact Or.inr ⟨hy, hj⟩
  have hmem1 : ∀ j x, x ∈ Function.update bins i (pre ++ post) j → x ∈ bins j := by
    intro j x hx
    rcases hmem j x hx with h1 | h1
    · exact h1.1
    · exact h1.1
  refine ⟨?_, ?_, ?_, ?_⟩
  · intro j hj
    by_cases e : j = i
    · subst e
      rw [Function.update_same]
      have : (pre ++ post).Sublist (pre ++ b :: post) :=
        List.Sublist.append_left (List.sublist_cons_self _ _) _
      exact hnd.sublist this
    · rw [Function.update_noteq e]
      exact h.nodup j hj
  · intro j k hj hk hjk x hx hx2
    exact h.bin_disj j k hj hk hjk x (hmem1 j x hx) (hmem1 k x hx2)
  · intro j hj x hx hxo
    rcases List.mem_cons.1 hxo with rfl | hxo
    · rcases hmem j x hx with h1 | h1
      · exact h1.2 rfl
      · exact h.bin_disj j i hj hi h1.2 x h1.1 hbi
    · exact h.other_disj j hj x (hmem1 j x hx) hxo
  · exact List.nodup_cons.2 ⟨h.other_disj i hi b hbi, h.onodup⟩

/-- Putting the non-free block `c` into bin `j`. -/
theorem distinct_move_in {bins : Nat → List Nat} {others : List Nat} {c : Nat}
    (h : Distinct bins (c :: others))
    (j : Nat) (hj : j < 4) (pre post : List Nat) (hb : bins j = pre ++ post) :
    Distinct (Function.update bins j (pre ++ c :: post)) others := by
  have hnd := h.nodup j hj
  rw [hb] at hnd
  have hcb : ∀ k, k < 4 → c ∉ bins k := fun k hk hc =>
    h.other_disj k hk c hc (List.mem_cons_self _ _)
  have hco : c ∉ others := (List.nodup_cons.1 h.onodup).1
  have hmem : ∀ k x, x ∈ Function.update bins j (pre ++ c :: post) k →
      (x = c ∧ k = j) ∨ x ∈ bins k := by
    intro k x hx
    rcases (mem_update_bins _ _ _ _ _).1 hx with ⟨e, hy⟩ | ⟨_, hy⟩
    · subst e
      rcases List.mem_append.1 hy with hz | hz
      · exact Or.inr (hb ▸ List.mem_append_left _ hz)
      · rcases List.mem_cons.1 hz with e2 | hz
        · exact Or.inl ⟨e2, rfl⟩
        · exact Or.inr (hb ▸ List.mem_append_right _ hz)
    · exact Or.inr hy
  refine ⟨?_, ?_, ?_, ?_⟩
  · intro k hk
    by_cases e : k = j
    · subst e
      rw [Function.update_same]
      have hc : c ∉ pre ++ post := hb ▸ hcb k hk
      rw [List.nodup_append] at hnd ⊢
      refine ⟨hnd.1, List.nodup_cons.2 ⟨fun e => hc (List.mem_append_right _ e), hnd.2.1⟩, ?_⟩
      intro x hx1 hx2
      rcases List.mem_cons.1 hx2 with rfl | hx2
      · exact hc (List.mem_append_left _ hx1)
      · exact hnd.2.2 hx1 hx2
    · rw [Function.update_noteq e]
      exact h.nodup k hk
  · intro k m hk hm hkm x hx hx2
    rcases hmem k x hx with ⟨rfl, rfl⟩ | h1
    · rcases hmem m x hx2 with ⟨_, e⟩ | h2
      · exact hkm e.symm
      · exact hcb m hm h2
    · rcases hmem m x hx2 with ⟨rfl, rfl⟩ | h2
      · exact hcb k hk h1
      · exact h.bin_disj k m hk hm hkm x h1 h2
  · intro k hk x hx hxo
    rcases hmem k x hx with ⟨rfl, rfl⟩ | h1
    · exact hco hxo
    · exact h.other_disj k hk x h1 (List.mem_cons_of_mem _ hxo)
  · exact (List.nodup_cons.1 h.onodup).2

/-- Forgetting a non-free block. -/
theorem distinct_drop {bins : Nat → List Nat} {others : List Nat} {c : Nat}
    (h : Distinct bins (c :: others)) : Distinct bins others :=
  ⟨h.nodup, h.bin_disj, fun i hi b hb ho => h.other_disj i hi b hb (List.mem_cons_of_mem _ ho),
    (List.nodup_cons.1 h.onodup).2⟩

/-- Reordering the non-free blocks. -/
theorem distinct_perm {bins : Nat → List Nat} {others others2 : List Nat}
    (h : Distinct bins others) (hp : others.Perm others2) : Distinct bins others2 :=
  ⟨h.nodup, h.bin_disj, fun i hi b hb ho => h.other_disj i hi b hb (hp.mem_iff.2 ho),
    hp.nodup_iff.1 h.onodup⟩

theorem isFree_update_sub (bins : Nat → List Nat) (i : Nat) (X : List Nat) (a : Nat)
    (hX : ∀ x, x ∈ X → IsFree bins x) (h : IsFree (Function.update bins i X) a) :
    IsFree bins a := by
  obtain ⟨j, hj, hm⟩ := h
  rcases (mem_update_bins _ _ _ _ _).1 hm with ⟨_, hy⟩ | ⟨_, hy⟩
  · exact hX a hy
  · exact ⟨j, hj, hy⟩

theorem blk_move_out (bins : Nat → List Nat) (others : List Nat) (i : Nat) (hi : i < 4)
    (pre post : List Nat) (b : Nat) (hb : bins i = pre ++ b :: post) (a : Nat)
    (h : Blk (Function.update bins i (pre ++ post)) (b :: others) a) : Blk bins others a := by
  rcases h with h | h
  · left
    apply isFree_update_sub bins i (pre ++ post) a _ h
    intro x hx
    refine ⟨i, hi, ?_⟩
    rw [hb]
    rcases List.mem_append.1 hx with hx | hx
    · exact List.mem_append_left _ hx
    · exact List.mem_append_right _ (List.mem_cons_of_mem _ hx)
  · rcases List.mem_cons.1 h with rfl | h
    · exact Or.inl ⟨i, hi, by rw [hb]; simp⟩
    · exact Or.inr h

theorem blk_move_in (bins : Nat → List Nat) (others : List Nat) (j : Nat)
    (pre post : List Nat) (c : Nat) (hb : bins j = pre ++ post) (a : Nat)
    (h : Blk (Function.update bins j (pre ++ c :: post)) others a) :
    Blk bins (c :: others) a := by
  rcases h with ⟨k, hk, hm⟩ | h
  · rcases (mem_update_bins _ _ _ _ _).1 hm with ⟨e, hy⟩ | ⟨_, hy⟩
    · subst e
      rcases List.mem_append.1 hy with hz | hz
      · exact Or.inl ⟨k, hk, hb ▸ List.mem_append_left _ hz⟩
      · rcases List.mem_cons.1 hz with e2 | hz
        · exact Or.inr (e2 ▸ List.mem_cons_self _ _)
        · exact Or.inl ⟨k, hk, hb ▸ List.mem_append_right _ hz⟩
    · exact Or.inl ⟨k, hk, hy⟩
  · exact Or.inr (List.mem_cons_of_mem _ h)

theorem get_size_congr (s t : Heap) (a : Nat) (h : t.mem a = s.mem a) :
    get_size t a = get_size s a := by
  unfold get_size
  rw [h]

theorem blockEnd_congr (s t : Heap) (a : Nat) (h : t.mem a = s.mem a) :
    blockEnd t a = blockEnd s a := by
  unfold blockEnd
  rw [get_size_congr s t a h]

/-- Geometry survives a state change that keeps the metadata words of the remaining blocks and
forgets no arena region. -/
theorem geo_mono {s t : Heap} {P Q : Nat → Prop} (h : Geo s P) (hPQ : ∀ a, Q a → P a)
    (hmem : ∀ a, Q a → t.mem a = s.mem a) (hbrk : ∀ x, Covered s.brk x → Covered t.brk x) :
    Geo t Q := by
  refine ⟨?_, ?_, ?_, ?_⟩
  · intro a b ha hb hab
    rw [blockEnd_congr s t a (hmem a ha), blockEnd_congr s t b (hmem b hb)]
    exact h.apart a b (hPQ a ha) (hPQ b hb) hab
  · intro a ha
    rw [blockEnd_congr s t a (hmem a ha)]
    exact h.bound a (hPQ a ha)
  · intro a ha x h1 h2
    rw [blockEnd_congr s t a (hmem a ha)] at h2
    exact hbrk x (h.cover a (hPQ a ha) x h1 h2)
  · intro a ha
    rw [hmem a ha]
    exact h.word a (hPQ a ha)

/-- The `next` word of one block is never the metadata word of a block. -/
theorem geo_link_ne {s : Heap} {P : Nat → Prop} (h : Geo s P) (a b : Nat) (ha : P a)
    (hb : P b) : a + 8 ≠ b := by
  by_cases e : a = b
  · omega
  · have := h.apart a b ha hb e
    unfold blockEnd HEADER_SIZE at this
    omega

theorem unlink_brk (s : Heap) (i p b : Nat) : (unlink s i p b).brk = s.brk := by
  unfold unlink store
  split_ifs <;> rfl

theorem unlink_mem (s : Heap) (i p b a : Nat) (h : p = 0 ∨ a ≠ p + 8) :
    (unlink s i p b).mem a = s.mem a := by
  unfold unlink store
  split_ifs with hp
  · rfl
  · rcases h with h | h
    · exact absurd h hp
    · exact Function.update_noteq h _ _

theorem chains_store (s : Heap) (bins : Nat → List Nat) (a v : Nat) (h : Chains s bins)
    (hne : ∀ c, IsFree bins c → c + 8 ≠ a) : Chains (store s a v) bins := by
  intro i hi
  exact seg_frame _ _ _ _ _ _ (h i hi) (fun c hc => hne c ⟨i, hi, hc⟩)

theorem chains_unlink (s : Heap) (bins : Nat → List Nat) (others : List Nat)
    (h : Chains s bins) (hd : Distinct bins others) (i : Nat) (hi : i < 4)
    (pre post : List Nat) (b : Nat) (hb : bins i = pre ++ b :: post) :
    Chains (unlink s i (lastOr 0 pre) b) (Function.update bins i (pre ++ post)) := by
  have hc := h i hi
  rw [hb] at hc
  have hnd := hd.nodup i hi
  rw [hb] at hnd
  by_cases hpre : pre = []
  · subst hpre
    simp only [lastOr_nil, unlink, if_true, List.nil_append] at *
    obtain ⟨_, _, h3⟩ := hc
    intro j hj
    by_cases e : j = i
    · subst e
      simpa [Function.update_same] using h3
    · simp only [Function.update_noteq e]
      exact h j hj
  · have hl : lastOr 0 pre ∈ pre := lastOr_mem 0 pre hpre
    have hl0 : lastOr 0 pre ≠ 0 :=
      seg_nonzero _ _ _ _ hc _ (List.mem_append_left _ hl)
    have hu : unlink s i (lastOr 0 pre) b = store s (lastOr 0 pre + 8) (s.mem (b + 8)) := by
      simp [unlink, hl0]
    rw [hu]
    intro j hj
    by_cases e : j = i
    · subst e
      rw [Function.update_same]
      exact seg_unlink _ _ _ _ _ _ hc hnd hpre
    · rw [Function.update_noteq e]
      apply seg_frame _ _ _ _ _ _ (h j hj)
      intro c hc2 e2
      have : c = lastOr 0 pre := by omega
      subst this
      exact hd.bin_disj j i hj hi e _ hc2 (hb ▸ List.mem_append_left _ hl)

/-- Unlinking a block from its bin keeps the invariant; the block joins the non-free blocks. -/
theorem inv_unlink {s : Heap} {bins : Nat → List Nat} {others : List Nat}
    (h : Inv s bins others) (i : Nat) (hi : i < 4) (pre post : List Nat) (b : Nat)
    (hb : bins i = pre ++ b :: post) :
    Inv (unlink s i (lastOr 0 pre) b) (Function.update bins i (pre ++ post)) (b :: others) ∧
    (∀ a, Blk bins others a → (unlink s i (lastOr 0 pre) b).mem a = s.mem a) := by
  have hmeta : ∀ a, Blk bins others a → (unlink s i (lastOr 0 pre) b).mem a = s.mem a := by
    intro a ha
    apply unlink_mem
    by_cases hpre : pre = []
    · left
      rw [hpre, lastOr_nil]
    · right
      have hl : lastOr 0 pre ∈ pre := lastOr_mem 0 pre hpre
      have hP : Blk bins others (lastOr 0 pre) :=
        Or.inl ⟨i, hi, hb ▸ List.mem_append_left _ hl⟩
      exact (geo_link_ne h.geo _ _ hP ha).symm
  refine ⟨⟨distinct_move_out h.dist i hi pre post b hb, chains_unlink s bins others h.chains h.dist i hi
    pre post b hb, ?_, ?_⟩, hmeta⟩
  · intro j hj x hx
    have hx2 : IsFree bins x := by
      have := blk_move_out bins others i hi pre post b hb x (Or.inl ⟨j, hj, hx⟩)
      rcases this with h1 | h1
      · exact h1
      · exact absurd h1 (by
          have hd := (distinct_move_out h.dist i hi pre post b hb).other_disj j hj x hx
          exact fun ho => hd (List.mem_cons_of_mem _ ho))
    rw [hmeta x (Or.inl hx2)]
    obtain ⟨k, hk, hm⟩ := hx2
    exact h.flags k hk x hm
  · apply geo_mono h.geo (blk_move_out bins others i hi pre post b hb)
    · intro a ha
      exact hmeta a (blk_move_out bins others i hi pre post b hb a ha)
    · intro x hx
      rw [unlink_brk]
      exact hx

theorem find_bins_spec (n : Nat) (s : Heap) (bins : Nat → List Nat) (hc : Chains s bins) :
    ∀ k idx fuel, idx + k = 4 → total bins + 6 ≤ fuel + idx →
    (find_bins n fuel s idx = .ok 0 s ∧
      ∀ i, idx ≤ i → i < 4 → ∀ x ∈ bins i, get_size s x < n) ∨
    (∃ i pre b post, idx ≤ i ∧ i < 4 ∧ bins i = pre ++ b :: post ∧
      (∀ x ∈ pre, get_size s x < n) ∧ n ≤ get_size s b ∧
      (∀ j, idx ≤ j → j < i → ∀ x ∈ bins j, get_size s x < n) ∧
      find_bins n fuel s idx = .ok b (unlink s i (lastOr 0 pre) b)) := by
  intro k
  induction k with
  | zero =>
    intro idx fuel hk hf
    left
    have hidx : idx = 4 := by omega
    subst hidx
    cases fuel with
    | zero => omega
    | succ fuel =>
      refine ⟨by simp [find_bins, BIN_COUNT], ?_⟩
      intro i h1 h2
      omega
  | succ k ih =>
    intro idx fuel hk hf
    have hidx : idx < 4 := by omega
    cases fuel with
    | zero => omega
    | succ fuel =>
      have hlen := length_le_total bins idx hidx
      have hfl : (bins idx).length < fuel := by omega
      rcases find_scan_spec n idx s (bins idx) fuel 0 (s.free_heads idx) (hc idx hidx) hfl with
        ⟨ha, hr⟩ | ⟨pre, b, post, e, ha, hb, hr⟩
      · rcases ih (idx + 1) fuel (by omega) (by omega) with
          ⟨hr2, ha2⟩ | ⟨i, pre, b, post, h1, h2, e, hp, hb, hlow, hr2⟩
        · left
          refine ⟨by simp [find_bins, BIN_COUNT, hidx, hr, hr2], ?_⟩
          intro i h1 h2 x hx
          by_cases e : i = idx
          · subst e
            exact ha x hx
          · exact ha2 i (by omega) h2 x hx
        · right
          refine ⟨i, pre, b, post, by omega, h2, e, hp, hb, ?_, ?_⟩
          · intro j h3 h4 x hx
            by_cases e : j = idx
            · subst e
              exact ha x hx
            · exact hlow j (by omega) h4 x hx
          · simp [find_bins, BIN_COUNT, hidx, hr, hr2]
      · right
        refine ⟨idx, pre, b, post, le_refl _, hidx, e, ha, hb, ?_, ?_⟩
        · intro j h3 h4
          omega
        · simp [find_bins, BIN_COUNT, hidx, hr]

theorem select_bin_index_lt (n : Nat) : select_bin_index n < 4 := by
  unfold select_bin_index
  split_ifs <;> omega

/-- What `find` does on well-formed free lists, given enough fuel. -/
theorem find_spec (n : Nat) (s : Heap) (bins : Nat → List Nat) (hc : Chains s bins)
    (fuel : Nat) (hf : total bins + 6 ≤ fuel) :
    (find fuel s n = .ok 0 s ∧
      ∀ i, select_bin_index n ≤ i → i < 4 → ∀ x ∈ bins i, get_size s x < n) ∨
    (∃ i pre b post, select_bin_index n ≤ i ∧ i < 4 ∧ bins i = pre ++ b :: post ∧
      (∀ x ∈ pre, get_size s x < n) ∧ n ≤ get_size s b ∧
      (∀ j, select_bin_index n ≤ j → j < i → ∀ x ∈ bins j, get_size s x < n) ∧
      find fuel s n = .ok b (unlink s i (lastOr 0 pre) b)) := by
  have h4 := select_bin_index_lt n
  exact find_bins_spec n s bins hc (4 - select_bin_index n) (select_bin_index n) fuel
    (by omega) (by omega)

theorem chains_insert (s : Heap) (bins : Nat → List Nat) (others : List Nat) (c : Nat)
    (h : Chains s bins) (hd : Distinct bins (c :: others)) (hc0 : c ≠ 0)
    (j : Nat) (hj : j < 4) (pre post : List Nat) (hb : bins j = pre ++ post) :
    (pre = [] → Chains { store s (c + 8) (s.free_heads j) with
        free_heads := Function.update s.free_heads j c }
      (Function.update bins j (pre ++ c :: post))) ∧
    (pre ≠ [] → Chains (store (store s (c + 8) (s.mem (lastOr 0 pre + 8))) (lastOr 0 pre + 8) c)
      (Function.update bins j (pre ++ c :: post))) := by
  have hcj := h j hj
  rw [hb] at hcj
  have hnd := hd.nodup j hj
  rw [hb] at hnd
  have hcb : ∀ k, k < 4 → ∀ x, x ∈ bins k → x + 8 ≠ c + 8 := by
    intro k hk x hx e
    have : x = c := by omega
    subst this
    exact hd.other_disj k hk x hx (List.mem_cons_self _ _)
  constructor
  · intro hpre
    subst hpre
    simp only [List.nil_append] at *
    intro k hk
    by_cases e : k = j
    · subst e
      simp only [Function.update_same]
      refine ⟨rfl, hc0, ?_⟩
      simp only [store, Function.update_same]
      apply seg_frame _ _ _ _ _ _ hcj
      intro x hx
      exact hcb k hk x (hb ▸ hx)
    · simp only [Function.update_noteq e]
      exact seg_frame _ _ _ _ _ _ (h k hk) (fun x hx => hcb k hk x hx)
  · intro hpre
    have hl : lastOr 0 pre ∈ pre := lastOr_mem 0 pre hpre
    intro k hk
    by_cases e : k = j
    · subst e
      rw [Function.update_same]
      have hcn : c ∉ pre ++ post := by
        intro hx
        exact hd.other_disj k hk c (hb ▸ hx) (List.mem_cons_self _ _)
      exact seg_insert _ _ _ _ _ _ hcj hnd hcn hc0 hpre
    · rw [Function.update_noteq e]
      apply seg_frame
      · exact seg_frame _ _ _ _ _ _ (h k hk) (fun x hx => hcb k hk x hx)
      · intro x hx e2
        have : x = lastOr 0 pre := by omega
        subst this
        exact hd.bin_disj k j hk hj e _ hx (hb ▸ List.mem_append_left _ hl)

/-- The call `freelist_add` of a non-free block returns (given enough fuel): the block is
linked into bin `select_bin_index sz` behind all smaller blocks and before a block that is not
smaller; the lists of the other bins and all metadata words stay as they are.  The allocated
flags play no part. -/
theorem freelist_add_core {s : Heap} {bins : Nat → List Nat} {others : List Nat} {c : Nat}
    (hd : Distinct bins (c :: others)) (hch : Chains s bins)
    (hg : Geo s (Blk bins (c :: others))) (sz fuel : Nat) (hf : total bins + 1 ≤ fuel) :
    ∃ pre post s1, bins (select_bin_index sz) = pre ++ post ∧
      (∀ x ∈ pre, get_size s x < get_size s c) ∧
      (∀ x, post.head? = some x → get_size s c ≤ get_size s x) ∧
      freelist_add fuel s c sz = .ok () s1 ∧
      Distinct (Function.update bins (select_bin_index sz) (pre ++ c :: post)) others ∧
      Chains s1 (Function.update bins (select_bin_index sz) (pre ++ c :: post)) ∧
      Geo s1 (Blk (Function.update bins (select_bin_index sz) (pre ++ c :: post)) others) ∧
      (∀ a, Blk bins (c :: others) a → s1.mem a = s.mem a) ∧ s1.brk = s.brk := by
  have hj := select_bin_index_lt sz
  generalize hjd : select_bin_index sz = j at hj
  have hlen := length_le_total bins j hj
  obtain ⟨pre, post, e, hpre, hpost, hw⟩ :=
    freelist_walk_spec s c (bins j) fuel 0 (s.free_heads j) (hch j hj) (by omega)
  have hPc : Blk bins (c :: others) c := Or.inr (List.mem_cons_self _ _)
  have hc0 : c ≠ 0 := (hg.bound c hPc).1
  have hins := chains_insert s bins others c hch hd hc0 j hj pre post e
  -- the final state and the words it changes
  have key : ∃ s1, freelist_add fuel s c sz = .ok () s1 ∧
      Chains s1 (Function.update bins j (pre ++ c :: post)) ∧
      (∀ a, Blk bins (c :: others) a → s1.mem a = s.mem a) ∧ s1.brk = s.brk := by
    by_cases hp : pre = []
    · subst hp
      rw [lastOr_nil] at hw
      refine ⟨_, by simp [freelist_add, hjd, hw, hc0, store], hins.1 rfl, ?_, rfl⟩
      intro a ha
      have := geo_link_ne hg c a hPc ha
      simp [store, Function.update_noteq this.symm]
    · have hl : lastOr 0 pre ∈ pre := lastOr_mem 0 pre hp
      have hPl : Blk bins (c :: others) (lastOr 0 pre) :=
        Or.inl ⟨j, hj, e ▸ List.mem_append_left _ hl⟩
      have hl0 : lastOr 0 pre ≠ 0 := (hg.bound _ hPl).1
      refine ⟨_, by simp [freelist_add, hjd, hw, hc0, hl0], hins.2 hp, ?_, rfl⟩
      intro a ha
      have h1 := geo_link_ne hg c a hPc ha
      have h2 := geo_link_ne hg _ a hPl ha
      simp [store, Function.update_noteq h1.symm, Function.update_noteq h2.symm]
  obtain ⟨s1, hr, hch1, hmeta, hbrk⟩ := key
  refine ⟨pre, post, s1, e, hpre, hpost, hr, distinct_move_in hd j hj pre post e, hch1, ?_,
    hmeta, hbrk⟩
  apply geo_mono hg (blk_move_in bins others j pre post c e)
  · intro a ha
    exact hmeta a (blk_move_in bins others j pre post c e a ha)
  · intro x hx
    rw [hbrk]
    exact hx

/-- The call `freelist_add` of a non-free block with a clear flag returns (given enough fuel) and keeps
the invariant: the block is linked into bin `select_bin_index sz` behind all smaller blocks. -/
theorem inv_freelist_add {s : Heap} {bins : Nat → List Nat} {others : List Nat} {c : Nat}
    (h : Inv s bins (c :: others)) (hflag : s.mem c % 2 = 0) (sz fuel : Nat)
    (hf : total bins + 1 ≤ fuel) :
    ∃ pre post s1, bins (select_bin_index sz) = pre ++ post ∧
      (∀ x ∈ pre, get_size s x < get_size s c) ∧
      (∀ x, post.head? = some x → get_size s c ≤ get_size s x) ∧
      freelist_add fuel s c sz = .ok () s1 ∧
      Inv s1 (Function.update bins (select_bin_index sz) (pre ++ c :: post)) others ∧
      (∀ a, Blk bins (c :: others) a → s1.mem a = s.mem a) ∧ s1.brk = s.brk := by
  obtain ⟨pre, post, s1, e, hpre, hpost, hr, hd1, hch1, hg1, hmeta, hbrk⟩ :=
    freelist_add_core h.dist h.chains h.geo sz fuel hf
  refine ⟨pre, post, s1, e, hpre, hpost, hr, ⟨hd1, hch1, ?_, hg1⟩, hmeta, hbrk⟩
  intro k hk x hx
  have hB := blk_move_in bins others _ pre post c e x (Or.inl ⟨k, hk, hx⟩)
  rw [hmeta x hB]
  rcases hB with ⟨m, hm, hxm⟩ | hB
  · exact h.flags m hm x hxm
  · rcases List.mem_cons.1 hB with rfl | hB
    · exact hflag
    · exact absurd hB (hd1.other_disj k hk x hx)

theorem sortedBySize_congr (s t : Heap) (L : List Nat)
    (h : ∀ a ∈ L, get_size t a = get_size s a) (hs : SortedBySize s L) : SortedBySize t L := by
  unfold SortedBySize at *
  refine List.Pairwise.imp_of_mem ?_ hs
  intro a b ha hb hab
  rw [h a ha, h b hb]
  exact hab

theorem sortedBins_sublist {s t : Heap} {bins bins1 : Nat → List Nat}
    (hsub : ∀ i, i < 4 → (bins1 i).Sublist (bins i))
    (hsz : ∀ a, IsFree bins1 a → get_size t a = get_size s a) (h : SortedBins s bins) :
    SortedBins t bins1 := by
  intro i hi
  apply sortedBySize_congr s t _ fun a ha => hsz a ⟨i, hi, ha⟩
  exact List.Pairwise.sublist (hsub i hi) (h i hi)

theorem binsMatch_sublist {s t : Heap} {bins bins1 : Nat → List Nat}
    (hsub : ∀ i, i < 4 → (bins1 i).Sublist (bins i))
    (hsz : ∀ a, IsFree bins1 a → get_size t a = get_size s a) (h : BinsMatch s bins) :
    BinsMatch t bins1 := by
  intro i hi a ha
  rw [hsz a ⟨i, hi, ha⟩]
  exact h i hi a ((hsub i hi).subset ha)

theorem update_remove_sublist (bins : Nat → List Nat) (i : Nat) (pre post : List Nat) (b : Nat)
    (hb : bins i = pre ++ b :: post) :
    ∀ j, j < 4 → (Function.update bins i (pre ++ post) j).Sublist (bins j) := by
  intro j _
  by_cases hji : j = i
  · subst hji
    rw [Function.update_same, hb]
    exact List.Sublist.append_left (List.sublist_cons_self b post) pre
  · rw [Function.update_noteq hji]

/-- Linking a block into a sorted list behind the smaller blocks and in front of a block that
is not smaller keeps the list sorted. -/
theorem sortedBins_insert {s : Heap} {bins : Nat → List Nat} (j : Nat) (hj : j < 4)
    (pre post : List Nat) (c : Nat) (e : bins j = pre ++ post)
    (hpre : ∀ x ∈ pre, get_size s x < get_size s c)
    (hpost : ∀ x, post.head? = some x → get_size s c ≤ get_size s x) (h : SortedBins s bins) :
    SortedBins s (Function.update bins j (pre ++ c :: post)) := by
  intro i hi
  by_cases hij : i = j
  · subst hij
    rw [Function.update_same]
    have hs := h i hi
    unfold SortedBySize at *
    rw [e, List.pairwise_append] at hs
    obtain ⟨h1, h2, h3⟩ := hs
    have hcp : ∀ b ∈ post, get_size s c ≤ get_size s b := by
      intro b hb
      cases post with
      | nil => simp at hb
      | cons x t =>
        have hx := hpost x rfl
        rcases List.mem_cons.1 hb with rfl | hb
        · exact hx
        · exact le_trans hx ((List.pairwise_cons.1 h2).1 b hb)
    rw [List.pairwise_append]
    refine ⟨h1, List.pairwise_cons.2 ⟨hcp, h2⟩, ?_⟩
    intro a ha b hb
    rcases List.mem_cons.1 hb with rfl | hb
    · exact le_of_lt (hpre a ha)
    · exact h3 a ha b hb
  · rw [Function.update_noteq hij]
    exact h i hi

theorem binsMatch_insert {s : Heap} {bins : Nat → List Nat} (j : Nat)
    (pre post : List Nat) (c : Nat) (e : bins j = pre ++ post)
    (hc : select_bin_index (get_size s c) = j) (h : BinsMatch s bins) :
    BinsMatch s (Function.update bins j (pre ++ c :: post)) := by
  intro i hi a ha
  by_cases hij : i = j
  · subst hij
    rw [Function.update_same] at ha
    rcases List.mem_append.1 ha with ha | ha
    · exact h i hi a (e ▸ List.mem_append_left _ ha)
    · rcases List.mem_cons.1 ha with rfl | ha
      · exact hc
      · exact h i hi a (e ▸ List.mem_append_right _ ha)
  · rw [Function.update_noteq hij] at ha
    exact h i hi a ha

theorem isFree_of_sublist {bins bins1 : Nat → List Nat}
    (hsub : ∀ i, i < 4 → (bins1 i).Sublist (bins i)) (a : Nat) (h : IsFree bins1 a) :
    IsFree bins a := by
  obtain ⟨i, hi, ha⟩ := h
  exact ⟨i, hi, (hsub i hi).subset ha⟩

/-- Geometry survives a state change that keeps sizes of the remaining blocks. -/
theorem geo_mono_size {s t : Heap} {P Q : Nat → Prop} (h : Geo s P) (hPQ : ∀ a, Q a → P a)
    (hsz : ∀ a, Q a → get_size t a = get_size s a) (hw : ∀ a, Q a → t.mem a < WORD)
    (hbrk : ∀ x, Covered s.brk x → Covered t.brk x) : Geo t Q := by
  have he : ∀ a, Q a → blockEnd t a = blockEnd s a := by
    intro a ha
    unfold blockEnd
    rw [hsz a ha]
  refine ⟨?_, ?_, ?_, hw⟩
  · intro a b ha hb hab
    rw [he a ha, he b hb]
    exact h.apart a b (hPQ a ha) (hPQ b hb) hab
  · intro a ha
    rw [he a ha]
    exact h.bound a (hPQ a ha)
  · intro a ha x h1 h2
    rw [he a ha] at h2
    exact hbrk x (h.cover a (hPQ a ha) x h1 h2)

theorem store_mem_other (s : Heap) (a v x : Nat) (h : x ≠ a) : (store s a v).mem x = s.mem x := by
  simp [store, Function.update_noteq h]

theorem store_mem_same (s : Heap) (a v : Nat) : (store s a v).mem a = v := by
  simp [store]

/-- Reordering the non-free blocks keeps the invariant. -/
theorem inv_perm {s : Heap} {bins : Nat → List Nat} {others others2 : List Nat}
    (h : Inv s bins others) (hp : others.Perm others2) : Inv s bins others2 := by
  refine ⟨distinct_perm h.dist hp, h.chains, h.flags, ?_⟩
  apply geo_mono h.geo _ (fun a _ => rfl) (fun x hx => hx)
  intro a ha
  rcases ha with ha | ha
  · exact Or.inl ha
  · exact Or.inr (hp.mem_iff.2 ha)

/-- Rewriting the metadata word of a non-free block without changing its size. -/
theorem inv_store_meta {s : Heap} {bins : Nat → List Nat} {others : List Nat} {b : Nat}
    (h : Inv s bins (b :: others)) (v : Nat) (hv : v / 16 = s.mem b / 16) (hvw : v < WORD) :
    Inv (store s b v) bins (b :: others) := by
  have hPb : Blk bins (b :: others) b := Or.inr (List.mem_cons_self _ _)
  have hb0 : b ≠ 0 := (h.geo.bound b hPb).1
  have hfree : ∀ x, IsFree bins x → x ≠ b := by
    rintro x ⟨k, hk, hx⟩ rfl
    exact h.dist.other_disj k hk x hx (List.mem_cons_self _ _)
  refine ⟨h.dist, ?_, ?_, ?_⟩
  · apply chains_store _ _ _ _ h.chains
    intro c hc
    exact geo_link_ne h.geo c b (Or.inl hc) hPb
  · intro k hk x hx
    rw [store_mem_other _ _ _ _ (hfree x ⟨k, hk, hx⟩)]
    exact h.flags k hk x hx
  · apply geo_mono_size h.geo (fun a ha => ha)
    · intro a _
      by_cases e : a = b
      · subst e
        rw [get_size_store_same _ _ _ hb0]
        simp [get_size, hb0, hv]
      · exact get_size_store_other _ _ _ _ (Ne.symm e)
    · intro a ha
      by_cases e : a = b
      · subst e
        rw [store_mem_same]
        exact hvw
      · rw [store_mem_other _ _ _ _ e]
        exact h.geo.word a ha
    · intro x hx
      exact hx

theorem unlink_store_comm (s : Heap) (i l x a v : Nat) (h1 : a ≠ x + 8)
    (h2 : l = 0 ∨ a ≠ l + 8) :
    unlink (store s a v) i l x = store (unlink s i l x) a v := by
  unfold unlink
  by_cases hl : l = 0
  · simp [hl, store, Function.update_noteq h1.symm]
  · have h3 : a ≠ l + 8 := by
      rcases h2 with h2 | h2
      · exact absurd h2 hl
      · exact h2
    simp only [hl, if_false, store, Function.update_noteq h1.symm]
    rw [Function.update_comm h3]

theorem encode_false (m : Nat) : encode m false = m * 16 % WORD := by
  unfold encode WORD
  simp

theorem encode_lt (m : Nat) (a : Bool) : encode m a < WORD := by
  unfold encode WORD
  omega

theorem encode_size_le (m : Nat) (a : Bool) : encode m a / 16 ≤ m := by
  unfold encode WORD
  cases a <;> simp <;> omega

theorem encode_size (m : Nat) (a : Bool) (h : m < 2 ^ 60) : encode m a / 16 = m := by
  unfold encode WORD
  cases a <;> simp <;> omega

theorem encode_flag (m : Nat) (a : Bool) : encode m a % 2 = a.toNat := by
  unfold encode WORD
  cases a <;> simp <;> omega

/-- The non-free block `u` absorbs the non-free block `w` that starts where `u` ends: `u` gets a
new metadata word whose size does not exceed the merged size, `w` is forgotten. -/
theorem inv_absorb {s : Heap} {bins : Nat → List Nat} {others : List Nat} {u w : Nat}
    (h : Inv s bins (u :: w :: others)) (hadj : u + HEADER_SIZE + get_size s u = w)
    (v : Nat) (hv : v / 16 ≤ get_size s u + get_size s w + HEADER_SIZE) (hvw : v < WORD) :
    Inv (store s u v) bins (u :: others) ∧
    (∀ a, a ≠ u → (store s u v).mem a = s.mem a) := by
  have hPu : Blk bins (u :: w :: others) u := Or.inr (List.mem_cons_self _ _)
  have hPw : Blk bins (u :: w :: others) w :=
    Or.inr (List.mem_cons_of_mem _ (List.mem_cons_self _ _))
  have hu0 : u ≠ 0 := (h.geo.bound u hPu).1
  have hsub : ∀ a, Blk bins (u :: others) a → Blk bins (u :: w :: others) a := by
    intro a ha
    rcases ha with ha | ha
    · exact Or.inl ha
    · rcases List.mem_cons.1 ha with rfl | ha
      · exact hPu
      · exact Or.inr (List.mem_cons_of_mem _ (List.mem_cons_of_mem _ ha))
  have hfree : ∀ x, IsFree bins x → x ≠ u := by
    rintro x ⟨k, hk, hx⟩ rfl
    exact h.dist.other_disj k hk x hx (List.mem_cons_self _ _)
  have hnw : ∀ a, Blk bins (u :: others) a → a ≠ w := by
    intro a ha e
    subst e
    rcases ha with ⟨k, hk, hx⟩ | ha
    · exact h.dist.other_disj k hk a hx (List.mem_cons_of_mem _ (List.mem_cons_self _ _))
    · have hnd := h.dist.onodup
      rcases List.mem_cons.1 ha with e | ha
      · subst e
        exact (List.nodup_cons.1 hnd).1 (List.mem_cons_self _ _)
      · exact (List.nodup_cons.1 (List.nodup_cons.1 hnd).2).1 ha
  have hsu : get_size (store s u v) u = v / 16 := get_size_store_same _ _ _ hu0
  have hso : ∀ a, a ≠ u → get_size (store s u v) a = get_size s a :=
    fun a ha => get_size_store_other _ _ _ _ (Ne.symm ha)
  have hbu := (h.geo.bound u hPu).2
  have hbw := (h.geo.bound w hPw).2
  unfold HEADER_SIZE at hadj hv
  have hd : Distinct bins (u :: others) := by
    have h1 : Distinct bins (w :: u :: others) := distinct_perm h.dist (List.Perm.swap _ _ _)
    exact distinct_drop h1
  refine ⟨⟨hd, ?_, ?_, ?_⟩, fun a ha => store_mem_other _ _ _ _ ha⟩
  · apply chains_store _ _ _ _ h.chains
    intro c hc
    exact geo_link_ne h.geo c u (Or.inl hc) hPu
  · intro k hk x hx
    rw [store_mem_other _ _ _ _ (hfree x ⟨k, hk, hx⟩)]
    exact h.flags k hk x hx
  · refine ⟨?_, ?_, ?_, ?_⟩
    · intro a b ha hb hab
      unfold blockEnd HEADER_SIZE at hbu hbw ⊢
      by_cases ea : a = u
      · subst ea
        have h1 := h.geo.apart a b hPu (hsub b hb) hab
        have h2 := h.geo.apart w b hPw (hsub b hb) (Ne.symm (hnw b hb))
        unfold blockEnd HEADER_SIZE at h1 h2
        rw [hsu, hso b (Ne.symm hab)]
        omega
      · by_cases eb : b = u
        · subst eb
          have h1 := h.geo.apart a b (hsub a ha) hPu hab
          have h2 := h.geo.apart a w (hsub a ha) hPw (hnw a ha)
          unfold blockEnd HEADER_SIZE at h1 h2
          rw [hsu, hso a ea]
          omega
        · rw [hso a ea, hso b eb]
          exact h.geo.apart a b (hsub a ha) (hsub b hb) hab
    · intro a ha
      unfold blockEnd HEADER_SIZE at hbu hbw ⊢
      by_cases ea : a = u
      · subst ea
        rw [hsu]
        refine ⟨hu0, ?_⟩
        omega
      · rw [hso a ea]
        exact h.geo.bound a (hsub a ha)
    · intro a ha x h1 h2
      unfold blockEnd HEADER_SIZE at hbu hbw h2
      by_cases ea : a = u
      · subst ea
        rw [hsu] at h2
        by_cases hx : x < w
        · exact h.geo.cover a hPu x h1 (by unfold blockEnd HEADER_SIZE; omega)
        · exact h.geo.cover w hPw x (by omega) (by unfold blockEnd HEADER_SIZE; omega)
      · rw [hso a ea] at h2
        exact h.geo.cover a (hsub a ha) x h1 h2
    · intro a ha
      by_cases ea : a = u
      · subst ea
        rw [store_mem_same]
        exact hvw
      · rw [store_mem_other _ _ _ _ ea]
        exact h.geo.word a (hsub a ha)

/-- Adding a block that is not yet known to the non-free blocks. -/
theorem distinct_add {bins : Nat → List Nat} {others : List Nat} (h : Distinct bins others)
    (c : Nat) (hc : ¬ Blk bins others c) : Distinct bins (c :: others) := by
  refine ⟨h.nodup, h.bin_disj, ?_, List.nodup_cons.2 ⟨fun ho => hc (Or.inr ho), h.onodup⟩⟩
  intro i hi b hb ho
  rcases List.mem_cons.1 ho with rfl | ho
  · exact hc (Or.inl ⟨i, hi, hb⟩)
  · exact h.other_disj i hi b hb ho

/-- Splitting the non-free block `b`: it keeps the first `A` payload bytes, and a new block `f`
behind it gets the rest. -/
theorem inv_split_core {s : Heap} {bins : Nat → List Nat} {others : List Nat} {b : Nat}
    (h : Inv s bins (b :: others)) (A f : Nat) (hA : A + 48 ≤ get_size s b)
    (hf : f = b + 16 + A) (v1 v2 : Nat) (hv1 : v1 / 16 = A) (hv1w : v1 < WORD)
    (hv2 : v2 / 16 = get_size s b - A - 16) (hv2w : v2 < WORD) :
    Inv (store (store s b v1) f v2) bins (f :: b :: others) := by
  have hPb : Blk bins (b :: others) b := Or.inr (List.mem_cons_self _ _)
  have hb0 : b ≠ 0 := (h.geo.bound b hPb).1
  have hbnd := (h.geo.bound b hPb).2
  unfold blockEnd HEADER_SIZE at hbnd
  have hold : ∀ a, Blk bins (b :: others) a → a ≠ b →
      (a + 16 + get_size s a ≤ b ∨ b + 16 + get_size s b ≤ a) := by
    intro a ha hab
    have := h.geo.apart a b ha hPb hab
    unfold blockEnd HEADER_SIZE at this
    exact this
  have hfb : f ≠ b := by omega
  have hf0 : f ≠ 0 := by omega
  have hnf : ¬ Blk bins (b :: others) f := by
    intro hB
    have := hold f hB hfb
    omega
  have hcls : ∀ a, Blk bins (f :: b :: others) a →
      a = f ∨ a = b ∨ (Blk bins (b :: others) a ∧ a ≠ b ∧ a ≠ f) := by
    intro a ha
    by_cases e1 : a = f
    · exact Or.inl e1
    · by_cases e2 : a = b
      · exact Or.inr (Or.inl e2)
      · refine Or.inr (Or.inr ⟨?_, e2, e1⟩)
        rcases ha with ha | ha
        · exact Or.inl ha
        · rcases List.mem_cons.1 ha with e | ha
          · exact absurd e e1
          · exact Or.inr ha
  have hsf : get_size (store (store s b v1) f v2) f = get_size s b - A - 16 := by
    rw [get_size_store_same _ _ _ hf0, hv2]
  have hsb : get_size (store (store s b v1) f v2) b = A := by
    rw [get_size_store_other _ _ _ _ hfb, get_size_store_same _ _ _ hb0, hv1]
  have hso : ∀ a, a ≠ b → a ≠ f → get_size (store (store s b v1) f v2) a = get_size s a := by
    intro a h1 h2
    rw [get_size_store_other _ _ _ _ (Ne.symm h2), get_size_store_other _ _ _ _ (Ne.symm h1)]
  have hmo : ∀ a, a ≠ b → a ≠ f → (store (store s b v1) f v2).mem a = s.mem a := by
    intro a h1 h2
    rw [store_mem_other _ _ _ _ h2, store_mem_other _ _ _ _ h1]
  have hfree : ∀ x, IsFree bins x → x ≠ b ∧ x ≠ f := by
    intro x hx
    have h1 : x ≠ b := by
      rintro rfl
      obtain ⟨k, hk, hx⟩ := hx
      exact h.dist.other_disj k hk x hx (List.mem_cons_self _ _)
    refine ⟨h1, ?_⟩
    rintro rfl
    exact hnf (Or.inl hx)
  refine ⟨distinct_add h.dist f hnf, ?_, ?_, ?_, ?_, ?_, ?_⟩
  · apply chains_store
    · apply chains_store _ _ _ _ h.chains
      intro c hc
      exact geo_link_ne h.geo c b (Or.inl hc) hPb
    · intro c hc
      have := hold c (Or.inl hc) (hfree c hc).1
      omega
  · intro k hk x hx
    have := hfree x ⟨k, hk, hx⟩
    rw [hmo x this.1 this.2]
    exact h.flags k hk x hx
  · intro x y hx hy hxy
    unfold blockEnd HEADER_SIZE
    rcases hcls x hx with ex | ex | ⟨hx1, hx2, hx3⟩ <;>
      rcases hcls y hy with ey | ey | ⟨hy1, hy2, hy3⟩
    · omega
    · subst ex ey
      rw [hsf, hsb]
      omega
    · subst ex
      have := hold y hy1 hy2
      rw [hsf, hso y hy2 hy3]
      omega
    · subst ex ey
      rw [hsf, hsb]
      omega
    · omega
    · subst ex
      have := hold y hy1 hy2
      rw [hsb, hso y hy2 hy3]
      omega
    · subst ey
      have := hold x hx1 hx2
      rw [hsf, hso x hx2 hx3]
      omega
    · subst ey
      have := hold x hx1 hx2
      rw [hsb, hso x hx2 hx3]
      omega
    · rw [hso x hx2 hx3, hso y hy2 hy3]
      have := h.geo.apart x y hx1 hy1 hxy
      unfold blockEnd HEADER_SIZE at this
      exact this
  · intro x hx
    unfold blockEnd HEADER_SIZE
    rcases hcls x hx with ex | ex | ⟨hx1, hx2, hx3⟩
    · subst ex
      rw [hsf]
      exact ⟨hf0, by omega⟩
    · subst ex
      rw [hsb]
      exact ⟨hb0, by omega⟩
    · rw [hso x hx2 hx3]
      have := h.geo.bound x hx1
      unfold blockEnd HEADER_SIZE at this
      exact this
  · intro x hx y h1 h2
    unfold blockEnd HEADER_SIZE at h2
    have hcov : ∀ z, b ≤ z → z < b + 16 + get_size s b → Covered s.brk z := by
      intro z hz1 hz2
      exact h.geo.cover b hPb z hz1 (by unfold blockEnd HEADER_SIZE; exact hz2)
    rcases hcls x hx with ex | ex | ⟨hx1, hx2, hx3⟩
    · subst ex
      rw [hsf] at h2
      exact hcov y (by omega) (by omega)
    · subst ex
      rw [hsb] at h2
      exact hcov y (by omega) (by omega)
    · rw [hso x hx2 hx3] at h2
      exact h.geo.cover x hx1 y h1 (by unfold blockEnd HEADER_SIZE; exact h2)
  · intro x hx
    rcases hcls x hx with ex | ex | ⟨hx1, hx2, hx3⟩
    · subst ex
      rw [store_mem_same]
      exact hv2w
    · subst ex
      rw [store_mem_other _ _ _ _ (Ne.symm hfb), store_mem_same]
      exact hv1w
    · rw [hmo x hx2 hx3]
      exact h.geo.word x hx1

/-- A new block at the start of a fresh arena region joins the non-free blocks. -/
theorem inv_extend_core {s : Heap} {bins : Nat → List Nat} {others : List Nat}
    (h : Inv s bins others) (n r v : Nat) (hfr : Fresh s.brk n r)
    (hv : 16 + v / 16 ≤ n) (hvw : v < WORD) :
    Inv (store { s with brk := (n, r) :: s.brk } r v) bins (r :: others) := by
  obtain ⟨hr0, hrw, hfresh⟩ := hfr
  have hold : ∀ a, Blk bins others a → a + 16 + get_size s a ≤ r ∨ r + n ≤ a := by
    intro a ha
    by_contra hcon
    have hx : ∃ x, a ≤ x ∧ x < a + 16 + get_size s a ∧ r ≤ x ∧ x < r + n := by
      by_cases har : a ≤ r
      · exact ⟨r, by omega, by omega, by omega, by omega⟩
      · exact ⟨a, by omega, by omega, by omega, by omega⟩
    obtain ⟨x, h1, h2, h3, h4⟩ := hx
    obtain ⟨q, hq, hq0, hq1, hq2⟩ := h.geo.cover a ha x h1 (by unfold blockEnd HEADER_SIZE; exact h2)
    have := hfresh q hq hq0
    omega
  have hnr : ¬ Blk bins others r := by
    intro hB
    have := hold r hB
    omega
  have hne : ∀ a, Blk bins others a → a ≠ r := by
    rintro a ha rfl
    exact hnr ha
  have hsr : get_size (store { s with brk := (n, r) :: s.brk } r v) r = v / 16 :=
    get_size_store_same _ _ _ hr0
  have hso : ∀ a, a ≠ r →
      get_size (store { s with brk := (n, r) :: s.brk } r v) a = get_size s a := by
    intro a ha
    rw [get_size_store_other _ _ _ _ (Ne.symm ha)]
    rfl
  have hmo : ∀ a, a ≠ r → (store { s with brk := (n, r) :: s.brk } r v).mem a = s.mem a :=
    fun a ha => store_mem_other _ _ _ _ ha
  have hcls : ∀ a, Blk bins (r :: others) a → a = r ∨ (Blk bins others a ∧ a ≠ r) := by
    intro a ha
    rcases ha with ha | ha
    · exact Or.inr ⟨Or.inl ha, hne a (Or.inl ha)⟩
    · rcases List.mem_cons.1 ha with e | ha
      · exact Or.inl e
      · exact Or.inr ⟨Or.inr ha, hne a (Or.inr ha)⟩
  have hc0 : Chains { s with brk := (n, r) :: s.brk } bins := h.chains
  refine ⟨distinct_add h.dist r hnr, ?_, ?_, ?_, ?_, ?_, ?_⟩
  · apply chains_store _ _ _ _ hc0
    intro c hc
    have := hold c (Or.inl hc)
    omega
  · intro k hk x hx
    rw [hmo x (hne x (Or.inl ⟨k, hk, hx⟩))]
    exact h.flags k hk x hx
  · intro x y hx hy hxy
    unfold blockEnd HEADER_SIZE
    rcases hcls x hx with ex | ⟨hx1, hx2⟩ <;> rcases hcls y hy with ey | ⟨hy1, hy2⟩
    · omega
    · subst ex
      have := hold y hy1
      rw [hsr, hso y hy2]
      omega
    · subst ey
      have := hold x hx1
      rw [hsr, hso x hx2]
      omega
    · rw [hso x hx2, hso y hy2]
      have := h.geo.apart x y hx1 hy1 hxy
      unfold blockEnd HEADER_SIZE at this
      exact this
  · intro x hx
    unfold blockEnd HEADER_SIZE
    rcases hcls x hx with ex | ⟨hx1, hx2⟩
    · subst ex
      rw [hsr]
      exact ⟨hr0, by omega⟩
    · rw [hso x hx2]
      have := h.geo.bound x hx1
      unfold blockEnd HEADER_SIZE at this
      exact this
  · intro x hx y h1 h2
    unfold blockEnd HEADER_SIZE at h2
    rcases hcls x hx with ex | ⟨hx1, hx2⟩
    · subst ex
      rw [hsr] at h2
      exact ⟨(n, x), List.mem_cons_self _ _, hr0, h1, by simp only; omega⟩
    · rw [hso x hx2] at h2
      obtain ⟨q, hq, hq'⟩ := h.geo.cover x hx1 y h1 (by unfold blockEnd HEADER_SIZE; exact h2)
      exact ⟨q, List.mem_cons_of_mem _ hq, hq'⟩
  · intro x hx
    rcases hcls x hx with ex | ⟨hx1, hx2⟩
    · subst ex
      rw [store_mem_same]
      exact hvw
    · rw [hmo x hx2]
      exact h.geo.word x hx1

theorem get_size_lt (s : Heap) (b : Nat) (h : s.mem b < WORD) : get_size s b < 2 ^ 60 := by
  unfold get_size WORD at *
  split_ifs <;> omega

theorem mem_eq_of_blk_cons {bins : Nat → List Nat} {others : List Nat} {b : Nat} {s t : Heap}
    (h : ∀ a, Blk bins (b :: others) a → t.mem a = s.mem a) :
    ∀ a, Blk bins others a → t.mem a = s.mem a := by
  intro a ha
  apply h
  rcases ha with ha | ha
  · exact Or.inl ha
  · exact Or.inr (List.mem_cons_of_mem _ ha)

/-- What `split` does to a non-free block `b` when the invariant holds and `ALIGN(n) + 48`
does not wrap around; the remainder is linked in behind the smaller blocks of its bin. -/
theorem split_spec_full {s : Heap} {bins : Nat → List Nat} {others : List Nat} {b : Nat}
    (h : Inv s bins (b :: others)) (n fuel : Nat) (hn : ALIGN n + 48 < WORD)
    (hf : total bins + 1 ≤ fuel) :
    (get_size s b < ALIGN n + 48 → split fuel s b n = .ok b s) ∧
    (ALIGN n + 48 ≤ get_size s b → ∃ pre post s1,
      bins (select_bin_index (get_size s b - ALIGN n - 16)) = pre ++ post ∧
      split fuel s b n = .ok b s1 ∧
      Inv s1 (Function.update bins (select_bin_index (get_size s b - ALIGN n - 16))
        (pre ++ (b + 16 + ALIGN n) :: post)) (b :: others) ∧
      s1.mem b = ALIGN n * 16 + 1 ∧
      s1.mem (b + 16 + ALIGN n) = (get_size s b - ALIGN n - 16) * 16 ∧
      (∀ a, Blk bins others a → s1.mem a = s.mem a) ∧ s1.brk = s.brk ∧
      (∀ x ∈ pre, get_size s x < get_size s b - ALIGN n - 16) ∧
      (∀ x, post.head? = some x → get_size s b - ALIGN n - 16 ≤ get_size s x)) := by
  have hPb : Blk bins (b :: others) b := Or.inr (List.mem_cons_self _ _)
  have hb0 : b ≠ 0 := (h.geo.bound b hPb).1
  have hbnd := (h.geo.bound b hPb).2
  unfold blockEnd HEADER_SIZE at hbnd
  have hS := get_size_lt s b (h.geo.word b hPb)
  have hcond : (ALIGN n + HEADER_SIZE + 32) % WORD = ALIGN n + 48 := by
    unfold HEADER_SIZE
    rw [Nat.mod_eq_of_lt (by omega)]
  constructor
  · intro hlt
    unfold split
    rw [hcond, if_neg (by omega)]
  · intro hge
    have hrem : (get_size s b + WORD - ALIGN n + WORD - HEADER_SIZE) % WORD =
        get_size s b - ALIGN n - 16 := by
      unfold HEADER_SIZE WORD at *
      omega
    have hfb : (b + HEADER_SIZE + ALIGN n) % WORD = b + 16 + ALIGN n := by
      unfold HEADER_SIZE
      rw [Nat.mod_eq_of_lt (by omega)]
    have hf0 : b + 16 + ALIGN n ≠ 0 := by omega
    have hA60 : ALIGN n < 2 ^ 60 := by omega
    have hR60 : get_size s b - ALIGN n - 16 < 2 ^ 60 := by omega
    have hI2 := inv_split_core h (ALIGN n) (b + 16 + ALIGN n) hge rfl (encode (ALIGN n) true)
      (encode (get_size s b - ALIGN n - 16) false) (encode_size _ _ hA60) (encode_lt _ _)
      (encode_size _ _ hR60) (encode_lt _ _)
    have hflag : (store (store s b (encode (ALIGN n) true)) (b + 16 + ALIGN n)
        (encode (get_size s b - ALIGN n - 16) false)).mem (b + 16 + ALIGN n) % 2 = 0 := by
      rw [store_mem_same, encode_flag]
      rfl
    obtain ⟨pre, post, s1, e, hpre, hpost, hr, hI3, hmeta, hbrk⟩ :=
      inv_freelist_add hI2 hflag (get_size s b - ALIGN n - 16) fuel hf
    have hj := select_bin_index_lt (get_size s b - ALIGN n - 16)
    have hmid : ∀ a, IsFree bins a →
        (store (store s b (encode (ALIGN n) true)) (b + 16 + ALIGN n)
          (encode (get_size s b - ALIGN n - 16) false)).mem a = s.mem a := by
      intro a ha
      have hab : a ≠ b := by
        rintro rfl
        obtain ⟨k, hk, hx⟩ := ha
        exact h.dist.other_disj k hk a hx (List.mem_cons_self _ _)
      have haf : a ≠ b + 16 + ALIGN n := by
        have := h.geo.apart a b (Or.inl ha) hPb hab
        unfold blockEnd HEADER_SIZE at this
        omega
      rw [store_mem_other _ _ _ _ haf, store_mem_other _ _ _ _ hab]
    have hremsz : get_size (store (store s b (encode (ALIGN n) true)) (b + 16 + ALIGN n)
        (encode (get_size s b - ALIGN n - 16) false)) (b + 16 + ALIGN n) =
        get_size s b - ALIGN n - 16 := by
      have hg : ∀ (t : Heap), get_size t (b + 16 + ALIGN n) = t.mem (b + 16 + ALIGN n) / 16 := by
        intro t
        simp [get_size, hf0]
      rw [hg, store_mem_same]
      exact encode_size _ _ hR60
    refine ⟨pre, post, s1, e, ?_, hI3, ?_, ?_, ?_, ?_, ?_, ?_⟩
    · unfold split
      rw [hcond, if_pos hge, hrem, hfb]
      simp only [set_block_metadata, hb0, hf0, if_false, Outcome.bind]
      have : ∀ m a, (m * 16 % WORD + Bool.toNat a) % WORD = encode m a := fun _ _ => rfl
      rw [this, this, hr]
    · rw [hmeta b (Or.inr (List.mem_cons_of_mem _ (List.mem_cons_self _ _))),
        store_mem_other _ _ _ _ (by omega), store_mem_same]
      unfold encode WORD
      simp
      omega
    · rw [hmeta _ (Or.inr (List.mem_cons_self _ _)), store_mem_same]
      unfold encode WORD
      simp
      omega
    · intro a ha
      have hab : a ≠ b := by
        rintro rfl
        rcases ha with ⟨k, hk, hx⟩ | ha
        · exact h.dist.other_disj k hk a hx (List.mem_cons_self _ _)
        · exact (List.nodup_cons.1 h.dist.onodup).1 ha
      have haB : Blk bins (b :: others) a := by
        rcases ha with ha | ha
        · exact Or.inl ha
        · exact Or.inr (List.mem_cons_of_mem _ ha)
      have haf : a ≠ b + 16 + ALIGN n := by
        have := h.geo.apart a b haB hPb hab
        unfold blockEnd HEADER_SIZE at this
        omega
      have haB2 : Blk bins ((b + 16 + ALIGN n) :: b :: others) a := by
        rcases haB with ha | ha
        · exact Or.inl ha
        · exact Or.inr (List.mem_cons_of_mem _ ha)
      rw [hmeta a haB2, store_mem_other _ _ _ _ haf, store_mem_other _ _ _ _ hab]
    · rw [hbrk]
      rfl
    · intro x hx
      have := hpre x hx
      rw [hremsz, get_size_congr _ _ x (hmid x ⟨_, hj, e ▸ List.mem_append_left _ hx⟩)] at this
      exact this
    · intro x hx
      have := hpost x hx
      have hxp : x ∈ post := by
        cases post with
        | nil => simp at hx
        | cons y t =>
          simp only [List.head?_cons, Option.some.injEq] at hx
          rw [hx]
          exact List.mem_cons_self _ _
      rw [hremsz, get_size_congr _ _ x (hmid x ⟨_, hj, e ▸ List.mem_append_right _ hxp⟩)] at this
      exact this

/-- What `split` does to a non-free block `b` when the invariant holds and `ALIGN(n) + 48`
does not wrap around. -/
theorem split_spec_gen {s : Heap} {bins : Nat → List Nat} {others : List Nat} {b : Nat}
    (h : Inv s bins (b :: others)) (n fuel : Nat) (hn : ALIGN n + 48 < WORD)
    (hf : total bins + 1 ≤ fuel) :
    (get_size s b < ALIGN n + 48 → split fuel s b n = .ok b s) ∧
    (ALIGN n + 48 ≤ get_size s b → ∃ pre post s1,
      bins (select_bin_index (get_size s b - ALIGN n - 16)) = pre ++ post ∧
      split fuel s b n = .ok b s1 ∧
      Inv s1 (Function.update bins (select_bin_index (get_size s b - ALIGN n - 16))
        (pre ++ (b + 16 + ALIGN n) :: post)) (b :: others) ∧
      s1.mem b = ALIGN n * 16 + 1 ∧
      s1.mem (b + 16 + ALIGN n) = (get_size s b - ALIGN n - 16) * 16 ∧
      (∀ a, Blk bins others a → s1.mem a = s.mem a) ∧ s1.brk = s.brk) := by
  obtain ⟨h1, h2⟩ := split_spec_full h n fuel hn hf
  refine ⟨h1, fun hge => ?_⟩
  obtain ⟨pre, post, s1, e, hr, hI, hmb, hmr, hmeta, hbrk, _⟩ := h2 hge
  exact ⟨pre, post, s1, e, hr, hI, hmb, hmr, hmeta, hbrk⟩

/-- What `split` does to a non-free block `b` when the invariant holds and the request is not
so large that `ALIGN(n) + 48` wraps around. -/
theorem split_spec {s : Heap} {bins : Nat → List Nat} {others : List Nat} {b : Nat}
    (h : Inv s bins (b :: others)) (n fuel : Nat) (hn : n + 64 ≤ WORD)
    (hf : total bins + 1 ≤ fuel) :
    (get_size s b < ALIGN n + 48 → split fuel s b n = .ok b s) ∧
    (ALIGN n + 48 ≤ get_size s b → ∃ pre post s1,
      bins (select_bin_index (get_size s b - ALIGN n - 16)) = pre ++ post ∧
      split fuel s b n = .ok b s1 ∧
      Inv s1 (Function.update bins (select_bin_index (get_size s b - ALIGN n - 16))
        (pre ++ (b + 16 + ALIGN n) :: post)) (b :: others) ∧
      s1.mem b = ALIGN n * 16 + 1 ∧
      s1.mem (b + 16 + ALIGN n) = (get_size s b - ALIGN n - 16) * 16 ∧
      (∀ a, Blk bins others a → s1.mem a = s.mem a) ∧ s1.brk = s.brk) := by
  have hAl : ALIGN n < n + 16 := ALIGN_lt n (by omega)
  exact split_spec_gen h n fuel (by omega) hf

/-- What `extend` does when the arena provider hands out a fresh region. -/
theorem extend_spec {s : Heap} {bins : Nat → List Nat} {others : List Nat}
    (h : Inv s bins others) (csbrk : Nat → Nat) (n : Nat) (hn : n + 64 ≤ WORD)
    (hfr : Fresh s.brk (ALIGN ((n + HEADER_SIZE) % WORD))
      (csbrk (ALIGN ((n + HEADER_SIZE) % WORD)))) :
    ∃ r s1, r = csbrk (ALIGN ((n + HEADER_SIZE) % WORD)) ∧ extend csbrk s n = .ok r s1 ∧
      Inv s1 bins (r :: others) ∧ s1.mem r = encode n false ∧ r + 16 + n ≤ WORD ∧ r ≠ 0 ∧
      (∀ a, Blk bins others a → s1.mem a = s.mem a) ∧
      s1.brk = (ALIGN ((n + HEADER_SIZE) % WORD), r) :: s.brk := by
  have hreq : n + 16 ≤ ALIGN ((n + HEADER_SIZE) % WORD) := by
    unfold HEADER_SIZE
    rw [Nat.mod_eq_of_lt (by omega)]
    exact ALIGN_le _ (by omega)
  have hr0 : csbrk (ALIGN ((n + HEADER_SIZE) % WORD)) ≠ 0 := hfr.1
  have hI := inv_extend_core h _ _ (encode n false) hfr
    (by have := encode_size_le n false; omega) (encode_lt _ _)
  have hnr : ∀ a, Blk bins others a → a ≠ csbrk (ALIGN ((n + HEADER_SIZE) % WORD)) := by
    intro a ha e
    have hd := hI.dist
    rcases ha with ⟨k, hk, hx⟩ | ha
    · exact hd.other_disj k hk a hx (e ▸ List.mem_cons_self _ _)
    · exact (List.nodup_cons.1 hd.onodup).1 (e ▸ ha)
  refine ⟨_, _, rfl, ?_, hI, store_mem_same _ _ _, ?_, hr0, ?_, rfl⟩
  · simp only [extend, hr0, if_false, set_block_metadata, Outcome.bind]
    rfl
  · have := hfr.2.1
    omega
  · intro a ha
    exact store_mem_other _ _ _ _ (hnr a ha)

/-- What `allocate` does to a non-free block. -/
theorem allocate_spec {s : Heap} {bins : Nat → List Nat} {others : List Nat} {b : Nat}
    (h : Inv s bins (b :: others)) :
    ∃ s1, allocate s b = .ok () s1 ∧ Inv s1 bins (b :: others) ∧ s1.mem b % 2 = 1 ∧
      get_size s1 b = get_size s b ∧ (∀ a, a ≠ b → s1.mem a = s.mem a) ∧ s1.brk = s.brk := by
  have hPb : Blk bins (b :: others) b := Or.inr (List.mem_cons_self _ _)
  have hb0 : b ≠ 0 := (h.geo.bound b hPb).1
  have hw := h.geo.word b hPb
  by_cases hfl : s.mem b % 2 = 1
  · refine ⟨s, ?_, h, hfl, rfl, fun _ _ => rfl, rfl⟩
    simp [allocate, is_allocated, hb0, hfl]
  · have hv : (s.mem b + 1) % WORD = s.mem b + 1 := by
      unfold WORD at *
      omega
    refine ⟨store s b (s.mem b + 1), ?_, ?_, ?_, ?_, ?_, rfl⟩
    · simp [allocate, is_allocated, hb0, hfl, hv]
    · apply inv_store_meta h
      · omega
      · unfold WORD at *
        omega
    · rw [store_mem_same]
      omega
    · rw [get_size_store_same _ _ _ hb0]
      simp only [get_size, hb0, ne_eq, not_false_eq_true, if_true]
      omega
    · intro a ha
      exact store_mem_other _ _ _ _ ha

/-- What `deallocate` does to a non-free block. -/
theorem deallocate_spec {s : Heap} {bins : Nat → List Nat} {others : List Nat} {b : Nat}
    (h : Inv s bins (b :: others)) :
    ∃ s1, deallocate s b = .ok () s1 ∧ Inv s1 bins (b :: others) ∧ s1.mem b % 2 = 0 ∧
      get_size s1 b = get_size s b ∧ (∀ a, a ≠ b → s1.mem a = s.mem a) ∧ s1.brk = s.brk := by
  have hPb : Blk bins (b :: others) b := Or.inr (List.mem_cons_self _ _)
  have hb0 : b ≠ 0 := (h.geo.bound b hPb).1
  have hw := h.geo.word b hPb
  by_cases hfl : s.mem b % 2 = 1
  · have hv : (s.mem b + WORD - 1) % WORD = s.mem b - 1 := by
      unfold WORD at *
      omega
    refine ⟨store s b (s.mem b - 1), ?_, ?_, ?_, ?_, ?_, rfl⟩
    · simp [deallocate, is_allocated, hb0, hfl, hv]
    · apply inv_store_meta h
      · omega
      · unfold WORD at *
        omega
    · rw [store_mem_same]
      omega
    · rw [get_size_store_same _ _ _ hb0]
      simp only [get_size, hb0, ne_eq, not_false_eq_true, if_true]
      omega
    · intro a ha
      exact store_mem_other _ _ _ _ ha
  · refine ⟨s, ?_, h, by omega, rfl, fun _ _ => rfl, rfl⟩
    simp [deallocate, is_allocated, hb0, hfl]

theorem total_remove (bins : Nat → List Nat) (i : Nat) (hi : i < 4) (pre post : List Nat)
    (b : Nat) (hb : bins i = pre ++ b :: post) :
    total (Function.update bins i (pre ++ post)) + 1 = total bins := by
  have := total_update bins i hi (pre ++ post)
  rw [hb] at this
  simp only [List.length_append, List.length_cons] at this
  omega

theorem total_insert (bins : Nat → List Nat) (i : Nat) (hi : i < 4) (pre post : List Nat)
    (b : Nat) (hb : bins i = pre ++ post) :
    total (Function.update bins i (pre ++ b :: post)) = total bins + 1 := by
  have := total_update bins i hi (pre ++ b :: post)
  rw [hb] at this
  simp only [List.length_append, List.length_cons] at this
  omega

theorem weight_append (s : Heap) (g : Nat) (L1 L2 : List Nat) :
    weight s g (L1 ++ L2) = weight s g L1 + weight s g L2 := by
  simp [weight]

theorem weight_cons (s : Heap) (g : Nat) (a : Nat) (L : List Nat) :
    weight s g (a :: L) = get_size s a + 16 + g + weight s g L := by
  simp [weight]

theorem weight_congr (s t : Heap) (g : Nat) (L : List Nat)
    (h : ∀ a ∈ L, get_size t a = get_size s a) : weight t g L = weight s g L := by
  unfold weight
  congr 1
  apply List.map_congr_left
  intro a ha
  rw [h a ha]

theorem weight_all_congr (s t : Heap) (g : Nat) (bins : Nat → List Nat)
    (h : ∀ a, IsFree bins a → get_size t a = get_size s a) : Weight t g bins = Weight s g bins := by
  unfold Weight
  rw [weight_congr s t g (bins 0) fun a ha => h a ⟨0, by omega, ha⟩,
    weight_congr s t g (bins 1) fun a ha => h a ⟨1, by omega, ha⟩,
    weight_congr s t g (bins 2) fun a ha => h a ⟨2, by omega, ha⟩,
    weight_congr s t g (bins 3) fun a ha => h a ⟨3, by omega, ha⟩]

theorem weight_update (s : Heap) (g : Nat) (bins : Nat → List Nat) (i : Nat) (hi : i < 4)
    (X : List Nat) :
    Weight s g (Function.update bins i X) + weight s g (bins i) = Weight s g bins + weight s g X := by
  unfold Weight
  interval_cases i <;> simp [Function.update] <;> omega

theorem weight_remove (s : Heap) (g : Nat) (bins : Nat → List Nat) (i : Nat) (hi : i < 4)
    (pre post : List Nat) (b : Nat) (hb : bins i = pre ++ b :: post) :
    Weight s g (Function.update bins i (pre ++ post)) + (get_size s b + 16 + g) =
      Weight s g bins := by
  have := weight_update s g bins i hi (pre ++ post)
  rw [hb] at this
  simp only [weight_append, weight_cons] at this
  omega

theorem weight_insert (s : Heap) (g : Nat) (bins : Nat → List Nat) (i : Nat) (hi : i < 4)
    (pre post : List Nat) (b : Nat) (hb : bins i = pre ++ post) :
    Weight s g (Function.update bins i (pre ++ b :: post)) =
      Weight s g bins + (get_size s b + 16 + g) := by
  have := weight_update s g bins i hi (pre ++ b :: post)
  rw [hb] at this
  simp only [weight_append, weight_cons] at this
  omega

/-- In a small arena every known block ends below `2 ^ 60`. -/
theorem geo_small {s : Heap} {P : Nat → Prop} (h : Geo s P) (hs : SmallArena s.brk) (a : Nat)
    (ha : P a) : blockEnd s a ≤ 2 ^ 60 := by
  have hlt : a ≤ blockEnd s a - 1 ∧ blockEnd s a - 1 < blockEnd s a := by
    unfold blockEnd HEADER_SIZE
    omega
  obtain ⟨q, hq, hq0, _, h2⟩ := h.cover a ha (blockEnd s a - 1) hlt.1 hlt.2
  have := hs q hq hq0
  omega

theorem get_size_store_encode (s : Heap) (u m : Nat) (hu : u ≠ 0) (hm : m < 2 ^ 60) :
    get_size (store s u (encode m false)) u = m := by
  simp only [get_size, hu, ne_eq, not_false_eq_true, if_true, store_mem_same]
  exact encode_size m false hm

/-- What `coalesce` does to a non-free block with a clear flag: it returns (given enough fuel)
a block `r` that has no address-adjacent neighbour in the bin of its own size; in a small arena
the block `r` is at least as large as the block that was passed in. -/
theorem coalesce_loop_spec_full (others : List Nat) :
    ∀ fuel s bins c, Inv s bins (c :: others) → s.mem c % 2 = 0 → total bins + 2 ≤ fuel →
    ∃ r bins1 s1, coalesce_loop fuel s c = .ok r s1 ∧ Inv s1 bins1 (r :: others) ∧
      s1.mem r % 2 = 0 ∧ total bins1 ≤ total bins ∧
      (∀ a ∈ others, s1.mem a = s.mem a) ∧ s1.brk = s.brk ∧
      (∀ x ∈ bins1 (select_bin_index (get_size s1 r)),
        x + 16 + get_size s1 x ≠ r ∧ r + 16 + get_size s1 r ≠ x) ∧
      (∀ a, IsFree bins1 a → IsFree bins a) ∧
      (∀ a, IsFree bins1 a → s1.mem a = s.mem a) ∧
      (∀ i, i < 4 → ∀ a ∈ bins1 i, a ∈ bins i) ∧
      (∀ i, i < 4 → (bins1 i).Sublist (bins i)) ∧
      (SmallArena s.brk → get_size s c ≤ get_size s1 r ∧
        Weight s1 0 bins1 + get_size s1 r = Weight s 0 bins + get_size s c ∧
        r ≤ c ∧ blockEnd s c ≤ blockEnd s1 r ∧
        ∀ i, i < 4 → ∀ y ∈ bins i, y ∈ bins1 i ∨ (r ≤ y ∧ blockEnd s y ≤ blockEnd s1 r)) := by
  intro fuel
  induction fuel with
  | zero =>
    intro s bins c _ _ hf
    omega
  | succ fuel ih =>
    intro s bins c h hflag hf
    have hPc : Blk bins (c :: others) c := Or.inr (List.mem_cons_self _ _)
    have hc0 : c ≠ 0 := (h.geo.bound c hPc).1
    have hcb := (h.geo.bound c hPc).2
    unfold blockEnd HEADER_SIZE at hcb
    have hidx := select_bin_index_lt (get_size s c)
    generalize hidxd : select_bin_index (get_size s c) = idx at hidx
    have hcn : c ∉ bins idx := fun hx => h.dist.other_disj idx hidx c hx (List.mem_cons_self _ _)
    have hlen := length_le_total bins idx hidx
    have hxb : ∀ x, x ∈ bins idx → x ≠ 0 ∧ x + 16 + get_size s x ≤ WORD := by
      intro x hx
      have := h.geo.bound x (Or.inl ⟨idx, hidx, hx⟩)
      unfold blockEnd HEADER_SIZE at this
      exact this
    rcases coalesce_scan_spec idx c s hc0 (bins idx) fuel 0 (s.free_heads idx)
        (h.chains idx hidx) (by omega) hcn with ⟨ha, hr⟩ | ⟨pre, x, post, e, _, hcase⟩
    · refine ⟨c, bins, s, ?_, h, hflag, le_refl _, fun _ _ => rfl, rfl, ?_, fun _ ha => ha,
        fun _ _ => rfl, fun _ _ _ ha => ha, fun _ _ => List.Sublist.refl _,
        fun _ => ⟨le_refl _, rfl, le_refl _, le_refl _, fun _ _ _ hy => Or.inl hy⟩⟩
      · simp [coalesce_loop, hidxd, hr]
      · rw [hidxd]
        intro x hx
        have h1 := ha x hx
        have h2 := hxb x hx
        unfold adjBefore adjAfter HEADER_SIZE at h1
        constructor
        · intro e
          apply h1.1
          rw [Nat.mod_eq_of_lt (by omega)]
          omega
        · intro e
          apply h1.2
          rw [Nat.mod_eq_of_lt (by omega)]
          omega
    · have hxi : x ∈ bins idx := by rw [e]; simp
      have hPx : Blk bins (c :: others) x := Or.inl ⟨idx, hidx, hxi⟩
      have hx0 := (hxb x hxi).1
      have hxbd := (hxb x hxi).2
      obtain ⟨hU, hmeta⟩ := inv_unlink h idx hidx pre post x e
      have hl : lastOr 0 pre = 0 ∨ ∀ a, Blk bins (c :: others) a → a ≠ lastOr 0 pre + 8 := by
        by_cases hp : pre = []
        · left
          rw [hp, lastOr_nil]
        · right
          intro a ha
          have hl := lastOr_mem 0 pre hp
          have hPl : Blk bins (c :: others) (lastOr 0 pre) :=
            Or.inl ⟨idx, hidx, e ▸ List.mem_append_left _ hl⟩
          exact (geo_link_ne h.geo _ a hPl ha).symm
      have htot := total_remove bins idx hidx pre post x e
      have hsx : get_size (unlink s idx (lastOr 0 pre) x) x = get_size s x :=
        get_size_congr _ _ _ (hmeta x hPx)
      have hsc : get_size (unlink s idx (lastOr 0 pre) x) c = get_size s c :=
        get_size_congr _ _ _ (hmeta c hPc)
      have hxo : ∀ a ∈ others, a ≠ x ∧ a ≠ c := by
        intro a ha
        constructor
        · rintro rfl
          exact h.dist.other_disj idx hidx a hxi (List.mem_cons_of_mem _ ha)
        · rintro rfl
          exact (List.nodup_cons.1 h.dist.onodup).1 ha
      have hfree : ∀ a, IsFree (Function.update bins idx (pre ++ post)) a → IsFree bins a := by
        intro a ha
        have := blk_move_out bins (c :: others) idx hidx pre post x e a (Or.inl ha)
        rcases this with h1 | h1
        · exact h1
        · obtain ⟨k, hk, hm⟩ := ha
          exact absurd (List.mem_cons_of_mem _ h1) (hU.dist.other_disj k hk a hm)
      have hsubbin : ∀ i a, a ∈ Function.update bins idx (pre ++ post) i → a ∈ bins i := by
        intro i a ha
        rcases (mem_update_bins _ _ _ _ _).1 ha with ⟨rfl, hy⟩ | ⟨_, hy⟩
        · rw [e]
          rcases List.mem_append.1 hy with hy | hy
          · exact List.mem_append_left _ hy
          · exact List.mem_append_right _ (List.mem_cons_of_mem _ hy)
        · exact hy
      have hkeep : ∀ i, i < 4 → ∀ y ∈ bins i, y ≠ x →
          y ∈ Function.update bins idx (pre ++ post) i := by
        intro i _ y hy hyx
        rw [mem_update_bins]
        by_cases hi2 : i = idx
        · left
          refine ⟨hi2, ?_⟩
          rw [hi2, e] at hy
          rcases List.mem_append.1 hy with hy | hy
          · exact List.mem_append_left _ hy
          · rcases List.mem_cons.1 hy with hy | hy
            · exact absurd hy hyx
            · exact List.mem_append_right _ hy
        · exact Or.inr ⟨hi2, hy⟩
      rcases hcase with ⟨hA, hr⟩ | ⟨_, hB, hr⟩
      · -- the list block `x` ends where `c` begins: `x` absorbs `c`
        unfold adjBefore HEADER_SIZE at hA
        have hadj : x + 16 + get_size s x = c := by
          by_cases hlt : x + get_size s x + 16 < WORD
          · rw [Nat.mod_eq_of_lt hlt] at hA
            omega
          · have : x + get_size s x + 16 = WORD := by omega
            rw [this, Nat.mod_self] at hA
            omega
        have hcomm := unlink_store_comm s idx (lastOr 0 pre) x x
          (encode ((get_size s x + get_size s c + HEADER_SIZE) % WORD) false) (by omega)
          (hl.imp id (fun hh => hh x hPx))
        rw [hcomm] at hr
        obtain ⟨hI2, hm2⟩ := inv_absorb hU (by unfold HEADER_SIZE; rw [hsx]; exact hadj)
          (encode ((get_size s x + get_size s c + HEADER_SIZE) % WORD) false)
          (by
            rw [hsx, hsc]
            have := encode_size_le ((get_size s x + get_size s c + HEADER_SIZE) % WORD) false
            have := Nat.mod_le (get_size s x + get_size s c + HEADER_SIZE) WORD
            omega)
          (encode_lt _ _)
        obtain ⟨r, bins1, s1, hr1, hI1, hf1, ht1, ho1, hb1, hadj1, hfr1, hfm1, hbs1, hsl1,
            hsz1⟩ :=
          ih _ _ x hI2 (by rw [store_mem_same, encode_flag]; rfl) (by omega)
        have hfm : ∀ a, IsFree (Function.update bins idx (pre ++ post)) a →
            (store (unlink s idx (lastOr 0 pre) x) x
              (encode ((get_size s x + get_size s c + HEADER_SIZE) % WORD) false)).mem a =
            s.mem a := by
          intro a ha
          have hax : a ≠ x := by
            rintro rfl
            obtain ⟨k, hk, hm⟩ := ha
            exact hU.dist.other_disj k hk a hm (List.mem_cons_self _ _)
          rw [hm2 a hax]
          exact hmeta a (Or.inl (hfree a ha))
        refine ⟨r, bins1, s1, ?_, hI1, hf1, by omega, ?_, ?_, hadj1,
          fun a ha => hfree a (hfr1 a ha), fun a ha => (hfm1 a ha).trans (hfm a (hfr1 a ha)),
          fun i hi a ha => hsubbin i a (hbs1 i hi a ha),
          fun i hi => (hsl1 i hi).trans (update_remove_sublist bins idx pre post x e i hi), ?_⟩
        · simp only [coalesce_loop, hidxd, hr]
          exact hr1
        · intro a ha
          rw [ho1 a ha, hm2 a (hxo a ha).1]
          exact hmeta a (Or.inr (List.mem_cons_of_mem _ ha))
        · rw [hb1]
          exact unlink_brk _ _ _ _
        · intro hsm
          have hce := geo_small h.geo hsm c hPc
          unfold blockEnd HEADER_SIZE at hce
          have hmod : (get_size s x + get_size s c + 16) % WORD =
              get_size s x + get_size s c + 16 := Nat.mod_eq_of_lt (by omega)
          have hnew := get_size_store_encode (unlink s idx (lastOr 0 pre) x) x
            (get_size s x + get_size s c + 16) hx0 (by omega)
          obtain ⟨hle, hacc, hrc, hend, hgeo⟩ := hsz1 (by
            show SmallArena (unlink s idx (lastOr 0 pre) x).brk
            rw [unlink_brk]
            exact hsm)
          have hgeo2 : ∀ i, i < 4 → ∀ y ∈ bins i, y ≠ x →
              y ∈ bins1 i ∨ (r ≤ y ∧ blockEnd s y ≤ blockEnd s1 r) := by
            intro i hi y hy hyx
            have hy2 := hkeep i hi y hy hyx
            rcases hgeo i hi y hy2 with h1 | ⟨h1, h2⟩
            · exact Or.inl h1
            · rw [blockEnd_congr s _ y (hfm y ⟨i, hi, hy2⟩)] at h2
              exact Or.inr ⟨h1, h2⟩
          rw [weight_all_congr s _ 0 _ fun a ha => get_size_congr _ _ _ (hfm a ha)] at hacc
          unfold blockEnd at hend
          unfold HEADER_SIZE at hle hacc hend
          rw [hmod, hnew] at hle hacc hend
          have hrem := weight_remove s 0 bins idx hidx pre post x e
          have hbe : blockEnd s c ≤ blockEnd s1 r := by
            unfold blockEnd HEADER_SIZE
            omega
          refine ⟨by omega, by omega, by omega, hbe, ?_⟩
          intro i hi y hy
          by_cases hyx : y = x
          · subst hyx
            right
            refine ⟨hrc, le_trans ?_ hbe⟩
            unfold blockEnd HEADER_SIZE
            omega
          · exact hgeo2 i hi y hy hyx
      · -- `c` ends where the list block `x` begins: `c` absorbs `x`
        unfold adjAfter HEADER_SIZE at hB
        have hadj : c + 16 + get_size s c = x := by
          by_cases hlt : c + get_size s c + 16 < WORD
          · rw [Nat.mod_eq_of_lt hlt] at hB
            omega
          · have : c + get_size s c + 16 = WORD := by omega
            rw [this, Nat.mod_self] at hB
            omega
        have hcomm := unlink_store_comm s idx (lastOr 0 pre) x c
          (encode ((get_size s c + get_size s x + HEADER_SIZE) % WORD) false)
          (geo_link_ne h.geo x c hPx hPc).symm (hl.imp id (fun hh => hh c hPc))
        rw [hcomm] at hr
        have hU2 : Inv (unlink s idx (lastOr 0 pre) x) (Function.update bins idx (pre ++ post))
            (c :: x :: others) := inv_perm hU (List.Perm.swap _ _ _)
        obtain ⟨hI2, hm2⟩ := inv_absorb hU2 (by unfold HEADER_SIZE; rw [hsc]; exact hadj)
          (encode ((get_size s c + get_size s x + HEADER_SIZE) % WORD) false)
          (by
            rw [hsx, hsc]
            have := encode_size_le ((get_size s c + get_size s x + HEADER_SIZE) % WORD) false
            have := Nat.mod_le (get_size s c + get_size s x + HEADER_SIZE) WORD
            omega)
          (encode_lt _ _)
        obtain ⟨r, bins1, s1, hr1, hI1, hf1, ht1, ho1, hb1, hadj1, hfr1, hfm1, hbs1, hsl1,
            hsz1⟩ :=
          ih _ _ c hI2 (by rw [store_mem_same, encode_flag]; rfl) (by omega)
        have hfm : ∀ a, IsFree (Function.update bins idx (pre ++ post)) a →
            (store (unlink s idx (lastOr 0 pre) x) c
              (encode ((get_size s c + get_size s x + HEADER_SIZE) % WORD) false)).mem a =
            s.mem a := by
          intro a ha
          have hac : a ≠ c := by
            rintro rfl
            obtain ⟨k, hk, hm⟩ := ha
            exact hU2.dist.other_disj k hk a hm (List.mem_cons_self _ _)
          rw [hm2 a hac]
          exact hmeta a (Or.inl (hfree a ha))
        refine ⟨r, bins1, s1, ?_, hI1, hf1, by omega, ?_, ?_, hadj1,
          fun a ha => hfree a (hfr1 a ha), fun a ha => (hfm1 a ha).trans (hfm a (hfr1 a ha)),
          fun i hi a ha => hsubbin i a (hbs1 i hi a ha),
          fun i hi => (hsl1 i hi).trans (update_remove_sublist bins idx pre post x e i hi), ?_⟩
        · simp only [coalesce_loop, hidxd, hr]
          exact hr1
        · intro a ha
          rw [ho1 a ha, hm2 a (hxo a ha).2]
          exact hmeta a (Or.inr (List.mem_cons_of_mem _ ha))
        · rw [hb1]
          exact unlink_brk _ _ _ _
        · intro hsm
          have hxe := geo_small h.geo hsm x hPx
          unfold blockEnd HEADER_SIZE at hxe
          have hmod : (get_size s c + get_size s x + 16) % WORD =
              get_size s c + get_size s x + 16 := Nat.mod_eq_of_lt (by omega)
          have hnew := get_size_store_encode (unlink s idx (lastOr 0 pre) x) c
            (get_size s c + get_size s x + 16) hc0 (by omega)
          obtain ⟨hle, hacc, hrc, hend, hgeo⟩ := hsz1 (by
            show SmallArena (unlink s idx (lastOr 0 pre) x).brk
            rw [unlink_brk]
            exact hsm)
          have hgeo2 : ∀ i, i < 4 → ∀ y ∈ bins i, y ≠ x →
              y ∈ bins1 i ∨ (r ≤ y ∧ blockEnd s y ≤ blockEnd s1 r) := by
            intro i hi y hy hyx
            have hy2 := hkeep i hi y hy hyx
            rcases hgeo i hi y hy2 with h1 | ⟨h1, h2⟩
            · exact Or.inl h1
            · rw [blockEnd_congr s _ y (hfm y ⟨i, hi, hy2⟩)] at h2
              exact Or.inr ⟨h1, h2⟩
          rw [weight_all_congr s _ 0 _ fun a ha => get_size_congr _ _ _ (hfm a ha)] at hacc
          unfold blockEnd at hend
          unfold HEADER_SIZE at hle hacc hend
          rw [hmod, hnew] at hle hacc hend
          have hrem := weight_remove s 0 bins idx hidx pre post x e
          have hbe : blockEnd s x ≤ blockEnd s1 r := by
            unfold blockEnd HEADER_SIZE
            omega
          refine ⟨by omega, by omega, hrc, ?_, ?_⟩
          · unfold blockEnd HEADER_SIZE
            omega
          · intro i hi y hy
            by_cases hyx : y = x
            · subst hyx
              exact Or.inr ⟨by omega, hbe⟩
            · exact hgeo2 i hi y hy hyx

/-- What `coalesce` does to a non-free block with a clear flag: it returns (given enough fuel)
a block `r` that has no address-adjacent neighbour in the bin of its own size. -/
theorem coalesce_loop_spec (others : List Nat) :
    ∀ fuel s bins c, Inv s bins (c :: others) → s.mem c % 2 = 0 → total bins + 2 ≤ fuel →
    ∃ r bins1 s1, coalesce_loop fuel s c = .ok r s1 ∧ Inv s1 bins1 (r :: others) ∧
      s1.mem r % 2 = 0 ∧ total bins1 ≤ total bins ∧
      (∀ a ∈ others, s1.mem a = s.mem a) ∧ s1.brk = s.brk ∧
      (∀ x ∈ bins1 (select_bin_index (get_size s1 r)),
        x + 16 + get_size s1 x ≠ r ∧ r + 16 + get_size s1 r ≠ x) ∧
      (∀ a, IsFree bins1 a → IsFree bins a) := by
  intro fuel s bins c h hflag hf
  obtain ⟨r, bins1, s1, h1, h2, h3, h4, h5, h6, h7, h8, _⟩ :=
    coalesce_loop_spec_full others fuel s bins c h hflag hf
  exact ⟨r, bins1, s1, h1, h2, h3, h4, h5, h6, h7, h8⟩

theorem get_payload_eq (b : Nat) (h : b + 16 < WORD) : get_payload b = b + 16 := by
  unfold get_payload HEADER_SIZE
  exact Nat.mod_eq_of_lt h

theorem get_header_eq (b : Nat) (h : b + 16 < WORD) : get_header (b + 16) = b := by
  unfold get_header HEADER_SIZE WORD at *
  omega

/-- What the part of `umalloc` after `find` or `extend` does; sorted bins stay sorted and
blocks stay in the bin of their size. -/
theorem umalloc_tail_full {s : Heap} {bins : Nat → List Nat} {others : List Nat} {b : Nat}
    (h : Inv s bins (b :: others)) (n fuel : Nat) (hn : n + 64 ≤ WORD)
    (hf : total bins + 1 ≤ fuel) (hpay : 0 < get_size s b ∨ b + 16 < WORD) :
    ∃ bins1 s1, umalloc_tail fuel s b n = .ok (b + 16) s1 ∧ Inv s1 bins1 (b :: others) ∧
      s1.mem b % 2 = 1 ∧ b + 16 < WORD ∧ (n ≤ get_size s b → n ≤ get_size s1 b) ∧
      (∀ a, Blk bins others a → s1.mem a = s.mem a) ∧ s1.brk = s.brk ∧
      total bins1 ≤ total bins + 1 ∧ (∀ a, IsFree bins a → IsFree bins1 a) ∧
      (SortedBins s bins → SortedBins s1 bins1) ∧ (BinsMatch s bins → BinsMatch s1 bins1) ∧
      (AlignedSizes s bins (b :: others) → AlignedSizes s1 bins1 (b :: others)) := by
  have hPb : Blk bins (b :: others) b := Or.inr (List.mem_cons_self _ _)
  have hb0 : b ≠ 0 := (h.geo.bound b hPb).1
  have hbnd := (h.geo.bound b hPb).2
  unfold blockEnd HEADER_SIZE at hbnd
  have hAl : n ≤ ALIGN n := ALIGN_le n (by omega)
  have hb16 : b + 16 < WORD := by
    rcases hpay with hp | hp
    · omega
    · exact hp
  have hnb : ∀ a, Blk bins others a → a ≠ b := by
    rintro a ha rfl
    rcases ha with ⟨k, hk, hx⟩ | ha
    · exact h.dist.other_disj k hk a hx (List.mem_cons_self _ _)
    · exact (List.nodup_cons.1 h.dist.onodup).1 ha
  have hAl2 : ALIGN n < n + 16 := ALIGN_lt n (by omega)
  obtain ⟨hs1, hs2⟩ := split_spec_full h n fuel (by omega) hf
  by_cases hc : get_size s b < ALIGN n + 48
  · obtain ⟨s1, ha, hI, hfl, hsz, hmo, hbrk⟩ := allocate_spec h
    have hfsz : ∀ a, IsFree bins a → get_size s1 a = get_size s a := fun a ha =>
      get_size_congr s s1 a (hmo a (hnb a (Or.inl ha)))
    refine ⟨bins, s1, ?_, hI, hfl, hb16, fun hh => by omega, fun a ha => hmo a (hnb a ha), hbrk,
      by omega, fun _ ha => ha, sortedBins_sublist (fun _ _ => List.Sublist.refl _) hfsz,
      binsMatch_sublist (fun _ _ => List.Sublist.refl _) hfsz, ?_⟩
    · simp only [umalloc_tail, hs1 hc, Outcome.bind, ha, get_payload_eq b hb16]
    · intro hA a ha2
      by_cases hab : a = b
      · rw [hab, hsz]
        exact hA b hPb
      · rw [get_size_congr s s1 a (hmo a hab)]
        exact hA a ha2
  · obtain ⟨pre, post, s2, e, hr, hI2, hmb, hmrem, hmeta, hbrk2, hpre, hpost⟩ := hs2 (by omega)
    obtain ⟨s1, ha, hI, hfl, hsz, hmo, hbrk⟩ := allocate_spec hI2
    have hj := select_bin_index_lt (get_size s b - ALIGN n - 16)
    have hfsz : ∀ a, IsFree bins a → get_size s1 a = get_size s a := by
      intro a ha
      apply get_size_congr s s1 a
      rw [hmo a (hnb a (Or.inl ha))]
      exact hmeta a (Or.inl ha)
    have hrem0 : b + 16 + ALIGN n ≠ 0 := by omega
    have hremsz : get_size s1 (b + 16 + ALIGN n) = get_size s b - ALIGN n - 16 := by
      have hg : get_size s1 (b + 16 + ALIGN n) = s1.mem (b + 16 + ALIGN n) / 16 := by
        simp [get_size]
      rw [hg, hmo _ (by omega), hmrem]
      omega
    have hpre1 : ∀ x ∈ pre, get_size s1 x < get_size s1 (b + 16 + ALIGN n) := by
      intro x hx
      rw [hremsz, hfsz x ⟨_, hj, e ▸ List.mem_append_left _ hx⟩]
      exact hpre x hx
    have hpost1 : ∀ x, post.head? = some x →
        get_size s1 (b + 16 + ALIGN n) ≤ get_size s1 x := by
      intro x hx
      have hxp : x ∈ post := by
        cases post with
        | nil => simp at hx
        | cons y t =>
          simp only [List.head?_cons, Option.some.injEq] at hx
          rw [hx]
          exact List.mem_cons_self _ _
      rw [hremsz, hfsz x ⟨_, hj, e ▸ List.mem_append_right _ hxp⟩]
      exact hpost x hx
    refine ⟨_, s1, ?_, hI, hfl, hb16, ?_, ?_, by rw [hbrk, hbrk2], ?_, ?_,
      fun hS => sortedBins_insert _ hj pre post _ e hpre1 hpost1
        (sortedBins_sublist (fun _ _ => List.Sublist.refl _) hfsz hS),
      fun hM => binsMatch_insert _ pre post _ e (by rw [hremsz])
        (binsMatch_sublist (fun _ _ => List.Sublist.refl _) hfsz hM), ?_⟩
    · simp only [umalloc_tail, hr, Outcome.bind, ha, get_payload_eq b hb16]
    · intro _
      rw [hsz]
      simp only [get_size, hb0, ne_eq, not_false_eq_true, if_true, hmb]
      omega
    · intro a ha
      rw [hmo a (hnb a ha)]
      exact hmeta a ha
    · rw [total_insert bins _ hj pre post _ e]
    · rintro a ⟨k, hk, hx⟩
      refine ⟨k, hk, ?_⟩
      rw [mem_update_bins]
      by_cases ek : k = select_bin_index (get_size s b - ALIGN n - 16)
      · left
        refine ⟨ek, ?_⟩
        rw [ek, e] at hx
        rcases List.mem_append.1 hx with hx | hx
        · exact List.mem_append_left _ hx
        · exact List.mem_append_right _ (List.mem_cons_of_mem _ hx)
      · exact Or.inr ⟨ek, hx⟩
    · intro hA a ha2
      have hSb := hA b hPb
      have hold : ∀ x, Blk bins others x → get_size s1 x % ALIGNMENT = 0 := by
        intro x hx
        have hm : s1.mem x = s.mem x := by
          rw [hmo x (hnb x hx)]
          exact hmeta x hx
        rw [get_size_congr s s1 x hm]
        rcases hx with hx | hx
        · exact hA x (Or.inl hx)
        · exact hA x (Or.inr (List.mem_cons_of_mem _ hx))
      have hnew : get_size s1 (b + 16 + ALIGN n) % ALIGNMENT = 0 := by
        rw [hremsz]
        unfold ALIGN ALIGNMENT WORD at *
        omega
      have hfront : get_size s1 b % ALIGNMENT = 0 := by
        rw [hsz]
        simp only [get_size, hb0, ne_eq, not_false_eq_true, if_true, hmb]
        unfold ALIGN ALIGNMENT WORD
        omega
      rcases blk_move_in bins (b :: others) _ pre post _ e a ha2 with hx | hx
      · exact hold a (Or.inl hx)
      · rcases List.mem_cons.1 hx with hx | hx
        · rw [hx]
          exact hnew
        · rcases List.mem_cons.1 hx with hx | hx
          · rw [hx]
            exact hfront
          · exact hold a (Or.inr hx)

theorem umalloc_tail_spec {s : Heap} {bins : Nat → List Nat} {others : List Nat} {b : Nat}
    (h : Inv s bins (b :: others)) (n fuel : Nat) (hn : n + 64 ≤ WORD)
    (hf : total bins + 1 ≤ fuel) (hpay : 0 < get_size s b ∨ b + 16 < WORD) :
    ∃ bins1 s1, umalloc_tail fuel s b n = .ok (b + 16) s1 ∧ Inv s1 bins1 (b :: others) ∧
      s1.mem b % 2 = 1 ∧ b + 16 < WORD ∧ (n ≤ get_size s b → n ≤ get_size s1 b) ∧
      (∀ a, Blk bins others a → s1.mem a = s.mem a) ∧ s1.brk = s.brk ∧
      total bins1 ≤ total bins + 1 ∧ (∀ a, IsFree bins a → IsFree bins1 a) := by
  obtain ⟨bins1, s1, h1, h2, h3, h4, h5, h6, h7, h8, h9, _⟩ :=
    umalloc_tail_full h n fuel hn hf hpay
  exact ⟨bins1, s1, h1, h2, h3, h4, h5, h6, h7, h8, h9⟩

theorem umalloc_eq_tail_found (csbrk : Nat → Nat) (fuel : Nat) (s s1 : Heap) (n b : Nat)
    (hfind : find fuel s n = .ok b s1) (hb : b ≠ 0) :
    umalloc csbrk fuel s n = umalloc_tail fuel s1 b n := by
  simp [umalloc, hfind, Outcome.bind, hb, umalloc_tail]

theorem umalloc_eq_tail_grown (csbrk : Nat → Nat) (fuel : Nat) (s s1 s2 : Heap) (n r : Nat)
    (hfind : find fuel s n = .ok 0 s1) (hext : extend csbrk s1 n = .ok r s2) :
    umalloc csbrk fuel s n = umalloc_tail fuel s2 r n := by
  simp [umalloc, hfind, Outcome.bind, hext, umalloc_tail]

/-- What `umalloc` does in a state that satisfies the invariant, for a request that does not
wrap around and an arena provider that would hand out a fresh region; sorted bins stay sorted
and blocks stay in the bin of their size. -/
theorem umalloc_full {s : Heap} {bins : Nat → List Nat} {others : List Nat}
    (h : Inv s bins others) (csbrk : Nat → Nat) (n fuel : Nat) (hn0 : 0 < n)
    (hn : n + 64 ≤ WORD) (hf : total bins + 6 ≤ fuel)
    (hfr : Fresh s.brk (ALIGN ((n + HEADER_SIZE) % WORD))
      (csbrk (ALIGN ((n + HEADER_SIZE) % WORD)))) :
    ∃ b bins1 s1, umalloc csbrk fuel s n = .ok (b + 16) s1 ∧ Inv s1 bins1 (b :: others) ∧
      s1.mem b % 2 = 1 ∧ b + 16 < WORD ∧ (n < 2 ^ 60 → n ≤ get_size s1 b) ∧
      (∀ a ∈ others, s1.mem a = s.mem a) ∧ total bins1 ≤ total bins + 1 ∧
      ((∃ sf, find fuel s n = .ok b sf ∧ b ≠ 0 ∧ s1.brk = s.brk) ∨
       (find fuel s n = .ok 0 s ∧ b = csbrk (ALIGN ((n + HEADER_SIZE) % WORD)) ∧
        s1.brk = (ALIGN ((n + HEADER_SIZE) % WORD), b) :: s.brk)) ∧
      (SortedBins s bins → SortedBins s1 bins1) ∧ (BinsMatch s bins → BinsMatch s1 bins1) ∧
      (n % ALIGNMENT = 0 → AlignedSizes s bins others → AlignedSizes s1 bins1 (b :: others)) := by
  rcases find_spec n s bins h.chains fuel hf with
    ⟨hfind, _⟩ | ⟨i, pre, b, post, _, hi, e, _, hsz, _, hfind⟩
  · obtain ⟨r, s2, hrd, hext, hI2, hmr, hrb, hr0, hmeta, hbrk⟩ := extend_spec h csbrk n hn hfr
    obtain ⟨bins1, s1, ht, hI1, hfl, hb16, hsz1, hmo, hbrk1, htot, _, hS, hM, hAt⟩ :=
      umalloc_tail_full hI2 n fuel hn (by omega) (Or.inr (by omega))
    have hfsz : ∀ a, IsFree bins a → get_size s2 a = get_size s a := fun a ha =>
      get_size_congr s s2 a (hmeta a (Or.inl ha))
    have hA2 : n % ALIGNMENT = 0 → AlignedSizes s bins others →
        AlignedSizes s2 bins (r :: others) := by
      intro hn16 hA a ha
      have hold : ∀ x, Blk bins others x → get_size s2 x % ALIGNMENT = 0 := by
        intro x hx
        rw [get_size_congr s s2 x (hmeta x hx)]
        exact hA x hx
      rcases ha with ha | ha
      · exact hold a (Or.inl ha)
      · rcases List.mem_cons.1 ha with ha | ha
        · rw [ha]
          simp only [get_size, hr0, ne_eq, not_false_eq_true, if_true, hmr]
          unfold encode ALIGNMENT WORD at *
          simp only [Bool.toNat_false, Nat.add_zero]
          omega
        · exact hold a (Or.inr ha)
    refine ⟨r, bins1, s1, ?_, hI1, hfl, hb16, ?_, ?_, htot, Or.inr ⟨hfind, hrd, ?_⟩,
      fun h0 => hS (sortedBins_sublist (fun _ _ => List.Sublist.refl _) hfsz h0),
      fun h0 => hM (binsMatch_sublist (fun _ _ => List.Sublist.refl _) hfsz h0),
      fun hn16 hA => hAt (hA2 hn16 hA)⟩
    · rw [umalloc_eq_tail_grown csbrk fuel s s s2 n r hfind hext]
      exact ht
    · intro h60
      apply hsz1
      simp only [get_size, hr0, ne_eq, not_false_eq_true, if_true, hmr]
      rw [encode_size n false h60]
    · intro a ha
      rw [hmo a (Or.inr ha)]
      exact hmeta a (Or.inr ha)
    · rw [hbrk1, hbrk]
  · obtain ⟨hU, hmeta⟩ := inv_unlink h i hi pre post b e
    have hPb : Blk bins others b := Or.inl ⟨i, hi, by rw [e]; simp⟩
    have hb0 : b ≠ 0 := (h.geo.bound b hPb).1
    have hsb : get_size (unlink s i (lastOr 0 pre) b) b = get_size s b :=
      get_size_congr _ _ _ (hmeta b hPb)
    have htr := total_remove bins i hi pre post b e
    obtain ⟨bins1, s1, ht, hI1, hfl, hb16, hsz1, hmo, hbrk1, htot, _, hS, hM, hAt⟩ :=
      umalloc_tail_full hU n fuel hn (by omega) (Or.inl (by omega))
    have hsl := update_remove_sublist bins i pre post b e
    have hfsz : ∀ a, IsFree (Function.update bins i (pre ++ post)) a →
        get_size (unlink s i (lastOr 0 pre) b) a = get_size s a := fun a ha =>
      get_size_congr _ _ a (hmeta a (Or.inl (isFree_of_sublist hsl a ha)))
    have hAU : AlignedSizes s bins others →
        AlignedSizes (unlink s i (lastOr 0 pre) b) (Function.update bins i (pre ++ post))
          (b :: others) := by
      intro hA a ha
      have hx := blk_move_out bins others i hi pre post b e a ha
      rw [get_size_congr _ _ a (hmeta a hx)]
      exact hA a hx
    refine ⟨b, bins1, s1, ?_, hI1, hfl, hb16, ?_, ?_, by omega, Or.inl ⟨_, hfind, hb0, ?_⟩,
      fun h0 => hS (sortedBins_sublist hsl hfsz h0),
      fun h0 => hM (binsMatch_sublist hsl hfsz h0),
      fun _ hA => hAt (hAU hA)⟩
    · rw [umalloc_eq_tail_found csbrk fuel s _ n b hfind hb0]
      exact ht
    · intro _
      apply hsz1
      omega
    · intro a ha
      have hB : Blk (Function.update bins i (pre ++ post)) others a := Or.inr ha
      rw [hmo a hB]
      exact hmeta a (Or.inr ha)
    · rw [hbrk1]
      exact unlink_brk _ _ _ _

/-- What `umalloc` does in a state that satisfies the invariant, for a request that does not
wrap around and an arena provider that would hand out a fresh region. -/
theorem umalloc_spec {s : Heap} {bins : Nat → List Nat} {others : List Nat}
    (h : Inv s bins others) (csbrk : Nat → Nat) (n fuel : Nat) (hn0 : 0 < n)
    (hn : n + 64 ≤ WORD) (hf : total bins + 6 ≤ fuel)
    (hfr : Fresh s.brk (ALIGN ((n + HEADER_SIZE) % WORD))
      (csbrk (ALIGN ((n + HEADER_SIZE) % WORD)))) :
    ∃ b bins1 s1, umalloc csbrk fuel s n = .ok (b + 16) s1 ∧ Inv s1 bins1 (b :: others) ∧
      s1.mem b % 2 = 1 ∧ b + 16 < WORD ∧ (n < 2 ^ 60 → n ≤ get_size s1 b) ∧
      (∀ a ∈ others, s1.mem a = s.mem a) ∧ total bins1 ≤ total bins + 1 ∧
      ((∃ sf, find fuel s n = .ok b sf ∧ b ≠ 0 ∧ s1.brk = s.brk) ∨
       (find fuel s n = .ok 0 s ∧ b = csbrk (ALIGN ((n + HEADER_SIZE) % WORD)) ∧
        s1.brk = (ALIGN ((n + HEADER_SIZE) % WORD), b) :: s.brk)) := by
  obtain ⟨b, bins1, s1, h1, h2, h3, h4, h5, h6, h7, h8, _⟩ :=
    umalloc_full h csbrk n fuel hn0 hn hf hfr
  exact ⟨b, bins1, s1, h1, h2, h3, h4, h5, h6, h7, h8⟩

theorem ufree_nonnull (fuel : Nat) (s : Heap) (ptr : Nat) (hp : ptr ≠ 0) :
    ufree fuel s ptr =
      (deallocate s (get_header ptr)).bind fun _ s1 =>
      (coalesce fuel s1 (get_header ptr)).bind fun pointer s2 =>
      freelist_add fuel s2 pointer (get_size s2 pointer) := by
  unfold ufree
  rw [if_neg hp]

/-- What `ufree` does to the payload pointer of a non-free block: the block that `coalesce`
returns is marked free and inserted, sorted bins stay sorted, blocks stay in the bin of their
size, and in a small arena every block that leaves its bin lies inside the inserted block. -/
theorem ufree_full {s : Heap} {bins : Nat → List Nat} {others : List Nat} {b : Nat}
    (h : Inv s bins (b :: others)) (hb16 : b + 16 < WORD) (fuel : Nat)
    (hf : total bins + 2 ≤ fuel) :
    ∃ r bins1 s1, ufree fuel s (b + 16) = .ok () s1 ∧
      (∃ s2 s3, deallocate s b = .ok () s2 ∧ coalesce fuel s2 b = .ok r s3 ∧
        freelist_add fuel s3 r (get_size s3 r) = .ok () s1) ∧ Inv s1 bins1 others ∧
      (∀ a ∈ others, s1.mem a = s.mem a) ∧ s1.brk = s.brk ∧ total bins1 ≤ total bins + 1 ∧
      r ∈ bins1 (select_bin_index (get_size s1 r)) ∧
      (∀ x ∈ bins1 (select_bin_index (get_size s1 r)),
        x + 16 + get_size s1 x ≠ r ∧ r + 16 + get_size s1 r ≠ x) ∧
      (SmallArena s.brk → get_size s b ≤ get_size s1 r) ∧
      s1.mem r % 2 = 0 ∧
      (SortedBins s bins → SortedBins s1 bins1) ∧ (BinsMatch s bins → BinsMatch s1 bins1) ∧
      (SmallArena s.brk → r ≤ b ∧ blockEnd s b ≤ blockEnd s1 r ∧
        ∀ i, i < 4 → ∀ y ∈ bins i, y ∈ bins1 i ∨ (r ≤ y ∧ blockEnd s y ≤ blockEnd s1 r)) ∧
      (∀ i, i < 4 → ∀ y ∈ bins1 i, y = r ∨ y ∈ bins i) := by
  obtain ⟨s2, hd, hI2, hfl2, hsz2, hmo2, hbrk2⟩ := deallocate_spec h
  obtain ⟨r, bins3, s3, hc, hI3, hfl3, htot3, hmo3, hbrk3, hadj3, hfr3, hfm3, _, hsub3, hsz3⟩ :=
    coalesce_loop_spec_full others fuel s2 bins b hI2 hfl2 hf
  obtain ⟨pre, post, s1, e, hpre, hpost, hadd, hI1, hmeta, hbrk1⟩ :=
    inv_freelist_add hI3 hfl3 (get_size s3 r) fuel (by omega)
  have hj := select_bin_index_lt (get_size s3 r)
  have hPr : Blk bins3 (r :: others) r := Or.inr (List.mem_cons_self _ _)
  have hsr : get_size s1 r = get_size s3 r := get_size_congr _ _ _ (hmeta r hPr)
  have hob : ∀ a ∈ others, a ≠ b := by
    rintro a ha rfl
    exact (List.nodup_cons.1 h.dist.onodup).1 ha
  have hfb : ∀ a, IsFree bins a → a ≠ b := by
    rintro a ⟨i, hi, ha⟩ rfl
    exact h.dist.other_disj i hi a ha (List.mem_cons_self _ _)
  have hf2 : ∀ a, IsFree bins a → get_size s2 a = get_size s a := fun a ha =>
    get_size_congr _ _ _ (hmo2 a (hfb a ha))
  have hf3 : ∀ a, IsFree bins3 a → get_size s3 a = get_size s2 a := fun a ha =>
    get_size_congr _ _ _ (hfm3 a ha)
  have hf1 : ∀ a, IsFree bins3 a → get_size s1 a = get_size s3 a := fun a ha =>
    get_size_congr _ _ _ (hmeta a (Or.inl ha))
  have hf31 : ∀ a, IsFree bins3 a → get_size s1 a = get_size s a := fun a ha => by
    rw [hf1 a ha, hf3 a ha, hf2 a (hfr3 a ha)]
  have hpre1 : ∀ x ∈ pre, get_size s1 x < get_size s1 r := by
    intro x hx
    rw [hsr, hf1 x ⟨_, hj, e ▸ List.mem_append_left _ hx⟩]
    exact hpre x hx
  have hpost1 : ∀ x, post.head? = some x → get_size s1 r ≤ get_size s1 x := by
    intro x hx
    have hxp : x ∈ post := by
      cases post with
      | nil => simp at hx
      | cons y t =>
        simp only [List.head?_cons, Option.some.injEq] at hx
        rw [hx]
        exact List.mem_cons_self _ _
    rw [hsr, hf1 x ⟨_, hj, e ▸ List.mem_append_right _ hxp⟩]
    exact hpost x hx
  refine ⟨r, _, s1, ?_, ⟨s2, s3, hd, hc, hadd⟩, hI1, ?_, by rw [hbrk1, hbrk3, hbrk2], ?_, ?_, ?_,
    ?_, by rw [hmeta r hPr]; exact hfl3,
    fun hS => sortedBins_insert _ hj pre post r e hpre1 hpost1
      (sortedBins_sublist hsub3 hf31 hS),
    fun hM => binsMatch_insert _ pre post r e (by rw [hsr])
      (binsMatch_sublist hsub3 hf31 hM), ?_, ?_⟩
  · have hp0 : b + 16 ≠ 0 := by omega
    rw [ufree_nonnull fuel s (b + 16) hp0, get_header_eq b hb16, hd]
    show (coalesce fuel s2 b).bind _ = _
    unfold coalesce
    rw [hc]
    exact hadd
  · intro a ha
    rw [hmeta a (Or.inr (List.mem_cons_of_mem _ ha)), hmo3 a ha, hmo2 a (hob a ha)]
  · rw [total_insert bins3 _ hj pre post r e]
    omega
  · rw [hsr, Function.update_same]
    simp
  · rw [hsr, Function.update_same]
    intro x hx
    by_cases exr : x = r
    · subst exr
      omega
    · have hx3 : x ∈ bins3 (select_bin_index (get_size s3 r)) := by
        rw [e]
        rcases List.mem_append.1 hx with hx | hx
        · exact List.mem_append_left _ hx
        · rcases List.mem_cons.1 hx with hx | hx
          · exact absurd hx exr
          · exact List.mem_append_right _ hx
      have hsx : get_size s1 x = get_size s3 x :=
        get_size_congr _ _ _ (hmeta x (Or.inl ⟨_, hj, hx3⟩))
      rw [hsx]
      exact hadj3 x hx3
  · intro hsm
    rw [hsr, ← hsz2]
    exact (hsz3 (by rw [hbrk2]; exact hsm)).1
  · intro hsm
    obtain ⟨_, _, hrb, hbe, hall⟩ := hsz3 (by rw [hbrk2]; exact hsm)
    have hber : blockEnd s1 r = blockEnd s3 r := by
      unfold blockEnd
      rw [hsr]
    have hbeb : blockEnd s2 b = blockEnd s b := by
      unfold blockEnd
      rw [hsz2]
    refine ⟨hrb, by rw [hber, ← hbeb]; exact hbe, ?_⟩
    intro i hi y hy
    have hbey : blockEnd s2 y = blockEnd s y := by
      unfold blockEnd
      rw [hf2 y ⟨i, hi, hy⟩]
    rcases hall i hi y hy with h3 | h3
    · left
      by_cases hij : i = select_bin_index (get_size s3 r)
      · subst hij
        rw [Function.update_same]
        rw [e] at h3
        rcases List.mem_append.1 h3 with h3 | h3
        · exact List.mem_append_left _ h3
        · exact List.mem_append_right _ (List.mem_cons_of_mem _ h3)
      · rw [Function.update_noteq hij]
        exact h3
    · right
      rw [hber, ← hbey]
      exact h3
  · intro i hi y hy
    by_cases hij : i = select_bin_index (get_size s3 r)
    · subst hij
      rw [Function.update_same] at hy
      rcases List.mem_append.1 hy with hy | hy
      · exact Or.inr ((hsub3 _ hi).subset (e ▸ List.mem_append_left _ hy))
      · rcases List.mem_cons.1 hy with hy | hy
        · exact Or.inl hy
        · exact Or.inr ((hsub3 _ hi).subset (e ▸ List.mem_append_right _ hy))
    · rw [Function.update_noteq hij] at hy
      exact Or.inr ((hsub3 i hi).subset hy)

/-- What `ufree` does to the payload pointer of a non-free block; in a small arena the block
that ends up on the free list is at least as large as the released block. -/
theorem ufree_spec_size {s : Heap} {bins : Nat → List Nat} {others : List Nat} {b : Nat}
    (h : Inv s bins (b :: others)) (hb16 : b + 16 < WORD) (fuel : Nat)
    (hf : total bins + 2 ≤ fuel) :
    ∃ r bins1 s1, ufree fuel s (b + 16) = .ok () s1 ∧
      (∃ s2 s3, deallocate s b = .ok () s2 ∧ coalesce fuel s2 b = .ok r s3 ∧
        freelist_add fuel s3 r (get_size s3 r) = .ok () s1) ∧ Inv s1 bins1 others ∧
      (∀ a ∈ others, s1.mem a = s.mem a) ∧ s1.brk = s.brk ∧ total bins1 ≤ total bins + 1 ∧
      r ∈ bins1 (select_bin_index (get_size s1 r)) ∧
      (∀ x ∈ bins1 (select_bin_index (get_size s1 r)),
        x + 16 + get_size s1 x ≠ r ∧ r + 16 + get_size s1 r ≠ x) ∧
      (SmallArena s.brk → get_size s b ≤ get_size s1 r) := by
  obtain ⟨r, bins1, s1, h1, h2, h3, h4, h5, h6, h7, h8, h9, _⟩ := ufree_full h hb16 fuel hf
  exact ⟨r, bins1, s1, h1, h2, h3, h4, h5, h6, h7, h8, h9⟩

/-- What `ufree` does to the payload pointer of a non-free block. -/
theorem ufree_spec {s : Heap} {bins : Nat → List Nat} {others : List Nat} {b : Nat}
    (h : Inv s bins (b :: others)) (hb16 : b + 16 < WORD) (fuel : Nat)
    (hf : total bins + 2 ≤ fuel) :
    ∃ r bins1 s1, ufree fuel s (b + 16) = .ok () s1 ∧
      (∃ s2 s3, deallocate s b = .ok () s2 ∧ coalesce fuel s2 b = .ok r s3 ∧
        freelist_add fuel s3 r (get_size s3 r) = .ok () s1) ∧ Inv s1 bins1 others ∧
      (∀ a ∈ others, s1.mem a = s.mem a) ∧ s1.brk = s.brk ∧ total bins1 ≤ total bins + 1 ∧
      r ∈ bins1 (select_bin_index (get_size s1 r)) ∧
      (∀ x ∈ bins1 (select_bin_index (get_size s1 r)),
        x + 16 + get_size s1 x ≠ r ∧ r + 16 + get_size s1 r ≠ x) := by
  obtain ⟨r, bins1, s1, h1, h2, h3, h4, h5, h6, h7, h8, _⟩ := ufree_spec_size h hb16 fuel hf
  exact ⟨r, bins1, s1, h1, h2, h3, h4, h5, h6, h7, h8⟩

/-! ## More fuel never changes a result -/

theorem bind_ne_timeout {α β : Type} {x : Outcome α} {f : α → Heap → Outcome β}
    (h : x.bind f ≠ .timeout) : x ≠ .timeout := by
  intro e
  rw [e] at h
  exact h rfl

theorem bind_congr_mono {α β : Type} {x : Outcome α} {f g : α → Heap → Outcome β}
    (hne : x.bind f ≠ .timeout) (h : ∀ a s, f a s ≠ .timeout → g a s = f a s) :
    x.bind g = x.bind f := by
  cases x with
  | ok a s => exact h a s hne
  | fault s => rfl
  | timeout => rfl

theorem find_scan_mono (n idx : Nat) : ∀ fuel fuel2 s prev bin, fuel ≤ fuel2 →
    find_scan n idx fuel s prev bin ≠ .timeout →
    find_scan n idx fuel2 s prev bin = find_scan n idx fuel s prev bin := by
  intro fuel
  induction fuel with
  | zero =>
    intro fuel2 s prev bin _ h
    exact absurd rfl h
  | succ fuel ih =>
    intro fuel2 s prev bin hle h
    cases fuel2 with
    | zero => omega
    | succ fuel2 =>
      simp only [find_scan] at h ⊢
      split_ifs with h1 h2
      · rfl
      · rfl
      · rw [if_neg h1, if_neg h2] at h
        exact ih fuel2 s bin _ (by omega) h

theorem find_bins_mono (n : Nat) : ∀ fuel fuel2 s idx, fuel ≤ fuel2 →
    find_bins n fuel s idx ≠ .timeout →
    find_bins n fuel2 s idx = find_bins n fuel s idx := by
  intro fuel
  induction fuel with
  | zero =>
    intro fuel2 s idx _ h
    exact absurd rfl h
  | succ fuel ih =>
    intro fuel2 s idx hle h
    cases fuel2 with
    | zero => omega
    | succ fuel2 =>
      simp only [find_bins] at h ⊢
      by_cases hi : idx < BIN_COUNT
      · simp only [hi, if_true] at h ⊢
        have hs : find_scan n idx fuel s 0 (s.free_heads idx) ≠ .timeout := by
          intro e
          rw [e] at h
          exact h rfl
        rw [find_scan_mono n idx fuel fuel2 s 0 _ (by omega) hs]
        rcases hX : find_scan n idx fuel s 0 (s.free_heads idx) with ⟨o, s1⟩ | s1 | _
        · cases o with
          | none =>
            rw [hX] at h
            exact ih fuel2 s1 (idx + 1) (by omega) h
          | some b => rfl
        · rfl
        · rfl
      · simp only [hi, if_false]

theorem find_mono (n : Nat) (fuel fuel2 : Nat) (s : Heap) (hle : fuel ≤ fuel2)
    (h : find fuel s n ≠ .timeout) : find fuel2 s n = find fuel s n :=
  find_bins_mono n fuel fuel2 s _ hle h

theorem freelist_walk_mono (s : Heap) (block : Nat) : ∀ fuel fuel2 prev bin, fuel ≤ fuel2 →
    freelist_walk s block fuel prev bin ≠ none →
    freelist_walk s block fuel2 prev bin = freelist_walk s block fuel prev bin := by
  intro fuel
  induction fuel with
  | zero =>
    intro fuel2 prev bin _ h
    exact absurd rfl h
  | succ fuel ih =>
    intro fuel2 prev bin hle h
    cases fuel2 with
    | zero => omega
    | succ fuel2 =>
      simp only [freelist_walk] at h ⊢
      split_ifs with h1
      · rw [if_pos h1] at h
        exact ih fuel2 bin _ (by omega) h
      · rfl

theorem freelist_add_mono (fuel fuel2 : Nat) (s : Heap) (block size : Nat) (hle : fuel ≤ fuel2)
    (h : freelist_add fuel s block size ≠ .timeout) :
    freelist_add fuel2 s block size = freelist_add fuel s block size := by
  unfold freelist_add at h ⊢
  have hw : freelist_walk s block fuel 0 (s.free_heads (select_bin_index size)) ≠ none := by
    intro e
    simp only [e] at h
    exact h rfl
  simp only [freelist_walk_mono s block fuel fuel2 0 _ hle hw]

theorem split_mono (fuel fuel2 : Nat) (s : Heap) (block n : Nat) (hle : fuel ≤ fuel2)
    (h : split fuel s block n ≠ .timeout) : split fuel2 s block n = split fuel s block n := by
  unfold split at h ⊢
  split_ifs with hc
  · rw [if_pos hc] at h
    apply bind_congr_mono h
    intro _ s1 h1
    apply bind_congr_mono h1
    intro _ s2 h2
    rw [freelist_add_mono fuel fuel2 s2 _ _ hle (bind_ne_timeout h2)]
  · rfl

theorem coalesce_scan_mono (idx current : Nat) : ∀ fuel fuel2 s prev next, fuel ≤ fuel2 →
    coalesce_scan idx current fuel s prev next ≠ .timeout →
    coalesce_scan idx current fuel2 s prev next = coalesce_scan idx current fuel s prev next := by
  intro fuel
  induction fuel with
  | zero =>
    intro fuel2 s prev next _ h
    exact absurd rfl h
  | succ fuel ih =>
    intro fuel2 s prev next hle h
    cases fuel2 with
    | zero => omega
    | succ fuel2 =>
      simp only [coalesce_scan] at h ⊢
      split_ifs with h1 h2 h3 h4
      · rfl
      · rfl
      · rfl
      · rw [if_neg h1, if_pos h2, if_neg h3, if_neg h4] at h
        exact ih fuel2 s next _ (by omega) h
      · rw [if_neg h1, if_neg h2] at h
        exact ih fuel2 s next _ (by omega) h

theorem coalesce_loop_mono : ∀ fuel fuel2 s current, fuel ≤ fuel2 →
    coalesce_loop fuel s current ≠ .timeout →
    coalesce_loop fuel2 s current = coalesce_loop fuel s current := by
  intro fuel
  induction fuel with
  | zero =>
    intro fuel2 s current _ h
    exact absurd rfl h
  | succ fuel ih =>
    intro fuel2 s current hle h
    cases fuel2 with
    | zero => omega
    | succ fuel2 =>
      simp only [coalesce_loop] at h ⊢
      have hs : coalesce_scan (select_bin_index (get_size s current)) current fuel s 0
          (s.free_heads (select_bin_index (get_size s current))) ≠ .timeout := by
        intro e
        rw [e] at h
        exact h rfl
      rw [coalesce_scan_mono _ current fuel fuel2 s 0 _ (by omega) hs]
      rcases hX : coalesce_scan (select_bin_index (get_size s current)) current fuel s 0
          (s.free_heads (select_bin_index (get_size s current))) with ⟨o, s1⟩ | s1 | _
      · cases o with
        | none => rfl
        | some c =>
          rw [hX] at h
          exact ih fuel2 s1 c (by omega) h
      · rfl
      · rfl

theorem umalloc_mono (csbrk : Nat → Nat) (fuel fuel2 : Nat) (s : Heap) (n : Nat)
    (hle : fuel ≤ fuel2) (h : umalloc csbrk fuel s n ≠ .timeout) :
    umalloc csbrk fuel2 s n = umalloc csbrk fuel s n := by
  unfold umalloc at h ⊢
  rw [find_mono n fuel fuel2 s hle (bind_ne_timeout h)]
  apply bind_congr_mono h
  intro mem s1 h1
  apply bind_congr_mono h1
  intro mem2 s2 h2
  rw [split_mono fuel fuel2 s2 mem2 n hle (bind_ne_timeout h2)]

theorem ufree_mono (fuel fuel2 : Nat) (s : Heap) (p : Nat)
    (hle : fuel ≤ fuel2) (h : ufree fuel s p ≠ .timeout) :
    ufree fuel2 s p = ufree fuel s p := by
  unfold ufree at h ⊢
  split_ifs with hp
  · rfl
  · rw [if_neg hp] at h
    apply bind_congr_mono h
    intro _ s1 h1
    unfold coalesce at h1 ⊢
    rw [coalesce_loop_mono fuel fuel2 s1 _ hle (bind_ne_timeout h1)]
    apply bind_congr_mono h1
    intro r s2 h2
    exact freelist_add_mono fuel fuel2 s2 _ _ hle h2

/-! ## Reachable states -/

theorem inv_init (s : Heap) (h0 : ∀ i, i < BIN_COUNT → s.free_heads i = 0) :
    Inv s (fun _ => []) [] := by
  have hno : ∀ a, ¬ Blk (fun _ => []) [] a := by
    rintro a (⟨i, _, hm⟩ | hm)
    · simp at hm
    · simp at hm
  refine ⟨⟨fun _ _ => List.nodup_nil, ?_, ?_, List.nodup_nil⟩, ?_, ?_, ⟨?_, ?_, ?_, ?_⟩⟩
  · intro i j _ _ _ b hb
    simp at hb
  · intro i _ b hb
    simp at hb
  · intro i hi
    exact h0 i hi
  · intro i _ b hb
    simp at hb
  · intro a b ha
    exact absurd ha (hno a)
  · intro a ha
    exact absurd ha (hno a)
  · intro a ha
    exact absurd ha (hno a)
  · intro a ha
    exact absurd ha (hno a)

theorem inBin_iff {s : Heap} {bins : Nat → List Nat} (hc : Chains s bins) (i : Nat) (hi : i < 4)
    (x : Nat) : InBin s i x ↔ x ∈ bins i := by
  constructor
  · rintro ⟨L, hL, hx⟩
    rw [← chain_unique _ _ _ _ hL (hc i hi)]
    exact hx
  · intro hx
    exact ⟨bins i, hc i hi, hx⟩

theorem add16_injective : Function.Injective (fun h : Nat => h + 16) := by
  intro a b h
  simp only at h
  omega

/-- Every reachable state satisfies the invariant. -/
theorem reach_good (maxSize : Nat) (hm : maxSize + 64 ≤ WORD) (s : Heap) (live : List Nat)
    (hr : Reach maxSize s live) : Good s live := by
  induction hr with
  | init s h0 hb =>
    exact ⟨fun _ => [], [], inv_init s h0, rfl, by simp⟩
  | malloc s s1 live csbrk fuel size p hr h0 hmax hfresh hcall ih =>
    obtain ⟨bins, hs, hI, hlive, hfl⟩ := ih
    obtain ⟨b, bins1, s2, hu, hI1, hf1, hb16, _, hmo, _, _⟩ :=
      umalloc_spec hI csbrk size (max fuel (total bins + 6)) h0 (by omega) (le_max_right _ _)
        hfresh
    have hne : umalloc csbrk fuel s size ≠ .timeout := by
      rw [hcall]
      exact fun e => Outcome.noConfusion e
    rw [umalloc_mono csbrk fuel _ s size (le_max_left _ _) hne, hcall] at hu
    injection hu with hp hs12
    subst hp hs12
    refine ⟨bins1, b :: hs, hI1, by rw [hlive]; rfl, ?_⟩
    intro h hh
    rcases List.mem_cons.1 hh with rfl | hh
    · exact ⟨hb16, hf1⟩
    · exact ⟨(hfl h hh).1, by rw [hmo h hh]; exact (hfl h hh).2⟩
  | free s s1 live fuel p hr hp hcall ih =>
    obtain ⟨bins, hs, hI, hlive, hfl⟩ := ih
    rw [hlive] at hp
    obtain ⟨h, hh, rfl⟩ := List.mem_map.1 hp
    have hI2 : Inv s bins (h :: hs.erase h) := inv_perm hI (List.perm_cons_erase hh)
    obtain ⟨r, bins1, s2, hu, _, hI1, hmo, _, _, _, _⟩ :=
      ufree_spec hI2 (hfl h hh).1 (max fuel (total bins + 2)) (le_max_right _ _)
    have hne : ufree fuel s (h + 16) ≠ .timeout := by
      rw [hcall]
      exact fun e => Outcome.noConfusion e
    rw [ufree_mono fuel _ s (h + 16) (le_max_left _ _) hne, hcall] at hu
    injection hu with _ hs12
    subst hs12
    refine ⟨bins1, hs.erase h, hI1, ?_, ?_⟩
    · rw [hlive, List.map_erase add16_injective]
    · intro a ha
      have ha2 : a ∈ hs := List.mem_of_mem_erase ha
      exact ⟨(hfl a ha2).1, by rw [hmo a ha]; exact (hfl a ha2).2⟩

/-! ## `find` that finds nothing, and `umalloc` on the two paths -/

theorem find_scan_none (n idx : Nat) : ∀ fuel s s1 prev bin,
    find_scan n idx fuel s prev bin = .ok none s1 → s1 = s := by
  intro fuel
  induction fuel with
  | zero =>
    intro s s1 prev bin h
    exact Outcome.noConfusion h
  | succ fuel ih =>
    intro s s1 prev bin h
    simp only [find_scan] at h
    split_ifs at h with h1 h2
    · injection h with _ e
      exact e.symm
    · injection h with e _
      exact Option.noConfusion e
    · exact ih s s1 bin _ h

theorem find_scan_some (n idx : Nat) : ∀ fuel s s1 prev bin b,
    find_scan n idx fuel s prev bin = .ok (some b) s1 → b ≠ 0 := by
  intro fuel
  induction fuel with
  | zero =>
    intro s s1 prev bin b h
    exact Outcome.noConfusion h
  | succ fuel ih =>
    intro s s1 prev bin b h
    simp only [find_scan] at h
    split_ifs at h with h1 h2
    · injection h with e _
      exact Option.noConfusion e
    · injection h with e _
      injection e with e
      rw [← e]
      exact h1
    · exact ih s s1 bin _ b h

theorem find_bins_null (n : Nat) : ∀ fuel s s1 idx,
    find_bins n fuel s idx = .ok 0 s1 → s1 = s := by
  intro fuel
  induction fuel with
  | zero =>
    intro s s1 idx h
    exact Outcome.noConfusion h
  | succ fuel ih =>
    intro s s1 idx h
    simp only [find_bins] at h
    split_ifs at h with hi
    · rcases hX : find_scan n idx fuel s 0 (s.free_heads idx) with ⟨o, s2⟩ | s2 | _
      · rw [hX] at h
        cases o with
        | none =>
          have e := find_scan_none n idx fuel s s2 0 _ hX
          subst e
          exact ih s2 s1 (idx + 1) h
        | some b =>
          have hb := find_scan_some n idx fuel s s2 0 _ b hX
          injection h with e _
          exact absurd e hb
      · rw [hX] at h
        exact Outcome.noConfusion h
      · rw [hX] at h
        exact Outcome.noConfusion h
    · injection h with _ e
      exact e.symm

/-- When `find` returns `NULL` it has not changed the state. -/
theorem find_null_unchanged (fuel : Nat) (s s1 : Heap) (n : Nat)
    (h : find fuel s n = .ok 0 s1) : s1 = s :=
  find_bins_null n fuel s s1 _ h

/-- The run of `umalloc` after `find` found nothing and the arena provider returned `NULL`. -/
theorem umalloc_arena_null (csbrk : Nat → Nat) (fuel : Nat) (s : Heap) (size : Nat)
    (hfind : find fuel s size = .ok 0 s)
    (hbrk : csbrk (ALIGN ((size + HEADER_SIZE) % WORD)) = 0) :
    umalloc csbrk fuel s size =
      .fault { s with brk := (ALIGN ((size + HEADER_SIZE) % WORD), 0) :: s.brk } := by
  unfold umalloc
  rw [hfind]
  simp only [Outcome.bind, extend, hbrk, if_true]
  unfold split
  by_cases hc : get_size { s with brk := (ALIGN ((size + HEADER_SIZE) % WORD), 0) :: s.brk } 0 ≥
      (ALIGN size + HEADER_SIZE + 32) % WORD
  · rw [if_pos hc]
    simp [set_block_metadata, Outcome.bind]
  · rw [if_neg hc]
    simp [allocate, is_allocated]

/-- The run of `umalloc` after `find` found nothing and the arena provider returned a non-null
address `r`, for a request below `2 ^ 60`: the final state in closed form. -/
theorem umalloc_grown_state (csbrk : Nat → Nat) (fuel : Nat) (s : Heap) (size r : Nat)
    (h60 : size < 2 ^ 60) (hfind : find fuel s size = .ok 0 s)
    (hr : csbrk (ALIGN ((size + HEADER_SIZE) % WORD)) = r) (hr0 : r ≠ 0) :
    umalloc csbrk fuel s size = .ok (get_payload r)
      (store (store { s with brk := (ALIGN ((size + HEADER_SIZE) % WORD), r) :: s.brk } r
        (size * 16)) r (size * 16 + 1)) := by
  have hAl : size ≤ ALIGN size := ALIGN_le size (by unfold WORD; omega)
  have hAl2 : ALIGN size < size + 16 := ALIGN_lt size (by unfold WORD; omega)
  have henc : (size * 16 % WORD + false.toNat) % WORD = size * 16 := by
    unfold WORD
    simp
    omega
  have hext : extend csbrk s size = .ok r
      (store { s with brk := (ALIGN ((size + HEADER_SIZE) % WORD), r) :: s.brk } r
        (size * 16)) := by
    simp only [extend, hr, hr0, if_false, set_block_metadata, Outcome.bind, henc]
  generalize hs2 : store { s with brk := (ALIGN ((size + HEADER_SIZE) % WORD), r) :: s.brk } r
    (size * 16) = s2 at hext
  have hm : s2.mem r = size * 16 := by
    rw [← hs2]
    exact store_mem_same _ _ _
  have hsz : get_size s2 r = size := by
    simp only [get_size, hr0, ne_eq, not_false_eq_true, if_true, hm]
    omega
  have hsplit : split fuel s2 r size = .ok r s2 := by
    unfold split
    rw [if_neg]
    rw [hsz]
    unfold HEADER_SIZE WORD at *
    omega
  have halloc : allocate s2 r = .ok () (store s2 r (size * 16 + 1)) := by
    have : (size * 16 + 1) % WORD = size * 16 + 1 := by
      unfold WORD
      omega
    have h2 : size * 16 % 2 = 0 := by omega
    simp [allocate, is_allocated, hr0, hm, this, h2]
  rw [umalloc_eq_tail_grown csbrk fuel s s s2 size r hfind hext]
  simp only [umalloc_tail, hsplit, Outcome.bind, halloc]

/-- The run of `umalloc` after `find` found nothing and the arena provider returned a non-null
address `r`, for a request below `2 ^ 60`. -/
theorem umalloc_grown_eval (csbrk : Nat → Nat) (fuel : Nat) (s : Heap) (size : Nat)
    (h60 : size < 2 ^ 60) (hfind : find fuel s size = .ok 0 s)
    (hr0 : csbrk (ALIGN ((size + HEADER_SIZE) % WORD)) ≠ 0) :
    ∃ s1, umalloc csbrk fuel s size =
        .ok (get_payload (csbrk (ALIGN ((size + HEADER_SIZE) % WORD)))) s1 ∧
      s1.mem (csbrk (ALIGN ((size + HEADER_SIZE) % WORD))) = size * 16 + 1 :=
  ⟨_, umalloc_grown_state csbrk fuel s size _ h60 hfind rfl hr0, store_mem_same _ _ _⟩

/-- What `umalloc` does when `find` finds a block, in a state that satisfies the invariant. -/
theorem umalloc_found_spec {s : Heap} {bins : Nat → List Nat} {others : List Nat}
    (h : Inv s bins others) (csbrk : Nat → Nat) (n fuel : Nat) (hn0 : 0 < n)
    (hn : n + 64 ≤ WORD) (hf : total bins + 6 ≤ fuel) (b : Nat) (sf : Heap)
    (hfind : find fuel s n = .ok b sf) (hb : b ≠ 0) :
    ∃ bins1 s1, umalloc csbrk fuel s n = .ok (b + 16) s1 ∧ Inv s1 bins1 (b :: others) ∧
      s1.mem b % 2 = 1 ∧ b + 16 < WORD ∧ n ≤ get_size s1 b ∧ s1.brk = s.brk := by
  rcases find_spec n s bins h.chains fuel hf with
    ⟨hfind2, _⟩ | ⟨i, pre, b2, post, _, hi, e, _, hsz, _, hfind2⟩
  · rw [hfind] at hfind2
    injection hfind2 with e _
    exact absurd e hb
  · rw [hfind] at hfind2
    injection hfind2 with e1 e2
    subst e1 e2
    obtain ⟨hU, hmeta⟩ := inv_unlink h i hi pre post b e
    have hPb : Blk bins others b := Or.inl ⟨i, hi, by rw [e]; simp⟩
    have hsb : get_size (unlink s i (lastOr 0 pre) b) b = get_size s b :=
      get_size_congr _ _ _ (hmeta b hPb)
    have htr := total_remove bins i hi pre post b e
    obtain ⟨bins1, s1, ht, hI1, hfl, hb16, hsz1, _, hbrk1, _, _⟩ :=
      umalloc_tail_spec hU n fuel hn (by omega) (Or.inl (by omega))
    refine ⟨bins1, s1, ?_, hI1, hfl, hb16, hsz1 (by omega), ?_⟩
    · rw [umalloc_eq_tail_found csbrk fuel s _ n b hfind hb]
      exact ht
    · rw [hbrk1]
      exact unlink_brk _ _ _ _

/-! ## Concrete runs used as witnesses and counterexamples -/

theorem reach_heap0 (m : Nat) : Reach m heap0 [] :=
  Reach.init heap0 (fun _ _ => rfl) rfl

theorem fresh_of_checks (brk : List (Nat × Nat)) (n r : Nat) (h1 : r ≠ 0) (h2 : r + n ≤ WORD)
    (h3 : ∀ q ∈ brk, q.2 ≠ 0 → r + n ≤ q.2 ∨ q.2 + q.1 ≤ r) : Fresh brk n r :=
  ⟨h1, h2, h3⟩

theorem reach_runTwo2 : Reach (WORD - 64) runTwo2 [8208, 4112] := by
  have h1 : Reach (WORD - 64) runTwo1 [4112] :=
    Reach.malloc heap0 runTwo1 [] (fun _ => 4096) 10 100 4112 (reach_heap0 _) (by decide)
      (by decide) (fresh_of_checks _ _ _ (by decide) (by decide) (by decide)) (by rfl)
  exact Reach.malloc runTwo1 runTwo2 [4112] (fun _ => 8192) 10 50 8208 h1 (by decide)
    (by decide) (fresh_of_checks _ _ _ (by decide) (by decide) (by decide)) (by rfl)

theorem reach_runHuge4 : Reach (WORD - 1) runHuge4 [4160, 4144, 4128, 4112] := by
  have h1 : Reach (WORD - 1) runHuge1 [4112] :=
    Reach.malloc heap0 runHuge1 [] (fun _ => 4096) 10 (2 ^ 64 - 1) 4112 (reach_heap0 _)
      (by decide) (by decide) (fresh_of_checks _ _ _ (by decide) (by decide) (by decide))
      (by rfl)
  have h2 : Reach (WORD - 1) runHuge2 [4128, 4112] :=
    Reach.malloc runHuge1 runHuge2 [4112] (fun _ => 8192) 10 64 4128 h1
      (by decide) (by decide) (fresh_of_checks _ _ _ (by decide) (by decide) (by decide))
      (by rfl)
  have h3 : Reach (WORD - 1) runHuge3 [4144, 4128, 4112] :=
    Reach.malloc runHuge2 runHuge3 [4128, 4112] (fun _ => 4128) 10 (2 ^ 64 - 1) 4144 h2
      (by decide) (by decide) (fresh_of_checks _ _ _ (by decide) (by decide) (by decide))
      (by rfl)
  exact Reach.malloc runHuge3 runHuge4 [4144, 4128, 4112] (fun _ => 2 ^ 62) 10 (2 ^ 60 - 17)
    4160 h3 (by decide) (by decide)
    (fresh_of_checks _ _ _ (by decide) (by decide) (by decide)) (by rfl)

theorem reach_runSplit3 : Reach (WORD - 64) runSplit3 [4112] := by
  have h1 : Reach (WORD - 64) runSplit1 [4112] :=
    Reach.malloc heap0 runSplit1 [] (fun _ => 4096) 10 2000 4112 (reach_heap0 _) (by decide)
      (by decide) (fresh_of_checks _ _ _ (by decide) (by decide) (by decide)) (by rfl)
  have h2 : Reach (WORD - 64) runSplit2 [] :=
    Reach.free runSplit1 runSplit2 [4112] 10 4112 h1 (by decide) (by rfl)
  exact Reach.malloc runSplit2 runSplit3 [] (fun _ => 8192) 10 16 4112 h2 (by decide)
    (by decide) (fresh_of_checks _ _ _ (by decide) (by decide) (by decide)) (by rfl)

theorem reach_runMerge3 : Reach (WORD - 64) runMerge3 [4112] := by
  have h1 : Reach (WORD - 64) runSplit1 [4112] :=
    Reach.malloc heap0 runSplit1 [] (fun _ => 4096) 10 2000 4112 (reach_heap0 _) (by decide)
      (by decide) (fresh_of_checks _ _ _ (by decide) (by decide) (by decide)) (by rfl)
  have h2 : Reach (WORD - 64) runSplit2 [] :=
    Reach.free runSplit1 runSplit2 [4112] 10 4112 h1 (by decide) (by rfl)
  exact Reach.malloc runSplit2 runMerge3 [] (fun _ => 8192) 10 1000 4112 h2 (by decide)
    (by decide) (fresh_of_checks _ _ _ (by decide) (by decide) (by decide)) (by rfl)

/-- The state of run 3 after the first release satisfies the invariant with at most two free
blocks. -/
theorem inv_runSplit2 : ∃ bins, Inv runSplit2 bins [] ∧ total bins ≤ 2 := by
  have h0 : Inv heap0 (fun _ => []) [] := inv_init heap0 (fun _ _ => rfl)
  have ht0 : total (fun _ => ([] : List Nat)) = 0 := rfl
  obtain ⟨b, bins1, s1, hu, hI1, _, hb16, _, _, htot, _⟩ :=
    umalloc_spec h0 (fun _ => 4096) 2000 10 (by decide) (by decide) (by rw [ht0]; decide)
      (fresh_of_checks _ _ _ (by decide) (by decide) (by decide))
  have e : umalloc (fun _ => 4096) 10 heap0 2000 = .ok 4112 runSplit1 := by rfl
  rw [e] at hu
  injection hu with e1 e2
  have hb : b = 4096 := by omega
  subst hb e2
  obtain ⟨r, bins2, s2, hu2, _, hI2, _, _, htot2, _, _⟩ :=
    ufree_spec hI1 hb16 10 (by omega)
  have e3 : ufree 10 runSplit1 (4096 + 16) = .ok () runSplit2 := by rfl
  rw [e3] at hu2
  injection hu2 with _ e4
  subst e4
  exact ⟨bins2, hI2, by omega⟩

/-! ## The claims about `umalloc` and `ufree` in reachable states -/

/-- C1 (as amended): in every state reached from empty bins by `umalloc` calls with
`0 < size ≤ 2 ^ 64 - 64` and valid `ufree` calls, with an arena provider that always hands out a
fresh region, the payload ranges `[p, p + get_size(get_header(p)))` of two distinct live
pointers are disjoint. -/
theorem live_payloads_disjoint (s : Heap) (live : List Nat) (p q : Nat)
    (hr : Reach (WORD - 64) s live) (hp : p ∈ live) (hq : q ∈ live) (hpq : p ≠ q) :
    p + get_size s (get_header p) ≤ q ∨ q + get_size s (get_header q) ≤ p := by
  obtain ⟨bins, hs, hI, hlive, hfl⟩ := reach_good (WORD - 64) (by unfold WORD; omega) s live hr
  rw [hlive] at hp hq
  obtain ⟨a, ha, rfl⟩ := List.mem_map.1 hp
  obtain ⟨b, hb, rfl⟩ := List.mem_map.1 hq
  have hab : a ≠ b := fun e => hpq (by rw [e])
  have := hI.geo.apart a b (Or.inr ha) (Or.inr hb) hab
  unfold blockEnd HEADER_SIZE at this
  simp only [get_header_eq a (hfl a ha).1, get_header_eq b (hfl b hb).1]
  omega

/-- Witness for C1 (as amended): after `umalloc(100)` and `umalloc(50)` from empty bins the
two live payloads at 4112 and 8208 are disjoint. -/
theorem live_payloads_disjoint_witness :
    Reach (WORD - 64) runTwo2 [8208, 4112] ∧
    (4112 + get_size runTwo2 (get_header 4112) ≤ 8208 ∨
      8208 + get_size runTwo2 (get_header 8208) ≤ 4112) :=
  ⟨reach_runTwo2,
    live_payloads_disjoint runTwo2 [8208, 4112] 4112 8208 reach_runTwo2 (by decide) (by decide)
      (by decide)⟩

/-- C1 (as stated, every size above zero) fails: after `umalloc(2 ^ 64 - 1)`, `umalloc(64)`,
`umalloc(2 ^ 64 - 1)` and `umalloc(2 ^ 60 - 17)` from empty bins, with fresh arena regions, the
live pointers 4128 and 4160 have overlapping payload ranges. -/
theorem live_payloads_overlap_after_wrapping_request :
    ∃ s live p q, Reach (WORD - 1) s live ∧ p ∈ live ∧ q ∈ live ∧ p ≠ q ∧
      ¬ (p + get_size s (get_header p) ≤ q ∨ q + get_size s (get_header q) ≤ p) :=
  ⟨runHuge4, [4160, 4144, 4128, 4112], 4128, 4160, reach_runHuge4, by decide, by decide,
    by decide, by decide⟩

/-- C5: in a state that satisfies the allocator invariant, for `0 < size < 2 ^ 60`, when
`umalloc(size)` returns `p` the block at `get_header(p)` is marked allocated and its recorded
size is at least `size`. -/
theorem umalloc_returns_allocated_block {s : Heap} {bins : Nat → List Nat} {others : List Nat}
    (hI : Inv s bins others) (csbrk : Nat → Nat) (fuel size p : Nat) (s1 : Heap)
    (h0 : 0 < size) (h60 : size < 2 ^ 60)
    (hptr : csbrk (ALIGN ((size + HEADER_SIZE) % WORD)) < WORD)
    (hcall : umalloc csbrk fuel s size = .ok p s1) :
    is_allocated s1 (get_header p) = true ∧ size ≤ get_size s1 (get_header p) := by
  have hne : umalloc csbrk fuel s size ≠ .timeout := by
    rw [hcall]
    exact fun e => Outcome.noConfusion e
  have hbig := umalloc_mono csbrk fuel (max fuel (total bins + 6)) s size (le_max_left _ _) hne
  rw [hcall] at hbig
  have hn : size + 64 ≤ WORD := by
    unfold WORD
    omega
  rcases find_spec size s bins hI.chains (max fuel (total bins + 6)) (le_max_right _ _) with
    ⟨hfind, _⟩ | ⟨i, pre, b, post, _, hi, e, _, _, _, hfind⟩
  · by_cases hr0 : csbrk (ALIGN ((size + HEADER_SIZE) % WORD)) = 0
    · rw [umalloc_arena_null csbrk _ s size hfind hr0] at hbig
      exact Outcome.noConfusion hbig
    · obtain ⟨s2, hu, hm⟩ := umalloc_grown_eval csbrk _ s size h60 hfind hr0
      rw [hu] at hbig
      injection hbig with e1 e2
      subst e1 e2
      generalize csbrk (ALIGN ((size + HEADER_SIZE) % WORD)) = r at *
      have hh : get_header (get_payload r) = r := get_header_get_payload r hptr
      rw [hh]
      simp only [is_allocated, get_size, hr0, ne_eq, not_false_eq_true, if_true, hm]
      constructor
      · simp
        omega
      · omega
  · have hb0 : b ≠ 0 := (hI.geo.bound b (Or.inl ⟨i, hi, by rw [e]; simp⟩)).1
    obtain ⟨bins1, s2, hu, _, hfl, hb16, hsz, _⟩ :=
      umalloc_found_spec hI csbrk size _ h0 hn (le_max_right _ _) b _ hfind hb0
    rw [hu] at hbig
    injection hbig with e1 e2
    subst e1 e2
    rw [get_header_eq b hb16]
    refine ⟨?_, hsz⟩
    simp [is_allocated, hb0, hfl]

/-- Witness for C5: `umalloc(100)` from empty bins returns 4112 (block from the arena), and
`umalloc(16)` after `umalloc(2000)` and its release returns 4112 (block from a free list,
split). -/
theorem umalloc_returns_allocated_block_witness :
    (umalloc (fun _ => 4096) 10 heap0 100 = .ok 4112 runTwo1 ∧
      is_allocated runTwo1 (get_header 4112) = true ∧
      100 ≤ get_size runTwo1 (get_header 4112)) ∧
    (umalloc (fun _ => 8192) 10 runSplit2 16 = .ok 4112 runSplit3 ∧
      is_allocated runSplit3 (get_header 4112) = true ∧
      16 ≤ get_size runSplit3 (get_header 4112)) := by
  obtain ⟨bins, hI, _⟩ := inv_runSplit2
  exact ⟨⟨by rfl,
    umalloc_returns_allocated_block (inv_init heap0 (fun _ _ => rfl)) (fun _ => 4096) 10 100 4112
      runTwo1 (by decide) (by decide) (by decide) (by rfl)⟩,
    ⟨by rfl,
    umalloc_returns_allocated_block hI (fun _ => 8192) 10 16 4112 runSplit3 (by decide)
      (by decide) (by decide) (by rfl)⟩⟩

/-- C6 (failing input): from empty bins `find(100)` finds nothing; when the arena provider
returns `NULL`, `umalloc(100)` does not return `NULL` to its caller: the run stops at a store
through the null header in `allocate`. -/
theorem umalloc_arena_failure_dereferences_null :
    find 10 heap0 100 = .ok 0 heap0 ∧
    (∃ s, umalloc (fun _ => 0) 10 heap0 100 = .fault s) ∧
    (split 10 heap0 0 100 = .ok 0 heap0 ∧ allocate heap0 0 = .fault heap0) ∧
    ∀ s, umalloc (fun _ => 0) 10 heap0 100 ≠ .ok 0 s := by
  have h : umalloc (fun _ => 0) 10 heap0 100 =
      .fault ((umalloc (fun _ => 0) 10 heap0 100).heapD heap0) := by rfl
  refine ⟨by rfl, ⟨_, h⟩, ⟨by rfl, by rfl⟩, ?_⟩
  intro s e
  rw [h] at e
  exact Outcome.noConfusion e

/-- The walk of `freelist_add` never ends on a list whose block `b` is its own successor, when
the block to insert is larger than `b`. -/
theorem freelist_walk_self_loop (s : Heap) (block b : Nat) (hb : b ≠ 0)
    (hself : s.mem (b + 8) = b) (hgt : get_size s block > get_size s b) :
    ∀ fuel prev, freelist_walk s block fuel prev b = none := by
  intro fuel
  induction fuel with
  | zero =>
    intro prev
    rfl
  | succ fuel ih =>
    intro prev
    unfold freelist_walk
    rw [if_pos ⟨hb, hgt⟩, hself]
    exact ih b

/-- The `allocate` function returns for a non-null block and leaves the arena log alone. -/
theorem allocate_ok_brk (s : Heap) (b : Nat) (hb : b ≠ 0) :
    ∃ s1, allocate s b = .ok () s1 ∧ s1.brk = s.brk := by
  unfold allocate
  by_cases h : is_allocated s b = true
  · simp only [h, Bool.not_true, Bool.false_eq_true, if_false]
    exact ⟨s, rfl, rfl⟩
  · simp only [h, Bool.not_eq_true, Bool.not_false, if_true, hb, if_false]
    exact ⟨_, rfl, rfl⟩

/-- The `freelist_add` function returns for a non-null block when the walk along the list of
the bin ends, and leaves the arena log alone. -/
theorem freelist_add_ok_brk (fuel : Nat) (s : Heap) (block size prev : Nat) (hb : block ≠ 0)
    (hw : freelist_walk s block fuel 0 (s.free_heads (select_bin_index size)) = some prev) :
    ∃ s1, freelist_add fuel s block size = .ok () s1 ∧ s1.brk = s.brk := by
  unfold freelist_add
  simp only [hw, hb, if_false]
  by_cases hp : prev = 0
  · simp only [hp, if_true]
    exact ⟨_, rfl, rfl⟩
  · simp only [hp, if_false]
    exact ⟨_, rfl, rfl⟩

/-- The address behind the fresh region: `split` computes it as the start of the remainder
whenever it cuts a block that `extend` has just obtained. -/
theorem split_point_eq (n r : Nat)
    (h : r + ALIGN ((n + HEADER_SIZE) % WORD) < WORD) :
    (r + HEADER_SIZE + ALIGN n) % WORD = r + ALIGN ((n + HEADER_SIZE) % WORD) := by
  unfold ALIGN ALIGNMENT HEADER_SIZE WORD at *
  omega

/-- The run of `umalloc` after `find` found nothing, for every size: when the arena provider
hands out a non-null region such that the region and the 16 bytes behind it lie below the top
of the address space and in no earlier region, `umalloc` returns the payload pointer of the
block at the start of the region. -/
theorem umalloc_grown_returns {s : Heap} {bins : Nat → List Nat} {others : List Nat}
    (hI : Inv s bins others) (csbrk : Nat → Nat) (n fuel : Nat) (hf : total bins + 6 ≤ fuel)
    (hfind : find fuel s n = .ok 0 s)
    (hfr : Fresh s.brk (ALIGN ((n + HEADER_SIZE) % WORD) + HEADER_SIZE)
      (csbrk (ALIGN ((n + HEADER_SIZE) % WORD))))
    (htop : csbrk (ALIGN ((n + HEADER_SIZE) % WORD)) + ALIGN ((n + HEADER_SIZE) % WORD) +
      HEADER_SIZE < WORD) :
    ∃ s1, umalloc csbrk fuel s n =
        .ok (get_payload (csbrk (ALIGN ((n + HEADER_SIZE) % WORD)))) s1 ∧
      get_payload (csbrk (ALIGN ((n + HEADER_SIZE) % WORD))) ≠ 0 ∧
      s1.brk = (ALIGN ((n + HEADER_SIZE) % WORD),
        csbrk (ALIGN ((n + HEADER_SIZE) % WORD))) :: s.brk := by
  generalize hreq : ALIGN ((n + HEADER_SIZE) % WORD) = req at *
  generalize hrd : csbrk req = r at *
  obtain ⟨hr0, hrw, hfresh⟩ := hfr
  unfold HEADER_SIZE at hrw htop hfresh
  have hpay : get_payload r = r + 16 := get_payload_eq r (by omega)
  have hout : ∀ c, IsFree bins c → ∀ a, r ≤ a → a < r + req + 16 → c + 8 ≠ a := by
    intro c hc a ha1 ha2 e
    have hcov := hI.geo.cover c (Or.inl hc) (c + 8) (by omega)
      (by unfold blockEnd HEADER_SIZE; omega)
    obtain ⟨q, hq, hq0, hq1, hq2⟩ := hcov
    rcases hfresh q hq hq0 with h | h <;> omega
  have hext : extend csbrk s n = .ok r
      (store { s with brk := (req, r) :: s.brk } r ((n * 16 % WORD + false.toNat) % WORD)) := by
    simp only [extend, hreq, hrd, hr0, if_false, set_block_metadata, Outcome.bind]
  rw [umalloc_eq_tail_grown csbrk fuel s s _ n r hfind hext, hpay]
  generalize hs2 : store { s with brk := (req, r) :: s.brk } r
    ((n * 16 % WORD + false.toNat) % WORD) = s2
  have hb2 : s2.brk = (req, r) :: s.brk := by
    rw [← hs2]
    rfl
  have hch2 : Chains s2 bins := by
    rw [← hs2]
    exact chains_store { s with brk := (req, r) :: s.brk } bins r _ hI.chains
      (fun c hc => hout c hc r (le_refl _) (by omega))
  unfold umalloc_tail
  by_cases hc : get_size s2 r ≥ (ALIGN n + HEADER_SIZE + 32) % WORD
  · have hF : (r + HEADER_SIZE + ALIGN n) % WORD = r + req := by
      rw [← hreq]
      apply split_point_eq
      rw [hreq]
      omega
    have hF0 : r + req ≠ 0 := by omega
    generalize hs3 : store s2 r ((ALIGN n * 16 % WORD + true.toNat) % WORD) = s3
    generalize hrem : (get_size s2 r + WORD - ALIGN n + WORD - HEADER_SIZE) % WORD = rem
    generalize hs4 : store s3 (r + req) ((rem * 16 % WORD + false.toNat) % WORD) = s4
    have hch4 : Chains s4 bins := by
      rw [← hs4, ← hs3]
      apply chains_store
      · apply chains_store _ _ _ _ hch2
        exact fun c hc => hout c hc r (le_refl _) (by omega)
      · exact fun c hc => hout c hc (r + req) (by omega) (by omega)
    have hb4 : s4.brk = (req, r) :: s.brk := by
      rw [← hs4, ← hs3]
      exact hb2
    have hj := select_bin_index_lt rem
    have hlen := length_le_total bins _ hj
    obtain ⟨pre, post, _, _, _, hw⟩ := freelist_walk_spec s4 (r + req)
      (bins (select_bin_index rem)) fuel 0 (s4.free_heads (select_bin_index rem))
      (hch4 _ hj) (by omega)
    obtain ⟨s5, h5, hb5⟩ := freelist_add_ok_brk fuel s4 (r + req) rem _ hF0 hw
    obtain ⟨s6, h6, hb6⟩ := allocate_ok_brk s5 r hr0
    refine ⟨s6, ?_, by omega, by rw [hb6, hb5, hb4]⟩
    simp only [split, hc, if_true, set_block_metadata, hr0, if_false, Outcome.bind, hs3, hF,
      hF0, hrem, hs4, h5, h6, hpay]
  · obtain ⟨s6, h6, hb6⟩ := allocate_ok_brk s2 r hr0
    refine ⟨s6, ?_, by omega, by rw [hb6, hb2]⟩
    simp only [split, hc, if_false, Outcome.bind, h6, hpay]

/-- C7 (as amended): in a state that satisfies the allocator invariant, for every size above
zero and enough fuel: if `find(size)` yields a block, `umalloc(size)` returns that block's
payload pointer, which is not null, and makes no arena request; if `find(size)` yields nothing
and the arena provider hands out a fresh region, `umalloc(size)` returns the payload pointer
of the block at the start of that region, which is not null.  The second part holds for
`size ≤ 2 ^ 64 - 64` with any fresh region, and for every size when the 16 bytes behind the
region also lie below the top of the address space and in no earlier region. -/
theorem umalloc_fails_only_without_arena {s : Heap} {bins : Nat → List Nat} {others : List Nat}
    (hI : Inv s bins others) (csbrk : Nat → Nat) (fuel size : Nat)
    (h0 : 0 < size) (hf : total bins + 6 ≤ fuel) :
    (∀ b sf, find fuel s size = .ok b sf → b ≠ 0 →
      ∃ s1, umalloc csbrk fuel s size = .ok (get_payload b) s1 ∧ get_payload b ≠ 0 ∧
        s1.brk = s.brk) ∧
    (∀ sf, find fuel s size = .ok 0 sf →
      Fresh s.brk (ALIGN ((size + HEADER_SIZE) % WORD))
        (csbrk (ALIGN ((size + HEADER_SIZE) % WORD))) →
      (size + 64 ≤ WORD ∨
        (Fresh s.brk (ALIGN ((size + HEADER_SIZE) % WORD) + HEADER_SIZE)
            (csbrk (ALIGN ((size + HEADER_SIZE) % WORD))) ∧
          csbrk (ALIGN ((size + HEADER_SIZE) % WORD)) +
            ALIGN ((size + HEADER_SIZE) % WORD) + HEADER_SIZE < WORD)) →
      ∃ s1, umalloc csbrk fuel s size =
          .ok (get_payload (csbrk (ALIGN ((size + HEADER_SIZE) % WORD)))) s1 ∧
        get_payload (csbrk (ALIGN ((size + HEADER_SIZE) % WORD))) ≠ 0 ∧
        s1.brk = (ALIGN ((size + HEADER_SIZE) % WORD),
          csbrk (ALIGN ((size + HEADER_SIZE) % WORD))) :: s.brk) := by
  constructor
  · intro b sf hfind hb
    have hn : size + 64 ≤ WORD := by
      rcases find_spec size s bins hI.chains fuel hf with
        ⟨hfind2, _⟩ | ⟨i, pre, b2, post, _, hi, e, _, hsz, _, hfind2⟩
      · rw [hfind] at hfind2
        injection hfind2 with e _
        exact absurd e hb
      · have hm : b2 ∈ bins i := by
          rw [e]
          exact List.mem_append_right _ (List.mem_cons_self _ _)
        have hw := hI.geo.word b2 (Or.inl ⟨i, hi, hm⟩)
        have hb2 := (hI.geo.bound b2 (Or.inl ⟨i, hi, hm⟩)).1
        simp only [get_size, hb2, ne_eq, not_false_eq_true, if_true] at hsz
        unfold WORD at *
        omega
    obtain ⟨bins1, s1, hu, _, _, hb16, _, hbrk⟩ :=
      umalloc_found_spec hI csbrk size fuel h0 hn hf b sf hfind hb
    rw [get_payload_eq b hb16]
    exact ⟨s1, hu, by omega, hbrk⟩
  · intro sf hfind hfr hcase
    rcases hcase with hn | ⟨hfr2, htop⟩
    · obtain ⟨b, bins1, s1, hu, _, _, hb16, _, _, _, hcase⟩ :=
        umalloc_spec hI csbrk size fuel h0 hn hf hfr
      rcases hcase with ⟨sf2, hfind2, hb, _⟩ | ⟨_, hb, hbrk⟩
      · rw [hfind] at hfind2
        injection hfind2 with e _
        exact absurd e.symm hb
      · subst hb
        rw [get_payload_eq _ hb16]
        exact ⟨s1, hu, by omega, hbrk⟩
    · have e := find_null_unchanged fuel s sf size hfind
      subst e
      exact umalloc_grown_returns hI csbrk size fuel hf hfind hfr2 htop

/-- Witness for C7 (as amended): after `umalloc(2000)` and its release, `find(16)` yields the
block at 4096 and `umalloc(16)` returns its payload pointer with no arena request; from empty
bins `find` yields nothing for the sizes 100 and `2 ^ 64 - 1`, and `umalloc` returns the
payload pointer of the arena region at 4096 for both. -/
theorem umalloc_fails_only_without_arena_witness :
    (find 10 runSplit2 16 = .ok 4096 ((find 10 runSplit2 16).heapD heap0) ∧
      ∃ s1, umalloc (fun _ => 8192) 10 runSplit2 16 = .ok (get_payload 4096) s1 ∧
        get_payload 4096 ≠ 0 ∧ s1.brk = runSplit2.brk) ∧
    (find 10 heap0 100 = .ok 0 heap0 ∧
      ∃ s1, umalloc (fun _ => 4096) 10 heap0 100 = .ok (get_payload 4096) s1 ∧
        get_payload 4096 ≠ 0 ∧
        s1.brk = (ALIGN ((100 + HEADER_SIZE) % WORD), 4096) :: heap0.brk) ∧
    (find 10 heap0 (2 ^ 64 - 1) = .ok 0 heap0 ∧
      ∃ s1, umalloc (fun _ => 4096) 10 heap0 (2 ^ 64 - 1) = .ok (get_payload 4096) s1 ∧
        get_payload 4096 ≠ 0 ∧
        s1.brk = (ALIGN ((2 ^ 64 - 1 + HEADER_SIZE) % WORD), 4096) :: heap0.brk) := by
  obtain ⟨bins, hI, ht⟩ := inv_runSplit2
  exact ⟨⟨by rfl,
    (umalloc_fails_only_without_arena hI (fun _ => 8192) 10 16 (by decide)
      (by omega)).1 4096 _ (by rfl) (by decide)⟩,
    ⟨by rfl,
    (umalloc_fails_only_without_arena (inv_init heap0 (fun _ _ => rfl)) (fun _ => 4096) 10 100
      (by decide) (by decide)).2 heap0 (by rfl)
      (fresh_of_checks _ _ _ (by decide) (by decide) (by decide)) (Or.inl (by decide))⟩,
    ⟨by rfl,
    (umalloc_fails_only_without_arena (inv_init heap0 (fun _ _ => rfl)) (fun _ => 4096) 10
      (2 ^ 64 - 1) (by decide) (by decide)).2 heap0 (by rfl)
      (fresh_of_checks _ _ _ (by decide) (by decide) (by decide))
      (Or.inr ⟨fresh_of_checks _ _ _ (by decide) (by decide) (by decide), by decide⟩)⟩⟩

/-- C7 (as stated) fails: `umalloc(2 ^ 64 - 16)` from the initial state, whose arena request
of 0 bytes is answered with 4096, returns 4112, and `ufree(4112)` leaves the block 4096 on the
free list of bin 3 as its own successor.  In that state `find(2000)` yields the block 4096,
but `umalloc(2000)` does not return its payload pointer: `split` cuts the block, and
`freelist_add`, which has to put the remainder at 6112 behind the smaller block 4096, walks
the list of bin 3 without end.  The run of `umalloc(2000)` is a timeout for every amount of
fuel and every arena provider. -/
theorem umalloc_hangs_on_self_linked_list :
    Reach (WORD - 1) runWrapFree [] ∧ find 10 runWrapFree 2000 = .ok 4096 runHang1 ∧
    runHang2.free_heads 3 = 4096 ∧ runHang2.mem (4096 + 8) = 4096 ∧
    get_size runHang2 6112 > get_size runHang2 4096 ∧
    ∀ csbrk fuel, umalloc csbrk fuel runWrapFree 2000 = .timeout := by
  have h1 : Reach (WORD - 1) runWrap1 [4112] :=
    Reach.malloc heap0 runWrap1 [] (fun _ => 4096) 10 (2 ^ 64 - 16) 4112 (reach_heap0 _)
      (by decide) (by decide) (fresh_of_checks _ _ _ (by decide) (by decide) (by decide))
      (by rfl)
  have h2 := Reach.free runWrap1 runWrapFree [4112] 10 4112 h1 (by decide) (by rfl)
  have e2 : [4112].erase 4112 = ([] : List Nat) := by decide
  rw [e2] at h2
  have hfind10 : find 10 runWrapFree 2000 = .ok 4096 runHang1 := by rfl
  refine ⟨h2, hfind10, by decide, by decide, by decide, ?_⟩
  intro csbrk fuel
  by_cases hto : find fuel runWrapFree 2000 = .timeout
  · simp only [umalloc, hto, Outcome.bind]
  · have hfind : find fuel runWrapFree 2000 = .ok 4096 runHang1 := by
      rcases Nat.le_total fuel 10 with hle | hle
      · rw [← find_mono 2000 fuel 10 runWrapFree hle hto]
        exact hfind10
      · rw [find_mono 2000 10 fuel runWrapFree hle (by rw [hfind10]; exact fun e => Outcome.noConfusion e)]
        exact hfind10
    rw [umalloc_eq_tail_found csbrk fuel runWrapFree runHang1 2000 4096 hfind (by decide)]
    have hsplit : split fuel runHang1 4096 2000 =
        (freelist_add fuel runHang2 6112 (2 ^ 60 - 16 - 2000 - 16)).bind fun _ s3 =>
          .ok 4096 s3 := by rfl
    have hwalk := freelist_walk_self_loop runHang2 6112 4096 (by decide) (by decide)
      (by decide) fuel 0
    have hadd : freelist_add fuel runHang2 6112 (2 ^ 60 - 16 - 2000 - 16) = .timeout := by
      unfold freelist_add
      have e3 : runHang2.free_heads (select_bin_index (2 ^ 60 - 16 - 2000 - 16)) = 4096 := by
        decide
      simp only [e3, hwalk]
    simp only [umalloc_tail, hsplit, hadd, Outcome.bind]

/-- C8: when `find(size)` finds no fitting block and the arena provider returns `NULL`, the run
of `umalloc(size)` ends with the bin heads and the whole memory (so every free-list link and
every header) exactly as they were before the call. -/
theorem umalloc_failure_leaves_bins (csbrk : Nat → Nat) (fuel : Nat) (s sf : Heap) (size : Nat)
    (hfind : find fuel s size = .ok 0 sf)
    (hbrk : csbrk (ALIGN ((size + HEADER_SIZE) % WORD)) = 0) :
    ∃ s1, umalloc csbrk fuel s size = .fault s1 ∧ s1.free_heads = s.free_heads ∧
      s1.mem = s.mem := by
  have e := find_null_unchanged fuel s sf size hfind
  subst e
  exact ⟨_, umalloc_arena_null csbrk fuel sf size hfind hbrk, rfl, rfl⟩

/-- Witness for C8: empty bins, `umalloc(100)`, arena provider failing. -/
theorem umalloc_failure_leaves_bins_witness :
    find 10 heap0 100 = .ok 0 heap0 ∧
    ∃ s1, umalloc (fun _ => 0) 10 heap0 100 = .fault s1 ∧ s1.free_heads = heap0.free_heads ∧
      s1.mem = heap0.mem :=
  ⟨by rfl, umalloc_failure_leaves_bins (fun _ => 0) 10 heap0 heap0 100 (by rfl) rfl⟩

/-- C10 (as amended): in every reachable state, a valid `ufree(p)` returns (given enough fuel),
the block `r` that `coalesce` gave back (the released block or the merged block) ends up on the
free list of bin `select_bin_index(get_size(r))`, and no block on the free list of that same
bin is address-adjacent to `r` on either side. -/
theorem release_leaves_no_neighbour_in_own_bin (s : Heap) (live : List Nat) (p : Nat)
    (hr : Reach (WORD - 64) s live) (hp : p ∈ live) :
    ∃ N, ∀ fuel, N ≤ fuel → ∃ s1 s2 s3 r,
      deallocate s (get_header p) = .ok () s1 ∧ coalesce fuel s1 (get_header p) = .ok r s2 ∧
      freelist_add fuel s2 r (get_size s2 r) = .ok () s3 ∧ ufree fuel s p = .ok () s3 ∧
      InBin s3 (select_bin_index (get_size s3 r)) r ∧
      ∀ x, InBin s3 (select_bin_index (get_size s3 r)) x →
        x + HEADER_SIZE + get_size s3 x ≠ r ∧ r + HEADER_SIZE + get_size s3 r ≠ x := by
  obtain ⟨bins, hs, hI, hlive, hfl⟩ := reach_good (WORD - 64) (by unfold WORD; omega) s live hr
  rw [hlive] at hp
  obtain ⟨h, hh, rfl⟩ := List.mem_map.1 hp
  have hI2 : Inv s bins (h :: hs.erase h) := inv_perm hI (List.perm_cons_erase hh)
  refine ⟨total bins + 2, fun fuel hf => ?_⟩
  obtain ⟨r, bins1, s3, hu, ⟨s1, s2, hd, hc, hadd⟩, hI1, _, _, _, hmem, hadj⟩ :=
    ufree_spec hI2 (hfl h hh).1 fuel hf
  have hj := select_bin_index_lt (get_size s3 r)
  rw [get_header_eq h (hfl h hh).1]
  refine ⟨s1, s2, s3, r, hd, hc, hadd, hu, (inBin_iff hI1.chains _ hj r).2 hmem, ?_⟩
  intro x hx
  exact hadj x ((inBin_iff hI1.chains _ hj x).1 hx)

/-- Witness for C10 (as amended): releasing 4112 after `umalloc(2000)`, its release and
`umalloc(1000)`; the released block at 4096 merges with the split remainder at 5120. -/
theorem release_leaves_no_neighbour_in_own_bin_witness :
    Reach (WORD - 64) runMerge3 [4112] ∧
    ∃ N, ∀ fuel, N ≤ fuel → ∃ s1 s2 s3 r,
      deallocate runMerge3 (get_header 4112) = .ok () s1 ∧
      coalesce fuel s1 (get_header 4112) = .ok r s2 ∧
      freelist_add fuel s2 r (get_size s2 r) = .ok () s3 ∧
      ufree fuel runMerge3 4112 = .ok () s3 ∧
      InBin s3 (select_bin_index (get_size s3 r)) r ∧
      ∀ x, InBin s3 (select_bin_index (get_size s3 r)) x →
        x + HEADER_SIZE + get_size s3 x ≠ r ∧ r + HEADER_SIZE + get_size s3 r ≠ x :=
  ⟨reach_runMerge3,
    release_leaves_no_neighbour_in_own_bin runMerge3 [4112] 4112 reach_runMerge3 (by decide)⟩

/-- C10 (as stated) fails: after `umalloc(2000)`, `ufree`, `umalloc(16)` (which splits the
released block) and `ufree` of that pointer, the free block at 4096 in bin 0 ends exactly where
the free block at 4128 in bin 3 begins. -/
theorem adjacent_free_blocks_after_release :
    ∃ s live p fuel s1, Reach (WORD - 64) s live ∧ p ∈ live ∧ ufree fuel s p = .ok () s1 ∧
      ∃ x y, InBin s1 0 x ∧ InBin s1 3 y ∧ x + HEADER_SIZE + get_size s1 x = y :=
  ⟨runSplit3, [4112], 4112, 10, runSplit4, reach_runSplit3, by decide, by rfl, 4096, 4128,
    ⟨[4096], ⟨by rfl, by decide, by rfl⟩, by decide⟩,
    ⟨[4128], ⟨by rfl, by decide, by rfl⟩, by decide⟩, by decide⟩

/-! ## Bin scan order of `find` -/

theorem chains_runSplit2 : Chains runSplit2 binsSplit2 := by
  intro i hi
  have h : i = 0 ∨ i = 1 ∨ i = 2 ∨ i = 3 := by omega
  rcases h with rfl | rfl | rfl | rfl
  · exact (rfl : runSplit2.free_heads 0 = 0)
  · exact (rfl : runSplit2.free_heads 1 = 0)
  · exact (rfl : runSplit2.free_heads 2 = 0)
  · exact ⟨(rfl : runSplit2.free_heads 3 = 4096), by decide, (rfl : runSplit2.mem (4096 + 8) = 0)⟩

theorem distinct_binsSplit2 : Distinct binsSplit2 [] := by
  refine ⟨?_, ?_, ?_, List.nodup_nil⟩
  · intro i _
    unfold binsSplit2
    split_ifs <;> simp
  · intro i j _ _ hij b hb hb2
    unfold binsSplit2 at hb hb2
    split_ifs at hb hb2 <;> simp at hb hb2
    omega
  · intro i _ b _
    simp

/-- C20: on well-formed free lists `find(n)` returns (given enough fuel).  The result is `NULL`
exactly when no bin `select_bin_index(n), ..., 3` holds a block of size at least `n`, and then
the state is unchanged.  Otherwise the result is the first block of size at least `n` in the
lowest such bin that holds one (all blocks of the bins scanned before it and all blocks ahead
of it in its own list are smaller), and that block is taken out of its list. -/
theorem find_scans_bins_in_order (n : Nat) (s : Heap) (bins : Nat → List Nat)
    (hc : Chains s bins) (hd : Distinct bins []) (fuel : Nat) (hf : total bins + 6 ≤ fuel) :
    ∃ b s1, find fuel s n = .ok b s1 ∧
      (b = 0 ↔ ∀ i, select_bin_index n ≤ i → i < 4 → ∀ x ∈ bins i, get_size s x < n) ∧
      (b = 0 → s1 = s) ∧
      (b ≠ 0 → ∃ i pre post, select_bin_index n ≤ i ∧ i < 4 ∧ bins i = pre ++ b :: post ∧
        n ≤ get_size s b ∧ (∀ x ∈ pre, get_size s x < n) ∧
        (∀ j, select_bin_index n ≤ j → j < i → ∀ x ∈ bins j, get_size s x < n) ∧
        Chains s1 (Function.update bins i (pre ++ post))) := by
  rcases find_spec n s bins hc fuel hf with ⟨hr, hall⟩ | ⟨i, pre, b, post, h1, h2, e, hp, hb, hlow, hr⟩
  · exact ⟨0, s, hr, ⟨fun _ => hall, fun _ => rfl⟩, fun _ => rfl, fun h => absurd rfl h⟩
  · have hmem : b ∈ bins i := by
      rw [e]
      exact List.mem_append_right _ (List.mem_cons_self _ _)
    have hb0 : b ≠ 0 := seg_nonzero s.mem (bins i) _ 0 (hc i h2) b hmem
    refine ⟨b, _, hr, ⟨fun h => absurd h hb0, ?_⟩, fun h => absurd h hb0, ?_⟩
    · intro hall
      have := hall i h1 h2 b hmem
      omega
    · intro _
      exact ⟨i, pre, post, h1, h2, e, hb, hp, hlow, chains_unlink s bins [] hc hd i h2 pre post b e⟩

/-- Witness for C20: in run 3 after the first release, `find(90)` scans bins 0 to 3 with the
released block in bin 3. -/
theorem find_scans_bins_in_order_witness :
    Chains runSplit2 binsSplit2 ∧ Distinct binsSplit2 [] ∧ total binsSplit2 + 6 ≤ 10 ∧
    ∃ b s1, find 10 runSplit2 90 = .ok b s1 ∧
      (b = 0 ↔ ∀ i, select_bin_index 90 ≤ i → i < 4 →
        ∀ x ∈ binsSplit2 i, get_size runSplit2 x < 90) ∧
      (b = 0 → s1 = runSplit2) ∧
      (b ≠ 0 → ∃ i pre post, select_bin_index 90 ≤ i ∧ i < 4 ∧
        binsSplit2 i = pre ++ b :: post ∧
        90 ≤ get_size runSplit2 b ∧ (∀ x ∈ pre, get_size runSplit2 x < 90) ∧
        (∀ j, select_bin_index 90 ≤ j → j < i → ∀ x ∈ binsSplit2 j, get_size runSplit2 x < 90) ∧
        Chains s1 (Function.update binsSplit2 i (pre ++ post))) :=
  ⟨chains_runSplit2, distinct_binsSplit2, by decide,
    find_scans_bins_in_order 90 runSplit2 binsSplit2 chains_runSplit2 distinct_binsSplit2 10
      (by decide)⟩

/-! ## Scenario: a request above all bin thresholds -/

/-- With all four bins empty `find` comes back with `NULL` and leaves the state alone. -/
theorem find_empty_bins (s : Heap) (h0 : ∀ i, i < BIN_COUNT → s.free_heads i = 0)
    (fuel n : Nat) (hf : 6 ≤ fuel) : find fuel s n = .ok 0 s := by
  have hc : Chains s (fun _ => []) := fun i hi => h0 i hi
  rcases find_spec n s (fun _ => []) hc fuel (by simpa [total] using hf) with
    ⟨hr, _⟩ | ⟨i, pre, b, post, _, _, e, _⟩
  · exact hr
  · simp at e

/-- C19: from a state with empty bins, with an arena provider that answers the request with a
non-null address `r`, `umalloc(2000)` returns (given fuel 6): `find` finds nothing, the arena
log grows by exactly the one request of `ALIGN(2000 + header_size)` bytes answered by `r`, the
result is the payload of the block at `r`, that block is marked allocated with recorded size
2000, and `select_bin_index(2000)` is the last bin, 3. -/
theorem umalloc_2000_grows_arena_once (csbrk : Nat → Nat) (fuel : Nat) (s : Heap) (r : Nat)
    (h0 : ∀ i, i < BIN_COUNT → s.free_heads i = 0) (hf : 6 ≤ fuel)
    (hr : csbrk (ALIGN (2000 + HEADER_SIZE)) = r) (hr0 : r ≠ 0) :
    find fuel s 2000 = .ok 0 s ∧
    ∃ s1, umalloc csbrk fuel s 2000 = .ok (get_payload r) s1 ∧
      s1.brk = (ALIGN (2000 + HEADER_SIZE), r) :: s.brk ∧
      get_size s1 r = 2000 ∧ is_allocated s1 r = true ∧
      select_bin_index (get_size s1 r) = 3 ∧ BIN_COUNT - 1 = 3 := by
  have hfind := find_empty_bins s h0 fuel 2000 hf
  have hmod : (2000 + HEADER_SIZE) % WORD = 2000 + HEADER_SIZE := by decide
  have hu := umalloc_grown_state csbrk fuel s 2000 r (by norm_num) hfind (by rw [hmod]; exact hr)
    hr0
  rw [hmod] at hu
  refine ⟨hfind, _, hu, rfl, ?_, ?_, ?_, rfl⟩
  · simp [get_size, hr0, store]
  · simp [is_allocated, hr0, store]
  · simp [get_size, hr0, store, select_bin_index]

/-- Witness for C19: from the initial state with the arena provider answering 4096. -/
theorem umalloc_2000_grows_arena_once_witness :
    (∀ i, i < BIN_COUNT → heap0.free_heads i = 0) ∧ 6 ≤ 10 ∧
    (fun _ : Nat => 4096) (ALIGN (2000 + HEADER_SIZE)) = 4096 ∧ 4096 ≠ 0 ∧
    find 10 heap0 2000 = .ok 0 heap0 ∧
    ∃ s1, umalloc (fun _ => 4096) 10 heap0 2000 = .ok (get_payload 4096) s1 ∧
      s1.brk = (ALIGN (2000 + HEADER_SIZE), 4096) :: heap0.brk ∧
      get_size s1 4096 = 2000 ∧ is_allocated s1 4096 = true ∧
      select_bin_index (get_size s1 4096) = 3 ∧ BIN_COUNT - 1 = 3 :=
  ⟨fun _ _ => rfl, by decide, rfl, by decide,
    umalloc_2000_grows_arena_once (fun _ => 4096) 10 heap0 4096 (fun _ _ => rfl) (by decide)
      rfl (by decide)⟩

/-! ## The split threshold and what `split` conserves -/

/-- In run 3 the block 4096 that `find` returns for the request 16 is a non-free block of a
state that satisfies the invariant. -/
theorem inv_runFound : ∃ bins, Inv runFound bins [4096] ∧ total bins + 1 ≤ 10 := by
  obtain ⟨bins, hI, ht⟩ := inv_runSplit2
  have e : find 10 runSplit2 16 = .ok 4096 runFound := by rfl
  rcases find_spec 16 runSplit2 bins hI.chains 10 (by omega) with
    ⟨hr, _⟩ | ⟨i, pre, b, post, _, hi, hb, _, _, _, hr⟩
  · rw [e] at hr
    injection hr with h1 _
    exact absurd h1 (by decide)
  · rw [e] at hr
    injection hr with h1 h2
    subst h1
    have hU := (inv_unlink hI i hi pre post 4096 hb).1
    rw [← h2] at hU
    have := total_remove bins i hi pre post 4096 hb
    exact ⟨_, hU, by omega⟩

/-- C13: when `ALIGN(n) + header_size + 32` does not overflow, `split(block, n)` on a block of
recorded size `S` leaves the state as it is and returns the block if `S` is below
`ALIGN(n) + header_size + 32`; otherwise, in a state that satisfies the invariant, it returns
(given enough fuel) the block with recorded size `ALIGN(n)` and has put a remainder of size
`S - ALIGN(n) - header_size`, which is at least 32, on the free list of its bin. -/
theorem split_threshold (n : Nat) (hn : ALIGN n + HEADER_SIZE + 32 < WORD) :
    (∀ fuel s b, get_size s b < ALIGN n + HEADER_SIZE + 32 → split fuel s b n = .ok b s) ∧
    (∀ fuel s bins others b, Inv s bins (b :: others) → total bins + 1 ≤ fuel →
      ALIGN n + HEADER_SIZE + 32 ≤ get_size s b →
      ∃ pre post s1, split fuel s b n = .ok b s1 ∧ get_size s1 b = ALIGN n ∧
        get_size s1 (b + HEADER_SIZE + ALIGN n) = get_size s b - ALIGN n - HEADER_SIZE ∧
        32 ≤ get_size s1 (b + HEADER_SIZE + ALIGN n) ∧
        bins (select_bin_index (get_size s b - ALIGN n - HEADER_SIZE)) = pre ++ post ∧
        Inv s1 (Function.update bins (select_bin_index (get_size s b - ALIGN n - HEADER_SIZE))
          (pre ++ (b + HEADER_SIZE + ALIGN n) :: post)) (b :: others)) := by
  unfold HEADER_SIZE at *
  constructor
  · intro fuel s b hlt
    unfold split HEADER_SIZE
    rw [Nat.mod_eq_of_lt hn, if_neg (by omega)]
  · intro fuel s bins others b hI hf hge
    obtain ⟨pre, post, s1, e, hr, hI1, hmb, hmr, _, _⟩ :=
      (split_spec_gen hI n fuel (by omega) hf).2 (by omega)
    have hb0 : b ≠ 0 := (hI.geo.bound b (Or.inr (List.mem_cons_self _ _))).1
    have hr0 : b + 16 + ALIGN n ≠ 0 := by omega
    have h1 : get_size s1 b = ALIGN n := by
      simp only [get_size, hb0, ne_eq, not_false_eq_true, if_true, hmb]
      omega
    have h2 : get_size s1 (b + 16 + ALIGN n) = get_size s b - ALIGN n - 16 := by
      simp only [get_size, hr0, ne_eq, not_false_eq_true, if_true, hmr]
      omega
    exact ⟨pre, post, s1, hr, h1, h2, by omega, e, hI1⟩

/-- Witness for C13: `split(4096, 2000)` on the block of recorded size 2000 of run 3 changes
nothing, and `split(4096, 16)` on the released block of size 2000 that `find` returned cuts
off a remainder of size 1968. -/
theorem split_threshold_witness :
    ALIGN 16 + HEADER_SIZE + 32 < WORD ∧ ALIGN 2000 + HEADER_SIZE + 32 < WORD ∧
    get_size runSplit1 4096 < ALIGN 2000 + HEADER_SIZE + 32 ∧
    split 10 runSplit1 4096 2000 = .ok 4096 runSplit1 ∧
    ALIGN 16 + HEADER_SIZE + 32 ≤ get_size runFound 4096 ∧
    ∃ bins, Inv runFound bins [4096] ∧ total bins + 1 ≤ 10 ∧
      ∃ pre post s1, split 10 runFound 4096 16 = .ok 4096 s1 ∧ get_size s1 4096 = ALIGN 16 ∧
        get_size s1 (4096 + HEADER_SIZE + ALIGN 16) =
          get_size runFound 4096 - ALIGN 16 - HEADER_SIZE ∧
        32 ≤ get_size s1 (4096 + HEADER_SIZE + ALIGN 16) ∧
        bins (select_bin_index (get_size runFound 4096 - ALIGN 16 - HEADER_SIZE)) =
          pre ++ post ∧
        Inv s1 (Function.update bins
          (select_bin_index (get_size runFound 4096 - ALIGN 16 - HEADER_SIZE))
          (pre ++ (4096 + HEADER_SIZE + ALIGN 16) :: post)) [4096] :=
  ⟨by decide, by decide, by decide,
    (split_threshold 2000 (by decide)).1 10 runSplit1 4096 (by decide), by decide,
    inv_runFound.elim fun bins h => ⟨bins, h.1, h.2,
      (split_threshold 16 (by decide)).2 10 runFound bins [] 4096 h.1 h.2 (by decide)⟩⟩

/-- C12 (as stated) fails: in run 3, `split(4096, 16)` cuts the block of recorded size 2000
that `find` returned into a front block of size 16 and a remainder of size 1968, and
`16 + 1968 + header_size` is `2000`, not `2000 + header_size`. -/
theorem split_sizes_one_header_short :
    find 10 runSplit2 16 = .ok 4096 runFound ∧
    split 10 runFound 4096 16 = .ok 4096 runCut ∧
    ALIGN 16 + HEADER_SIZE + 32 ≤ get_size runFound 4096 ∧
    get_size runFound 4096 = 2000 ∧ get_size runCut 4096 = 16 ∧
    get_size runCut (4096 + HEADER_SIZE + ALIGN 16) = 1968 ∧
    runCut.free_heads 3 = 4096 + HEADER_SIZE + ALIGN 16 ∧
    get_size runCut 4096 + get_size runCut (4096 + HEADER_SIZE + ALIGN 16) + HEADER_SIZE ≠
      get_size runFound 4096 + HEADER_SIZE :=
  ⟨by rfl, by rfl, by decide, by decide, by decide, by decide, by decide, by decide⟩

/-- C12 (as amended): when `ALIGN(n) + header_size + 32` does not overflow and `split(block, n)`
splits a block of recorded size `S` (that is, `S ≥ ALIGN(n) + header_size + 32`) in a state
that satisfies the invariant, it returns (given enough fuel), the remainder starts where the
front block ends, and the two recorded sizes plus one header size equal `S`: the two blocks
with their headers occupy exactly the `S + header_size` bytes of the original block. -/
theorem split_conserves_bytes {s : Heap} {bins : Nat → List Nat} {others : List Nat} {b : Nat}
    (h : Inv s bins (b :: others)) (n fuel : Nat) (hn : ALIGN n + HEADER_SIZE + 32 < WORD)
    (hf : total bins + 1 ≤ fuel) (hge : ALIGN n + HEADER_SIZE + 32 ≤ get_size s b) :
    ∃ s1 rest, split fuel s b n = .ok b s1 ∧ rest = b + HEADER_SIZE + get_size s1 b ∧
      InBin s1 (select_bin_index (get_size s1 rest)) rest ∧
      get_size s1 b + get_size s1 rest + HEADER_SIZE = get_size s b ∧
      (HEADER_SIZE + get_size s1 b) + (HEADER_SIZE + get_size s1 rest) =
        HEADER_SIZE + get_size s b := by
  unfold HEADER_SIZE at *
  obtain ⟨pre, post, s1, e, hr, hI1, hmb, hmr, _, _⟩ :=
    (split_spec_gen h n fuel (by omega) hf).2 (by omega)
  have hb0 : b ≠ 0 := (h.geo.bound b (Or.inr (List.mem_cons_self _ _))).1
  have hr0 : b + 16 + ALIGN n ≠ 0 := by omega
  have h1 : get_size s1 b = ALIGN n := by
    simp only [get_size, hb0, ne_eq, not_false_eq_true, if_true, hmb]
    omega
  have h2 : get_size s1 (b + 16 + ALIGN n) = get_size s b - ALIGN n - 16 := by
    simp only [get_size, hr0, ne_eq, not_false_eq_true, if_true, hmr]
    omega
  refine ⟨s1, b + 16 + ALIGN n, hr, by rw [h1], ?_, by omega, by omega⟩
  rw [h2]
  have hj := select_bin_index_lt (get_size s b - ALIGN n - 16)
  refine (inBin_iff hI1.chains _ hj _).2 ?_
  simp

/-- Witness for C12 (as amended): the split of run 3. -/
theorem split_conserves_bytes_witness :
    ALIGN 16 + HEADER_SIZE + 32 < WORD ∧ ALIGN 16 + HEADER_SIZE + 32 ≤ get_size runFound 4096 ∧
    ∃ bins, Inv runFound bins [4096] ∧ total bins + 1 ≤ 10 ∧
      ∃ s1 rest, split 10 runFound 4096 16 = .ok 4096 s1 ∧
        rest = 4096 + HEADER_SIZE + get_size s1 4096 ∧
        InBin s1 (select_bin_index (get_size s1 rest)) rest ∧
        get_size s1 4096 + get_size s1 rest + HEADER_SIZE = get_size runFound 4096 ∧
        (HEADER_SIZE + get_size s1 4096) + (HEADER_SIZE + get_size s1 rest) =
          HEADER_SIZE + get_size runFound 4096 :=
  ⟨by decide, by decide, inv_runFound.elim fun bins h => ⟨bins, h.1, h.2,
    split_conserves_bytes h.1 16 10 (by decide) h.2 (by decide)⟩⟩

/-! ## `freelist_add` keeps every bin ordered by size -/

/-- One call `freelist_add(c, get_size(c))` on well-formed lists: the block goes into the
list of its bin at a place that keeps the list ordered. -/
theorem freelist_add_sorted {s : Heap} {bins : Nat → List Nat} {others : List Nat} {c : Nat}
    (hd : Distinct bins (c :: others)) (hch : Chains s bins)
    (hg : Geo s (Blk bins (c :: others))) (fuel : Nat) (hf : total bins + 1 ≤ fuel)
    (hs : SortedBySize s (bins (select_bin_index (get_size s c)))) :
    ∃ pre post s1, bins (select_bin_index (get_size s c)) = pre ++ post ∧
      freelist_add fuel s c (get_size s c) = .ok () s1 ∧
      Distinct (Function.update bins (select_bin_index (get_size s c)) (pre ++ c :: post))
        others ∧
      Chains s1 (Function.update bins (select_bin_index (get_size s c)) (pre ++ c :: post)) ∧
      Geo s1 (Blk (Function.update bins (select_bin_index (get_size s c)) (pre ++ c :: post))
        others) ∧
      (∀ a, Blk bins (c :: others) a → get_size s1 a = get_size s a) ∧
      SortedBySize s1 (pre ++ c :: post) := by
  obtain ⟨pre, post, s1, e, hpre, hpost, hr, hd1, hch1, hg1, hmeta, _⟩ :=
    freelist_add_core hd hch hg (get_size s c) fuel hf
  have hj := select_bin_index_lt (get_size s c)
  have hsz : ∀ a, Blk bins (c :: others) a → get_size s1 a = get_size s a :=
    fun a ha => get_size_congr s s1 a (hmeta a ha)
  refine ⟨pre, post, s1, e, hr, hd1, hch1, hg1, hsz, ?_⟩
  apply sortedBySize_congr s s1
  · intro a ha
    apply hsz
    rcases List.mem_append.1 ha with ha | ha
    · exact Or.inl ⟨_, hj, e ▸ List.mem_append_left _ ha⟩
    · rcases List.mem_cons.1 ha with rfl | ha
      · exact Or.inr (List.mem_cons_self _ _)
      · exact Or.inl ⟨_, hj, e ▸ List.mem_append_right _ ha⟩
  · unfold SortedBySize at *
    rw [e, List.pairwise_append] at hs
    obtain ⟨h1, h2, h3⟩ := hs
    have hcp : ∀ b ∈ post, get_size s c ≤ get_size s b := by
      intro b hb
      cases post with
      | nil => simp at hb
      | cons x t =>
        have hx := hpost x rfl
        rcases List.mem_cons.1 hb with rfl | hb
        · exact hx
        · exact le_trans hx ((List.pairwise_cons.1 h2).1 b hb)
    rw [List.pairwise_append]
    refine ⟨h1, List.pairwise_cons.2 ⟨hcp, h2⟩, ?_⟩
    intro a ha b hb
    rcases List.mem_cons.1 hb with rfl | hb
    · exact le_of_lt (hpre a ha)
    · exact h3 a ha b hb

/-- Invariant of a sequence of inserts: the bins hold well-formed ordered lists of distinct
blocks. -/
theorem inserts_inv (pool : List Nat) (s : Heap) (rest : List Nat) (h : Inserts pool s rest) :
    ∃ bins, Distinct bins rest ∧ Chains s bins ∧ Geo s (Blk bins rest) ∧
      (∀ i, i < 4 → SortedBySize s (bins i)) ∧ total bins + rest.length = pool.length := by
  induction h with
  | init s h0 hnd hg =>
    refine ⟨fun _ => [], ⟨fun _ _ => List.nodup_nil, ?_, ?_, hnd⟩, fun i hi => h0 i hi, ?_,
      fun _ _ => List.Pairwise.nil, by simp [total]⟩
    · intro i j _ _ _ b hb
      simp at hb
    · intro i _ b hb
      simp at hb
    · apply geo_mono hg
      · rintro a (⟨i, _, hm⟩ | hm)
        · simp at hm
        · exact hm
      · intro a _
        rfl
      · intro x hx
        exact hx
  | add s s1 rest fuel b _ hb hcall ih =>
    obtain ⟨bins, hd, hch, hg, hso, htot⟩ := ih
    have hperm : rest.Perm (b :: rest.erase b) := List.perm_cons_erase hb
    have hd2 : Distinct bins (b :: rest.erase b) := distinct_perm hd hperm
    have hg2 : Geo s (Blk bins (b :: rest.erase b)) := by
      apply geo_mono hg
      · rintro a (ha | ha)
        · exact Or.inl ha
        · exact Or.inr (hperm.mem_iff.2 ha)
      · intro a _
        rfl
      · intro x hx
        exact hx
    have hj := select_bin_index_lt (get_size s b)
    obtain ⟨pre, post, s2, e, hr, hd1, hch1, hg1, hsz, hs1⟩ :=
      freelist_add_sorted hd2 hch hg2 (max fuel (total bins + 1)) (le_max_right _ _)
        (hso _ hj)
    have hne : freelist_add fuel s b (get_size s b) ≠ .timeout := by
      rw [hcall]
      exact fun h => Outcome.noConfusion h
    have hmono := freelist_add_mono fuel (max fuel (total bins + 1)) s b (get_size s b)
      (le_max_left _ _) hne
    rw [hr, hcall] at hmono
    injection hmono with _ e2
    subst e2
    refine ⟨_, hd1, hch1, hg1, ?_, ?_⟩
    · intro i hi
      by_cases hij : i = select_bin_index (get_size s b)
      · subst hij
        rw [Function.update_same]
        exact hs1
      · rw [Function.update_noteq hij]
        apply sortedBySize_congr s s2 _ _ (hso i hi)
        intro a ha
        exact hsz a (Or.inl ⟨i, hi, ha⟩)
    · have h1 := total_insert bins _ hj pre post b e
      have h2 := hperm.length_eq
      simp only [List.length_cons] at h2
      omega

theorem geo_runTwo2 : Geo runTwo2 (fun a => a ∈ [4096, 8192]) := by
  have hP : ∀ a, a ∈ [4096, 8192] → a = 4096 ∨ a = 8192 := by
    intro a ha
    simpa using ha
  have e1 : blockEnd runTwo2 4096 = 4212 := by decide
  have e2 : blockEnd runTwo2 8192 = 8258 := by decide
  have hbrk : runTwo2.brk = [(80, 8192), (128, 4096)] := by decide
  refine ⟨?_, ?_, ?_, ?_⟩
  · intro a b ha hb hab
    rcases hP a ha with rfl | rfl <;> rcases hP b hb with rfl | rfl
    · exact absurd rfl hab
    · left
      rw [e1]
      omega
    · right
      rw [e1]
      omega
    · exact absurd rfl hab
  · intro a ha
    rcases hP a ha with rfl | rfl
    · rw [e1]
      exact ⟨by decide, by decide⟩
    · rw [e2]
      exact ⟨by decide, by decide⟩
  · intro a ha x h1 h2
    rw [hbrk]
    rcases hP a ha with rfl | rfl
    · rw [e1] at h2
      exact ⟨(128, 4096), by simp, by decide, h1, by omega⟩
    · rw [e2] at h2
      exact ⟨(80, 8192), by simp, by decide, h1, by omega⟩
  · intro a ha
    rcases hP a ha with rfl | rfl
    · decide
    · decide

theorem inserts_runIns2 : Inserts [4096, 8192] runIns2 [] :=
  Inserts.add runIns1 runIns2 [8192] 10 8192
    (Inserts.add runTwo2 runIns1 [4096, 8192] 10 4096
      (Inserts.init runTwo2 (fun _ _ => rfl) (by decide) geo_runTwo2) (by decide) (by rfl))
    (by decide) (by rfl)

/-- C11: `freelist_add(c, get_size(c))` on well-formed free lists, for a block `c` that is on
none of them, returns (given enough fuel); if the list of bin `select_bin_index(get_size(c))`
was non-decreasing in size, the new list of that bin is the old one with `c` inserted once
(`pre ++ post` becomes `pre ++ c :: post`) and is again non-decreasing, the lists of the other
bins and all recorded sizes are unchanged.  Hence in every state reached from empty bins by
such inserts every bin holds a non-decreasing list, and the next insert returns. -/
theorem freelist_add_preserves_order :
    (∀ (s : Heap) (bins : Nat → List Nat) (others : List Nat) (c fuel : Nat),
      Distinct bins (c :: others) → Chains s bins → Geo s (Blk bins (c :: others)) →
      total bins + 1 ≤ fuel → SortedBySize s (bins (select_bin_index (get_size s c))) →
      ∃ pre post s1, bins (select_bin_index (get_size s c)) = pre ++ post ∧
        freelist_add fuel s c (get_size s c) = .ok () s1 ∧
        Chain s1.mem (s1.free_heads (select_bin_index (get_size s c))) (pre ++ c :: post) ∧
        SortedBySize s1 (pre ++ c :: post) ∧
        (∀ i, i < BIN_COUNT → i ≠ select_bin_index (get_size s c) →
          Chain s1.mem (s1.free_heads i) (bins i)) ∧
        (∀ a, Blk bins (c :: others) a → get_size s1 a = get_size s a)) ∧
    (∀ (pool : List Nat) (s : Heap) (rest : List Nat), Inserts pool s rest →
      (∀ i, i < BIN_COUNT → ∃ L, Chain s.mem (s.free_heads i) L ∧ SortedBySize s L) ∧
      (∀ b, b ∈ rest →
        ∃ s1, freelist_add (pool.length + 1) s b (get_size s b) = .ok () s1)) := by
  constructor
  · intro s bins others c fuel hd hch hg hf hs
    obtain ⟨pre, post, s1, e, hr, _, hch1, _, hsz, hs1⟩ := freelist_add_sorted hd hch hg fuel hf hs
    have hj := select_bin_index_lt (get_size s c)
    refine ⟨pre, post, s1, e, hr, ?_, hs1, ?_, hsz⟩
    · have := hch1 _ hj
      rw [Function.update_same] at this
      exact this
    · intro i hi hij
      have := hch1 i hi
      rw [Function.update_noteq hij] at this
      exact this
  · intro pool s rest h
    obtain ⟨bins, hd, hch, hg, hso, htot⟩ := inserts_inv pool s rest h
    refine ⟨fun i hi => ⟨bins i, hch i hi, hso i hi⟩, ?_⟩
    intro b hb
    have hperm : rest.Perm (b :: rest.erase b) := List.perm_cons_erase hb
    have hg2 : Geo s (Blk bins (b :: rest.erase b)) := by
      apply geo_mono hg
      · rintro a (ha | ha)
        · exact Or.inl ha
        · exact Or.inr (hperm.mem_iff.2 ha)
      · intro a _
        rfl
      · intro x hx
        exact hx
    obtain ⟨_, _, s1, _, hr, _⟩ :=
      freelist_add_sorted (distinct_perm hd hperm) hch hg2 (pool.length + 1) (by omega)
        (hso _ (select_bin_index_lt _))
    exact ⟨s1, hr⟩

/-- Witness for C11: inserting the blocks 4096 (size 100) and 8192 (size 50) of run 1, in this
order, into the empty bins. -/
theorem freelist_add_preserves_order_witness :
    Inserts [4096, 8192] runIns1 [8192] ∧ Inserts [4096, 8192] runIns2 [] ∧
    runIns2.free_heads 0 = 8192 ∧ Chain runIns2.mem (runIns2.free_heads 0) [8192, 4096] ∧
    get_size runIns2 8192 = 50 ∧ get_size runIns2 4096 = 100 ∧
    (∀ i, i < BIN_COUNT → ∃ L, Chain runIns2.mem (runIns2.free_heads i) L ∧
      SortedBySize runIns2 L) ∧
    ∃ s1, freelist_add ([4096, 8192].length + 1) runIns1 8192 (get_size runIns1 8192) =
      .ok () s1 :=
  ⟨Inserts.add runTwo2 runIns1 [4096, 8192] 10 4096
      (Inserts.init runTwo2 (fun _ _ => rfl) (by decide) geo_runTwo2) (by decide) (by rfl),
    inserts_runIns2, by decide,
    ⟨by decide, by decide, by decide, by decide, (rfl : runIns2.mem (4096 + 8) = 0)⟩,
    by decide, by decide,
    (freelist_add_preserves_order.2 [4096, 8192] runIns2 [] inserts_runIns2).1,
    (freelist_add_preserves_order.2 [4096, 8192] runIns1 [8192]
      (Inserts.add runTwo2 runIns1 [4096, 8192] 10 4096
        (Inserts.init runTwo2 (fun _ _ => rfl) (by decide) geo_runTwo2) (by decide)
        (by rfl))).2 8192 (by decide)⟩

/-! ## Recorded sizes and the alignment; free and live blocks -/

/-- C14 (as stated) fails: `umalloc(100)` from the initial state, the arena provider answering
4096, obtains `ALIGN(100 + header_size) = 128` bytes, but `extend` records the size 100 as
passed in, which is not a multiple of the alignment 16 (`split` records `ALIGN(100) = 112`
for the same request). -/
theorem extend_records_unaligned_size :
    Reach (WORD - 64) runTwo1 [4112] ∧
    umalloc (fun _ => 4096) 10 heap0 100 = .ok 4112 runTwo1 ∧
    runTwo1.brk = [(128, 4096)] ∧ ALIGN (100 + HEADER_SIZE) = 128 ∧ ALIGN 100 = 112 ∧
    get_size runTwo1 (get_header 4112) = 100 ∧
    get_size runTwo1 (get_header 4112) % ALIGNMENT ≠ 0 :=
  ⟨Reach.malloc heap0 runTwo1 [] (fun _ => 4096) 10 100 4112 (reach_heap0 _) (by decide)
      (by decide) (fresh_of_checks _ _ _ (by decide) (by decide) (by decide)) (by rfl),
    by rfl, by decide, by decide, by decide, by decide, by decide⟩

/-- C15 (as stated) fails: `umalloc(2 ^ 64 - 16)` from the initial state returns the pointer
4112 whose block 4096 is marked allocated and is at the same time the head of the free list of
bin 3. -/
theorem live_block_on_free_list_after_wrapping_request :
    Reach (WORD - 1) runWrap1 [4112] ∧ get_header 4112 = 4096 ∧
    is_allocated runWrap1 (get_header 4112) = true ∧ InBin runWrap1 3 (get_header 4112) :=
  ⟨Reach.malloc heap0 runWrap1 [] (fun _ => 4096) 10 (2 ^ 64 - 16) 4112 (reach_heap0 _)
      (by decide) (by decide) (fresh_of_checks _ _ _ (by decide) (by decide) (by decide))
      (by rfl),
    by decide, by decide,
    ⟨[4096], ⟨by decide, by decide, (rfl : runWrap1.mem (4096 + 8) = 0)⟩, by decide⟩⟩

/-- C15 (as amended): in every state reached from empty bins by `umalloc` calls with
`0 < size ≤ 2 ^ 64 - 64` and valid `ufree` calls, with an arena provider that always hands out
a fresh region, every block on a free list has its allocated flag clear, no block is on the
free lists of two bins, no free list holds a block twice, and the block of every live pointer
has its flag set and is on no free list. -/
theorem free_and_live_blocks_exclusive (s : Heap) (live : List Nat)
    (hr : Reach (WORD - 64) s live) :
    (∀ i x, i < BIN_COUNT → InBin s i x → is_allocated s x = false) ∧
    (∀ i j x, i < BIN_COUNT → j < BIN_COUNT → InBin s i x → InBin s j x → i = j) ∧
    (∀ i, i < BIN_COUNT → ∃ L, Chain s.mem (s.free_heads i) L ∧ L.Nodup) ∧
    (∀ p, p ∈ live → is_allocated s (get_header p) = true ∧
      ∀ i, i < BIN_COUNT → ¬ InBin s i (get_header p)) := by
  obtain ⟨bins, hs, hI, hlive, hfl⟩ := reach_good (WORD - 64) (by unfold WORD; omega) s live hr
  refine ⟨?_, ?_, ?_, ?_⟩
  · intro i x hi hx
    have hm := (inBin_iff hI.chains i hi x).1 hx
    have := hI.flags i hi x hm
    simp [is_allocated, this]
  · intro i j x hi hj hxi hxj
    by_contra hij
    exact hI.dist.bin_disj i j hi hj hij x ((inBin_iff hI.chains i hi x).1 hxi)
      ((inBin_iff hI.chains j hj x).1 hxj)
  · intro i hi
    exact ⟨bins i, hI.chains i hi, hI.dist.nodup i hi⟩
  · intro p hp
    rw [hlive] at hp
    obtain ⟨h, hh, rfl⟩ := List.mem_map.1 hp
    rw [get_header_eq h (hfl h hh).1]
    have h0 : h ≠ 0 := (hI.geo.bound h (Or.inr hh)).1
    refine ⟨by simp [is_allocated, h0, (hfl h hh).2], ?_⟩
    intro i hi hx
    exact hI.dist.other_disj i hi h ((inBin_iff hI.chains i hi h).1 hx) hh

/-- Witness for C15 (as amended): the state of run 4, with the live pointer 4112 and the split
remainder 5120 on the free list of bin 2. -/
theorem free_and_live_blocks_exclusive_witness :
    Reach (WORD - 64) runMerge3 [4112] ∧ InBin runMerge3 2 5120 ∧
    (∀ i x, i < BIN_COUNT → InBin runMerge3 i x → is_allocated runMerge3 x = false) ∧
    (∀ i j x, i < BIN_COUNT → j < BIN_COUNT → InBin runMerge3 i x → InBin runMerge3 j x →
      i = j) ∧
    (∀ i, i < BIN_COUNT → ∃ L, Chain runMerge3.mem (runMerge3.free_heads i) L ∧ L.Nodup) ∧
    (∀ p, p ∈ [4112] → is_allocated runMerge3 (get_header p) = true ∧
      ∀ i, i < BIN_COUNT → ¬ InBin runMerge3 i (get_header p)) :=
  ⟨reach_runMerge3,
    ⟨[5120], ⟨by decide, by decide, (rfl : runMerge3.mem (5120 + 8) = 0)⟩, by decide⟩,
    free_and_live_blocks_exclusive runMerge3 [4112] reach_runMerge3⟩

/-! ## Scenario: two requests, a release, and a request that reuses the released block -/

/-- The call `freelist_add` on an empty bin makes the block the head of the bin. -/
theorem freelist_add_empty_bin (fuel : Nat) (s : Heap) (b sz : Nat) (hf : 1 ≤ fuel)
    (hb0 : b ≠ 0) (hbin : s.free_heads (select_bin_index sz) = 0) :
    freelist_add fuel s b sz = .ok ()
      { store s (b + 8) 0 with
        free_heads := Function.update s.free_heads (select_bin_index sz) b } := by
  obtain ⟨k, rfl⟩ : ∃ k, fuel = k + 1 := ⟨fuel - 1, by omega⟩
  simp [freelist_add, freelist_walk, hbin, hb0, store]

/-- The call `ufree` of a block whose bin is empty: the flag is cleared, `coalesce` has
nothing to scan, and the block becomes the head of its bin. -/
theorem ufree_into_empty_bin (fuel : Nat) (s : Heap) (b sz : Nat) (hf : 2 ≤ fuel)
    (hb0 : b ≠ 0) (hb : b + 16 < WORD) (hm : s.mem b = sz * 16 + 1) (h60 : sz < 2 ^ 60)
    (hbin : s.free_heads (select_bin_index sz) = 0) :
    ufree fuel s (b + 16) = .ok ()
      { store (store s b (sz * 16)) (b + 8) 0 with
        free_heads := Function.update s.free_heads (select_bin_index sz) b } := by
  obtain ⟨k, rfl⟩ : ∃ k, fuel = k + 2 := ⟨fuel - 2, by omega⟩
  rw [ufree_nonnull _ _ _ (by omega), get_header_eq b hb]
  have hd : deallocate s b = .ok () (store s b (sz * 16)) := by
    have h1 : (sz * 16 + 1) % 2 = 1 := by omega
    have h2 : (sz * 16 + 1 + WORD - 1) % WORD = sz * 16 := by
      unfold WORD
      omega
    have h3 : sz * 16 % WORD = sz * 16 := by
      unfold WORD
      omega
    simp [deallocate, is_allocated, hb0, hm, h1, h2, h3]
  have hsz : get_size (store s b (sz * 16)) b = sz := by
    simp [get_size, hb0, store]
  have hc : coalesce (k + 2) (store s b (sz * 16)) b = .ok b (store s b (sz * 16)) := by
    have hh : (store s b (sz * 16)).free_heads (select_bin_index sz) = 0 := hbin
    simp [coalesce, coalesce_loop, hsz, hh, coalesce_scan]
  have hh : (store s b (sz * 16)).free_heads (select_bin_index sz) = 0 := hbin
  simp only [hd, Outcome.bind, hc, hsz]
  rw [freelist_add_empty_bin _ _ b sz (by omega) hb0 hh]
  rfl

/-- The call `umalloc(n)` when the head of bin `select_bin_index(n)` is a free block of size
`sz` with `n ≤ sz < ALIGN(n) + 48`: the head is unlinked, not split, marked allocated and
returned; the arena provider is not called. -/
theorem umalloc_takes_head (csbrk : Nat → Nat) (fuel : Nat) (s : Heap) (n b sz : Nat)
    (hf : 2 ≤ fuel) (hb0 : b ≠ 0) (hhead : s.free_heads (select_bin_index n) = b)
    (hm : s.mem b = sz * 16) (h60 : sz < 2 ^ 60) (hn : n ≤ sz) (hsz : sz < ALIGN n + 48)
    (hA : ALIGN n + 48 < WORD) :
    umalloc csbrk fuel s n = .ok (get_payload b)
      (store (unlink s (select_bin_index n) 0 b) b (sz * 16 + 1)) := by
  obtain ⟨k, rfl⟩ : ∃ k, fuel = k + 2 := ⟨fuel - 2, by omega⟩
  have hj := select_bin_index_lt n
  have hgs : get_size s b = sz := by
    simp only [get_size, hb0, ne_eq, not_false_eq_true, if_true, hm]
    omega
  have hfind : find (k + 2) s n = .ok b (unlink s (select_bin_index n) 0 b) := by
    simp [find, find_bins, BIN_COUNT, hj, hhead, find_scan, hb0, hgs, hn]
  rw [umalloc_eq_tail_found csbrk _ s _ n b hfind hb0]
  generalize hs1 : unlink s (select_bin_index n) 0 b = s1
  have hm1 : s1.mem b = sz * 16 := by
    rw [← hs1]
    simpa [unlink] using hm
  have hgs1 : get_size s1 b = sz := by
    simp only [get_size, hb0, ne_eq, not_false_eq_true, if_true, hm1]
    omega
  have hsplit : split (k + 2) s1 b n = .ok b s1 := by
    unfold split
    rw [if_neg]
    rw [hgs1]
    unfold HEADER_SIZE
    rw [Nat.mod_eq_of_lt hA]
    omega
  have halloc : allocate s1 b = .ok () (store s1 b (sz * 16 + 1)) := by
    have h1 : (sz * 16 + 1) % WORD = sz * 16 + 1 := by
      unfold WORD
      omega
    have h2 : sz * 16 % 2 = 0 := by omega
    simp [allocate, is_allocated, hb0, hm1, h1, h2]
  simp only [umalloc_tail, hsplit, Outcome.bind, halloc]

/-- C17: from a state with empty bins, with an arena provider that answers the two requests
with non-null regions `r1` and `r2` that lie inside the address space and do not overlap,
`umalloc(100)` and `umalloc(50)` return (given fuel 6) pointers `A = r1 + 16` and
`B = r2 + 16` with `A ≠ B` and disjoint ranges `[A, A + 100)` and `[B, B + 50)`; `ufree(A)`
returns, and the following `umalloc(90)` returns `A` without a request to the arena
provider. -/
theorem scenario_release_then_reuse (c1 c2 c3 : Nat → Nat) (fuel : Nat) (s0 : Heap)
    (r1 r2 : Nat) (h0 : ∀ i, i < BIN_COUNT → s0.free_heads i = 0) (hf : 6 ≤ fuel)
    (hr1 : c1 (ALIGN (100 + HEADER_SIZE)) = r1) (hr2 : c2 (ALIGN (50 + HEADER_SIZE)) = r2)
    (h10 : r1 ≠ 0) (h20 : r2 ≠ 0) (h1w : r1 + ALIGN (100 + HEADER_SIZE) ≤ WORD)
    (h2w : r2 + ALIGN (50 + HEADER_SIZE) ≤ WORD)
    (hdisj : r1 + ALIGN (100 + HEADER_SIZE) ≤ r2 ∨ r2 + ALIGN (50 + HEADER_SIZE) ≤ r1) :
    ∃ A B s1 s2 s3 s4, umalloc c1 fuel s0 100 = .ok A s1 ∧ umalloc c2 fuel s1 50 = .ok B s2 ∧
      A = r1 + 16 ∧ B = r2 + 16 ∧ A ≠ B ∧ (A + 100 ≤ B ∨ B + 50 ≤ A) ∧
      ufree fuel s2 A = .ok () s3 ∧ umalloc c3 fuel s3 90 = .ok A s4 ∧
      s3.brk = s2.brk ∧ s4.brk = s2.brk := by
  have hA1 : ALIGN (100 + HEADER_SIZE) = 128 := by decide
  have hA2 : ALIGN (50 + HEADER_SIZE) = 80 := by decide
  rw [hA1] at h1w hdisj
  rw [hA2] at h2w hdisj
  have hne : r1 ≠ r2 := by omega
  have hm1 : (100 + HEADER_SIZE) % WORD = 100 + HEADER_SIZE := by decide
  have hm2 : (50 + HEADER_SIZE) % WORD = 50 + HEADER_SIZE := by decide
  have hu1 := umalloc_grown_state c1 fuel s0 100 r1 (by norm_num)
    (find_empty_bins s0 h0 fuel 100 hf) (by rw [hm1]; exact hr1) h10
  generalize hs1 : store (store { s0 with brk := (ALIGN ((100 + HEADER_SIZE) % WORD), r1) ::
    s0.brk } r1 (100 * 16)) r1 (100 * 16 + 1) = s1 at hu1
  have hh1 : s1.free_heads = s0.free_heads := by
    rw [← hs1]
    rfl
  have hmem1 : s1.mem r1 = 100 * 16 + 1 := by
    rw [← hs1]
    exact store_mem_same _ _ _
  have hu2 := umalloc_grown_state c2 fuel s1 50 r2 (by norm_num)
    (find_empty_bins s1 (by rw [hh1]; exact h0) fuel 50 hf) (by rw [hm2]; exact hr2) h20
  generalize hs2 : store (store { s1 with brk := (ALIGN ((50 + HEADER_SIZE) % WORD), r2) ::
    s1.brk } r2 (50 * 16)) r2 (50 * 16 + 1) = s2 at hu2
  have hh2 : s2.free_heads = s0.free_heads := by
    rw [← hs2, ← hh1]
    rfl
  have hmem2 : s2.mem r1 = 100 * 16 + 1 := by
    rw [← hs2, store_mem_other _ _ _ _ hne, store_mem_other _ _ _ _ hne]
    exact hmem1
  have hi100 : select_bin_index 100 = 0 := by decide
  have hi90 : select_bin_index 90 = 0 := by decide
  have hu3 := ufree_into_empty_bin fuel s2 r1 100 (by omega) h10 (by omega) hmem2
    (by norm_num) (by rw [hh2, hi100]; exact h0 0 (by decide))
  generalize hs3 : ({ store (store s2 r1 (100 * 16)) (r1 + 8) 0 with
    free_heads := Function.update s2.free_heads (select_bin_index 100) r1 } : Heap) = s3 at hu3
  have hhead3 : s3.free_heads (select_bin_index 90) = r1 := by
    rw [← hs3, hi100, hi90]
    exact Function.update_same 0 r1 s2.free_heads
  have hmem3 : s3.mem r1 = 100 * 16 := by
    rw [← hs3]
    show (store (store s2 r1 (100 * 16)) (r1 + 8) 0).mem r1 = 100 * 16
    rw [store_mem_other _ _ _ _ (by omega), store_mem_same]
  have hu4 := umalloc_takes_head c3 fuel s3 90 r1 100 (by omega) h10 hhead3 hmem3
    (by norm_num) (by norm_num) (by decide) (by decide)
  have hp1 : get_payload r1 = r1 + 16 := get_payload_eq r1 (by omega)
  have hp2 : get_payload r2 = r2 + 16 := get_payload_eq r2 (by omega)
  rw [hp1] at hu1 hu4
  rw [hp2] at hu2
  refine ⟨r1 + 16, r2 + 16, s1, s2, s3, _, hu1, hu2, rfl, rfl, by omega, by omega, hu3, hu4,
    ?_, ?_⟩
  · rw [← hs3]
    rfl
  · rw [← hs3]
    rfl

/-- Witness for C17: run 1 (the arena provider answers 4096, then 8192). -/
theorem scenario_release_then_reuse_witness :
    (∀ i, i < BIN_COUNT → heap0.free_heads i = 0) ∧ 6 ≤ 10 ∧ 4096 ≠ 0 ∧ 8192 ≠ 0 ∧
    4096 + ALIGN (100 + HEADER_SIZE) ≤ WORD ∧ 8192 + ALIGN (50 + HEADER_SIZE) ≤ WORD ∧
    (4096 + ALIGN (100 + HEADER_SIZE) ≤ 8192 ∨ 8192 + ALIGN (50 + HEADER_SIZE) ≤ 4096) ∧
    ∃ A B s1 s2 s3 s4, umalloc (fun _ => 4096) 10 heap0 100 = .ok A s1 ∧
      umalloc (fun _ => 8192) 10 s1 50 = .ok B s2 ∧
      A = 4096 + 16 ∧ B = 8192 + 16 ∧ A ≠ B ∧ (A + 100 ≤ B ∨ B + 50 ≤ A) ∧
      ufree 10 s2 A = .ok () s3 ∧ umalloc (fun _ => 0) 10 s3 90 = .ok A s4 ∧
      s3.brk = s2.brk ∧ s4.brk = s2.brk :=
  ⟨fun _ _ => rfl, by decide, by decide, by decide, by decide, by decide, by decide,
    scenario_release_then_reuse (fun _ => 4096) (fun _ => 8192) (fun _ => 0) 10 heap0 4096 8192
      (fun _ _ => rfl) (by decide) rfl rfl (by decide) (by decide) (by decide) (by decide)
      (by decide)⟩

/-! ## Release, then reuse -/

theorem select_bin_index_mono (a b : Nat) (h : a ≤ b) :
    select_bin_index a ≤ select_bin_index b := by
  unfold select_bin_index
  split_ifs <;> omega

theorem smallArena_runSplit1 : SmallArena runSplit1.brk := by
  have e : runSplit1.brk = [(2016, 4096)] := by decide
  intro q hq _
  rw [e] at hq
  simp only [List.mem_singleton] at hq
  subst hq
  norm_num

/-- C16 (as stated) fails for requests of `2 ^ 60` bytes and more: the size field of the
header keeps 60 bits, so after `umalloc(2 ^ 60)` the block records size 0; after its release
`find(1)` comes back with `NULL` and `umalloc(1)` sends a request to the arena provider,
whatever the provider and the fuel. -/
theorem released_block_of_huge_request_not_reused :
    Reach (WORD - 64) heap0 [] ∧ 0 < 2 ^ 60 ∧
    umalloc (fun _ => 4096) 10 heap0 (2 ^ 60) = .ok 4112 runBig1 ∧
    ufree 10 runBig1 4112 = .ok () runBig2 ∧ 0 < 1 ∧ 1 ≤ 2 ^ 60 ∧
    get_size runBig2 (get_header 4112) = 0 ∧
    ∀ (c : Nat → Nat) (fuel : Nat), 10 ≤ fuel → find fuel runBig2 1 = .ok 0 runBig2 ∧
      ((umalloc c fuel runBig2 1).heapD heap0).brk =
        (ALIGN (1 + HEADER_SIZE), c (ALIGN (1 + HEADER_SIZE))) :: runBig2.brk := by
  refine ⟨reach_heap0 _, by decide, by rfl, by rfl, by decide, by decide, by decide, ?_⟩
  intro c fuel hf
  have h10 : find 10 runBig2 1 = .ok 0 runBig2 := by rfl
  have hfind : find fuel runBig2 1 = .ok 0 runBig2 := by
    rw [find_mono 1 10 fuel runBig2 hf (by rw [h10]; exact fun h => Outcome.noConfusion h)]
    exact h10
  have hmod : (1 + HEADER_SIZE) % WORD = 1 + HEADER_SIZE := by decide
  refine ⟨hfind, ?_⟩
  by_cases hc : c (ALIGN (1 + HEADER_SIZE)) = 0
  · rw [umalloc_arena_null c fuel runBig2 1 hfind (by rw [hmod]; exact hc), hmod, hc]
    rfl
  · rw [umalloc_grown_state c fuel runBig2 1 _ (by norm_num) hfind (by rw [hmod]) hc]
    rfl

/-- C16 (as amended): in a state reached from empty bins by valid calls, let `umalloc(n)` with
`0 < n < 2 ^ 60` return `p`, let all arena regions handed out up to then lie below the address
`2 ^ 60`, and let `ufree(p)` follow immediately.  Then for every `0 < n2 ≤ n` the next
`umalloc(n2)` returns (given enough fuel): `find` returns a block, the result is the payload
pointer of that block, and the log of arena requests is unchanged. -/
theorem release_then_reuse (s : Heap) (live : List Nat) (csbrk csbrk2 : Nat → Nat)
    (fuel fuel1 n n2 p : Nat) (s1 s2 : Heap) (hr : Reach (WORD - 64) s live)
    (hn0 : 0 < n) (hn : n < 2 ^ 60)
    (hfresh : Fresh s.brk (ALIGN ((n + HEADER_SIZE) % WORD))
      (csbrk (ALIGN ((n + HEADER_SIZE) % WORD))))
    (hu : umalloc csbrk fuel s n = .ok p s1) (hsm : SmallArena s1.brk)
    (hfr : ufree fuel1 s1 p = .ok () s2) (h20 : 0 < n2) (h2n : n2 ≤ n) :
    ∃ N, ∀ fuel2, N ≤ fuel2 → ∃ b q s3 sf, find fuel2 s2 n2 = .ok b sf ∧ b ≠ 0 ∧
      n2 ≤ get_size s2 b ∧ umalloc csbrk2 fuel2 s2 n2 = .ok q s3 ∧ q = get_payload b ∧
      s3.brk = s2.brk := by
  have hW : (2 : Nat) ^ 60 + 64 ≤ WORD := by
    unfold WORD
    norm_num
  obtain ⟨bins, hs, hI, _, _⟩ := reach_good (WORD - 64) (by unfold WORD; omega) s live hr
  obtain ⟨b, bins1, t1, hu1, hI1, _, hb16, hsz, _, _, _⟩ :=
    umalloc_spec hI csbrk n (max fuel (total bins + 6)) hn0 (by omega) (le_max_right _ _) hfresh
  have hm1 := umalloc_mono csbrk fuel (max fuel (total bins + 6)) s n (le_max_left _ _)
    (by rw [hu]; exact fun h => Outcome.noConfusion h)
  rw [hu1, hu] at hm1
  injection hm1 with e1 e2
  subst e1 e2
  obtain ⟨r, bins2, t2, hf2, _, hI2, _, _, _, hrm, _, hszr⟩ :=
    ufree_spec_size hI1 hb16 (max fuel1 (total bins1 + 2)) (le_max_right _ _)
  have hm2 := ufree_mono fuel1 (max fuel1 (total bins1 + 2)) t1 (b + 16) (le_max_left _ _)
    (by rw [hfr]; exact fun h => Outcome.noConfusion h)
  rw [hf2, hfr] at hm2
  injection hm2 with _ e3
  subst e3
  have hbig : n2 ≤ get_size t2 r := le_trans h2n (le_trans (hsz hn) (hszr hsm))
  refine ⟨total bins2 + 6, fun fuel2 hf => ?_⟩
  rcases find_spec n2 t2 bins2 hI2.chains fuel2 hf with
    ⟨_, hall⟩ | ⟨i, pre, b2, post, _, hi, e, _, hge, _, hfind⟩
  · have := hall _ (select_bin_index_mono _ _ hbig) (select_bin_index_lt _) r hrm
    omega
  · have hmem : b2 ∈ bins2 i := by
      rw [e]
      exact List.mem_append_right _ (List.mem_cons_self _ _)
    have hb0 : b2 ≠ 0 := (hI2.geo.bound b2 (Or.inl ⟨i, hi, hmem⟩)).1
    obtain ⟨_, s3, hu3, _, _, hb3, _, hbrk⟩ :=
      umalloc_found_spec hI2 csbrk2 n2 fuel2 h20 (by omega) hf b2 _ hfind hb0
    exact ⟨b2, b2 + 16, s3, _, hfind, hb0, hge, hu3, (get_payload_eq b2 hb3).symm, hbrk⟩

/-- Witness for C16 (as amended): run 3, where `umalloc(2000)` returns 4112, the pointer is
released, and `umalloc(16)` follows. -/
theorem release_then_reuse_witness :
    Reach (WORD - 64) heap0 [] ∧ 0 < 2000 ∧ 2000 < 2 ^ 60 ∧
    Fresh heap0.brk (ALIGN ((2000 + HEADER_SIZE) % WORD)) 4096 ∧
    umalloc (fun _ => 4096) 10 heap0 2000 = .ok 4112 runSplit1 ∧ SmallArena runSplit1.brk ∧
    ufree 10 runSplit1 4112 = .ok () runSplit2 ∧ 0 < 16 ∧ 16 ≤ 2000 ∧
    ∃ N, ∀ fuel2, N ≤ fuel2 → ∃ b q s3 sf, find fuel2 runSplit2 16 = .ok b sf ∧ b ≠ 0 ∧
      16 ≤ get_size runSplit2 b ∧ umalloc (fun _ => 0) fuel2 runSplit2 16 = .ok q s3 ∧
      q = get_payload b ∧ s3.brk = runSplit2.brk :=
  ⟨reach_heap0 _, by decide, by decide,
    fresh_of_checks _ _ _ (by decide) (by decide) (by decide), by rfl, smallArena_runSplit1, by rfl,
    by decide, by decide,
    release_then_reuse heap0 [] (fun _ => 4096) (fun _ => 0) 10 10 2000 16 4112 runSplit1
      runSplit2 (reach_heap0 _) (by decide) (by decide)
      (fresh_of_checks _ _ _ (by decide) (by decide) (by decide)) (by rfl) smallArena_runSplit1 (by rfl)
      (by decide) (by decide)⟩

/-! ## Rounds of equal requests: the steady-state invariant -/

theorem ALIGN_add_header (n : Nat) (h : n < 2 ^ 60) :
    ALIGN ((n + HEADER_SIZE) % WORD) = ALIGN n + 16 := by
  unfold ALIGN ALIGNMENT HEADER_SIZE WORD
  omega

theorem ALIGN_mod (n : Nat) : ALIGN n % 16 = 0 := by
  unfold ALIGN ALIGNMENT
  omega

theorem weight_eq_zero (s : Heap) (g : Nat) (L : List Nat) (h : weight s g L = 0) : L = [] := by
  cases L with
  | nil => rfl
  | cons a L =>
    rw [weight_cons] at h
    omega

theorem length_mul_le_weight (s : Heap) (g R : Nat) (L : List Nat)
    (h : ∀ a ∈ L, R ≤ get_size s a + 16 + g) : L.length * R ≤ weight s g L := by
  induction L with
  | nil => simp [weight]
  | cons a L ih =>
    rw [weight_cons, List.length_cons, Nat.add_mul, Nat.one_mul]
    have h1 := h a (List.mem_cons_self _ _)
    have h2 := ih fun b hb => h b (List.mem_cons_of_mem _ hb)
    omega

theorem total_mul_le_weight (s : Heap) (g R : Nat) (bins : Nat → List Nat)
    (h : ∀ a, IsFree bins a → R ≤ get_size s a + 16 + g) : total bins * R ≤ Weight s g bins := by
  unfold total Weight
  have h0 := length_mul_le_weight s g R (bins 0) fun a ha => h a ⟨0, by omega, ha⟩
  have h1 := length_mul_le_weight s g R (bins 1) fun a ha => h a ⟨1, by omega, ha⟩
  have h2 := length_mul_le_weight s g R (bins 2) fun a ha => h a ⟨2, by omega, ha⟩
  have h3 := length_mul_le_weight s g R (bins 3) fun a ha => h a ⟨3, by omega, ha⟩
  simp only [Nat.add_mul]
  omega

/-- A free block of a steady state holds at least one slot, so it is at least `sz` bytes. -/
theorem steady_free_size {sz r0 : Nat} {s : Heap} {bins : Nat → List Nat} {others : List Nat}
    {m : Nat} (h : Steady sz r0 s bins others m) (hsz : sz < 2 ^ 60) (a : Nat)
    (ha : IsFree bins a) :
    ALIGN sz + 16 ≤ get_size s a + 16 + (ALIGN sz - sz) ∧ sz ≤ get_size s a := by
  have hA1 : sz ≤ ALIGN sz := ALIGN_le sz (by unfold WORD; omega)
  obtain ⟨k, hk⟩ := h.div a ha
  have hk0 : k ≠ 0 := by
    rintro rfl
    omega
  have : 1 * (ALIGN sz + 16) ≤ k * (ALIGN sz + 16) :=
    Nat.mul_le_mul_right _ (Nat.one_le_iff_ne_zero.2 hk0)
  omega

theorem steady_total_le {sz r0 : Nat} {s : Heap} {bins : Nat → List Nat} {others : List Nat}
    {m : Nat} (h : Steady sz r0 s bins others m) (hsz : sz < 2 ^ 60) : total bins ≤ m := by
  have h1 := total_mul_le_weight s (ALIGN sz - sz) (ALIGN sz + 16) bins
    fun a ha => (steady_free_size h hsz a ha).1
  rw [h.wt] at h1
  exact Nat.le_of_mul_le_mul_right h1 (by omega)

/-- With no slot free, all four bins are empty. -/
theorem steady_empty {sz r0 : Nat} {s : Heap} {bins : Nat → List Nat} {others : List Nat}
    (h : Steady sz r0 s bins others 0) (i : Nat) (hi : i < 4) : bins i = [] := by
  have hw := h.wt
  rw [Nat.zero_mul] at hw
  unfold Weight at hw
  have : weight s (ALIGN sz - sz) (bins i) = 0 := by
    interval_cases i <;> omega
  exact weight_eq_zero _ _ _ this

theorem arenaTop_cons (r0 n r : Nat) (brk : List (Nat × Nat)) :
    arenaTop r0 ((n, r) :: brk) = arenaTop r0 brk + n := by
  simp [arenaTop]
  omega

theorem arenaTop_mod (r0 R : Nat) (brk : List (Nat × Nat)) (h : ∀ q ∈ brk, q.1 = R) :
    arenaTop r0 brk % R = r0 % R := by
  induction brk with
  | nil => simp [arenaTop]
  | cons q brk ih =>
    obtain ⟨n, r⟩ := q
    have hn : n = R := h (n, r) (List.mem_cons_self _ _)
    rw [arenaTop_cons, hn, Nat.add_mod_right]
    exact ih fun q hq => h q (List.mem_cons_of_mem _ hq)

theorem arenaTop_ge (r0 : Nat) (brk : List (Nat × Nat)) : r0 ≤ arenaTop r0 brk := by
  unfold arenaTop
  omega

/-- A request in a steady state without a free slot: `umalloc(sz)` obtains the next region
from the arena provider and returns its block, which is not split. -/
theorem steady_grow {sz r0 : Nat} {s : Heap} {bins : Nat → List Nat} {others : List Nat}
    (h : Steady sz r0 s bins others 0) (hsz0 : 0 < sz) (hsz : sz < 2 ^ 60) (hr0 : r0 ≠ 0)
    (hfit : arenaTop r0 s.brk + (ALIGN sz + 16) ≤ 2 ^ 60) (fuel : Nat) (hf : 6 ≤ fuel) :
    ∃ s1, umalloc (fun _ => arenaTop r0 s.brk) fuel s sz = .ok (arenaTop r0 s.brk + 16) s1 ∧
      Steady sz r0 s1 bins (arenaTop r0 s.brk :: others) 0 ∧
      s1.brk = (ALIGN sz + 16, arenaTop r0 s.brk) :: s.brk := by
  have hA1 : sz ≤ ALIGN sz := ALIGN_le sz (by unfold WORD; omega)
  have hA2 : ALIGN sz < sz + 16 := ALIGN_lt sz (by unfold WORD; omega)
  have hreq := ALIGN_add_header sz hsz
  have hge := arenaTop_ge r0 s.brk
  have hmod := arenaTop_mod r0 (ALIGN sz + 16) s.brk h.regs
  have htop := h.top
  generalize hrdef : arenaTop r0 s.brk = r at *
  have hr : r ≠ 0 := by omega
  have hfresh : Fresh s.brk (ALIGN ((sz + HEADER_SIZE) % WORD))
      ((fun _ : Nat => r) (ALIGN ((sz + HEADER_SIZE) % WORD))) := by
    rw [hreq]
    refine ⟨hr, ?_, fun q hq _ => Or.inr (htop q hq)⟩
    show r + (ALIGN sz + 16) ≤ WORD
    unfold WORD
    omega
  obtain ⟨r', s2, hrd, hext, hI2, hmr, _, _, hmeta, hbrk⟩ :=
    extend_spec h.inv (fun _ => r) sz (by unfold WORD; omega) hfresh
  have hr' : r' = r := hrd
  subst hr'
  rw [hreq] at hbrk
  have h0 : ∀ i, i < BIN_COUNT → s.free_heads i = 0 := by
    intro i hi
    have := h.inv.chains i hi
    rw [steady_empty h i hi] at this
    exact this
  have hfind := find_empty_bins s h0 fuel sz hf
  have htot := steady_total_le h hsz
  have hgs2 : get_size s2 r' = sz := by
    simp only [get_size, hr, ne_eq, not_false_eq_true, if_true, hmr]
    exact encode_size sz false hsz
  have hsplit : split fuel s2 r' sz = .ok r' s2 :=
    (split_spec_gen hI2 sz fuel (by unfold WORD; omega) (by omega)).1 (by omega)
  obtain ⟨s1, hal, hI1, _, hsz1, hmo, hbrk1⟩ := allocate_spec hI2
  have hb16 : r' + 16 < WORD := by
    unfold WORD
    omega
  have hnr : ∀ a ∈ others, a ≠ r' := by
    rintro a ha rfl
    exact (List.nodup_cons.1 hI1.dist.onodup).1 ha
  have hmem : ∀ a ∈ others, s1.mem a = s.mem a := by
    intro a ha
    rw [hmo a (hnr a ha)]
    exact hmeta a (Or.inr ha)
  have hnofree : ∀ a, ¬ IsFree bins a := by
    rintro a ⟨i, hi, ha⟩
    rw [steady_empty h i hi] at ha
    simp at ha
  refine ⟨s1, ?_, ⟨hI1, ?_, ?_, ?_, h.bin, ?_, ?_, ?_, ?_⟩, by rw [hbrk1, hbrk]⟩
  · rw [umalloc_eq_tail_grown _ fuel s s s2 sz r' hfind hext]
    simp only [umalloc_tail, hsplit, Outcome.bind, hal, get_payload_eq r' hb16]
  · intro q hq hq0
    rw [hbrk1, hbrk] at hq
    rcases List.mem_cons.1 hq with rfl | hq
    · exact hfit
    · exact h.small q hq hq0
  · intro q hq
    rw [hbrk1, hbrk] at hq
    rcases List.mem_cons.1 hq with rfl | hq
    · rfl
    · exact h.regs q hq
  · intro q hq
    rw [hbrk1, hbrk] at hq ⊢
    rw [arenaTop_cons, hrdef]
    rcases List.mem_cons.1 hq with rfl | hq
    · exact le_refl _
    · have := htop q hq
      omega
  · intro a ha
    exact absurd ha (hnofree a)
  · have hw : Weight s1 (ALIGN sz - sz) bins = 0 := by
      unfold Weight
      rw [steady_empty h 0 (by omega), steady_empty h 1 (by omega), steady_empty h 2 (by omega),
        steady_empty h 3 (by omega)]
      simp [weight]
    rw [hw, Nat.zero_mul]
  · intro a ha
    rcases List.mem_cons.1 ha with rfl | ha
    · rw [hsz1, hgs2]
    · rw [get_size_congr s s1 a (hmem a ha)]
      exact h.live a ha
  · intro hg a ha
    rcases ha with ha | ha
    · exact absurd ha (hnofree a)
    · rcases List.mem_cons.1 ha with rfl | ha
      · exact ⟨by rw [hsz1, hgs2], hmod⟩
      · rw [get_size_congr s s1 a (hmem a ha)]
        exact h.gap hg a (Or.inr ha)

theorem exists_free_of_weight_pos (s : Heap) (g : Nat) (bins : Nat → List Nat)
    (h : 0 < Weight s g bins) : ∃ i a, i < 4 ∧ a ∈ bins i := by
  by_contra hno
  have he : ∀ i, i < 4 → bins i = [] := by
    intro i hi
    cases hL : bins i with
    | nil => rfl
    | cons a L => exact absurd ⟨i, a, hi, by rw [hL]; exact List.mem_cons_self _ _⟩ hno
  unfold Weight at h
  rw [he 0 (by omega), he 1 (by omega), he 2 (by omega), he 3 (by omega)] at h
  simp [weight] at h

/-- A free block that `split` leaves whole holds exactly one slot. -/
theorem slot_one (A sz k S : Nat) (hA1 : sz ≤ A) (hA3 : A % 16 = 0) (h16 : sz ≠ 16)
    (h0 : 0 < sz) (hk : S + 16 + (A - sz) = k * (A + 16)) (hgap : sz < A → S = sz)
    (hsp : S < A + 48) : S = sz := by
  by_cases hg : sz < A
  · exact hgap hg
  · have hA : A = sz := by omega
    subst hA
    rcases k with _ | _ | k
    · omega
    · omega
    · have : (k + 1 + 1) * (A + 16) = k * (A + 16) + 2 * (A + 16) := by ring
      rw [this] at hk
      have := Nat.zero_le (k * (A + 16))
      omega

/-- A free block that `split` cuts holds at least two slots, and the size is a multiple
of 16. -/
theorem slot_many (A sz k S : Nat) (hA1 : sz ≤ A) (hk : S + 16 + (A - sz) = k * (A + 16))
    (hgap : sz < A → S = sz) (hsp : A + 48 ≤ S) :
    A = sz ∧ ∃ j, 1 ≤ j ∧ S - A - 16 + 16 = j * (A + 16) := by
  have hA : A = sz := by
    by_contra hne
    have := hgap (by omega)
    omega
  subst hA
  refine ⟨rfl, ?_⟩
  rcases k with _ | _ | k
  · omega
  · omega
  · refine ⟨k + 1, by omega, ?_⟩
    have : (k + 1 + 1) * (A + 16) = (k + 1) * (A + 16) + (A + 16) := by ring
    rw [this] at hk
    omega

/-- A request in a steady state with a free slot: `umalloc(sz)` takes a free block, cuts off
one slot if the block holds more, and does not call the arena provider. -/
theorem steady_reuse {sz r0 : Nat} {s : Heap} {bins : Nat → List Nat} {others : List Nat}
    {m : Nat} (h : Steady sz r0 s bins others (m + 1)) (hsz0 : 0 < sz) (hsz : sz < 2 ^ 60)
    (h16 : sz ≠ 16) (csbrk : Nat → Nat) (fuel : Nat) (hf : m + 7 ≤ fuel) :
    ∃ b bins1 s1, umalloc csbrk fuel s sz = .ok (b + 16) s1 ∧
      Steady sz r0 s1 bins1 (b :: others) m ∧ s1.brk = s.brk := by
  have hA1 : sz ≤ ALIGN sz := ALIGN_le sz (by unfold WORD; omega)
  have hA2 : ALIGN sz < sz + 16 := ALIGN_lt sz (by unfold WORD; omega)
  have hA3 := ALIGN_mod sz
  have htot := steady_total_le h hsz
  have hwpos : 0 < Weight s (ALIGN sz - sz) bins := by
    rw [h.wt]
    exact Nat.mul_pos (by omega) (by omega)
  obtain ⟨i0, a0, hi0, ha0⟩ := exists_free_of_weight_pos s _ bins hwpos
  rcases find_spec sz s bins h.inv.chains fuel (by omega) with
    ⟨_, hall⟩ | ⟨i, pre, b, post, _, hi, e, _, hge, _, hfind⟩
  · have h1 := hall i0 (h.bin i0 hi0 a0 ha0) hi0 a0 ha0
    have h2 := (steady_free_size h hsz a0 ⟨i0, hi0, ha0⟩).2
    omega
  have hbi : b ∈ bins i := by
    rw [e]
    exact List.mem_append_right _ (List.mem_cons_self _ _)
  have hFb : IsFree bins b := ⟨i, hi, hbi⟩
  obtain ⟨hU, hmeta⟩ := inv_unlink h.inv i hi pre post b e
  have hb0 : b ≠ 0 := (h.inv.geo.bound b (Or.inl hFb)).1
  have hbw := (h.inv.geo.bound b (Or.inl hFb)).2
  unfold blockEnd HEADER_SIZE at hbw
  have hb16 : b + 16 < WORD := by omega
  have htail := umalloc_eq_tail_found csbrk fuel s _ sz b hfind hb0
  have hsU : get_size (unlink s i (lastOr 0 pre) b) b = get_size s b :=
    get_size_congr _ _ _ (hmeta b (Or.inl hFb))
  obtain ⟨k, hk⟩ := h.div b hFb
  have hwr := weight_remove s (ALIGN sz - sz) bins i hi pre post b e
  have htr := total_remove bins i hi pre post b e
  have hsub : ∀ a, IsFree (Function.update bins i (pre ++ post)) a → IsFree bins a ∧ a ≠ b := by
    intro a ha
    refine ⟨?_, ?_⟩
    · apply isFree_update_sub bins i (pre ++ post) a _ ha
      intro x hx
      refine ⟨i, hi, ?_⟩
      rw [e]
      rcases List.mem_append.1 hx with hx | hx
      · exact List.mem_append_left _ hx
      · exact List.mem_append_right _ (List.mem_cons_of_mem _ hx)
    · rintro rfl
      obtain ⟨j, hj, hm⟩ := ha
      exact hU.dist.other_disj j hj a hm (List.mem_cons_self _ _)
  have hbin1 : ∀ j, j < 4 → ∀ a ∈ Function.update bins i (pre ++ post) j,
      select_bin_index sz ≤ j := by
    intro j hj a ha
    rcases (mem_update_bins _ _ _ _ _).1 ha with ⟨rfl, hy⟩ | ⟨_, hy⟩
    · apply h.bin j hj a
      rw [e]
      rcases List.mem_append.1 hy with hy | hy
      · exact List.mem_append_left _ hy
      · exact List.mem_append_right _ (List.mem_cons_of_mem _ hy)
    · exact h.bin j hj a hy
  have hob : ∀ a ∈ others, a ≠ b := by
    rintro a ha rfl
    exact (List.nodup_cons.1 hU.dist.onodup).1 ha
  have hgapb : sz < ALIGN sz → get_size s b = sz := fun hg => (h.gap hg b (Or.inl hFb)).1
  by_cases hsp : get_size s b < ALIGN sz + 48
  · -- the block is handed out whole
    have hone := slot_one (ALIGN sz) sz k (get_size s b) hA1 hA3 h16 hsz0 hk hgapb hsp
    have hsplit : split fuel (unlink s i (lastOr 0 pre) b) b sz =
        .ok b (unlink s i (lastOr 0 pre) b) :=
      (split_spec_gen hU sz fuel (by unfold WORD; omega) (by omega)).1 (by rw [hsU]; exact hsp)
    obtain ⟨s1, hal, hI1, _, hsz1, hmo, hbrk1⟩ := allocate_spec hU
    have hbrk : s1.brk = s.brk := by rw [hbrk1, unlink_brk]
    have hmem : ∀ a, Blk bins others a → a ≠ b → s1.mem a = s.mem a := by
      intro a ha hab
      rw [hmo a hab]
      exact hmeta a ha
    refine ⟨b, _, s1, ?_, ⟨hI1, ?_, ?_, ?_, hbin1, ?_, ?_, ?_, ?_⟩, hbrk⟩
    · rw [htail]
      simp only [umalloc_tail, hsplit, Outcome.bind, hal, get_payload_eq b hb16]
    · rw [hbrk]
      exact h.small
    · rw [hbrk]
      exact h.regs
    · rw [hbrk]
      exact h.top
    · intro a ha
      obtain ⟨hfa, hab⟩ := hsub a ha
      rw [get_size_congr s s1 a (hmem a (Or.inl hfa) hab)]
      exact h.div a hfa
    · rw [weight_all_congr s s1 _ _ fun a ha =>
        get_size_congr s s1 a (hmem a (Or.inl (hsub a ha).1) (hsub a ha).2)]
      have hw := h.wt
      rw [Nat.add_mul, Nat.one_mul] at hw
      omega
    · intro a ha
      rcases List.mem_cons.1 ha with rfl | ha
      · rw [hsz1, hsU]
        exact hone
      · rw [get_size_congr s s1 a (hmem a (Or.inr ha) (hob a ha))]
        exact h.live a ha
    · intro hg a ha
      rcases ha with ha | ha
      · obtain ⟨hfa, hab⟩ := hsub a ha
        rw [get_size_congr s s1 a (hmem a (Or.inl hfa) hab)]
        exact h.gap hg a (Or.inl hfa)
      · rcases List.mem_cons.1 ha with rfl | ha
        · rw [hsz1, hsU]
          exact h.gap hg a (Or.inl hFb)
        · rw [get_size_congr s s1 a (hmem a (Or.inr ha) (hob a ha))]
          exact h.gap hg a (Or.inr ha)
  · -- the block is cut: its front slot is handed out, the rest goes back to a bin
    obtain ⟨hAs, j, hj1, hj⟩ := slot_many (ALIGN sz) sz k (get_size s b) hA1 hk hgapb (by omega)
    obtain ⟨pre2, post2, s2, e2, hsplit, hI2, hmb, hmrem, hmeta2, hbrk2⟩ :=
      (split_spec_gen hU sz fuel (by unfold WORD; omega) (by omega)).2 (by rw [hsU]; omega)
    rw [hsU] at e2 hI2 hmrem
    obtain ⟨s1, hal, hI1, _, hsz1, hmo, hbrk1⟩ := allocate_spec hI2
    have hbrk : s1.brk = s.brk := by rw [hbrk1, hbrk2, unlink_brk]
    have hjx := select_bin_index_lt (get_size s b - ALIGN sz - 16)
    have hrem0 : b + 16 + ALIGN sz ≠ 0 := by omega
    have hrb : b + 16 + ALIGN sz ≠ b := by omega
    have hgr : get_size s1 (b + 16 + ALIGN sz) = get_size s b - ALIGN sz - 16 := by
      simp only [get_size, hrem0, ne_eq, not_false_eq_true, if_true, hmo _ hrb, hmrem]
      omega
    have hgb : get_size s2 b = sz := by
      simp only [get_size, hb0, ne_eq, not_false_eq_true, if_true, hmb]
      omega
    have hRle : 1 * (ALIGN sz + 16) ≤ j * (ALIGN sz + 16) := Nat.mul_le_mul_right _ hj1
    have hmem : ∀ a, Blk bins others a → a ≠ b → s1.mem a = s.mem a := by
      intro a ha hab
      rw [hmo a hab, hmeta2 a ?_]
      · exact hmeta a ha
      · rcases ha with ⟨l, hl, hm⟩ | ha
        · left
          refine ⟨l, hl, (mem_update_bins _ _ _ _ _).2 ?_⟩
          by_cases hli : l = i
          · subst hli
            left
            refine ⟨rfl, ?_⟩
            rw [e] at hm
            rcases List.mem_append.1 hm with hm | hm
            · exact List.mem_append_left _ hm
            · rcases List.mem_cons.1 hm with hm | hm
              · exact absurd hm hab
              · exact List.mem_append_right _ hm
          · exact Or.inr ⟨hli, hm⟩
        · exact Or.inr ha
    have hsub2 : ∀ a, IsFree (Function.update (Function.update bins i (pre ++ post))
        (select_bin_index (get_size s b - ALIGN sz - 16))
        (pre2 ++ (b + 16 + ALIGN sz) :: post2)) a →
        a = b + 16 + ALIGN sz ∨ (IsFree bins a ∧ a ≠ b) := by
      rintro a ⟨l, hl, hm⟩
      rcases (mem_update_bins _ _ _ _ _).1 hm with ⟨rfl, hy⟩ | ⟨_, hy⟩
      · rcases List.mem_append.1 hy with hy | hy
        · exact Or.inr (hsub a ⟨_, hl, e2 ▸ List.mem_append_left _ hy⟩)
        · rcases List.mem_cons.1 hy with hy | hy
          · exact Or.inl hy
          · exact Or.inr (hsub a ⟨_, hl, e2 ▸ List.mem_append_right _ hy⟩)
      · exact Or.inr (hsub a ⟨l, hl, hy⟩)
    have hsz2 : ∀ a, IsFree (Function.update bins i (pre ++ post)) a →
        get_size s1 a = get_size s a := fun a ha =>
      get_size_congr s s1 a (hmem a (Or.inl (hsub a ha).1) (hsub a ha).2)
    refine ⟨b, _, s1, ?_, ⟨hI1, ?_, ?_, ?_, ?_, ?_, ?_, ?_, ?_⟩, hbrk⟩
    · rw [htail]
      simp only [umalloc_tail, hsplit, Outcome.bind, hal, get_payload_eq b hb16]
    · rw [hbrk]
      exact h.small
    · rw [hbrk]
      exact h.regs
    · rw [hbrk]
      exact h.top
    · intro l hl a ha
      rcases (mem_update_bins _ _ _ _ _).1 ha with ⟨rfl, hy⟩ | ⟨_, hy⟩
      · rcases List.mem_append.1 hy with hy | hy
        · exact hbin1 _ hl a (e2 ▸ List.mem_append_left _ hy)
        · rcases List.mem_cons.1 hy with hy | hy
          · exact select_bin_index_mono _ _ (by omega)
          · exact hbin1 _ hl a (e2 ▸ List.mem_append_right _ hy)
      · exact hbin1 l hl a hy
    · intro a ha
      rcases hsub2 a ha with rfl | ⟨hfa, hab⟩
      · exact ⟨j, by rw [hgr]; omega⟩
      · rw [get_size_congr s s1 a (hmem a (Or.inl hfa) hab)]
        exact h.div a hfa
    · rw [weight_insert s1 _ _ _ hjx pre2 post2 _ e2, hgr, weight_all_congr s s1 _ _ hsz2]
      have hw := h.wt
      rw [Nat.add_mul, Nat.one_mul] at hw
      omega
    · intro a ha
      rcases List.mem_cons.1 ha with rfl | ha
      · rw [hsz1, hgb]
      · rw [get_size_congr s s1 a (hmem a (Or.inr ha) (hob a ha))]
        exact h.live a ha
    · intro hg
      omega

theorem mod_gap (x d R : Nat) (h : (x + d) % R = x % R) (h0 : 0 < d) (hR : d < R) : False := by
  have h1 : x ≡ x + d [MOD R] := h.symm
  have h2 := (Nat.modEq_iff_dvd' (Nat.le_add_right x d)).1 h1
  rw [Nat.add_sub_cancel_left] at h2
  have := Nat.le_of_dvd h0 h2
  omega

theorem weight_multiple (s : Heap) (g R : Nat) (L : List Nat)
    (h : ∀ a ∈ L, ∃ k, get_size s a + 16 + g = k * R) : ∃ K, weight s g L = K * R := by
  induction L with
  | nil => exact ⟨0, by simp [weight]⟩
  | cons a L ih =>
    obtain ⟨k, hk⟩ := h a (List.mem_cons_self _ _)
    obtain ⟨K, hK⟩ := ih fun b hb => h b (List.mem_cons_of_mem _ hb)
    refine ⟨k + K, ?_⟩
    rw [weight_cons, hk, hK, Nat.add_mul]

theorem weight_all_multiple (s : Heap) (g R : Nat) (bins : Nat → List Nat)
    (h : ∀ a, IsFree bins a → ∃ k, get_size s a + 16 + g = k * R) :
    ∃ K, Weight s g bins = K * R := by
  obtain ⟨K0, h0⟩ := weight_multiple s g R (bins 0) fun a ha => h a ⟨0, by omega, ha⟩
  obtain ⟨K1, h1⟩ := weight_multiple s g R (bins 1) fun a ha => h a ⟨1, by omega, ha⟩
  obtain ⟨K2, h2⟩ := weight_multiple s g R (bins 2) fun a ha => h a ⟨2, by omega, ha⟩
  obtain ⟨K3, h3⟩ := weight_multiple s g R (bins 3) fun a ha => h a ⟨3, by omega, ha⟩
  refine ⟨K0 + K1 + K2 + K3, ?_⟩
  unfold Weight
  rw [h0, h1, h2, h3]
  ring

/-- The call `coalesce` on a block without an address-adjacent neighbour in the bin of its
size returns the block and changes nothing. -/
theorem coalesce_loop_alone {s : Heap} {bins : Nat → List Nat} {others : List Nat} {c : Nat}
    (h : Inv s bins (c :: others)) (fuel : Nat) (hf : total bins + 2 ≤ fuel)
    (hno : ∀ x ∈ bins (select_bin_index (get_size s c)),
      ¬ adjBefore s x c ∧ ¬ adjAfter s x c) :
    coalesce_loop fuel s c = .ok c s := by
  obtain ⟨k, rfl⟩ : ∃ k, fuel = k + 1 := ⟨fuel - 1, by omega⟩
  have hPc : Blk bins (c :: others) c := Or.inr (List.mem_cons_self _ _)
  have hc0 : c ≠ 0 := (h.geo.bound c hPc).1
  have hidx := select_bin_index_lt (get_size s c)
  generalize hidxd : select_bin_index (get_size s c) = idx at hidx hno
  have hcn : c ∉ bins idx := fun hx => h.dist.other_disj idx hidx c hx (List.mem_cons_self _ _)
  have hlen := length_le_total bins idx hidx
  rcases coalesce_scan_spec idx c s hc0 (bins idx) k 0 (s.free_heads idx)
      (h.chains idx hidx) (by omega) hcn with ⟨_, hr⟩ | ⟨pre, x, post, e, _, hcase⟩
  · simp [coalesce_loop, hidxd, hr]
  · have hx := hno x (by rw [e]; exact List.mem_append_right _ (List.mem_cons_self _ _))
    rcases hcase with ⟨hA, _⟩ | ⟨_, hB, _⟩
    · exact absurd hA hx.1
    · exact absurd hB hx.2

/-- A release in a steady state: `ufree` of a live block returns, calls no arena provider,
and the free blocks hold one slot more. -/
theorem steady_free {sz r0 : Nat} {s : Heap} {bins : Nat → List Nat} {others : List Nat}
    {m b : Nat} (h : Steady sz r0 s bins (b :: others) m) (hsz0 : 0 < sz) (hsz : sz < 2 ^ 60)
    (fuel : Nat) (hf : m + 2 ≤ fuel) :
    ∃ bins1 s1, ufree fuel s (b + 16) = .ok () s1 ∧ Steady sz r0 s1 bins1 others (m + 1) ∧
      s1.brk = s.brk := by
  have hA1 : sz ≤ ALIGN sz := ALIGN_le sz (by unfold WORD; omega)
  have hA2 : ALIGN sz < sz + 16 := ALIGN_lt sz (by unfold WORD; omega)
  have htot := steady_total_le h hsz
  have hPb : Blk bins (b :: others) b := Or.inr (List.mem_cons_self _ _)
  have hb0 : b ≠ 0 := (h.inv.geo.bound b hPb).1
  have hbw := (h.inv.geo.bound b hPb).2
  unfold blockEnd HEADER_SIZE at hbw
  have hsb : get_size s b = sz := h.live b (List.mem_cons_self _ _)
  have hb16 : b + 16 < WORD := by omega
  obtain ⟨s2, hd, hI2, hfl2, hsz2, hmo2, hbrk2⟩ := deallocate_spec h.inv
  have hfb : ∀ a, IsFree bins a → a ≠ b := by
    rintro a ⟨i, hi, ha⟩ rfl
    exact h.inv.dist.other_disj i hi a ha (List.mem_cons_self _ _)
  have hob : ∀ a ∈ others, a ≠ b := by
    rintro a ha rfl
    exact (List.nodup_cons.1 h.inv.dist.onodup).1 ha
  have hW2 : Weight s2 (ALIGN sz - sz) bins = Weight s (ALIGN sz - sz) bins :=
    weight_all_congr s s2 _ _ fun a ha => get_size_congr s s2 a (hmo2 a (hfb a ha))
  have hco : ∃ r bins3 s3, coalesce_loop fuel s2 b = .ok r s3 ∧ Inv s3 bins3 (r :: others) ∧
      s3.mem r % 2 = 0 ∧ total bins3 ≤ total bins ∧ (∀ a ∈ others, s3.mem a = s2.mem a) ∧
      s3.brk = s2.brk ∧ (∀ i, i < 4 → ∀ a ∈ bins3 i, a ∈ bins i) ∧
      (∀ a, IsFree bins3 a → s3.mem a = s2.mem a) ∧
      Weight s3 (ALIGN sz - sz) bins3 + (get_size s3 r + 16 + (ALIGN sz - sz)) =
        Weight s2 (ALIGN sz - sz) bins + (ALIGN sz + 16) ∧
      (∃ k, get_size s3 r + 16 + (ALIGN sz - sz) = k * (ALIGN sz + 16)) ∧
      (sz < ALIGN sz → get_size s3 r = sz ∧ r % (ALIGN sz + 16) = r0 % (ALIGN sz + 16)) := by
    by_cases hg : sz < ALIGN sz
    · -- blocks end before the next slot begins, nothing is adjacent
      have hal : coalesce_loop fuel s2 b = .ok b s2 := by
        apply coalesce_loop_alone hI2 fuel (by omega)
        intro x hx
        have hjx := select_bin_index_lt (get_size s2 b)
        have hFx : IsFree bins x := ⟨_, hjx, hx⟩
        have hxb : x ≠ b := hfb x hFx
        obtain ⟨hx1, hx2⟩ := h.gap hg x (Or.inl hFx)
        obtain ⟨_, hb2⟩ := h.gap hg b hPb
        have hxw := (h.inv.geo.bound x (Or.inl hFx)).2
        have hx0 := (h.inv.geo.bound x (Or.inl hFx)).1
        unfold blockEnd HEADER_SIZE at hxw
        have hsx2 : get_size s2 x = sz := by
          rw [get_size_congr s s2 x (hmo2 x hxb)]
          exact hx1
        unfold adjBefore adjAfter HEADER_SIZE
        rw [hsx2, hsz2, hsb]
        constructor
        · intro hadj
          by_cases hlt : x + sz + 16 < WORD
          · rw [Nat.mod_eq_of_lt hlt] at hadj
            apply mod_gap x (sz + 16) (ALIGN sz + 16) _ (by omega) (by omega)
            rw [← Nat.add_assoc, hadj, hb2, hx2]
          · have : x + sz + 16 = WORD := by omega
            rw [this, Nat.mod_self] at hadj
            exact hb0 hadj.symm
        · intro hadj
          by_cases hlt : b + sz + 16 < WORD
          · rw [Nat.mod_eq_of_lt hlt] at hadj
            apply mod_gap b (sz + 16) (ALIGN sz + 16) _ (by omega) (by omega)
            rw [← Nat.add_assoc, hadj, hb2, hx2]
          · have : b + sz + 16 = WORD := by omega
            rw [this, Nat.mod_self] at hadj
            exact hx0 hadj.symm
      refine ⟨b, bins, s2, hal, hI2, hfl2, le_refl _, fun _ _ => rfl, rfl, fun _ _ _ ha => ha,
        fun _ _ => rfl, ?_, ⟨1, ?_⟩, fun _ => ⟨by rw [hsz2, hsb], (h.gap hg b hPb).2⟩⟩
      · rw [hsz2, hsb]
        omega
      · rw [hsz2, hsb]
        omega
    · -- sizes are multiples of 16: merges add up slots
      have hAs : ALIGN sz = sz := by omega
      obtain ⟨r, bins3, s3, hc, hI3, hfl3, htot3, hmo3, hbrk3, _, hfr3, hfm3, hbs3, _, hacc⟩ :=
        coalesce_loop_spec_full others fuel s2 bins b hI2 hfl2 (by omega)
      obtain ⟨_, hacc, _⟩ := hacc (by rw [hbrk2]; exact h.small)
      rw [hAs, Nat.sub_self] at hW2 ⊢
      have hdiv3 : ∀ a, IsFree bins3 a → ∃ k, get_size s3 a + 16 + 0 = k * (sz + 16) := by
        intro a ha
        have hfa := hfr3 a ha
        rw [get_size_congr s2 s3 a (hfm3 a ha), get_size_congr s s2 a (hmo2 a (hfb a hfa))]
        have := h.div a hfa
        rw [hAs, Nat.sub_self] at this
        exact this
      obtain ⟨K, hK⟩ := weight_all_multiple s3 0 (sz + 16) bins3 hdiv3
      have hw := h.wt
      rw [hAs, Nat.sub_self] at hw
      rw [hsz2, hsb, hW2, hw, hK] at hacc
      have hKle : K ≤ m + 1 := by
        apply Nat.le_of_mul_le_mul_right _ (show 0 < sz + 16 by omega)
        rw [Nat.add_mul, Nat.one_mul]
        omega
      obtain ⟨d, hd⟩ : ∃ d, m + 1 = K + d := ⟨m + 1 - K, by omega⟩
      have hmul : m * (sz + 16) + (sz + 16) = K * (sz + 16) + d * (sz + 16) := by
        rw [← Nat.add_mul, ← hd, Nat.add_mul, Nat.one_mul]
      refine ⟨r, bins3, s3, hc, hI3, hfl3, htot3, hmo3, hbrk3, hbs3, hfm3, ?_, ⟨d, ?_⟩,
        fun hg2 => absurd hg2 (lt_irrefl _)⟩
      · rw [hK, hW2, hw]
        omega
      · omega
  obtain ⟨r, bins3, s3, hc, hI3, hfl3, htot3, hmo3, hbrk3, hbs3, hfm3, hacc, ⟨k, hk⟩, hgap3⟩ := hco
  obtain ⟨pre, post, s1, e, _, _, hadd, hI1, hmeta, hbrk1⟩ :=
    inv_freelist_add hI3 hfl3 (get_size s3 r) fuel (by omega)
  have hj := select_bin_index_lt (get_size s3 r)
  have hbrk : s1.brk = s.brk := by rw [hbrk1, hbrk3, hbrk2]
  have hk0 : k ≠ 0 := by
    rintro rfl
    omega
  have hRle : 1 * (ALIGN sz + 16) ≤ k * (ALIGN sz + 16) :=
    Nat.mul_le_mul_right _ (Nat.one_le_iff_ne_zero.2 hk0)
  have hrsz : sz ≤ get_size s3 r := by omega
  have hfree1 : ∀ a, IsFree (Function.update bins3 (select_bin_index (get_size s3 r))
      (pre ++ r :: post)) a → a = r ∨ IsFree bins3 a := by
    rintro a ⟨l, hl, hm⟩
    rcases (mem_update_bins _ _ _ _ _).1 hm with ⟨rfl, hy⟩ | ⟨_, hy⟩
    · rcases List.mem_append.1 hy with hy | hy
      · exact Or.inr ⟨_, hl, e ▸ List.mem_append_left _ hy⟩
      · rcases List.mem_cons.1 hy with hy | hy
        · exact Or.inl hy
        · exact Or.inr ⟨_, hl, e ▸ List.mem_append_right _ hy⟩
    · exact Or.inr ⟨l, hl, hy⟩
  have hfs : ∀ a, IsFree bins3 a → IsFree bins a ∧ get_size s1 a = get_size s a := by
    rintro a ⟨l, hl, hm⟩
    have hfa : IsFree bins a := ⟨l, hl, hbs3 l hl a hm⟩
    refine ⟨hfa, ?_⟩
    rw [get_size_congr s3 s1 a (hmeta a (Or.inl ⟨l, hl, hm⟩)),
      get_size_congr s2 s3 a (hfm3 a ⟨l, hl, hm⟩), get_size_congr s s2 a (hmo2 a (hfb a hfa))]
  have hrs : get_size s1 r = get_size s3 r :=
    get_size_congr s3 s1 r (hmeta r (Or.inr (List.mem_cons_self _ _)))
  have hos : ∀ a ∈ others, get_size s1 a = get_size s a := by
    intro a ha
    rw [get_size_congr s3 s1 a (hmeta a (Or.inr (List.mem_cons_of_mem _ ha))),
      get_size_congr s2 s3 a (hmo3 a ha), get_size_congr s s2 a (hmo2 a (hob a ha))]
  refine ⟨_, s1, ?_, ⟨hI1, ?_, ?_, ?_, ?_, ?_, ?_, ?_, ?_⟩, hbrk⟩
  · have hp0 : b + 16 ≠ 0 := by omega
    rw [ufree_nonnull fuel s (b + 16) hp0, get_header_eq b hb16, hd]
    show (coalesce fuel s2 b).bind _ = _
    unfold coalesce
    rw [hc]
    exact hadd
  · rw [hbrk]
    exact h.small
  · rw [hbrk]
    exact h.regs
  · rw [hbrk]
    exact h.top
  · intro l hl a ha
    rcases (mem_update_bins _ _ _ _ _).1 ha with ⟨rfl, hy⟩ | ⟨_, hy⟩
    · rcases List.mem_append.1 hy with hy | hy
      · exact h.bin _ hl a (hbs3 _ hl a (e ▸ List.mem_append_left _ hy))
      · rcases List.mem_cons.1 hy with hy | hy
        · exact select_bin_index_mono _ _ hrsz
        · exact h.bin _ hl a (hbs3 _ hl a (e ▸ List.mem_append_right _ hy))
    · exact h.bin l hl a (hbs3 l hl a hy)
  · intro a ha
    rcases hfree1 a ha with rfl | ha3
    · exact ⟨k, by rw [hrs]; exact hk⟩
    · rw [(hfs a ha3).2]
      exact h.div a (hfs a ha3).1
  · rw [weight_all_congr s3 s1 _ _ fun a ha => ?_, weight_insert s3 _ _ _ hj pre post r e]
    · rw [hW2, h.wt] at hacc
      rw [Nat.add_mul, Nat.one_mul]
      omega
    · rcases hfree1 a ha with rfl | ha3
      · exact hrs
      · exact get_size_congr s3 s1 a (hmeta a (Or.inl ha3))
  · intro a ha
    rw [hos a ha]
    exact h.live a (List.mem_cons_of_mem _ ha)
  · intro hg a ha
    rcases ha with ha | ha
    · rcases hfree1 a ha with rfl | ha3
      · rw [hrs]
        exact hgap3 hg
      · rw [(hfs a ha3).2]
        exact h.gap hg a (Or.inl (hfs a ha3).1)
    · rw [hos a ha]
      exact h.gap hg a (Or.inr (List.mem_cons_of_mem _ ha))

/-! ## Rounds of equal requests released in reverse order -/

theorem ALIGN_add_header_nat (n : Nat) (h : n < 2 ^ 60) :
    ALIGN (n + HEADER_SIZE) = ALIGN n + 16 := by
  unfold ALIGN ALIGNMENT HEADER_SIZE WORD
  omega

theorem steady_init (sz r0 : Nat) (s : Heap) (h0 : ∀ i, i < BIN_COUNT → s.free_heads i = 0)
    (hb : s.brk = []) : Steady sz r0 s (fun _ => []) [] 0 := by
  have hno : ∀ a, ¬ IsFree (fun _ => ([] : List Nat)) a := by
    rintro a ⟨i, _, hm⟩
    simp at hm
  refine ⟨inv_init s h0, ?_, ?_, ?_, ?_, ?_, ?_, ?_, ?_⟩
  · intro q hq
    rw [hb] at hq
    simp at hq
  · intro q hq
    rw [hb] at hq
    simp at hq
  · intro q hq
    rw [hb] at hq
    simp at hq
  · intro i _ a ha
    simp at ha
  · intro a ha
    exact absurd ha (hno a)
  · simp [Weight, weight]
  · intro a ha
    simp at ha
  · rintro _ a (ha | ha)
    · exact absurd ha (hno a)
    · simp at ha

/-- A round of requests while no slot is free: every call obtains the next region. -/
theorem round_grow (sz r0 fuel : Nat) (hsz0 : 0 < sz) (hsz : sz < 2 ^ 60) (hr0 : r0 ≠ 0)
    (hf : 6 ≤ fuel) (bins : Nat → List Nat) :
    ∀ k s others, Steady sz r0 s bins others 0 →
      arenaTop r0 s.brk + k * (ALIGN sz + 16) ≤ 2 ^ 60 →
      ∃ others1 s1, mallocRound r0 fuel sz k s (others.map (· + 16)) =
          .ok (others1.map (· + 16)) s1 ∧
        Steady sz r0 s1 bins others1 0 ∧ others1.length = others.length + k ∧
        s1.brk.length = s.brk.length + k := by
  intro k
  induction k with
  | zero =>
    intro s others h _
    exact ⟨others, s, rfl, h, rfl, rfl⟩
  | succ k ih =>
    intro s others h hfit
    rw [Nat.succ_mul] at hfit
    obtain ⟨s1, hu, hS1, hbrk⟩ := steady_grow h hsz0 hsz hr0 (by omega) fuel hf
    obtain ⟨others2, s2, hr, hS2, hl, hbl⟩ := ih s1 (arenaTop r0 s.brk :: others) hS1
      (by rw [hbrk, arenaTop_cons]; omega)
    refine ⟨others2, s2, ?_, hS2, ?_, ?_⟩
    · show (umalloc (fun _ => arenaTop r0 s.brk) fuel s sz).bind _ = _
      rw [hu]
      exact hr
    · rw [hl, List.length_cons]
      omega
    · rw [hbl, hbrk, List.length_cons]
      omega

/-- Release of live blocks, one after the other: each call frees one more slot. -/
theorem round_free (sz r0 fuel : Nat) (hsz0 : 0 < sz) (hsz : sz < 2 ^ 60) (rest : List Nat) :
    ∀ hs s bins m, Steady sz r0 s bins (hs ++ rest) m → m + hs.length + 1 ≤ fuel →
      ∃ bins1 s1, freeAll fuel (hs.map (· + 16)) s = .ok () s1 ∧
        Steady sz r0 s1 bins1 rest (m + hs.length) ∧ s1.brk = s.brk := by
  intro hs
  induction hs with
  | nil =>
    intro s bins m h _
    exact ⟨bins, s, rfl, h, rfl⟩
  | cons b hs ih =>
    intro s bins m h hf
    rw [List.length_cons] at hf
    obtain ⟨bins1, s1, hu, hS1, hbrk1⟩ := steady_free h hsz0 hsz fuel (by omega)
    obtain ⟨bins2, s2, hr, hS2, hbrk2⟩ := ih s1 bins1 (m + 1) hS1 (by omega)
    refine ⟨bins2, s2, ?_, ?_, by rw [hbrk2, hbrk1]⟩
    · show (ufree fuel s (b + 16)).bind _ = _
      rw [hu]
      exact hr
    · rw [List.length_cons]
      have : m + (hs.length + 1) = m + 1 + hs.length := by omega
      rw [this]
      exact hS2

/-- A round of requests while slots are free: no call reaches the arena provider. -/
theorem round_reuse (sz r0 fuel : Nat) (hsz0 : 0 < sz) (hsz : sz < 2 ^ 60) (h16 : sz ≠ 16) :
    ∀ k s bins others m acc, Steady sz r0 s bins others (m + k) → m + k + 6 ≤ fuel →
      ∃ ps bins1 others1 s1, mallocRound r0 fuel sz k s acc = .ok ps s1 ∧
        Steady sz r0 s1 bins1 others1 m ∧ s1.brk = s.brk ∧ ps.length = acc.length + k := by
  intro k
  induction k with
  | zero =>
    intro s bins others m acc h _
    exact ⟨acc, bins, others, s, rfl, h, rfl, rfl⟩
  | succ k ih =>
    intro s bins others m acc h hf
    obtain ⟨b, bins1, s1, hu, hS1, hbrk1⟩ :=
      steady_reuse (m := m + k) h hsz0 hsz h16 (fun _ => arenaTop r0 s.brk) fuel (by omega)
    obtain ⟨ps, bins2, others2, s2, hr, hS2, hbrk2, hl⟩ :=
      ih s1 bins1 (b :: others) m ((b + 16) :: acc) hS1 (by omega)
    refine ⟨ps, bins2, others2, s2, ?_, hS2, by rw [hbrk2, hbrk1], ?_⟩
    · show (umalloc (fun _ => arenaTop r0 s.brk) fuel s sz).bind _ = _
      rw [hu]
      exact hr
    · rw [hl, List.length_cons]
      omega

/-- C18 (as stated) fails for requests of 16 bytes: with consecutive regions from 4096 on, the
two blocks of the first round are released, the more recent one first, and merge into one
block of 48 bytes, which `split` hands out whole (48 is below `16 + 16 + 32`); the second call
of the second round finds no free block and sends a third request to the arena provider. -/
theorem second_round_grows_for_16_byte_requests :
    mallocRound 4096 10 16 2 heap0 [] = .ok [4144, 4112] runLifoA ∧
    runLifoA.brk = [(32, 4128), (32, 4096)] ∧
    freeAll 10 [4144, 4112] runLifoA = .ok () runLifoB ∧
    runLifoB.free_heads 0 = 4096 ∧ get_size runLifoB 4096 = 48 ∧
    runLifoB.mem (4096 + 8) = 0 ∧
    mallocRound 4096 10 16 2 runLifoB [] = .ok [4176, 4112] runLifoC ∧
    runLifoC.brk = [(32, 4160), (32, 4128), (32, 4096)] ∧ runLifoC.brk ≠ runLifoA.brk :=
  ⟨by rfl, by decide, by rfl, by decide, by decide, by decide, by rfl, by decide, by decide⟩

/-- C18 (as amended): from a state with empty bins and no arena region, with an arena provider
that hands out consecutive regions from `r0` on, all below the address `2 ^ 60`, and for a
request size `0 < sz < 2 ^ 60` other than 16: a first round of `n` calls `umalloc(sz)` returns
`n` pointers after `n` arena requests, their release (the most recent pointer first) returns,
and a second round of `n` calls `umalloc(sz)` returns `n` pointers and leaves the log of arena
requests as it was. -/
theorem lifo_rounds_reuse (sz r0 n fuel : Nat) (s0 : Heap)
    (h0 : ∀ i, i < BIN_COUNT → s0.free_heads i = 0) (hb : s0.brk = []) (hsz0 : 0 < sz)
    (hsz : sz < 2 ^ 60) (h16 : sz ≠ 16) (hr0 : r0 ≠ 0)
    (hfit : r0 + n * ALIGN (sz + HEADER_SIZE) ≤ 2 ^ 60) (hf : n + 6 ≤ fuel) :
    ∃ ps s1 s2 qs s3, mallocRound r0 fuel sz n s0 [] = .ok ps s1 ∧ ps.length = n ∧
      s1.brk.length = n ∧ freeAll fuel ps s1 = .ok () s2 ∧ s2.brk = s1.brk ∧
      mallocRound r0 fuel sz n s2 [] = .ok qs s3 ∧ qs.length = n ∧ s3.brk = s1.brk := by
  rw [ALIGN_add_header_nat sz hsz] at hfit
  have htop0 : arenaTop r0 s0.brk = r0 := by
    rw [hb]
    rfl
  obtain ⟨hs, s1, hr1, hS1, hl1, hbl1⟩ :=
    round_grow sz r0 fuel hsz0 hsz hr0 (by omega) (fun _ => []) n s0 [] (steady_init sz r0 s0 h0 hb)
      (by rw [htop0]; exact hfit)
  rw [hb] at hbl1
  simp only [List.length_nil, Nat.zero_add, List.map_nil] at hl1 hbl1 hr1
  obtain ⟨bins2, s2, hr2, hS2, hbrk2⟩ :=
    round_free sz r0 fuel hsz0 hsz [] hs s1 (fun _ => []) 0 (by rw [List.append_nil]; exact hS1)
      (by omega)
  obtain ⟨qs, bins3, others3, s3, hr3, _, hbrk3, hl3⟩ :=
    round_reuse sz r0 fuel hsz0 hsz h16 n s2 bins2 [] 0 [] (by rw [hl1] at hS2; exact hS2)
      (by omega)
  exact ⟨_, s1, s2, qs, s3, hr1, by rw [List.length_map, hl1], hbl1, hr2, hbrk2, hr3,
    by simpa using hl3, by rw [hbrk3, hbrk2]⟩

/-- Witness for C18 (as amended): two rounds of three requests of 32 bytes, regions from 4096
on. -/
theorem lifo_rounds_reuse_witness :
    (∀ i, i < BIN_COUNT → heap0.free_heads i = 0) ∧ heap0.brk = [] ∧ 0 < 32 ∧ 32 < 2 ^ 60 ∧
    32 ≠ 16 ∧ 4096 ≠ 0 ∧ 4096 + 3 * ALIGN (32 + HEADER_SIZE) ≤ 2 ^ 60 ∧ 3 + 6 ≤ 10 ∧
    ∃ ps s1 s2 qs s3, mallocRound 4096 10 32 3 heap0 [] = .ok ps s1 ∧ ps.length = 3 ∧
      s1.brk.length = 3 ∧ freeAll 10 ps s1 = .ok () s2 ∧ s2.brk = s1.brk ∧
      mallocRound 4096 10 32 3 s2 [] = .ok qs s3 ∧ qs.length = 3 ∧ s3.brk = s1.brk :=
  ⟨fun _ _ => rfl, rfl, by decide, by decide, by decide, by decide, by decide, by decide,
    lifo_rounds_reuse 32 4096 3 10 heap0 (fun _ _ => rfl) rfl (by decide) (by decide)
      (by decide) (by decide) (by decide) (by decide)⟩

/-! ## `find` within a bin; what `split` and `extend` write -/

theorem chains_runIns2 : Chains runIns2 binsIns2 := by
  intro i hi
  have h : i = 0 ∨ i = 1 ∨ i = 2 ∨ i = 3 := by omega
  rcases h with rfl | rfl | rfl | rfl
  · exact ⟨(rfl : runIns2.free_heads 0 = 8192), by decide,
      (rfl : runIns2.mem (8192 + 8) = 4096), by decide, (rfl : runIns2.mem (4096 + 8) = 0)⟩
  · exact (rfl : runIns2.free_heads 1 = 0)
  · exact (rfl : runIns2.free_heads 2 = 0)
  · exact (rfl : runIns2.free_heads 3 = 0)

theorem distinct_binsIns2 : Distinct binsIns2 [] := by
  refine ⟨?_, ?_, ?_, List.nodup_nil⟩
  · intro i _
    unfold binsIns2
    split_ifs <;> simp
  · intro i j _ _ hij b hb hb2
    unfold binsIns2 at hb hb2
    split_ifs at hb hb2 <;> simp at hb hb2
    omega
  · intro i _ b _
    simp

/-- C21: on well-formed free lists `find(n)` returns (given enough fuel).  A non-null result
`b` sits in a bin whose list is `pre ++ b :: post` with every block of `pre` smaller than `n`
and `b` of size at least `n`, so `b` is the first fitting block; if that list is non-decreasing
in size, `b` has the least size among the blocks of the bin with size at least `n`.
Afterwards the list of that bin is `pre ++ post` and the lists of the other bins are as
before. -/
theorem find_bin_local_best_fit (n : Nat) (s : Heap) (bins : Nat → List Nat)
    (hc : Chains s bins) (hd : Distinct bins []) (fuel : Nat) (hf : total bins + 6 ≤ fuel) :
    ∃ b s1, find fuel s n = .ok b s1 ∧
      (b ≠ 0 → ∃ i pre post, i < BIN_COUNT ∧ bins i = pre ++ b :: post ∧
        (∀ x ∈ pre, get_size s x < n) ∧ n ≤ get_size s b ∧
        (SortedBySize s (bins i) →
          ∀ x ∈ bins i, n ≤ get_size s x → get_size s b ≤ get_size s x) ∧
        Chain s1.mem (s1.free_heads i) (pre ++ post) ∧
        ∀ j, j < BIN_COUNT → j ≠ i → Chain s1.mem (s1.free_heads j) (bins j)) := by
  rcases find_spec n s bins hc fuel hf with
    ⟨hr, _⟩ | ⟨i, pre, b, post, _, hi, e, hp, hb, _, hr⟩
  · exact ⟨0, s, hr, fun h => absurd rfl h⟩
  · refine ⟨b, _, hr, fun _ => ⟨i, pre, post, hi, e, hp, hb, ?_, ?_, ?_⟩⟩
    · intro hs x hx hnx
      unfold SortedBySize at hs
      rw [e, List.pairwise_append] at hs
      rw [e] at hx
      rcases List.mem_append.1 hx with hx | hx
      · have := hp x hx
        omega
      · rcases List.mem_cons.1 hx with rfl | hx
        · exact le_refl _
        · exact (List.pairwise_cons.1 hs.2.1).1 x hx
    · have := chains_unlink s bins [] hc hd i hi pre post b e i hi
      rw [Function.update_same] at this
      exact this
    · intro j hj hji
      have := chains_unlink s bins [] hc hd i hi pre post b e j hj
      rw [Function.update_noteq hji] at this
      exact this

/-- Witness for C21: `find(60)` in run 5, where bin 0 holds the blocks 8192 (size 50) and 4096
(size 100). -/
theorem find_bin_local_best_fit_witness :
    Chains runIns2 binsIns2 ∧ Distinct binsIns2 [] ∧ total binsIns2 + 6 ≤ 10 ∧
    find 10 runIns2 60 = .ok 4096 (unlink runIns2 0 8192 4096) ∧
    ∃ b s1, find 10 runIns2 60 = .ok b s1 ∧
      (b ≠ 0 → ∃ i pre post, i < BIN_COUNT ∧ binsIns2 i = pre ++ b :: post ∧
        (∀ x ∈ pre, get_size runIns2 x < 60) ∧ 60 ≤ get_size runIns2 b ∧
        (SortedBySize runIns2 (binsIns2 i) →
          ∀ x ∈ binsIns2 i, 60 ≤ get_size runIns2 x → get_size runIns2 b ≤ get_size runIns2 x) ∧
        Chain s1.mem (s1.free_heads i) (pre ++ post) ∧
        ∀ j, j < BIN_COUNT → j ≠ i → Chain s1.mem (s1.free_heads j) (binsIns2 j)) :=
  ⟨chains_runIns2, distinct_binsIns2, by decide, by rfl,
    find_bin_local_best_fit 60 runIns2 binsIns2 chains_runIns2 distinct_binsIns2 10 (by decide)⟩

/-- C22 (as stated) fails: in run 3, when `split(4096, 16)` returns after cutting the block of
size 2000, the front block records size `ALIGN(16)` and its allocated flag is already set;
the `allocate` that follows in `umalloc` changes nothing. -/
theorem split_returns_front_block_allocated :
    split 10 runFound 4096 16 = .ok 4096 runCut ∧
    ALIGN 16 + HEADER_SIZE + 32 ≤ get_size runFound 4096 ∧ is_allocated runFound 4096 = false ∧
    get_size runCut 4096 = ALIGN 16 ∧ is_allocated runCut 4096 = true ∧
    allocate runCut 4096 = .ok () runCut :=
  ⟨by rfl, by decide, by decide, by decide, by decide, by rfl⟩

/-- C22 (as amended): when `ALIGN(n) + header_size + 32` does not overflow and
`split(block, n)` cuts a block of a state that satisfies the invariant, it returns (given
enough fuel) with the front block recording size `ALIGN(n)` and with its allocated flag set:
`split` itself writes the flag, and the `allocate` that follows in `umalloc` leaves the state
as it is. -/
theorem split_marks_front_block_allocated {s : Heap} {bins : Nat → List Nat}
    {others : List Nat} {b : Nat} (h : Inv s bins (b :: others)) (n fuel : Nat)
    (hn : ALIGN n + HEADER_SIZE + 32 < WORD) (hf : total bins + 1 ≤ fuel)
    (hge : ALIGN n + HEADER_SIZE + 32 ≤ get_size s b) :
    ∃ s1, split fuel s b n = .ok b s1 ∧ get_size s1 b = ALIGN n ∧
      is_allocated s1 b = true ∧ allocate s1 b = .ok () s1 := by
  unfold HEADER_SIZE at hn hge
  obtain ⟨_, _, s1, _, hr, _, hmb, _, _, _⟩ :=
    (split_spec_gen h n fuel (by omega) hf).2 (by omega)
  have hb0 : b ≠ 0 := (h.geo.bound b (Or.inr (List.mem_cons_self _ _))).1
  have h2 : (ALIGN n * 16 + 1) % 2 = 1 := by omega
  have hal : is_allocated s1 b = true := by
    simp [is_allocated, hb0, hmb, h2]
  refine ⟨s1, hr, ?_, hal, ?_⟩
  · simp only [get_size, hb0, ne_eq, not_false_eq_true, if_true, hmb]
    omega
  · simp [allocate, hal]

/-- Witness for C22 (as amended): the split of run 3. -/
theorem split_marks_front_block_allocated_witness :
    ALIGN 16 + HEADER_SIZE + 32 < WORD ∧ ALIGN 16 + HEADER_SIZE + 32 ≤ get_size runFound 4096 ∧
    ∃ bins, Inv runFound bins [4096] ∧ total bins + 1 ≤ 10 ∧
      ∃ s1, split 10 runFound 4096 16 = .ok 4096 s1 ∧ get_size s1 4096 = ALIGN 16 ∧
        is_allocated s1 4096 = true ∧ allocate s1 4096 = .ok () s1 :=
  ⟨by decide, by decide, inv_runFound.elim fun bins h => ⟨bins, h.1, h.2,
    split_marks_front_block_allocated h.1 16 10 (by decide) h.2 (by decide)⟩⟩

/-- C23 (as stated) fails when `ALIGN(n) + header_size + 32` wraps around: in run 3,
`split(4096, 2 ^ 64 - 32)` cuts the block of size 2000 (the test compares with
`(ALIGN(n) + 48) mod 2 ^ 64 = 16`) and puts the remainder header at 4080, in front of the
block, with recorded size 2016; the remainder ends up in bin 3 with bytes outside the
original range `[4096, 4096 + 16 + 2000)`. -/
theorem split_remainder_outside_block_after_wrap :
    split 10 runFound 4096 (2 ^ 64 - 32) = .ok 4096 runWrapCut ∧
    get_size runFound 4096 = 2000 ∧
    (ALIGN (2 ^ 64 - 32) + HEADER_SIZE + 32) % WORD ≤ get_size runFound 4096 ∧
    runFound.free_heads 3 = 0 ∧ runWrapCut.free_heads 3 = 4080 ∧
    get_size runWrapCut 4080 = 2016 ∧ 4080 ≠ 4096 + HEADER_SIZE + ALIGN (2 ^ 64 - 32) ∧
    4080 < 4096 ∧ get_size runWrapCut 4080 ≠ 2000 - ALIGN (2 ^ 64 - 32) - HEADER_SIZE :=
  ⟨by rfl, by decide, by decide, by decide, by decide, by decide, by decide, by decide,
    by decide⟩

/-- C23 (as amended): when `ALIGN(n) + header_size + 32` does not overflow and
`split(block, n)` cuts a block at `b` of recorded size `S` in a state that satisfies the
invariant, it returns (given enough fuel); the remainder header is at
`b + header_size + ALIGN(n)`, records size `S - ALIGN(n) - header_size`, is marked free and is
on the free list of bin `select_bin_index(S - ALIGN(n) - header_size)`; the front block ends
where the remainder begins and the remainder ends where the original block ended. -/
theorem split_remainder_placement {s : Heap} {bins : Nat → List Nat} {others : List Nat}
    {b : Nat} (h : Inv s bins (b :: others)) (n fuel : Nat)
    (hn : ALIGN n + HEADER_SIZE + 32 < WORD) (hf : total bins + 1 ≤ fuel)
    (hge : ALIGN n + HEADER_SIZE + 32 ≤ get_size s b) :
    ∃ s1, split fuel s b n = .ok b s1 ∧
      get_size s1 (b + HEADER_SIZE + ALIGN n) = get_size s b - ALIGN n - HEADER_SIZE ∧
      is_allocated s1 (b + HEADER_SIZE + ALIGN n) = false ∧
      InBin s1 (select_bin_index (get_size s b - ALIGN n - HEADER_SIZE))
        (b + HEADER_SIZE + ALIGN n) ∧
      (∀ i, i < BIN_COUNT → i ≠ select_bin_index (get_size s b - ALIGN n - HEADER_SIZE) →
        ¬ InBin s1 i (b + HEADER_SIZE + ALIGN n)) ∧
      b + HEADER_SIZE + get_size s1 b = b + HEADER_SIZE + ALIGN n ∧
      (b + HEADER_SIZE + ALIGN n) + HEADER_SIZE + get_size s1 (b + HEADER_SIZE + ALIGN n) =
        b + HEADER_SIZE + get_size s b := by
  unfold HEADER_SIZE at *
  obtain ⟨pre, post, s1, e, hr, hI1, hmb, hmr, _, _⟩ :=
    (split_spec_gen h n fuel (by omega) hf).2 (by omega)
  have hb0 : b ≠ 0 := (h.geo.bound b (Or.inr (List.mem_cons_self _ _))).1
  have hr0 : b + 16 + ALIGN n ≠ 0 := by omega
  have hj := select_bin_index_lt (get_size s b - ALIGN n - 16)
  have h1 : get_size s1 b = ALIGN n := by
    simp only [get_size, hb0, ne_eq, not_false_eq_true, if_true, hmb]
    omega
  have h2 : get_size s1 (b + 16 + ALIGN n) = get_size s b - ALIGN n - 16 := by
    simp only [get_size, hr0, ne_eq, not_false_eq_true, if_true, hmr]
    omega
  have hin : b + 16 + ALIGN n ∈ Function.update bins
      (select_bin_index (get_size s b - ALIGN n - 16)) (pre ++ (b + 16 + ALIGN n) :: post)
      (select_bin_index (get_size s b - ALIGN n - 16)) := by
    simp
  refine ⟨s1, hr, h2, ?_, (inBin_iff hI1.chains _ hj _).2 hin, ?_, by rw [h1], by rw [h2]; omega⟩
  · have h3 : (get_size s b - ALIGN n - 16) * 16 % 2 = 0 := by omega
    simp [is_allocated, hmr, h3]
  · intro i hi hij hx
    exact hI1.dist.bin_disj i _ hi hj hij _ ((inBin_iff hI1.chains i hi _).1 hx) hin

/-- Witness for C23 (as amended): the split of run 3 puts the remainder at 4128 with size
1968 into bin 3. -/
theorem split_remainder_placement_witness :
    ALIGN 16 + HEADER_SIZE + 32 < WORD ∧ ALIGN 16 + HEADER_SIZE + 32 ≤ get_size runFound 4096 ∧
    ∃ bins, Inv runFound bins [4096] ∧ total bins + 1 ≤ 10 ∧
      ∃ s1, split 10 runFound 4096 16 = .ok 4096 s1 ∧
        get_size s1 (4096 + HEADER_SIZE + ALIGN 16) =
          get_size runFound 4096 - ALIGN 16 - HEADER_SIZE ∧
        is_allocated s1 (4096 + HEADER_SIZE + ALIGN 16) = false ∧
        InBin s1 (select_bin_index (get_size runFound 4096 - ALIGN 16 - HEADER_SIZE))
          (4096 + HEADER_SIZE + ALIGN 16) ∧
        (∀ i, i < BIN_COUNT →
          i ≠ select_bin_index (get_size runFound 4096 - ALIGN 16 - HEADER_SIZE) →
          ¬ InBin s1 i (4096 + HEADER_SIZE + ALIGN 16)) ∧
        4096 + HEADER_SIZE + get_size s1 4096 = 4096 + HEADER_SIZE + ALIGN 16 ∧
        (4096 + HEADER_SIZE + ALIGN 16) + HEADER_SIZE +
            get_size s1 (4096 + HEADER_SIZE + ALIGN 16) =
          4096 + HEADER_SIZE + get_size runFound 4096 :=
  ⟨by decide, by decide, inv_runFound.elim fun bins h => ⟨bins, h.1, h.2,
    split_remainder_placement h.1 16 10 (by decide) h.2 (by decide)⟩⟩

/-- C24 (as stated) fails for sizes of `2 ^ 60` and more: `extend(2 ^ 60)` in the initial
state, the arena provider answering 4096, returns 4096 with a header that records size 0. -/
theorem extend_truncates_size_field :
    extend (fun _ => 4096) heap0 (2 ^ 60) = .ok 4096 runBigExt ∧
    runBigExt.brk = [(ALIGN (2 ^ 60 + HEADER_SIZE), 4096)] ∧
    get_size runBigExt 4096 = 0 ∧ get_size runBigExt 4096 ≠ 2 ^ 60 :=
  ⟨by rfl, by decide, by decide, by decide⟩

/-- C24 (as amended): for `size < 2 ^ 60`, `extend(size)` sends the arena provider one request
of `ALIGN(size + header_size)` bytes.  If the answer `r` is not `NULL`, `extend` returns `r`
and the header at `r` records `size` with the allocated flag clear, nothing else in memory and
no bin head changes.  If the answer is `NULL`, `extend` returns `NULL` and memory and bin
heads are as before. -/
theorem extend_contract (csbrk : Nat → Nat) (s : Heap) (size : Nat) (h : size < 2 ^ 60) :
    ∃ r s1, r = csbrk (ALIGN (size + HEADER_SIZE)) ∧ extend csbrk s size = .ok r s1 ∧
      s1.brk = (ALIGN (size + HEADER_SIZE), r) :: s.brk ∧ s1.free_heads = s.free_heads ∧
      (r ≠ 0 → get_size s1 r = size ∧ is_allocated s1 r = false ∧
        ∀ a, a ≠ r → s1.mem a = s.mem a) ∧
      (r = 0 → s1.mem = s.mem) := by
  have hmod : (size + HEADER_SIZE) % WORD = size + HEADER_SIZE := by
    unfold HEADER_SIZE WORD
    omega
  have henc : (size * 16 % WORD + false.toNat) % WORD = size * 16 := by
    unfold WORD
    simp
    omega
  by_cases hr : csbrk (ALIGN (size + HEADER_SIZE)) = 0
  · refine ⟨_, { s with brk := (ALIGN (size + HEADER_SIZE), 0) :: s.brk }, rfl, ?_, ?_, rfl,
      fun h0 => absurd hr h0, fun _ => rfl⟩
    · simp only [extend, hmod, hr, if_true]
    · rw [hr]
  · refine ⟨_, store { s with brk := (ALIGN (size + HEADER_SIZE),
        csbrk (ALIGN (size + HEADER_SIZE))) :: s.brk } (csbrk (ALIGN (size + HEADER_SIZE)))
        (size * 16), rfl, ?_, rfl, rfl, fun _ => ⟨?_, ?_, ?_⟩, fun h0 => absurd h0 hr⟩
    · simp only [extend, hmod, hr, if_false, set_block_metadata, Outcome.bind, henc]
    · simp [get_size, hr, store]
    · have : size * 16 % 2 = 0 := by omega
      simp [is_allocated, store, this]
    · intro a ha
      exact store_mem_other _ _ _ _ ha

/-- Witness for C24 (as amended): `extend(2000)` in the initial state. -/
theorem extend_contract_witness :
    2000 < 2 ^ 60 ∧
    ∃ r s1, r = (fun _ : Nat => 4096) (ALIGN (2000 + HEADER_SIZE)) ∧
      extend (fun _ => 4096) heap0 2000 = .ok r s1 ∧
      s1.brk = (ALIGN (2000 + HEADER_SIZE), r) :: heap0.brk ∧
      s1.free_heads = heap0.free_heads ∧
      (r ≠ 0 → get_size s1 r = 2000 ∧ is_allocated s1 r = false ∧
        ∀ a, a ≠ r → s1.mem a = heap0.mem a) ∧
      (r = 0 → s1.mem = heap0.mem) :=
  ⟨by decide, extend_contract (fun _ => 4096) heap0 2000 (by decide)⟩

/-- C25 (as stated) fails: `extend(100)` in the initial state obtains
`ALIGN(100 + header_size) = 128` bytes at 4096 and records the requested size 100, so the
header and the recorded size account for 116 of the 128 bytes. -/
theorem extend_records_less_than_capacity :
    extend (fun _ => 4096) heap0 100 = .ok 4096 runExt100 ∧
    runExt100.brk = [(ALIGN (100 + HEADER_SIZE), 4096)] ∧ ALIGN (100 + HEADER_SIZE) = 128 ∧
    HEADER_SIZE + get_size runExt100 4096 = 116 ∧
    HEADER_SIZE + get_size runExt100 4096 ≠ ALIGN (100 + HEADER_SIZE) :=
  ⟨by rfl, by decide, by decide, by decide, by decide⟩

/-- C25 (as amended): for `size < 2 ^ 60` and an arena provider that answers the request with
a non-null address `r`, `extend(size)` obtains `ALIGN(size + header_size)` bytes and records
the requested size itself.  So `header_size` plus the recorded size is at most the number of
bytes obtained and falls short of it by less than the alignment, and it equals the number of
bytes obtained exactly when `size` is a multiple of the alignment. -/
theorem extend_capacity_slack (csbrk : Nat → Nat) (s : Heap) (size : Nat)
    (h : size < 2 ^ 60) (hr : csbrk (ALIGN (size + HEADER_SIZE)) ≠ 0) :
    ∃ s1, extend csbrk s size = .ok (csbrk (ALIGN (size + HEADER_SIZE))) s1 ∧
      s1.brk = (ALIGN (size + HEADER_SIZE), csbrk (ALIGN (size + HEADER_SIZE))) :: s.brk ∧
      get_size s1 (csbrk (ALIGN (size + HEADER_SIZE))) = size ∧
      HEADER_SIZE + get_size s1 (csbrk (ALIGN (size + HEADER_SIZE))) ≤
        ALIGN (size + HEADER_SIZE) ∧
      ALIGN (size + HEADER_SIZE) <
        HEADER_SIZE + get_size s1 (csbrk (ALIGN (size + HEADER_SIZE))) + ALIGNMENT ∧
      (HEADER_SIZE + get_size s1 (csbrk (ALIGN (size + HEADER_SIZE))) =
        ALIGN (size + HEADER_SIZE) ↔ size % ALIGNMENT = 0) := by
  have hmod : (size + HEADER_SIZE) % WORD = size + HEADER_SIZE := by
    unfold HEADER_SIZE WORD
    omega
  have henc : (size * 16 % WORD + false.toNat) % WORD = size * 16 := by
    unfold WORD
    simp
    omega
  have hg : get_size (store { s with brk := (ALIGN (size + HEADER_SIZE),
      csbrk (ALIGN (size + HEADER_SIZE))) :: s.brk } (csbrk (ALIGN (size + HEADER_SIZE)))
      (size * 16)) (csbrk (ALIGN (size + HEADER_SIZE))) = size := by
    simp [get_size, hr, store]
  refine ⟨store { s with brk := (ALIGN (size + HEADER_SIZE),
      csbrk (ALIGN (size + HEADER_SIZE))) :: s.brk } (csbrk (ALIGN (size + HEADER_SIZE)))
      (size * 16), ?_, rfl, hg, ?_, ?_, ?_⟩
  · simp only [extend, hmod, hr, if_false, set_block_metadata, Outcome.bind, henc]
  · rw [hg]
    unfold ALIGN ALIGNMENT HEADER_SIZE WORD
    omega
  · rw [hg]
    unfold ALIGN ALIGNMENT HEADER_SIZE WORD
    omega
  · rw [hg]
    unfold ALIGN ALIGNMENT HEADER_SIZE WORD
    omega

/-- Witness for C25 (as amended): `extend(100)` leaves 12 of its 128 bytes unaccounted for,
`extend(112)` none. -/
theorem extend_capacity_slack_witness :
    (100 < 2 ^ 60 ∧ (fun _ : Nat => 4096) (ALIGN (100 + HEADER_SIZE)) ≠ 0 ∧
      ALIGN (100 + HEADER_SIZE) = 128 ∧ 100 % ALIGNMENT ≠ 0 ∧
      ∃ s1, extend (fun _ => 4096) heap0 100 = .ok 4096 s1 ∧
        s1.brk = (ALIGN (100 + HEADER_SIZE), 4096) :: heap0.brk ∧
        get_size s1 4096 = 100 ∧
        HEADER_SIZE + get_size s1 4096 ≤ ALIGN (100 + HEADER_SIZE) ∧
        ALIGN (100 + HEADER_SIZE) < HEADER_SIZE + get_size s1 4096 + ALIGNMENT ∧
        (HEADER_SIZE + get_size s1 4096 = ALIGN (100 + HEADER_SIZE) ↔
          100 % ALIGNMENT = 0)) ∧
    (112 < 2 ^ 60 ∧ ALIGN (112 + HEADER_SIZE) = 128 ∧ 112 % ALIGNMENT = 0 ∧
      ∃ s1, extend (fun _ => 4096) heap0 112 = .ok 4096 s1 ∧
        s1.brk = (ALIGN (112 + HEADER_SIZE), 4096) :: heap0.brk ∧
        get_size s1 4096 = 112 ∧
        HEADER_SIZE + get_size s1 4096 ≤ ALIGN (112 + HEADER_SIZE) ∧
        ALIGN (112 + HEADER_SIZE) < HEADER_SIZE + get_size s1 4096 + ALIGNMENT ∧
        (HEADER_SIZE + get_size s1 4096 = ALIGN (112 + HEADER_SIZE) ↔
          112 % ALIGNMENT = 0)) :=
  ⟨⟨by decide, by decide, by decide, by decide,
      extend_capacity_slack (fun _ => 4096) heap0 100 (by decide) (by decide)⟩,
    ⟨by decide, by decide, by decide,
      extend_capacity_slack (fun _ => 4096) heap0 112 (by decide) (by decide)⟩⟩

/-! ## `coalesce`: the merge step and the local fixed point -/

/-- A scan of `coalesce` that ends without a merge has changed nothing and has met no block
adjacent to `current`. -/
theorem coalesce_scan_none (idx c : Nat) : ∀ fuel s s1 prev next,
    coalesce_scan idx c fuel s prev next = .ok none s1 →
    s1 = s ∧ ∀ L, Seg s.mem next L 0 → ∀ x ∈ L, x ≠ c →
      ¬ adjBefore s x c ∧ ¬ adjAfter s x c := by
  intro fuel
  induction fuel with
  | zero =>
    intro s s1 prev next h
    exact Outcome.noConfusion h
  | succ fuel ih =>
    intro s s1 prev next h
    simp only [coalesce_scan] at h
    split_ifs at h with h1 h2 h3 h4
    · injection h with _ e
      refine ⟨e.symm, ?_⟩
      intro L hL x hx
      cases L with
      | nil => simp at hx
      | cons b L =>
        obtain ⟨hb, hb0, _⟩ := hL
        exact absurd (hb.symm.trans h1) hb0
    · simp only [set_block_metadata, h1, if_false, Outcome.bind] at h
      injection h with e _
      exact Option.noConfusion e
    · simp only [set_block_metadata] at h
      split_ifs at h
      · exact Outcome.noConfusion h
      · simp only [Outcome.bind] at h
        injection h with e _
        exact Option.noConfusion e
    · obtain ⟨e, hall⟩ := ih s s1 next _ h
      refine ⟨e, ?_⟩
      intro L hL x hx hxc
      cases L with
      | nil => simp at hx
      | cons b L =>
        obtain ⟨hb, _, hL2⟩ := hL
        subst hb
        rcases List.mem_cons.1 hx with rfl | hx
        · exact ⟨h3, h4⟩
        · exact hall L hL2 x hx hxc
    · obtain ⟨e, hall⟩ := ih s s1 next _ h
      refine ⟨e, ?_⟩
      intro L hL x hx hxc
      cases L with
      | nil => simp at hx
      | cons b L =>
        obtain ⟨hb, _, hL2⟩ := hL
        subst hb
        rcases List.mem_cons.1 hx with rfl | hx
        · exact absurd (not_not.1 h2) hxc
        · exact hall L hL2 x hx hxc

/-- When `coalesce` returns, its last scan has met no block adjacent to the block it
returns. -/
theorem coalesce_loop_fixed : ∀ fuel s c r s1, coalesce_loop fuel s c = .ok r s1 →
    ∀ L, Chain s1.mem (s1.free_heads (select_bin_index (get_size s1 r))) L →
    ∀ x ∈ L, x ≠ r → ¬ adjBefore s1 x r ∧ ¬ adjAfter s1 x r := by
  intro fuel
  induction fuel with
  | zero =>
    intro s c r s1 h
    exact Outcome.noConfusion h
  | succ fuel ih =>
    intro s c r s1 h
    simp only [coalesce_loop] at h
    rcases hX : coalesce_scan (select_bin_index (get_size s c)) c fuel s 0
        (s.free_heads (select_bin_index (get_size s c))) with ⟨o, s2⟩ | s2 | _
    · rw [hX] at h
      cases o with
      | none =>
        obtain ⟨e, hall⟩ := coalesce_scan_none _ c fuel s s2 0 _ hX
        injection h with e1 e2
        subst e e1 e2
        intro L hL x hx hxc
        exact hall L hL x hx hxc
      | some c2 => exact ih s2 c2 r s1 h
    · rw [hX] at h
      exact Outcome.noConfusion h
    · rw [hX] at h
      exact Outcome.noConfusion h

/-- In run 4 the block 4096 that `deallocate` hands to `coalesce` is a non-free block with a
clear flag of a state that satisfies the invariant. -/
theorem inv_runMergeD :
    ∃ bins, Inv runMergeD bins [4096] ∧ runMergeD.mem 4096 % 2 = 0 ∧ total bins + 2 ≤ 10 := by
  obtain ⟨bins, hI, ht⟩ := inv_runSplit2
  obtain ⟨b, bins1, s1, hu, hI1, _, _, _, _, htot, _⟩ :=
    umalloc_spec hI (fun _ => 8192) 1000 10 (by decide) (by decide) (by omega)
      (fresh_of_checks _ _ _ (by decide) (by decide) (by decide))
  have e : umalloc (fun _ => 8192) 10 runSplit2 1000 = .ok 4112 runMerge3 := by rfl
  rw [e] at hu
  injection hu with e1 e2
  have hb : b = 4096 := by omega
  subst hb e2
  obtain ⟨s2, hd, hI2, hfl, _⟩ := deallocate_spec hI1
  have e3 : deallocate runMerge3 4096 = .ok () runMergeD := by rfl
  rw [e3] at hd
  injection hd with _ e4
  subst e4
  exact ⟨bins1, hI2, hfl, by omega⟩

/-- C28: whenever `coalesce(block)` returns a block `r` (a 64-bit address), no block `x` on the
free list of bin `select_bin_index(get_size(r))` is address-adjacent to `r`: neither
`x + header_size + size(x) = r` nor `r + header_size + size(r) = x`.  And on a block with a
clear flag that is on no free list, in a state that satisfies the invariant, `coalesce`
does return (given enough fuel). -/
theorem coalesce_local_fixed_point :
    (∀ (fuel : Nat) (s : Heap) (c r : Nat) (s1 : Heap), coalesce fuel s c = .ok r s1 →
      r < WORD → ∀ x, InBin s1 (select_bin_index (get_size s1 r)) x → x < WORD →
        x + HEADER_SIZE + get_size s1 x ≠ r ∧ r + HEADER_SIZE + get_size s1 r ≠ x) ∧
    (∀ (s : Heap) (bins : Nat → List Nat) (others : List Nat) (c fuel : Nat),
      Inv s bins (c :: others) → s.mem c % 2 = 0 → total bins + 2 ≤ fuel →
      ∃ r s1, coalesce fuel s c = .ok r s1 ∧ r < WORD ∧
        ∀ x, InBin s1 (select_bin_index (get_size s1 r)) x → x < WORD) := by
  constructor
  · intro fuel s c r s1 h hr x hx hxw
    obtain ⟨L, hL, hxL⟩ := hx
    by_cases hxr : x = r
    · subst hxr
      unfold HEADER_SIZE
      exact ⟨by omega, by omega⟩
    · have := coalesce_loop_fixed fuel s c r s1 h L hL x hxL hxr
      unfold adjBefore adjAfter at this
      constructor
      · intro e
        apply this.1
        rw [show x + get_size s1 x + HEADER_SIZE = r by omega]
        exact Nat.mod_eq_of_lt hr
      · intro e
        apply this.2
        rw [show r + get_size s1 r + HEADER_SIZE = x by omega]
        exact Nat.mod_eq_of_lt hxw
  · intro s bins others c fuel h hfl hf
    obtain ⟨r, bins1, s1, hc, hI1, _⟩ := coalesce_loop_spec others fuel s bins c h hfl hf
    have hrb := (hI1.geo.bound r (Or.inr (List.mem_cons_self _ _))).2
    unfold blockEnd HEADER_SIZE at hrb
    refine ⟨r, s1, hc, by omega, ?_⟩
    intro x hx
    have hj := select_bin_index_lt (get_size s1 r)
    have hxb := (hI1.geo.bound x (Or.inl ⟨_, hj, (inBin_iff hI1.chains _ hj x).1 hx⟩)).2
    unfold blockEnd HEADER_SIZE at hxb
    omega

/-- Witness for C28: in run 4 `coalesce(4096)` merges the released block with the remainder at
5120 and returns 4096 with bin 3 empty. -/
theorem coalesce_local_fixed_point_witness :
    coalesce 10 runMergeD 4096 = .ok 4096 runMergeC ∧ 4096 < WORD ∧
    get_size runMergeC 4096 = 2000 ∧
    (∀ x, InBin runMergeC (select_bin_index (get_size runMergeC 4096)) x → x < WORD →
      x + HEADER_SIZE + get_size runMergeC x ≠ 4096 ∧
      4096 + HEADER_SIZE + get_size runMergeC 4096 ≠ x) ∧
    ∃ bins, Inv runMergeD bins [4096] ∧ runMergeD.mem 4096 % 2 = 0 ∧ total bins + 2 ≤ 10 ∧
      ∃ r s1, coalesce 10 runMergeD 4096 = .ok r s1 ∧ r < WORD ∧
        ∀ x, InBin s1 (select_bin_index (get_size s1 r)) x → x < WORD :=
  ⟨by rfl, by decide, by decide,
    coalesce_local_fixed_point.1 10 runMergeD 4096 4096 runMergeC (by rfl) (by decide),
    inv_runMergeD.elim fun bins h => ⟨bins, h.1, h.2.1, h.2.2,
      coalesce_local_fixed_point.2 runMergeD bins [] 4096 10 h.1 h.2.1 h.2.2⟩⟩

/-- One scan of `coalesce` in a state that satisfies the invariant: either no block of the
bin is adjacent to `current` and nothing changes, or the first adjacent block `x` of the list
is merged with `current`: the lower one of the two, `m`, gets the metadata word for the summed
size with a clear flag, and `x` is unlinked. -/
theorem coalesce_scan_inv {s : Heap} {bins : Nat → List Nat} {others : List Nat} {c : Nat}
    (h : Inv s bins (c :: others)) (fuel : Nat) (hf : total bins + 1 ≤ fuel) :
    ((∀ x ∈ bins (select_bin_index (get_size s c)),
        ¬ adjBefore s x c ∧ ¬ adjAfter s x c) ∧
      coalesce_scan (select_bin_index (get_size s c)) c fuel s 0
        (s.free_heads (select_bin_index (get_size s c))) = .ok none s) ∨
    (∃ pre x post m s1, bins (select_bin_index (get_size s c)) = pre ++ x :: post ∧
      (∀ y ∈ pre, ¬ adjBefore s y c ∧ ¬ adjAfter s y c) ∧
      ((x + 16 + get_size s x = c ∧ m = x) ∨ (c + 16 + get_size s c = x ∧ m = c)) ∧
      coalesce_scan (select_bin_index (get_size s c)) c fuel s 0
        (s.free_heads (select_bin_index (get_size s c))) = .ok (some m) s1 ∧
      Inv s1 (Function.update bins (select_bin_index (get_size s c)) (pre ++ post))
        (m :: others) ∧
      s1.mem m = encode ((get_size s c + get_size s x + 16) % WORD) false ∧
      (∀ a, Blk bins (c :: others) a → a ≠ m → s1.mem a = s.mem a) ∧ s1.brk = s.brk) := by
  have hPc : Blk bins (c :: others) c := Or.inr (List.mem_cons_self _ _)
  have hc0 : c ≠ 0 := (h.geo.bound c hPc).1
  have hcb := (h.geo.bound c hPc).2
  unfold blockEnd HEADER_SIZE at hcb
  have hidx := select_bin_index_lt (get_size s c)
  generalize select_bin_index (get_size s c) = idx at hidx ⊢
  have hcn : c ∉ bins idx := fun hx => h.dist.other_disj idx hidx c hx (List.mem_cons_self _ _)
  have hlen := length_le_total bins idx hidx
  have hxb : ∀ x, x ∈ bins idx → x ≠ 0 ∧ x + 16 + get_size s x ≤ WORD := by
    intro x hx
    have := h.geo.bound x (Or.inl ⟨idx, hidx, hx⟩)
    unfold blockEnd HEADER_SIZE at this
    exact this
  rcases coalesce_scan_spec idx c s hc0 (bins idx) fuel 0 (s.free_heads idx)
      (h.chains idx hidx) (by omega) hcn with ⟨ha, hr⟩ | ⟨pre, x, post, e, hpre, hcase⟩
  · exact Or.inl ⟨ha, hr⟩
  right
  have hxi : x ∈ bins idx := by rw [e]; simp
  have hPx : Blk bins (c :: others) x := Or.inl ⟨idx, hidx, hxi⟩
  have hx0 := (hxb x hxi).1
  have hxbd := (hxb x hxi).2
  obtain ⟨hU, hmeta⟩ := inv_unlink h idx hidx pre post x e
  have hl : lastOr 0 pre = 0 ∨ ∀ a, Blk bins (c :: others) a → a ≠ lastOr 0 pre + 8 := by
    by_cases hp : pre = []
    · left
      rw [hp, lastOr_nil]
    · right
      intro a ha
      have hl := lastOr_mem 0 pre hp
      have hPl : Blk bins (c :: others) (lastOr 0 pre) :=
        Or.inl ⟨idx, hidx, e ▸ List.mem_append_left _ hl⟩
      exact (geo_link_ne h.geo _ a hPl ha).symm
  have hsx : get_size (unlink s idx (lastOr 0 pre) x) x = get_size s x :=
    get_size_congr _ _ _ (hmeta x hPx)
  have hsc : get_size (unlink s idx (lastOr 0 pre) x) c = get_size s c :=
    get_size_congr _ _ _ (hmeta c hPc)
  rcases hcase with ⟨hA, hr⟩ | ⟨_, hB, hr⟩
  · unfold adjBefore HEADER_SIZE at hA
    have hadj : x + 16 + get_size s x = c := by
      by_cases hlt : x + get_size s x + 16 < WORD
      · rw [Nat.mod_eq_of_lt hlt] at hA
        omega
      · have : x + get_size s x + 16 = WORD := by omega
        rw [this, Nat.mod_self] at hA
        omega
    have hcomm := unlink_store_comm s idx (lastOr 0 pre) x x
      (encode ((get_size s x + get_size s c + HEADER_SIZE) % WORD) false) (by omega)
      (hl.imp id (fun hh => hh x hPx))
    rw [hcomm] at hr
    obtain ⟨hI2, hm2⟩ := inv_absorb hU (by unfold HEADER_SIZE; rw [hsx]; exact hadj)
      (encode ((get_size s x + get_size s c + HEADER_SIZE) % WORD) false)
      (by
        rw [hsx, hsc]
        have := encode_size_le ((get_size s x + get_size s c + HEADER_SIZE) % WORD) false
        have := Nat.mod_le (get_size s x + get_size s c + HEADER_SIZE) WORD
        omega)
      (encode_lt _ _)
    refine ⟨pre, x, post, x, _, e, hpre, Or.inl ⟨hadj, rfl⟩, hr, hI2, ?_, ?_, ?_⟩
    · rw [store_mem_same]
      unfold HEADER_SIZE
      rw [Nat.add_comm (get_size s x) (get_size s c)]
    · intro a ha hax
      rw [hm2 a hax]
      exact hmeta a ha
    · exact unlink_brk _ _ _ _
  · unfold adjAfter HEADER_SIZE at hB
    have hadj : c + 16 + get_size s c = x := by
      by_cases hlt : c + get_size s c + 16 < WORD
      · rw [Nat.mod_eq_of_lt hlt] at hB
        omega
      · have : c + get_size s c + 16 = WORD := by omega
        rw [this, Nat.mod_self] at hB
        omega
    have hcomm := unlink_store_comm s idx (lastOr 0 pre) x c
      (encode ((get_size s c + get_size s x + HEADER_SIZE) % WORD) false)
      (geo_link_ne h.geo x c hPx hPc).symm (hl.imp id (fun hh => hh c hPc))
    rw [hcomm] at hr
    have hU2 : Inv (unlink s idx (lastOr 0 pre) x) (Function.update bins idx (pre ++ post))
        (c :: x :: others) := inv_perm hU (List.Perm.swap _ _ _)
    obtain ⟨hI2, hm2⟩ := inv_absorb hU2 (by unfold HEADER_SIZE; rw [hsc]; exact hadj)
      (encode ((get_size s c + get_size s x + HEADER_SIZE) % WORD) false)
      (by
        rw [hsx, hsc]
        have := encode_size_le ((get_size s c + get_size s x + HEADER_SIZE) % WORD) false
        have := Nat.mod_le (get_size s c + get_size s x + HEADER_SIZE) WORD
        omega)
      (encode_lt _ _)
    refine ⟨pre, x, post, c, _, e, hpre, Or.inr ⟨hadj, rfl⟩, hr, hI2, ?_, ?_, ?_⟩
    · rw [store_mem_same]
      rfl
    · intro a ha hac
      rw [hm2 a hac]
      exact hmeta a ha
    · exact unlink_brk _ _ _ _

/-- C27 (as stated) fails when the summed size does not fit the 60-bit size field: in run 9
`umalloc(2 ^ 64 - 16)` has left the block 6112 with recorded size `2 ^ 60 - 16` on the free
list of bin 3, right where the block 4096 of size 2000 ends.  On the release of 4096
`coalesce` merges the two and unlinks 6112, and the header at 4096 records size 2000, not
`2000 + (2 ^ 60 - 16) + header_size`. -/
theorem merge_after_wrapping_request_truncates_size :
    Reach (WORD - 1) runCat1 [6128, 4112] ∧ deallocate runCat1 4096 = .ok () runCat2 ∧
    InBin runCat2 3 6112 ∧ select_bin_index (get_size runCat2 4096) = 3 ∧
    get_size runCat2 4096 = 2000 ∧ get_size runCat2 6112 = 2 ^ 60 - 16 ∧
    4096 + HEADER_SIZE + get_size runCat2 4096 = 6112 ∧
    coalesce 10 runCat2 4096 = .ok 4096 runCat3 ∧ runCat3.free_heads 3 = 0 ∧
    get_size runCat3 4096 = 2000 ∧
    get_size runCat3 4096 ≠ get_size runCat2 4096 + get_size runCat2 6112 + HEADER_SIZE ∧
    ∃ s, ufree 10 runCat1 4112 = .ok () s ∧ get_size s 4096 = 2000 := by
  have h1 : Reach (WORD - 1) runSplit1 [4112] :=
    Reach.malloc heap0 runSplit1 [] (fun _ => 4096) 10 2000 4112 (reach_heap0 _) (by decide)
      (by decide) (fresh_of_checks _ _ _ (by decide) (by decide) (by decide)) (by rfl)
  have h2 : Reach (WORD - 1) runCat1 [6128, 4112] :=
    Reach.malloc runSplit1 runCat1 [4112] (fun _ => 6112) 10 (2 ^ 64 - 16) 6128 h1
      (by decide) (by decide) (fresh_of_checks _ _ _ (by decide) (by decide) (by decide))
      (by rfl)
  exact ⟨h2, by rfl,
    ⟨[6112], ⟨by decide, by decide, (rfl : runCat2.mem (6112 + 8) = 0)⟩, by decide⟩,
    by decide, by decide, by decide, by decide, by rfl, by decide, by decide, by decide,
    (ufree 10 runCat1 4112).heapD heap0, by rfl, by decide⟩

/-- C27 (as amended): a scan of `coalesce` for the block `c`, on no free list, in a state that
satisfies the invariant returns (given enough fuel).  If it merges, it merges `c` with a
block `x` of the scanned list that ends where `c` begins or begins where `c` ends; the merged
header is at `m`, the lower of the two addresses, and is marked free; `x` is unlinked and the
lists are otherwise as before; and if `size(c) + size(x) + header_size` is below `2 ^ 60`
the header at `m` records that size, so the merged block ends where the upper block ended. -/
theorem coalesce_merge_step {s : Heap} {bins : Nat → List Nat} {others : List Nat} {c : Nat}
    (h : Inv s bins (c :: others)) (fuel : Nat) (hf : total bins + 1 ≤ fuel) :
    ∃ o s1, coalesce_scan (select_bin_index (get_size s c)) c fuel s 0
        (s.free_heads (select_bin_index (get_size s c))) = .ok o s1 ∧ (o = none → s1 = s) ∧
      ∀ m, o = some m → ∃ pre x post,
        bins (select_bin_index (get_size s c)) = pre ++ x :: post ∧
        (x + HEADER_SIZE + get_size s x = c ∨ c + HEADER_SIZE + get_size s c = x) ∧
        m = min x c ∧ is_allocated s1 m = false ∧
        (get_size s c + get_size s x + HEADER_SIZE < 2 ^ 60 →
          get_size s1 m = get_size s c + get_size s x + HEADER_SIZE ∧
          m + HEADER_SIZE + get_size s1 m =
            max (x + HEADER_SIZE + get_size s x) (c + HEADER_SIZE + get_size s c)) ∧
        Chain s1.mem (s1.free_heads (select_bin_index (get_size s c))) (pre ++ post) ∧
        ∀ j, j < BIN_COUNT → j ≠ select_bin_index (get_size s c) →
          Chain s1.mem (s1.free_heads j) (bins j) := by
  have hidx := select_bin_index_lt (get_size s c)
  rcases coalesce_scan_inv h fuel hf with
    ⟨_, hr⟩ | ⟨pre, x, post, m, s1, e, _, hadj, hr, hI1, hmm, _, _⟩
  · exact ⟨none, s, hr, fun _ => rfl, fun m hm => Option.noConfusion hm⟩
  · refine ⟨some m, s1, hr, fun hm => Option.noConfusion hm, ?_⟩
    intro m2 hm2
    injection hm2 with hm2
    subst hm2
    have hm0 : m ≠ 0 := (hI1.geo.bound m (Or.inr (List.mem_cons_self _ _))).1
    unfold HEADER_SIZE
    refine ⟨pre, x, post, e, ?_, ?_, ?_, ?_, ?_, ?_⟩
    · rcases hadj with ⟨h1, _⟩ | ⟨h1, _⟩
      · exact Or.inl h1
      · exact Or.inr h1
    · rcases hadj with ⟨h1, rfl⟩ | ⟨h1, rfl⟩
      · exact (min_eq_left (by omega)).symm
      · exact (min_eq_right (by omega)).symm
    · have := encode_flag ((get_size s c + get_size s x + 16) % WORD) false
      simp [is_allocated, hmm, this]
    · intro hlt
      have hmod : (get_size s c + get_size s x + 16) % WORD =
          get_size s c + get_size s x + 16 := Nat.mod_eq_of_lt (by unfold WORD; omega)
      have hs1 : get_size s1 m = get_size s c + get_size s x + 16 := by
        have hg : get_size s1 m = s1.mem m / 16 := by simp [get_size, hm0]
        rw [hg, hmm, hmod]
        exact encode_size _ false hlt
      refine ⟨hs1, ?_⟩
      rw [hs1]
      rcases hadj with ⟨h1, rfl⟩ | ⟨h1, rfl⟩
      · rw [max_eq_right (by omega)]
        omega
      · rw [max_eq_left (by omega)]
        omega
    · have := hI1.chains _ hidx
      rw [Function.update_same] at this
      exact this
    · intro j hj hji
      have := hI1.chains j hj
      rw [Function.update_noteq hji] at this
      exact this

/-- Witness for C27 (as amended): in run 4 the scan for the released block 4096 (size 1008)
merges it with the remainder 5120 (size 976) of bin 2 into a block of size 2000. -/
theorem coalesce_merge_step_witness :
    get_size runMergeD 4096 = 1008 ∧ get_size runMergeD 5120 = 976 ∧
    ∃ bins, Inv runMergeD bins [4096] ∧ total bins + 1 ≤ 10 ∧
      ∃ o s1, coalesce_scan (select_bin_index (get_size runMergeD 4096)) 4096 10 runMergeD 0
          (runMergeD.free_heads (select_bin_index (get_size runMergeD 4096))) = .ok o s1 ∧
        (o = none → s1 = runMergeD) ∧
        ∀ m, o = some m → ∃ pre x post,
          bins (select_bin_index (get_size runMergeD 4096)) = pre ++ x :: post ∧
          (x + HEADER_SIZE + get_size runMergeD x = 4096 ∨
            4096 + HEADER_SIZE + get_size runMergeD 4096 = x) ∧
          m = min x 4096 ∧ is_allocated s1 m = false ∧
          (get_size runMergeD 4096 + get_size runMergeD x + HEADER_SIZE < 2 ^ 60 →
            get_size s1 m = get_size runMergeD 4096 + get_size runMergeD x + HEADER_SIZE ∧
            m + HEADER_SIZE + get_size s1 m =
              max (x + HEADER_SIZE + get_size runMergeD x)
                (4096 + HEADER_SIZE + get_size runMergeD 4096)) ∧
          Chain s1.mem (s1.free_heads (select_bin_index (get_size runMergeD 4096)))
            (pre ++ post) ∧
          ∀ j, j < BIN_COUNT → j ≠ select_bin_index (get_size runMergeD 4096) →
            Chain s1.mem (s1.free_heads j) (bins j) :=
  ⟨by decide, by decide, inv_runMergeD.elim fun bins h => ⟨bins, h.1, by omega,
    coalesce_merge_step h.1 10 (by omega)⟩⟩

/-- Every reachable state satisfies the invariant with bins that are sorted by recorded size
and hold only blocks of their own size class. -/
theorem reach_tidy (maxSize : Nat) (hm : maxSize + 64 ≤ WORD) (s : Heap) (live : List Nat)
    (hr : Reach maxSize s live) :
    ∃ bins hs, Inv s bins hs ∧ live = List.map (fun h => h + 16) hs ∧
      (∀ h ∈ hs, h + 16 < WORD ∧ s.mem h % 2 = 1) ∧ SortedBins s bins ∧ BinsMatch s bins := by
  induction hr with
  | init s h0 hb =>
    refine ⟨fun _ => [], [], inv_init s h0, rfl, by simp, ?_, ?_⟩
    · intro i _
      exact List.Pairwise.nil
    · intro i _ a ha
      simp at ha
  | malloc s s1 live csbrk fuel size p hr h0 hmax hfresh hcall ih =>
    obtain ⟨bins, hs, hI, hlive, hfl, hS, hM⟩ := ih
    obtain ⟨b, bins1, s2, hu, hI1, hf1, hb16, _, hmo, _, _, hS1, hM1, _⟩ :=
      umalloc_full hI csbrk size (max fuel (total bins + 6)) h0 (by omega) (le_max_right _ _)
        hfresh
    have hne : umalloc csbrk fuel s size ≠ .timeout := by
      rw [hcall]
      exact fun e => Outcome.noConfusion e
    rw [umalloc_mono csbrk fuel _ s size (le_max_left _ _) hne, hcall] at hu
    injection hu with hp hs12
    subst hp hs12
    refine ⟨bins1, b :: hs, hI1, by rw [hlive]; rfl, ?_, hS1 hS, hM1 hM⟩
    intro h hh
    rcases List.mem_cons.1 hh with rfl | hh
    · exact ⟨hb16, hf1⟩
    · exact ⟨(hfl h hh).1, by rw [hmo h hh]; exact (hfl h hh).2⟩
  | free s s1 live fuel p hr hp hcall ih =>
    obtain ⟨bins, hs, hI, hlive, hfl, hS, hM⟩ := ih
    rw [hlive] at hp
    obtain ⟨h, hh, rfl⟩ := List.mem_map.1 hp
    have hI2 : Inv s bins (h :: hs.erase h) := inv_perm hI (List.perm_cons_erase hh)
    obtain ⟨r, bins1, s2, hu, _, hI1, hmo, _, _, _, _, _, _, hS1, hM1, _⟩ :=
      ufree_full hI2 (hfl h hh).1 (max fuel (total bins + 2)) (le_max_right _ _)
    have hne : ufree fuel s (h + 16) ≠ .timeout := by
      rw [hcall]
      exact fun e => Outcome.noConfusion e
    rw [ufree_mono fuel _ s (h + 16) (le_max_left _ _) hne, hcall] at hu
    injection hu with _ hs12
    subst hs12
    refine ⟨bins1, hs.erase h, hI1, ?_, ?_, hS1 hS, hM1 hM⟩
    · rw [hlive, List.map_erase add16_injective]
    · intro a ha
      have ha2 : a ∈ hs := List.mem_of_mem_erase ha
      exact ⟨(hfl a ha2).1, by rw [hmo a ha]; exact (hfl a ha2).2⟩

/-- C30 (as stated) fails: `umalloc(2 ^ 64 - 1)` followed by `umalloc(2 ^ 60 + 100)`, each
served from a fresh arena region, leaves the block at 8208 on the free list of bin 3 with the
recorded size 100, whose size class is bin 0.  The first request wraps around, so `split` puts
a remainder header just behind the 16-byte region; the second region starts there and `extend`
overwrites that header. -/
theorem block_in_wrong_bin_after_wrapping_request :
    Reach (WORD - 1) runOver2 [8224, 8208] ∧ InBin runOver2 3 8208 ∧
    get_size runOver2 8208 = 100 ∧ select_bin_index (get_size runOver2 8208) = 0 := by
  have h1 : Reach (WORD - 1) runOver1 [8208] :=
    Reach.malloc heap0 runOver1 [] (fun _ => 8192) 10 (2 ^ 64 - 1) 8208 (reach_heap0 _)
      (by decide) (by decide) (fresh_of_checks _ _ _ (by decide) (by decide) (by decide))
      (by rfl)
  have h2 : Reach (WORD - 1) runOver2 [8224, 8208] :=
    Reach.malloc runOver1 runOver2 [8208] (fun _ => 8208) 10 (2 ^ 60 + 100) 8224 h1
      (by decide) (by decide) (fresh_of_checks _ _ _ (by decide) (by decide) (by decide))
      (by rfl)
  exact ⟨h2, ⟨[8208], ⟨by decide, by decide, (rfl : runOver2.mem (8208 + 8) = 0)⟩, by decide⟩,
    by decide, by decide⟩

/-- C30 (as amended): in every state reached from empty bins by `umalloc` calls with
`0 < size ≤ 2 ^ 64 - 64` and valid `ufree` calls, with an arena provider that always hands out
a fresh region, every block on the free list of bin `i` has a recorded size whose size class
is `i`. -/
theorem bin_membership_invariant (s : Heap) (live : List Nat) (hr : Reach (WORD - 64) s live)
    (i x : Nat) (hi : i < BIN_COUNT) (hx : InBin s i x) :
    select_bin_index (get_size s x) = i := by
  obtain ⟨bins, hs, hI, _, _, _, hM⟩ := reach_tidy (WORD - 64) (by unfold WORD; omega) s live hr
  exact hM i hi x ((inBin_iff hI.chains i hi x).1 hx)

/-- Witness for C30 (as amended): after `umalloc(2000)`, its release and `umalloc(1000)`, the
split remainder at 5120 with recorded size 976 is on the free list of bin 2. -/
theorem bin_membership_invariant_witness :
    Reach (WORD - 64) runMerge3 [4112] ∧ 2 < BIN_COUNT ∧ InBin runMerge3 2 5120 ∧
    select_bin_index (get_size runMerge3 5120) = 2 :=
  ⟨reach_runMerge3, by decide,
    ⟨[5120], ⟨by decide, by decide, (rfl : runMerge3.mem (5120 + 8) = 0)⟩, by decide⟩,
    bin_membership_invariant runMerge3 [4112] reach_runMerge3 2 5120 (by decide)
      ⟨[5120], ⟨by decide, by decide, (rfl : runMerge3.mem (5120 + 8) = 0)⟩, by decide⟩⟩

/-- A list that starts at `NULL` is empty. -/
theorem chain_nil_of_head (mem : Nat → Nat) (L : List Nat) (h : Chain mem 0 L) : L = [] := by
  cases L with
  | nil => rfl
  | cons b t =>
    obtain ⟨e, hb, _⟩ := h
    exact absurd e.symm hb

/-- No finite `NULL`-terminated list starts at a block that is its own successor. -/
theorem no_chain_of_self_loop (mem : Nat → Nat) (b : Nat) (hb : b ≠ 0) (hself : mem (b + 8) = b)
    (L : List Nat) : ¬ Chain mem b L := by
  induction L with
  | nil =>
    intro h
    exact hb h
  | cons c t ih =>
    rintro ⟨e, _, ht⟩
    subst e
    rw [hself] at ht
    exact ih ht

/-- C29 (as stated) fails: after `umalloc(2000)`, its release and `umalloc(2 ^ 64 - 1)` every
bin is in non-decreasing order of size, bin 3 holding the block at 4096 (size 2000) and then
the block at 8208; a following `umalloc(2 ^ 60 + 100)`, served from a fresh region at 8208,
returns 8224 and leaves bin 3 holding 4096 (size 2000) before 8208 (size 100).  The wrapping
request made `split` put a remainder header just behind its 16-byte region, and `extend`
overwrites that header. -/
theorem bin_unsorted_after_wrapping_request :
    Reach (WORD - 1) runUns1 [8208] ∧
    (∀ i L, i < BIN_COUNT → Chain runUns1.mem (runUns1.free_heads i) L →
      SortedBySize runUns1 L) ∧
    Fresh runUns1.brk (ALIGN ((2 ^ 60 + 100 + HEADER_SIZE) % WORD)) 8208 ∧
    umalloc (fun _ => 8208) 10 runUns1 (2 ^ 60 + 100) = .ok 8224 runUns2 ∧
    Chain runUns2.mem (runUns2.free_heads 3) [4096, 8208] ∧
    get_size runUns2 4096 = 2000 ∧ get_size runUns2 8208 = 100 ∧
    ¬ SortedBySize runUns2 [4096, 8208] := by
  have h1 : Reach (WORD - 1) runSplit1 [4112] :=
    Reach.malloc heap0 runSplit1 [] (fun _ => 4096) 10 2000 4112 (reach_heap0 _) (by decide)
      (by decide) (fresh_of_checks _ _ _ (by decide) (by decide) (by decide)) (by rfl)
  have h2 : Reach (WORD - 1) runSplit2 [] :=
    Reach.free runSplit1 runSplit2 [4112] 10 4112 h1 (by decide) (by rfl)
  have h3 : Reach (WORD - 1) runUns1 [8208] :=
    Reach.malloc runSplit2 runUns1 [] (fun _ => 8192) 10 (2 ^ 64 - 1) 8208 h2
      (by decide) (by decide) (fresh_of_checks _ _ _ (by decide) (by decide) (by decide))
      (by rfl)
  have hc3 : Chain runUns1.mem (runUns1.free_heads 3) [4096, 8208] :=
    ⟨by decide, by decide, by decide, by decide, (rfl : runUns1.mem (8208 + 8) = 0)⟩
  refine ⟨h3, ?_, fresh_of_checks _ _ _ (by decide) (by decide) (by decide), by rfl,
    ⟨by decide, by decide, by decide, by decide, (rfl : runUns2.mem (8208 + 8) = 0)⟩,
    by decide, by decide, ?_⟩
  · intro i L hi hL
    have hi4 : i < 4 := hi
    interval_cases i
    · rw [chain_nil_of_head _ L hL]
      exact List.Pairwise.nil
    · rw [chain_nil_of_head _ L hL]
      exact List.Pairwise.nil
    · rw [chain_nil_of_head _ L hL]
      exact List.Pairwise.nil
    · rw [chain_unique _ _ _ _ hL hc3]
      unfold SortedBySize
      decide
  · unfold SortedBySize
    decide

/-- C29 (as amended): in a state reached from empty bins by `umalloc` calls with
`0 < size ≤ 2 ^ 64 - 64` and valid `ufree` calls, with an arena provider that always hands out
a fresh region, if the free list of every bin is in non-decreasing order of recorded size, then
a further such `umalloc(size)` and a `ufree(p)` of a live pointer both return (given enough
fuel) and leave the free list of every bin in non-decreasing order of recorded size. -/
theorem calls_keep_bins_sorted (s : Heap) (live : List Nat) (hr : Reach (WORD - 64) s live)
    (hsorted : ∀ i L, i < BIN_COUNT → Chain s.mem (s.free_heads i) L → SortedBySize s L) :
    (∀ csbrk size, 0 < size → size ≤ WORD - 64 →
      Fresh s.brk (ALIGN ((size + HEADER_SIZE) % WORD))
        (csbrk (ALIGN ((size + HEADER_SIZE) % WORD))) →
      ∃ N, ∀ fuel, N ≤ fuel → ∃ p s1, umalloc csbrk fuel s size = .ok p s1 ∧
        ∀ i L, i < BIN_COUNT → Chain s1.mem (s1.free_heads i) L → SortedBySize s1 L) ∧
    (∀ p, p ∈ live → ∃ N, ∀ fuel, N ≤ fuel → ∃ s1, ufree fuel s p = .ok () s1 ∧
      ∀ i L, i < BIN_COUNT → Chain s1.mem (s1.free_heads i) L → SortedBySize s1 L) := by
  obtain ⟨bins, hs, hI, hlive, hfl⟩ := reach_good (WORD - 64) (by unfold WORD; omega) s live hr
  have hS : SortedBins s bins := fun i hi => hsorted i (bins i) hi (hI.chains i hi)
  have hW : WORD - 64 + 64 ≤ WORD := by
    unfold WORD
    omega
  constructor
  · intro csbrk size h0 hmax hfresh
    refine ⟨total bins + 6, fun fuel hf => ?_⟩
    obtain ⟨b, bins1, s1, hu, hI1, _, _, _, _, _, _, hS1, _⟩ :=
      umalloc_full hI csbrk size fuel h0 (by omega) hf hfresh
    refine ⟨b + 16, s1, hu, ?_⟩
    intro i L hi hL
    rw [chain_unique _ _ _ _ hL (hI1.chains i hi)]
    exact hS1 hS i hi
  · intro p hp
    rw [hlive] at hp
    obtain ⟨h, hh, rfl⟩ := List.mem_map.1 hp
    have hI2 : Inv s bins (h :: hs.erase h) := inv_perm hI (List.perm_cons_erase hh)
    refine ⟨total bins + 2, fun fuel hf => ?_⟩
    obtain ⟨r, bins1, s1, hu, _, hI1, _, _, _, _, _, _, _, hS1, _⟩ :=
      ufree_full hI2 (hfl h hh).1 fuel hf
    refine ⟨s1, hu, ?_⟩
    intro i L hi hL
    rw [chain_unique _ _ _ _ hL (hI1.chains i hi)]
    exact hS1 hS i hi

/-- Witness for C29 (as amended): the state after `umalloc(2000)`, its release and
`umalloc(1000)`, where bin 2 holds the split remainder at 5120 and 4112 is live. -/
theorem calls_keep_bins_sorted_witness :
    Reach (WORD - 64) runMerge3 [4112] ∧
    (∀ i L, i < BIN_COUNT → Chain runMerge3.mem (runMerge3.free_heads i) L →
      SortedBySize runMerge3 L) ∧
    (∀ csbrk size, 0 < size → size ≤ WORD - 64 →
      Fresh runMerge3.brk (ALIGN ((size + HEADER_SIZE) % WORD))
        (csbrk (ALIGN ((size + HEADER_SIZE) % WORD))) →
      ∃ N, ∀ fuel, N ≤ fuel → ∃ p s1, umalloc csbrk fuel runMerge3 size = .ok p s1 ∧
        ∀ i L, i < BIN_COUNT → Chain s1.mem (s1.free_heads i) L → SortedBySize s1 L) ∧
    (∀ p, p ∈ [4112] → ∃ N, ∀ fuel, N ≤ fuel → ∃ s1, ufree fuel runMerge3 p = .ok () s1 ∧
      ∀ i L, i < BIN_COUNT → Chain s1.mem (s1.free_heads i) L → SortedBySize s1 L) :=
  have hsorted : ∀ i L, i < BIN_COUNT → Chain runMerge3.mem (runMerge3.free_heads i) L →
      SortedBySize runMerge3 L := by
    intro i L hi hL
    have hi4 : i < 4 := hi
    have hc2 : Chain runMerge3.mem (runMerge3.free_heads 2) [5120] :=
      ⟨by decide, by decide, (rfl : runMerge3.mem (5120 + 8) = 0)⟩
    interval_cases i
    · rw [chain_nil_of_head _ L hL]
      exact List.Pairwise.nil
    · rw [chain_nil_of_head _ L hL]
      exact List.Pairwise.nil
    · rw [chain_unique _ _ _ _ hL hc2]
      exact List.pairwise_singleton _ _
    · rw [chain_nil_of_head _ L hL]
      exact List.Pairwise.nil
  ⟨reach_runMerge3, hsorted, calls_keep_bins_sorted runMerge3 [4112] reach_runMerge3 hsorted⟩

/-- C26 (as stated) fails: `umalloc(2 ^ 64 - 16)` from the initial state returns 4112 and
leaves its block 4096 on the free list of bin 3; `ufree(4112)` then inserts the block a second
time, in front of itself, so that the head of bin 3 is 4096 and the successor of 4096 is 4096:
walking the list meets the block at every step, and no finite `NULL`-terminated list starts
at the head. -/
theorem released_block_links_to_itself :
    Reach (WORD - 1) runWrap1 [4112] ∧ ufree 10 runWrap1 4112 = .ok () runWrapFree ∧
    select_bin_index (get_size runWrapFree 4096) = 3 ∧
    runWrapFree.free_heads 3 = 4096 ∧ runWrapFree.mem (4096 + 8) = 4096 ∧
    ∀ L, ¬ Chain runWrapFree.mem (runWrapFree.free_heads 3) L :=
  ⟨Reach.malloc heap0 runWrap1 [] (fun _ => 4096) 10 (2 ^ 64 - 16) 4112 (reach_heap0 _)
      (by decide) (by decide) (fresh_of_checks _ _ _ (by decide) (by decide) (by decide))
      (by rfl),
    by rfl, by decide, by decide, by decide,
    no_chain_of_self_loop runWrapFree.mem 4096 (by decide) (by decide)⟩

/-- C26 (as amended): in every state reached from empty bins by `umalloc` calls with
`0 < size ≤ 2 ^ 64 - 64` and valid `ufree` calls, with an arena provider that always hands out
a fresh region, `ufree(p)` of a live pointer returns (given enough fuel); the block `r` that
`coalesce` gave back has its allocated flag clear, is on the free list of bin
`select_bin_index(get_size(r))` exactly once and on no other free list; every block that was
on the free list of a bin before is either still on the free list of the same bin, or it is
`r` itself or on no free list at all, and then, when all arena regions lie below `2 ^ 60`, its
bytes lie inside `r`; under the same condition the released block lies inside `r`. -/
theorem release_inserts_final_block (s : Heap) (live : List Nat) (p : Nat)
    (hr : Reach (WORD - 64) s live) (hp : p ∈ live) :
    ∃ N, ∀ fuel, N ≤ fuel → ∃ s1 s2 s3 r,
      deallocate s (get_header p) = .ok () s1 ∧ coalesce fuel s1 (get_header p) = .ok r s2 ∧
      ufree fuel s p = .ok () s3 ∧ is_allocated s3 r = false ∧
      InBin s3 (select_bin_index (get_size s3 r)) r ∧
      (∀ i L, i < BIN_COUNT → Chain s3.mem (s3.free_heads i) L →
        L.count r = if i = select_bin_index (get_size s3 r) then 1 else 0) ∧
      (∀ i x, i < BIN_COUNT → InBin s i x → InBin s3 i x ∨
        ((x = r ∨ ∀ k, k < BIN_COUNT → ¬ InBin s3 k x) ∧
          (SmallArena s.brk → r ≤ x ∧ blockEnd s x ≤ blockEnd s3 r))) ∧
      (SmallArena s.brk → r ≤ get_header p ∧ blockEnd s (get_header p) ≤ blockEnd s3 r) := by
  obtain ⟨bins, hs, hI, hlive, hfl⟩ := reach_good (WORD - 64) (by unfold WORD; omega) s live hr
  rw [hlive] at hp
  obtain ⟨h, hh, rfl⟩ := List.mem_map.1 hp
  have hI2 : Inv s bins (h :: hs.erase h) := inv_perm hI (List.perm_cons_erase hh)
  refine ⟨total bins + 2, fun fuel hf => ?_⟩
  obtain ⟨r, bins1, s3, hu, ⟨s1, s2, hd, hc, hadd⟩, hI1, _, _, _, hmem, _, _, hflag, _, _, hgeo,
    hback⟩ := ufree_full hI2 (hfl h hh).1 fuel hf
  have hj := select_bin_index_lt (get_size s3 r)
  rw [get_header_eq h (hfl h hh).1]
  refine ⟨s1, s2, s3, r, hd, hc, hu, by simp [is_allocated, hflag],
    (inBin_iff hI1.chains _ hj r).2 hmem, ?_, ?_, fun hsm => ⟨(hgeo hsm).1, (hgeo hsm).2.1⟩⟩
  · intro i L hi hL
    rw [chain_unique _ _ _ _ hL (hI1.chains i hi)]
    by_cases hij : i = select_bin_index (get_size s3 r)
    · rw [if_pos hij]
      subst hij
      exact List.count_eq_one_of_mem (hI1.dist.nodup _ hi) hmem
    · rw [if_neg hij]
      apply List.count_eq_zero_of_not_mem
      intro hr2
      exact hI1.dist.bin_disj i _ hi hj hij r hr2 hmem
  · intro i x hi hx
    have hx0 : x ∈ bins i := (inBin_iff hI.chains i hi x).1 hx
    by_cases hx1 : x ∈ bins1 i
    · exact Or.inl ((inBin_iff hI1.chains i hi x).2 hx1)
    · refine Or.inr ⟨?_, ?_⟩
      · by_cases hxr : x = r
        · exact Or.inl hxr
        · right
          intro k hk hxk
          have hxk1 : x ∈ bins1 k := (inBin_iff hI1.chains k hk x).1 hxk
          rcases hback k hk x hxk1 with e | hxk0
          · exact hxr e
          · by_cases hki : k = i
            · subst hki
              exact hx1 hxk1
            · exact hI.dist.bin_disj k i hk hi hki x hxk0 hx0
      · intro hsm
        rcases (hgeo hsm).2.2 i hi x hx0 with h1 | h1
        · exact absurd h1 hx1
        · exact h1

/-- Witness for C26 (as amended): releasing 4112 after `umalloc(2000)`, its release and
`umalloc(1000)`; the released block at 4096 merges with the split remainder at 5120. -/
theorem release_inserts_final_block_witness :
    Reach (WORD - 64) runMerge3 [4112] ∧ 4112 ∈ [4112] ∧
    ∃ N, ∀ fuel, N ≤ fuel → ∃ s1 s2 s3 r,
      deallocate runMerge3 (get_header 4112) = .ok () s1 ∧
      coalesce fuel s1 (get_header 4112) = .ok r s2 ∧
      ufree fuel runMerge3 4112 = .ok () s3 ∧ is_allocated s3 r = false ∧
      InBin s3 (select_bin_index (get_size s3 r)) r ∧
      (∀ i L, i < BIN_COUNT → Chain s3.mem (s3.free_heads i) L →
        L.count r = if i = select_bin_index (get_size s3 r) then 1 else 0) ∧
      (∀ i x, i < BIN_COUNT → InBin runMerge3 i x → InBin s3 i x ∨
        ((x = r ∨ ∀ k, k < BIN_COUNT → ¬ InBin s3 k x) ∧
          (SmallArena runMerge3.brk → r ≤ x ∧ blockEnd runMerge3 x ≤ blockEnd s3 r))) ∧
      (SmallArena runMerge3.brk →
        r ≤ get_header 4112 ∧ blockEnd runMerge3 (get_header 4112) ≤ blockEnd s3 r) :=
  ⟨reach_runMerge3, by decide,
    release_inserts_final_block runMerge3 [4112] 4112 reach_runMerge3 (by decide)⟩

/-- C31: for a non-null block whose metadata word is a 64-bit value, `allocate` returns,
leaves `get_size` as it was and makes `is_allocated` true, and a second `allocate` changes
nothing; `deallocate` returns, leaves `get_size` as it was and makes `is_allocated` false, and a
second `deallocate` changes nothing; and for a block that was unallocated, `deallocate` after
`allocate` gives back the state from before, metadata word included. -/
theorem flag_operations (s : Heap) (block : Nat) (hb : block ≠ 0) (hw : s.mem block < WORD) :
    (∃ s1, allocate s block = .ok () s1 ∧ get_size s1 block = get_size s block ∧
      is_allocated s1 block = true ∧ allocate s1 block = .ok () s1) ∧
    (∃ s1, deallocate s block = .ok () s1 ∧ get_size s1 block = get_size s block ∧
      is_allocated s1 block = false ∧ deallocate s1 block = .ok () s1) ∧
    (is_allocated s block = false →
      ∃ s1, allocate s block = .ok () s1 ∧ deallocate s1 block = .ok () s) := by
  have hmod : s.mem block % 2 = 0 ∨ s.mem block % 2 = 1 := by omega
  refine ⟨?_, ?_, ?_⟩
  · rcases hmod with h | h
    · have h1 : (s.mem block + 1) % WORD = s.mem block + 1 := by
        unfold WORD at *
        omega
      refine ⟨store s block (s.mem block + 1), ?_, ?_, ?_, ?_⟩
      · simp [allocate, is_allocated, hb, h, h1]
      · rw [get_size_store_same s block _ hb]
        simp only [get_size, hb, ne_eq, not_false_eq_true, if_true]
        omega
      · have : (s.mem block + 1) % 2 = 1 := by omega
        simp [is_allocated, store, hb, this]
      · have : (s.mem block + 1) % 2 = 1 := by omega
        simp [allocate, is_allocated, store, hb, this]
    · exact ⟨s, by simp [allocate, is_allocated, hb, h], rfl,
        by simp [is_allocated, hb, h], by simp [allocate, is_allocated, hb, h]⟩
  · rcases hmod with h | h
    · exact ⟨s, by simp [deallocate, is_allocated, hb, h], rfl,
        by simp [is_allocated, hb, h], by simp [deallocate, is_allocated, hb, h]⟩
    · have h1 : (s.mem block + WORD - 1) % WORD = s.mem block - 1 := by
        unfold WORD at *
        omega
      refine ⟨store s block (s.mem block - 1), ?_, ?_, ?_, ?_⟩
      · simp [deallocate, is_allocated, hb, h, h1]
      · rw [get_size_store_same s block _ hb]
        simp only [get_size, hb, ne_eq, not_false_eq_true, if_true]
        omega
      · have : (s.mem block - 1) % 2 = 0 := by omega
        simp [is_allocated, store, hb, this]
      · have : (s.mem block - 1) % 2 = 0 := by omega
        simp [deallocate, is_allocated, store, hb, this]
  · intro hfl
    have h : s.mem block % 2 = 0 := by
      rcases hmod with h | h
      · exact h
      · simp [is_allocated, hb, h] at hfl
    have h1 : (s.mem block + 1) % WORD = s.mem block + 1 := by
      unfold WORD at *
      omega
    have h2 : (s.mem block + 1) % 2 = 1 := by omega
    have h3 : (s.mem block + 1 + WORD - 1) % WORD = s.mem block := by
      unfold WORD at *
      omega
    refine ⟨store s block (s.mem block + 1), by simp [allocate, is_allocated, hb, h, h1], ?_⟩
    cases s with
    | mk fh mem brk =>
      simp only [deallocate, is_allocated, store, hb, ne_eq, not_false_eq_true, if_true,
        Function.update_same, h2, beq_self_eq_true, if_false]
      simp only [Function.update_same] at h3
      simp [h3]
      exact Nat.mod_eq_of_lt hw

/-- Witness for C31: the block at 4096 (size 2000, unallocated) in the state after
`umalloc(2000)` and its release. -/
theorem flag_operations_witness :
    (4096 : Nat) ≠ 0 ∧ runSplit2.mem 4096 < WORD ∧
    (∃ s1, allocate runSplit2 4096 = .ok () s1 ∧ get_size s1 4096 = get_size runSplit2 4096 ∧
      is_allocated s1 4096 = true ∧ allocate s1 4096 = .ok () s1) ∧
    (∃ s1, deallocate runSplit2 4096 = .ok () s1 ∧ get_size s1 4096 = get_size runSplit2 4096 ∧
      is_allocated s1 4096 = false ∧ deallocate s1 4096 = .ok () s1) ∧
    (is_allocated runSplit2 4096 = false →
      ∃ s1, allocate runSplit2 4096 = .ok () s1 ∧ deallocate s1 4096 = .ok () runSplit2) :=
  ⟨by decide, by decide, flag_operations runSplit2 4096 (by decide) (by decide)⟩

/-- C35: for a non-null block, every size and either flag, `set_block_metadata` returns and
afterwards `get_size` is the size modulo `2 ^ 60` and `is_allocated` is the flag, so `get_size`
gives the size back exactly when the size is below `2 ^ 60`. -/
theorem header_size_overflow (s : Heap) (block size : Nat) (alloc : Bool) (hb : block ≠ 0) :
    ∃ s1, set_block_metadata s block size alloc = .ok () s1 ∧
      get_size s1 block = size % 2 ^ 60 ∧ is_allocated s1 block = alloc ∧
      (get_size s1 block = size ↔ size < 2 ^ 60) := by
  have hw : (size * 16 % WORD + alloc.toNat) % WORD = size % 2 ^ 60 * 16 + alloc.toNat := by
    unfold WORD
    cases alloc <;> simp <;> omega
  have hg : get_size (store s block (size % 2 ^ 60 * 16 + alloc.toNat)) block =
      size % 2 ^ 60 := by
    rw [get_size_store_same s block _ hb]
    cases alloc
    · simp
    · simp
      omega
  refine ⟨store s block (size % 2 ^ 60 * 16 + alloc.toNat), ?_, hg, ?_, ?_⟩
  · simp [set_block_metadata, hb, hw]
  · cases alloc <;> simp [is_allocated, store, hb] <;> omega
  · rw [hg]
    constructor
    · intro h
      have := Nat.mod_lt size (by norm_num : 0 < 2 ^ 60)
      omega
    · intro h
      exact Nat.mod_eq_of_lt h

/-- Witness for C35: size `2 ^ 60 + 100` with the flag set, on a block at address 4096; the
header records size 100. -/
theorem header_size_overflow_witness :
    (4096 : Nat) ≠ 0 ∧
    ∃ s1, set_block_metadata heap0 4096 (2 ^ 60 + 100) true = .ok () s1 ∧
      get_size s1 4096 = (2 ^ 60 + 100) % 2 ^ 60 ∧ is_allocated s1 4096 = true ∧
      (get_size s1 4096 = 2 ^ 60 + 100 ↔ 2 ^ 60 + 100 < 2 ^ 60) :=
  ⟨by decide, header_size_overflow heap0 4096 (2 ^ 60 + 100) true (by decide)⟩

/-- C32: `select_bin_index` is monotone, and on well-formed free lists in which every block
is in the bin of its recorded size, `find(r)` returns (given enough fuel) and its result is
`NULL` exactly when no block on the free list of any of the four bins, the bins below
`select_bin_index(r)` included, has size at least `r`. -/
theorem find_misses_no_fit (r : Nat) (s : Heap) (bins : Nat → List Nat) (hc : Chains s bins)
    (hm : ∀ i x, i < BIN_COUNT → InBin s i x → select_bin_index (get_size s x) = i)
    (fuel : Nat) (hf : total bins + 6 ≤ fuel) :
    (∀ a b, a ≤ b → select_bin_index a ≤ select_bin_index b) ∧
    ∃ b s1, find fuel s r = .ok b s1 ∧
      (b = 0 ↔ ∀ i x, i < BIN_COUNT → InBin s i x → get_size s x < r) := by
  refine ⟨select_bin_index_mono, ?_⟩
  rcases find_spec r s bins hc fuel hf with ⟨hr, hall⟩ | ⟨i, pre, b, post, _, hi, e, _, hb, _, hr⟩
  · refine ⟨0, s, hr, fun _ => ?_, fun _ => rfl⟩
    intro i x hi hx
    have hxm : x ∈ bins i := (inBin_iff hc i hi x).1 hx
    by_cases hle : select_bin_index r ≤ i
    · exact hall i hle hi x hxm
    · by_contra hge
      have h1 := select_bin_index_mono r (get_size s x) (by omega)
      rw [hm i x hi hx] at h1
      omega
  · have hbm : b ∈ bins i := by
      rw [e]
      exact List.mem_append_right _ (List.mem_cons_self _ _)
    have hb0 : b ≠ 0 := by
      have hch := hc i hi
      rw [e] at hch
      obtain ⟨m, _, h2⟩ := (seg_append _ _ _ _ _).1 hch
      exact h2.2.1
    refine ⟨b, _, hr, fun h0 => absurd h0 hb0, fun hall => ?_⟩
    have := hall i b hi ((inBin_iff hc i hi b).2 hbm)
    omega

/-- Witness for C32: `find(200)` in run 5 starts at bin 1 and returns `NULL`; bin 0, which it
skips, holds only the sizes 50 and 100. -/
theorem find_misses_no_fit_witness :
    Chains runIns2 binsIns2 ∧
    (∀ i x, i < BIN_COUNT → InBin runIns2 i x → select_bin_index (get_size runIns2 x) = i) ∧
    total binsIns2 + 6 ≤ 10 ∧ find 10 runIns2 200 = .ok 0 runIns2 ∧
    (∀ a b, a ≤ b → select_bin_index a ≤ select_bin_index b) ∧
    ∃ b s1, find 10 runIns2 200 = .ok b s1 ∧
      (b = 0 ↔ ∀ i x, i < BIN_COUNT → InBin runIns2 i x → get_size runIns2 x < 200) :=
  have hm : ∀ i x, i < BIN_COUNT → InBin runIns2 i x →
      select_bin_index (get_size runIns2 x) = i := by
    intro i x hi hx
    have hi4 : i < 4 := hi
    have hxm := (inBin_iff chains_runIns2 i hi4 x).1 hx
    interval_cases i
    · have h2 : x = 8192 ∨ x = 4096 := by
        simpa [binsIns2] using hxm
      rcases h2 with rfl | rfl <;> decide
    · simp [binsIns2] at hxm
    · simp [binsIns2] at hxm
    · simp [binsIns2] at hxm
  ⟨chains_runIns2, hm, by decide, by rfl,
    find_misses_no_fit 200 runIns2 binsIns2 chains_runIns2 hm 10 (by decide)⟩

/-- Every run of the `coalesce` loop on well-formed lists ends, and the number of merges is the
number of blocks that have left the lists. -/
theorem coalesce_merges_spec (others : List Nat) :
    ∀ fuel s bins c, Inv s bins (c :: others) → total bins + 2 ≤ fuel →
    ∃ r k bins1 s1, coalesce fuel s c = .ok r s1 ∧ coalesce_merges fuel s c = .ok (r, k) s1 ∧
      k ≤ total bins ∧ Chains s1 bins1 ∧ total bins1 + k = total bins ∧
      ∀ i, i < BIN_COUNT → (bins1 i).Sublist (bins i) := by
  intro fuel
  induction fuel with
  | zero =>
    intro s bins c _ hf
    omega
  | succ fuel ih =>
    intro s bins c h hf
    rcases coalesce_scan_inv h fuel (by omega) with
      ⟨_, hr⟩ | ⟨pre, x, post, m, s1, e, _, _, hr, hI1, _, _, _⟩
    · refine ⟨c, 0, bins, s, ?_, ?_, Nat.zero_le _, h.chains, rfl,
        fun _ _ => List.Sublist.refl _⟩
      · simp only [coalesce, coalesce_loop, hr]
      · simp only [coalesce_merges, hr]
    · have hidx := select_bin_index_lt (get_size s c)
      have htot := total_remove bins _ hidx pre post x e
      obtain ⟨r, k, bins1, s2, hc2, hm2, hk, hch, hsum, hsub⟩ := ih s1 _ m hI1 (by omega)
      refine ⟨r, k + 1, bins1, s2, ?_, ?_, by omega, hch, by omega, ?_⟩
      · simp only [coalesce, coalesce_loop, hr]
        exact hc2
      · simp only [coalesce_merges, hr, hm2, Outcome.bind]
      · intro i hi
        exact (hsub i hi).trans (update_remove_sublist bins _ pre post x e i hi)

/-- C33: in a state that satisfies the invariant (finitely many pairwise disjoint blocks on
`NULL`-terminated free lists without repetition, `c` on none of them), `coalesce(c)` returns
(given fuel for the blocks on the lists); the number `k` of iterations that set `coalesced` is
at most the number of blocks on the free lists, and exactly `k` blocks have left the lists: the
lists afterwards are sublists of the lists before with `k` blocks fewer in total. -/
theorem coalesce_terminates {s : Heap} {bins : Nat → List Nat} {others : List Nat} {c : Nat}
    (h : Inv s bins (c :: others)) (fuel : Nat) (hf : total bins + 2 ≤ fuel) :
    ∃ r k bins1 s1, coalesce fuel s c = .ok r s1 ∧ coalesce_merges fuel s c = .ok (r, k) s1 ∧
      k ≤ total bins ∧ Chains s1 bins1 ∧ total bins1 + k = total bins ∧
      ∀ i, i < BIN_COUNT → (bins1 i).Sublist (bins i) :=
  coalesce_merges_spec others fuel s bins c h hf

/-- Witness for C33: in run 4, `coalesce(4096)` merges once, with the remainder at 5120 of bin
2, which is the only block on the free lists. -/
theorem coalesce_terminates_witness :
    coalesce 10 runMergeD 4096 = .ok 4096 runMergeC ∧
    coalesce_merges 10 runMergeD 4096 = .ok (4096, 1) runMergeC ∧
    ∃ bins, Inv runMergeD bins [4096] ∧ total bins + 2 ≤ 10 ∧
      ∃ r k bins1 s1, coalesce 10 runMergeD 4096 = .ok r s1 ∧
        coalesce_merges 10 runMergeD 4096 = .ok (r, k) s1 ∧
        k ≤ total bins ∧ Chains s1 bins1 ∧ total bins1 + k = total bins ∧
        ∀ i, i < BIN_COUNT → (bins1 i).Sublist (bins i) :=
  ⟨by rfl, by rfl, inv_runMergeD.elim fun bins h => ⟨bins, h.1, h.2.2,
    coalesce_terminates h.1 10 h.2.2⟩⟩

/-- C34: with an arena provider that never answers `NULL`, `uinit` returns 0 after exactly
four arena requests, of `ALIGN(size + header_size)` = 80, 272, 528 and 2064 bytes for the block
sizes 64, 256, 512 and 2048, and leaves `free_heads` as it was.  So with bins that were empty
before, no block is on any free list afterwards, and for every size a following `umalloc`
gets `NULL` from `find` and goes on with the answer `r` to a new arena request made by
`extend`: if `r` is `NULL` the run stops at a `NULL` access, and if `r` is not `NULL` and the
size is below `2 ^ 60` it returns the payload of the block at `r`; the arena log is one
request longer in both cases. -/
theorem uinit_leaves_bins_unchanged (csbrk : Nat → Nat) (s : Heap)
    (hc : ∀ n, csbrk n ≠ 0) :
    ∃ s1, uinit csbrk s = .ok 0 s1 ∧ s1.free_heads = s.free_heads ∧
      s1.brk = (2064, csbrk 2064) :: (528, csbrk 528) :: (272, csbrk 272) ::
        (80, csbrk 80) :: s.brk ∧
      ((∀ i, i < BIN_COUNT → s.free_heads i = 0) →
        (∀ i x, i < BIN_COUNT → ¬ InBin s1 i x) ∧
        ∀ csbrk2 fuel size r, 6 ≤ fuel → r = csbrk2 (ALIGN ((size + HEADER_SIZE) % WORD)) →
          find fuel s1 size = .ok 0 s1 ∧
          ∃ s2, extend csbrk2 s1 size = .ok r s2 ∧
            s2.brk = (ALIGN ((size + HEADER_SIZE) % WORD), r) :: s1.brk ∧
            umalloc csbrk2 fuel s1 size = umalloc_tail fuel s2 r size ∧
            (r = 0 → umalloc csbrk2 fuel s1 size = .fault s2) ∧
            (r ≠ 0 → size < 2 ^ 60 →
              ∃ s3, umalloc csbrk2 fuel s1 size = .ok (get_payload r) s3 ∧
                s3.brk = s2.brk)) := by
  have e1 : ALIGN ((64 + HEADER_SIZE) % WORD) = 80 := by decide
  have e2 : ALIGN ((256 + HEADER_SIZE) % WORD) = 272 := by decide
  have e3 : ALIGN ((512 + HEADER_SIZE) % WORD) = 528 := by decide
  have e4 : ALIGN ((2048 + HEADER_SIZE) % WORD) = 2064 := by decide
  have hu : ∃ s1, uinit csbrk s = .ok 0 s1 ∧ s1.free_heads = s.free_heads ∧
      s1.brk = (2064, csbrk 2064) :: (528, csbrk 528) :: (272, csbrk 272) ::
        (80, csbrk 80) :: s.brk := by
    simp only [uinit, uinit_loop, extend, e1, e2, e3, e4, hc, if_false, set_block_metadata,
      Outcome.bind]
    exact ⟨_, rfl, rfl, rfl⟩
  obtain ⟨s1, h1, h2, h3⟩ := hu
  refine ⟨s1, h1, h2, h3, fun h0 => ?_⟩
  have h01 : ∀ i, i < BIN_COUNT → s1.free_heads i = 0 := by
    intro i hi
    rw [h2]
    exact h0 i hi
  refine ⟨?_, ?_⟩
  · rintro i x hi ⟨L, hL, hx⟩
    rw [h01 i hi] at hL
    rw [chain_nil_of_head _ L hL] at hx
    simp at hx
  · intro csbrk2 fuel size r hf hr
    have hfind := find_empty_bins s1 h01 fuel size hf
    refine ⟨hfind, ?_⟩
    by_cases hr0 : r = 0
    · have hx1 : extend csbrk2 s1 size = .ok r
          { s1 with brk := (ALIGN ((size + HEADER_SIZE) % WORD), r) :: s1.brk } := by
        unfold extend
        simp only [← hr, hr0, if_true]
      refine ⟨_, hx1, rfl, umalloc_eq_tail_grown csbrk2 fuel s1 s1 _ size r hfind hx1, ?_,
        fun h => absurd hr0 h⟩
      intro _
      rw [umalloc_arena_null csbrk2 fuel s1 size hfind (by rw [← hr]; exact hr0), hr0]
    · have hx1 : extend csbrk2 s1 size = .ok r
          (store { s1 with brk := (ALIGN ((size + HEADER_SIZE) % WORD), r) :: s1.brk } r
            ((size * 16 % WORD + false.toNat) % WORD)) := by
        unfold extend
        simp only [← hr, hr0, if_false, set_block_metadata, Outcome.bind]
      refine ⟨_, hx1, rfl, umalloc_eq_tail_grown csbrk2 fuel s1 s1 _ size r hfind hx1,
        fun h => absurd h hr0, ?_⟩
      intro _ h60
      exact ⟨_, umalloc_grown_state csbrk2 fuel s1 size r h60 hfind hr.symm hr0, rfl⟩

/-- Witness for C34: `uinit` in the start-up state with an arena provider that answers a
request of `n` bytes with the address `4096 + 4096 * n`. -/
theorem uinit_leaves_bins_unchanged_witness :
    (∀ n, (fun n : Nat => 4096 + 4096 * n) n ≠ 0) ∧
    ∃ s1, uinit (fun n => 4096 + 4096 * n) heap0 = .ok 0 s1 ∧
      s1.free_heads = heap0.free_heads ∧
      s1.brk = (2064, (fun n : Nat => 4096 + 4096 * n) 2064) ::
        (528, (fun n : Nat => 4096 + 4096 * n) 528) ::
        (272, (fun n : Nat => 4096 + 4096 * n) 272) ::
        (80, (fun n : Nat => 4096 + 4096 * n) 80) :: heap0.brk ∧
      ((∀ i, i < BIN_COUNT → heap0.free_heads i = 0) →
        (∀ i x, i < BIN_COUNT → ¬ InBin s1 i x) ∧
        ∀ csbrk2 fuel size r, 6 ≤ fuel → r = csbrk2 (ALIGN ((size + HEADER_SIZE) % WORD)) →
          find fuel s1 size = .ok 0 s1 ∧
          ∃ s2, extend csbrk2 s1 size = .ok r s2 ∧
            s2.brk = (ALIGN ((size + HEADER_SIZE) % WORD), r) :: s1.brk ∧
            umalloc csbrk2 fuel s1 size = umalloc_tail fuel s2 r size ∧
            (r = 0 → umalloc csbrk2 fuel s1 size = .fault s2) ∧
            (r ≠ 0 → size < 2 ^ 60 →
              ∃ s3, umalloc csbrk2 fuel s1 size = .ok (get_payload r) s3 ∧
                s3.brk = s2.brk)) :=
  ⟨fun n => by simp,
    uinit_leaves_bins_unchanged (fun n => 4096 + 4096 * n) heap0 (fun n => by simp)⟩

/-- When the loop of `put_label` does not return false, the new entry goes to the end of the
chain. -/
theorem put_walk_some (id : List Int) (ent : Entry) (rest : List Entry) :
    ∀ cur chain, put_walk id ent cur rest = some chain → chain = (cur :: rest) ++ [ent] := by
  induction rest with
  | nil =>
    intro cur chain h
    simp only [put_walk, Option.some.injEq] at h
    rw [← h]
    rfl
  | cons nxt rest ih =>
    intro cur chain h
    unfold put_walk at h
    by_cases hc : cur.id = id
    · rw [if_pos hc] at h
      exact Option.noConfusion h
    · rw [if_neg hc] at h
      cases hp : put_walk id ent nxt rest with
      | none =>
        rw [hp] at h
        exact Option.noConfusion h
      | some ch =>
        rw [hp] at h
        simp only [Option.map_some', Option.some.injEq] at h
        rw [← h, ih nxt ch hp]
        rfl

/-- The search of `get_label` finds an entry appended to a chain without its id. -/
theorem get_walk_append_new (id : List Int) (ent : Entry) (he : ent.id = id) (L : List Entry)
    (h : ∀ e ∈ L, e.id ≠ id) : get_walk id (L ++ [ent]) = some ent := by
  induction L with
  | nil => simp [get_walk, he]
  | cons e L ih =>
    have h1 : e.id ≠ id := h e (List.mem_cons_self _ _)
    simp only [List.cons_append, get_walk, h1, if_false]
    exact ih fun x hx => h x (List.mem_cons_of_mem _ hx)

/-- The search of `get_label` for another id does not see an appended entry. -/
theorem get_walk_append_other (id2 : List Int) (ent : Entry) (he : ent.id ≠ id2)
    (L : List Entry) : get_walk id2 (L ++ [ent]) = get_walk id2 L := by
  induction L with
  | nil => simp [get_walk, he]
  | cons e L ih =>
    by_cases h1 : e.id = id2
    · simp [get_walk, h1]
    · simp only [List.cons_append, get_walk, h1, if_false]
      exact ih

/-- What a successful `put_label` does to the chain of the bucket of `id`. -/
theorem put_label_true (alloc : Bool) (map map1 : LabelMap) (id : List Int) (command : Nat)
    (hput : put_label alloc map id command = some (true, map1)) :
    map.capacity ≠ 0 ∧ map1.capacity = map.capacity ∧
    map1.entries = Function.update map.entries (hash_function id % map.capacity)
      (map.entries (hash_function id % map.capacity) ++ [⟨id, command⟩]) := by
  unfold put_label entry_init at hput
  cases alloc with
  | false => simp at hput
  | true =>
    simp only [if_true] at hput
    by_cases hcap : map.capacity = 0
    · simp [hcap] at hput
    · rw [if_neg hcap] at hput
      refine ⟨hcap, ?_⟩
      cases hch : map.entries (hash_function id % map.capacity) with
      | nil =>
        rw [hch] at hput
        simp only [Option.some.injEq, Prod.mk.injEq, true_and] at hput
        rw [← hput]
        exact ⟨rfl, rfl⟩
      | cons cur rest =>
        rw [hch] at hput
        cases hw : put_walk id ⟨id, command⟩ cur rest with
        | none =>
          simp [hw] at hput
        | some chain =>
          simp only [hw, Option.some.injEq, Prod.mk.injEq, true_and] at hput
          rw [← hput, put_walk_some id _ rest cur chain hw]
          exact ⟨rfl, rfl⟩

/-- C36: for a map of capacity at least 1 whose bucket for `id` holds no entry with that id,
if `put_label(map, id, command)` returns true then `get_label(map, id)` afterwards returns an
entry with the id `id` and the command `command`, and `get_label` of every other id returns
what it returned before. -/
theorem get_label_after_put_label (alloc : Bool) (map map1 : LabelMap) (id : List Int)
    (command : Nat) (hcap : 1 ≤ map.capacity)
    (hnew : ∀ e ∈ map.entries (hash_function id % map.capacity), e.id ≠ id)
    (hput : put_label alloc map id command = some (true, map1)) :
    get_label map1 id = some (some ⟨id, command⟩) ∧
    ∀ id2, id2 ≠ id → get_label map1 id2 = get_label map id2 := by
  obtain ⟨_, hc1, he1⟩ := put_label_true alloc map map1 id command hput
  have h0 : map.capacity ≠ 0 := by omega
  have hc10 : map1.capacity ≠ 0 := by
    rw [hc1]
    exact h0
  constructor
  · unfold get_label
    rw [if_neg hc10, hc1, he1, Function.update_same]
    rw [get_walk_append_new id ⟨id, command⟩ rfl _ hnew]
  · intro id2 hne
    unfold get_label
    rw [if_neg hc10, if_neg h0, hc1, he1]
    by_cases hb : hash_function id2 % map.capacity = hash_function id % map.capacity
    · rw [hb, Function.update_same]
      rw [get_walk_append_other id2 ⟨id, command⟩ (fun h => hne h.symm)]
    · rw [Function.update_noteq hb]

/-- Witness for C36: the label `e` with command 2 is put into the map that holds the label
`a`; both labels hash to bucket 1. -/
theorem get_label_after_put_label_witness :
    1 ≤ mapOne.capacity ∧
    (∀ e ∈ mapOne.entries (hash_function [101] % mapOne.capacity), e.id ≠ [101]) ∧
    put_label true mapOne [101] 2 = some (true,
      ⟨4, Function.update mapOne.entries 1 [⟨[97], 1⟩, ⟨[101], 2⟩]⟩) ∧
    get_label ⟨4, Function.update mapOne.entries 1 [⟨[97], 1⟩, ⟨[101], 2⟩]⟩ [101] =
      some (some ⟨[101], 2⟩) ∧
    ∀ id2, id2 ≠ [101] →
      get_label ⟨4, Function.update mapOne.entries 1 [⟨[97], 1⟩, ⟨[101], 2⟩]⟩ id2 =
        get_label mapOne id2 :=
  ⟨by decide, by decide, by rfl,
    get_label_after_put_label true mapOne _ [101] 2 (by decide) (by decide) (by rfl)⟩

/-- C37 fails in the code: the loop of `put_label` compares only entries that have a
successor.  In the map whose bucket 1 holds only the label `a` (command 1),
`put_label(map, "a", 5)` returns true and appends a second entry for `a`, which `get_label`
never reaches; in the map whose bucket 1 holds `e` and then `a`, `put_label(map, "a", 5)`
likewise returns true and appends, whereas `put_label(map, "e", 5)` returns false and leaves
the map as it was. -/
theorem put_label_accepts_duplicate_of_last_entry :
    get_label mapOne [97] = some (some ⟨[97], 1⟩) ∧
    (∃ map1, put_label true mapOne [97] 5 = some (true, map1) ∧
      map1.entries 1 = [⟨[97], 1⟩, ⟨[97], 5⟩] ∧
      get_label map1 [97] = some (some ⟨[97], 1⟩)) ∧
    get_label mapTwo [97] = some (some ⟨[97], 2⟩) ∧
    (∃ map1, put_label true mapTwo [97] 5 = some (true, map1) ∧
      map1.entries 1 = [⟨[101], 1⟩, ⟨[97], 2⟩, ⟨[97], 5⟩]) ∧
    get_label mapTwo [101] = some (some ⟨[101], 1⟩) ∧
    put_label true mapTwo [101] 5 = some (false, mapTwo) :=
  ⟨by decide, ⟨_, rfl, by decide, by decide⟩, by decide, ⟨_, rfl, by decide⟩, by decide,
    by rfl⟩

/-- The fields of the state after the flags are set. -/
theorem set_flags_spec (intr : Interpreter) (greater less : Bool)
    (hx : ¬ (greater = true ∧ less = true)) :
    (set_flags intr greater less).vars = intr.vars ∧
    (set_flags intr greater less).had_error = intr.had_error ∧
    (set_flags intr greater less).the_stack = intr.the_stack ∧
    (set_flags intr greater less).is_greater = greater ∧
    (set_flags intr greater less).is_less = less ∧
    (set_flags intr greater less).is_equal = (!greater && !less) := by
  unfold set_flags
  cases greater <;> cases less <;> simp at hx ⊢

/-- C38: when the operands of the command at `current` can be fetched (values `a` and `b`),
one pass of `interpret` for a `CMD_CMP` or `CMD_CMP_U` command goes on to the next command
with the variables, the error flag and the stack unchanged, and afterwards `is_greater`,
`is_equal`, `is_less` are true exactly when `a > b`, `a = b`, `a < b` holds, as signed 64-bit
values for `CMD_CMP` and as unsigned values for `CMD_CMP_U`; exactly one of the three flags is
true. -/
theorem cmp_flags_one_hot (se_ok : Bool) (cmds : Nat → Command) (intr : Interpreter)
    (current a b : Nat)
    (ha : fetch_number_value intr (cmds current).val_a false = some a)
    (hb : fetch_number_value intr (cmds current).val_b (cmds current).is_b_immediate =
      some b) :
    ((cmds current).type = .CMD_CMP →
      ∃ intr1, step se_ok cmds intr current = .next intr1 (cmds current).next ∧
        intr1.vars = intr.vars ∧ intr1.had_error = intr.had_error ∧
        intr1.the_stack = intr.the_stack ∧
        (intr1.is_greater = true ↔ toSigned a > toSigned b) ∧
        (intr1.is_equal = true ↔ toSigned a = toSigned b) ∧
        (intr1.is_less = true ↔ toSigned a < toSigned b) ∧
        ((intr1.is_greater, intr1.is_equal, intr1.is_less) = (true, false, false) ∨
          (intr1.is_greater, intr1.is_equal, intr1.is_less) = (false, true, false) ∨
          (intr1.is_greater, intr1.is_equal, intr1.is_less) = (false, false, true))) ∧
    ((cmds current).type = .CMD_CMP_U →
      ∃ intr1, step se_ok cmds intr current = .next intr1 (cmds current).next ∧
        intr1.vars = intr.vars ∧ intr1.had_error = intr.had_error ∧
        intr1.the_stack = intr.the_stack ∧
        (intr1.is_greater = true ↔ a > b) ∧ (intr1.is_equal = true ↔ a = b) ∧
        (intr1.is_less = true ↔ a < b) ∧
        ((intr1.is_greater, intr1.is_equal, intr1.is_less) = (true, false, false) ∨
          (intr1.is_greater, intr1.is_equal, intr1.is_less) = (false, true, false) ∨
          (intr1.is_greater, intr1.is_equal, intr1.is_less) = (false, false, true))) := by
  constructor
  · intro ht
    have hx : ¬ (decide (toSigned a > toSigned b) = true ∧
        decide (toSigned a < toSigned b) = true) := by
      simp only [decide_eq_true_eq]
      omega
    obtain ⟨h1, h2, h3, h4, h5, h6⟩ := set_flags_spec intr _ _ hx
    refine ⟨set_flags intr (decide (toSigned a > toSigned b))
      (decide (toSigned a < toSigned b)), ?_, h1, h2, h3, ?_, ?_, ?_, ?_⟩
    · simp only [step, ht, ha, hb]
    · rw [h4]
      simp
    · rw [h6]
      simp only [Bool.and_eq_true, Bool.not_eq_true', decide_eq_false_iff_not]
      omega
    · rw [h5]
      simp
    · rw [h4, h5, h6]
      rcases lt_trichotomy (toSigned a) (toSigned b) with h | h | h
      · right; right
        have hn : ¬ toSigned a > toSigned b := by omega
        simp [h, hn]
      · right; left
        simp [h]
      · left
        have hn : ¬ toSigned a < toSigned b := by omega
        simp [h, hn]
  · intro ht
    have hx : ¬ (decide (a > b) = true ∧ decide (a < b) = true) := by
      simp only [decide_eq_true_eq]
      omega
    obtain ⟨h1, h2, h3, h4, h5, h6⟩ := set_flags_spec intr _ _ hx
    refine ⟨set_flags intr (decide (a > b)) (decide (a < b)), ?_, h1, h2, h3, ?_, ?_, ?_, ?_⟩
    · simp only [step, ht, ha, hb]
    · rw [h4]
      simp
    · rw [h6]
      simp only [Bool.and_eq_true, Bool.not_eq_true', decide_eq_false_iff_not]
      omega
    · rw [h5]
      simp
    · rw [h4, h5, h6]
      rcases lt_trichotomy a b with h | h | h
      · right; right
        have hn : ¬ a > b := by omega
        simp [h, hn]
      · right; left
        simp [h]
      · left
        have hn : ¬ a < b := by omega
        simp [h, hn]

/-- Witness for C38: `CMP x1, -1` and `CMP_U x1, -1` with `x1 = 0`; signed, 0 is greater than
the pattern `2 ^ 64 - 1`, unsigned it is less. -/
theorem cmp_flags_one_hot_witness :
    fetch_number_value intrInit (progCmp 1).val_a false = some 0 ∧
    fetch_number_value intrInit (progCmp 1).val_b (progCmp 1).is_b_immediate =
      some (2 ^ 64 - 1) ∧
    toSigned 0 > toSigned (2 ^ 64 - 1) ∧ 0 < 2 ^ 64 - 1 ∧
    (Step.intrD intrInit (step true progCmp intrInit 1)).is_greater = true ∧
    (Step.intrD intrInit (step true progCmp intrInit 2)).is_less = true ∧
    ((progCmp 1).type = .CMD_CMP →
      ∃ intr1, step true progCmp intrInit 1 = .next intr1 (progCmp 1).next ∧
        intr1.vars = intrInit.vars ∧ intr1.had_error = intrInit.had_error ∧
        intr1.the_stack = intrInit.the_stack ∧
        (intr1.is_greater = true ↔ toSigned 0 > toSigned (2 ^ 64 - 1)) ∧
        (intr1.is_equal = true ↔ toSigned 0 = toSigned (2 ^ 64 - 1)) ∧
        (intr1.is_less = true ↔ toSigned 0 < toSigned (2 ^ 64 - 1)) ∧
        ((intr1.is_greater, intr1.is_equal, intr1.is_less) = (true, false, false) ∨
          (intr1.is_greater, intr1.is_equal, intr1.is_less) = (false, true, false) ∨
          (intr1.is_greater, intr1.is_equal, intr1.is_less) = (false, false, true))) ∧
    ((progCmp 1).type = .CMD_CMP_U →
      ∃ intr1, step true progCmp intrInit 1 = .next intr1 (progCmp 1).next ∧
        intr1.vars = intrInit.vars ∧ intr1.had_error = intrInit.had_error ∧
        intr1.the_stack = intrInit.the_stack ∧
        (intr1.is_greater = true ↔ 0 > 2 ^ 64 - 1) ∧ (intr1.is_equal = true ↔ 0 = 2 ^ 64 - 1) ∧
        (intr1.is_less = true ↔ 0 < 2 ^ 64 - 1) ∧
        ((intr1.is_greater, intr1.is_equal, intr1.is_less) = (true, false, false) ∨
          (intr1.is_greater, intr1.is_equal, intr1.is_less) = (false, true, false) ∨
          (intr1.is_greater, intr1.is_equal, intr1.is_less) = (false, false, true))) :=
  ⟨by rfl, by rfl, by decide, by decide, by rfl, by rfl,
    cmp_flags_one_hot true progCmp intrInit 1 0 (2 ^ 64 - 1) (by rfl) (by rfl)⟩

/-- C39: a `CMD_CALL` whose stack entry is allocated and whose label is found with a non-null
command pushes one stack entry holding the address of the `CALL` and the 32 variables, and
goes on at the label's command.  A `CMD_RET` with the stack entry `se` on top sets the
variables 1 to 31 to the values saved in `se`, leaves variable 0 as it is, pops `se` and goes
on at the command after the `CALL` of `se`, without touching the error flag.  A `CMD_RET`
with an empty stack sets `current` to `NULL`, and the run of `interpret` from there ends in
the same state, `had_error` still false. -/
theorem call_ret_frame (alloc : Nat → Bool) (cmds : Nat → Command) (intr : Interpreter)
    (current : Nat) :
    (∀ ent, (cmds current).type = .CMD_CALL → alloc intr.the_stack.length = true →
      get_label intr.label_map (cmds current).destination_str = some (some ent) →
      ent.command ≠ 0 →
      ∃ intr1, step (alloc intr.the_stack.length) cmds intr current = .next intr1 ent.command ∧
        (∃ se, intr1.the_stack = se :: intr.the_stack ∧ se.command = current ∧
          ∀ i, i < 32 → se.vars i = intr.vars i) ∧
        intr1.vars = intr.vars ∧ intr1.had_error = intr.had_error) ∧
    (∀ se rest, (cmds current).type = .CMD_RET → intr.the_stack = se :: rest →
      se.command ≠ 0 →
      ∃ intr1, step (alloc intr.the_stack.length) cmds intr current =
          .next intr1 (cmds se.command).next ∧
        (∀ i, 1 ≤ i → i < 32 → intr1.vars i = se.vars i) ∧ intr1.vars 0 = intr.vars 0 ∧
        intr1.the_stack = rest ∧ intr1.had_error = intr.had_error) ∧
    ((cmds current).type = .CMD_RET → intr.the_stack = [] → current ≠ 0 →
      intr.had_error = false →
      step (alloc intr.the_stack.length) cmds intr current = .next intr 0 ∧
      ∀ fuel, 2 ≤ fuel → interpret_loop alloc cmds fuel intr current = .done intr) := by
  refine ⟨?_, ?_, ?_⟩
  · intro ent ht hal hg hc
    refine ⟨{ intr with
      the_stack := ⟨current, fun i => if i < 32 then intr.vars i else 0⟩ :: intr.the_stack },
      ?_, ⟨_, rfl, rfl, ?_⟩, rfl, rfl⟩
    · simp only [step, ht, hal, hg, hc, if_true, ne_eq, not_false_eq_true]
    · intro i hi
      simp [hi]
  · intro se rest ht hst hc
    refine ⟨{ intr with
      vars := fun i => if 1 ≤ i ∧ i < 32 then se.vars i else intr.vars i,
      the_stack := rest }, ?_, ?_, ?_, rfl, rfl⟩
    · simp only [step, ht, hst, hc, if_false]
    · intro i h1 h32
      simp [h1, h32]
    · simp
  · intro ht hst hc hne
    have hstep : step (alloc intr.the_stack.length) cmds intr current = .next intr 0 := by
      simp only [step, ht, hst]
    refine ⟨hstep, ?_⟩
    intro fuel hf
    obtain ⟨k, rfl⟩ : ∃ k, fuel = k + 2 := ⟨fuel - 2, by omega⟩
    have hfin : ({ intr with the_stack := [] } : Interpreter) = intr := by
      cases intr
      simp only at hst
      subst hst
      rfl
    unfold interpret_loop
    rw [if_pos ⟨hc, hne⟩, hstep]
    show interpret_loop alloc cmds (k + 1) intr 0 = .done intr
    unfold interpret_loop
    rw [if_neg (fun h => h.1 rfl), hfin]

/-- Witness for C39: the run `CALL f`, `MOV x1, 5`, `MOV x0, 7`, `RET`, `RET`: the first
`RET` restores `x1` to 0, keeps `x0 = 7`, empties the stack and goes on at address 2; the
second `RET` ends the run without an error. -/
theorem call_ret_frame_witness :
    (∃ intr1, step true progCall intrInit 1 = .next intr1 3 ∧
      (∃ se, intr1.the_stack = se :: intrInit.the_stack ∧ se.command = 1 ∧
        ∀ i, i < 32 → se.vars i = intrInit.vars i) ∧
      intr1.vars = intrInit.vars ∧ intr1.had_error = intrInit.had_error) ∧
    step true progCall intrInit 1 = .next intrCall 3 ∧
    step true progCall intrCall 3 = .next intrMov 4 ∧
    step true progCall intrMov 4 = .next intrBody 5 ∧
    step true progCall intrBody 5 = .next intrBack 2 ∧
    intrBody.vars 0 = 7 ∧ intrBody.vars 1 = 5 ∧ intrBack.vars 0 = 7 ∧ intrBack.vars 1 = 0 ∧
    (∃ intr1, step true progCall intrBody 5 = .next intr1 (progCall 1).next ∧
      (∀ i, 1 ≤ i → i < 32 → intr1.vars i = if i < 32 then intrInit.vars i else 0) ∧
      intr1.vars 0 = intrBody.vars 0 ∧ intr1.the_stack = [] ∧
      intr1.had_error = intrBody.had_error) ∧
    (step true progCall intrBack 2 = .next intrBack 0 ∧
      ∀ fuel, 2 ≤ fuel → interpret_loop (fun _ => true) progCall fuel intrBack 2 =
        .done intrBack) ∧
    ((interpret (fun _ => true) progCall 10 intrInit 1).intrD intrInit).vars 0 = 7 ∧
    ((interpret (fun _ => true) progCall 10 intrInit 1).intrD intrInit).vars 1 = 0 ∧
    ((interpret (fun _ => true) progCall 10 intrInit 1).intrD intrInit).had_error = false :=
  ⟨(call_ret_frame (fun _ => true) progCall intrInit 1).1 ⟨[102], 3⟩ (by rfl) (by rfl) (by rfl)
      (by decide),
    by rfl, by rfl, by rfl, by rfl, by rfl, by rfl, by rfl, by rfl,
    (call_ret_frame (fun _ => true) progCall intrBody 5).2.1
      ⟨1, fun i => if i < 32 then intrInit.vars i else 0⟩ [] (by rfl) (by rfl) (by decide),
    (call_ret_frame (fun _ => true) progCall intrBack 2).2.2 (by rfl) (by rfl) (by decide)
      (by rfl),
    by rfl, by rfl, by rfl⟩

/-- The block that `coalesce` returns records a multiple of the alignment when all blocks
did before. -/
theorem coalesce_loop_aligned (others : List Nat) :
    ∀ fuel s bins c, Inv s bins (c :: others) → total bins + 2 ≤ fuel →
    AlignedSizes s bins (c :: others) →
    ∀ r s1, coalesce_loop fuel s c = .ok r s1 → get_size s1 r % ALIGNMENT = 0 := by
  intro fuel
  induction fuel with
  | zero =>
    intro s bins c _ hf
    omega
  | succ fuel ih =>
    intro s bins c h hf hA r s2 hc
    have hPc : Blk bins (c :: others) c := Or.inr (List.mem_cons_self _ _)
    have hidx := select_bin_index_lt (get_size s c)
    rcases coalesce_scan_inv h fuel (by omega) with
      ⟨_, hr⟩ | ⟨pre, x, post, m, s1, e, _, hadj, hr, hI1, hmm, hfr, _⟩
    · simp only [coalesce_loop, hr] at hc
      injection hc with e1 e2
      subst e1 e2
      exact hA c hPc
    · simp only [coalesce_loop, hr] at hc
      have htot := total_remove bins _ hidx pre post x e
      have hm0 : m ≠ 0 := (hI1.geo.bound m (Or.inr (List.mem_cons_self _ _))).1
      have hxm : x ∈ bins (select_bin_index (get_size s c)) := by
        rw [e]
        exact List.mem_append_right _ (List.mem_cons_self _ _)
      have hsc := hA c hPc
      have hsx := hA x (Or.inl ⟨_, hidx, hxm⟩)
      apply ih s1 _ m hI1 (by omega) _ r s2 hc
      intro a ha
      by_cases ham : a = m
      · rw [ham]
        have hgm : get_size s1 m = s1.mem m / 16 := by
          simp only [get_size, hm0, ne_eq, not_false_eq_true, if_true]
        rw [hgm, hmm]
        generalize get_size s c = A at hsc hsx
        generalize get_size s x = B at hsx
        clear hA hc hr hadj htot hf hidx hPc hxm
        unfold ALIGNMENT at hsc hsx
        unfold encode ALIGNMENT WORD
        simp only [Bool.toNat_false, Nat.add_zero]
        omega
      · have hold : Blk bins (c :: others) a := by
          rcases ha with ⟨k, hk, hm⟩ | ha
          · exact Or.inl ⟨k, hk, (update_remove_sublist bins _ pre post x e k hk).subset hm⟩
          · rcases List.mem_cons.1 ha with ha | ha
            · exact absurd ha ham
            · exact Or.inr (List.mem_cons_of_mem _ ha)
        rw [get_size_congr s s1 a (hfr a hold ham)]
        exact hA a hold

/-- What `ufree` does to the payload pointer of a non-free block when every block records a
multiple of the alignment: it returns, the invariant holds afterwards, and every block still
records a multiple of the alignment. -/
theorem ufree_aligned {s : Heap} {bins : Nat → List Nat} {others : List Nat} {b : Nat}
    (h : Inv s bins (b :: others)) (hb16 : b + 16 < WORD) (fuel : Nat)
    (hf : total bins + 2 ≤ fuel) (hA : AlignedSizes s bins (b :: others)) :
    ∃ bins1 s1, ufree fuel s (b + 16) = .ok () s1 ∧ Inv s1 bins1 others ∧
      (∀ a ∈ others, s1.mem a = s.mem a) ∧ AlignedSizes s1 bins1 others := by
  obtain ⟨s2, hd, hI2, hfl2, hsz2, hmo2, hbrk2⟩ := deallocate_spec h
  have hA2 : AlignedSizes s2 bins (b :: others) := by
    intro a ha
    by_cases hab : a = b
    · rw [hab, hsz2]
      exact hA b (Or.inr (List.mem_cons_self _ _))
    · rw [get_size_congr s s2 a (hmo2 a hab)]
      exact hA a ha
  obtain ⟨r, bins3, s3, hc, hI3, hfl3, _, hmo3, _, _, hfr3, hfm3, _⟩ :=
    coalesce_loop_spec_full others fuel s2 bins b hI2 hfl2 hf
  have hr := coalesce_loop_aligned others fuel s2 bins b hI2 hf hA2 r s3 hc
  obtain ⟨pre, post, s1, e, _, _, hadd, hI1, hmeta, _⟩ :=
    inv_freelist_add hI3 hfl3 (get_size s3 r) fuel (by omega)
  have hob : ∀ a ∈ others, a ≠ b := by
    rintro a ha rfl
    exact (List.nodup_cons.1 h.dist.onodup).1 ha
  refine ⟨_, s1, ?_, hI1, ?_, ?_⟩
  · have hp0 : b + 16 ≠ 0 := by omega
    rw [ufree_nonnull fuel s (b + 16) hp0, get_header_eq b hb16, hd]
    show (coalesce fuel s2 b).bind _ = _
    unfold coalesce
    rw [hc]
    exact hadd
  · intro a ha
    rw [hmeta a (Or.inr (List.mem_cons_of_mem _ ha)), hmo3 a ha, hmo2 a (hob a ha)]
  · intro a ha
    have hB := blk_move_in bins3 others _ pre post r e a ha
    rw [get_size_congr s3 s1 a (hmeta a hB)]
    rcases hB with hx | hx
    · rw [get_size_congr s2 s3 a (hfm3 a hx)]
      exact hA2 a (Or.inl (hfr3 a hx))
    · rcases List.mem_cons.1 hx with hx | hx
      · rw [hx]
        exact hr
      · rw [get_size_congr s2 s3 a (hmo3 a hx)]
        exact hA2 a (Or.inr (List.mem_cons_of_mem _ hx))

/-- Every state reached with requests that are multiples of the alignment satisfies the
invariant, and all its blocks record multiples of the alignment. -/
theorem reach_aligned_good (s : Heap) (live : List Nat) (hr : ReachAligned s live) :
    ∃ bins hs, Inv s bins hs ∧ live = List.map (fun h => h + 16) hs ∧
      (∀ h ∈ hs, h + 16 < WORD ∧ s.mem h % 2 = 1) ∧ AlignedSizes s bins hs := by
  induction hr with
  | init s h0 hb =>
    refine ⟨fun _ => [], [], inv_init s h0, rfl, by simp, ?_⟩
    rintro a (⟨i, _, hm⟩ | hm)
    · simp at hm
    · simp at hm
  | malloc s s1 live csbrk fuel size p hr h0 hmax h16 hfresh hcall ih =>
    obtain ⟨bins, hs, hI, hlive, hfl, hA⟩ := ih
    have hW : WORD - 64 + 64 ≤ WORD := by
      unfold WORD
      omega
    obtain ⟨b, bins1, s2, hu, hI1, hf1, hb16, _, hmo, _, _, _, _, hA1⟩ :=
      umalloc_full hI csbrk size (max fuel (total bins + 6)) h0 (by omega) (le_max_right _ _)
        hfresh
    have hne : umalloc csbrk fuel s size ≠ .timeout := by
      rw [hcall]
      exact fun e => Outcome.noConfusion e
    rw [umalloc_mono csbrk fuel _ s size (le_max_left _ _) hne, hcall] at hu
    injection hu with hp hs12
    subst hp hs12
    refine ⟨bins1, b :: hs, hI1, by rw [hlive]; rfl, ?_, hA1 h16 hA⟩
    intro h hh
    rcases List.mem_cons.1 hh with rfl | hh
    · exact ⟨hb16, hf1⟩
    · exact ⟨(hfl h hh).1, by rw [hmo h hh]; exact (hfl h hh).2⟩
  | free s s1 live fuel p hr hp hcall ih =>
    obtain ⟨bins, hs, hI, hlive, hfl, hA⟩ := ih
    rw [hlive] at hp
    obtain ⟨h, hh, rfl⟩ := List.mem_map.1 hp
    have hI2 : Inv s bins (h :: hs.erase h) := inv_perm hI (List.perm_cons_erase hh)
    have hA2 : AlignedSizes s bins (h :: hs.erase h) := by
      intro a ha
      apply hA a
      rcases ha with ha | ha
      · exact Or.inl ha
      · exact Or.inr ((List.perm_cons_erase hh).mem_iff.2 ha)
    obtain ⟨bins1, s2, hu, hI1, hmo, hA1⟩ :=
      ufree_aligned hI2 (hfl h hh).1 (max fuel (total bins + 2)) (le_max_right _ _) hA2
    have hne : ufree fuel s (h + 16) ≠ .timeout := by
      rw [hcall]
      exact fun e => Outcome.noConfusion e
    rw [ufree_mono fuel _ s (h + 16) (le_max_left _ _) hne, hcall] at hu
    injection hu with _ hs12
    subst hs12
    refine ⟨bins1, hs.erase h, hI1, ?_, ?_, hA1⟩
    · rw [hlive, List.map_erase add16_injective]
    · intro a ha
      have ha2 : a ∈ hs := List.mem_of_mem_erase ha
      exact ⟨(hfl a ha2).1, by rw [hmo a ha]; exact (hfl a ha2).2⟩

/-- C14 (as amended): in every state reached from empty bins by `umalloc` calls whose sizes
are multiples of the alignment, with `0 < size ≤ 2 ^ 64 - 64`, and by valid `ufree` calls, with
an arena provider that always hands out a fresh region, every block header records a size that
is a multiple of the alignment: the header of every live pointer and every block on a free
list. -/
theorem sizes_aligned_for_aligned_requests (s : Heap) (live : List Nat)
    (hr : ReachAligned s live) :
    (∀ p, p ∈ live → get_size s (get_header p) % ALIGNMENT = 0) ∧
    (∀ i x, i < BIN_COUNT → InBin s i x → get_size s x % ALIGNMENT = 0) := by
  obtain ⟨bins, hs, hI, hlive, hfl, hA⟩ := reach_aligned_good s live hr
  constructor
  · intro p hp
    rw [hlive] at hp
    obtain ⟨h, hh, rfl⟩ := List.mem_map.1 hp
    rw [get_header_eq h (hfl h hh).1]
    exact hA h (Or.inr hh)
  · intro i x hi hx
    exact hA x (Or.inl ⟨i, hi, (inBin_iff hI.chains i hi x).1 hx⟩)

/-- Witness for C14 (as amended): after `umalloc(2000)`, its release and `umalloc(16)`, the
live block at 4096 records size 16 and the free remainder at 4128 records size 1968. -/
theorem sizes_aligned_for_aligned_requests_witness :
    ReachAligned runSplit3 [4112] ∧ InBin runSplit3 3 4128 ∧
    get_size runSplit3 (get_header 4112) = 16 ∧ get_size runSplit3 4128 = 1968 ∧
    (∀ p, p ∈ [4112] → get_size runSplit3 (get_header p) % ALIGNMENT = 0) ∧
    (∀ i x, i < BIN_COUNT → InBin runSplit3 i x → get_size runSplit3 x % ALIGNMENT = 0) := by
  have h1 : ReachAligned runSplit1 [4112] :=
    ReachAligned.malloc heap0 runSplit1 [] (fun _ => 4096) 10 2000 4112
      (ReachAligned.init heap0 (fun _ _ => rfl) rfl) (by decide) (by decide) (by decide)
      (fresh_of_checks _ _ _ (by decide) (by decide) (by decide)) (by rfl)
  have h2 : ReachAligned runSplit2 [] :=
    ReachAligned.free runSplit1 runSplit2 [4112] 10 4112 h1 (by decide) (by rfl)
  have h3 : ReachAligned runSplit3 [4112] :=
    ReachAligned.malloc runSplit2 runSplit3 [] (fun _ => 8192) 10 16 4112 h2 (by decide)
      (by decide) (by decide) (fresh_of_checks _ _ _ (by decide) (by decide) (by decide))
      (by rfl)
  exact ⟨h3, ⟨[4128], ⟨by decide, by decide, (rfl : runSplit3.mem (4128 + 8) = 0)⟩, by decide⟩,
    by decide, by decide, sizes_aligned_for_aligned_requests runSplit3 [4112] h3⟩

end Umalloc
